import Mathlib

/-!
# Line filling and glyph lookup of `juce_SimpleShapedText.cpp`

A shallow embedding of the line-breaking part of
`modules/juce_graphics/fonts/juce_SimpleShapedText.cpp`
(`WrappedGlyphsCursor`, `LineState`, `LineOfWrappedGlyphCursorRanges`, `Shaper`,
`FillLinesOptions::fillLines`, `SimpleShapedText::shape` and its queries).

Conventions of the embedding:

* `int64` and `size_t` values are `Int` and `Nat`; no value in the modelled code
  comes near the limits of the machine types, except the subtraction in
  `SimpleShapedText::shape`, which is modelled modulo `2 ^ 64`.
* `float` widths and advances are whole numbers of layout units, held as `Int`. The
  `float` sums, differences and comparisons of `LineState` are exact on whole numbers of
  magnitude up to `2 ^ 24`; rounding beyond that domain is not modelled, and a statement
  that bounds a sum of advances is made inside that domain (`ExactInFloat`).
* Pointers into a glyph vector are indices into the list that models the vector.
* Loops that are not structurally recursive take a step budget computed from their
  input; the lemmas `*_fuel` show that the budget is never exhausted.
-/

namespace juce

/-! ## Geometry and glyphs -/

/-- Modelled from the spec: `juce::Point<float>` is not among the sources; only its two
coordinates are used. -/
structure Point where
  x : Int
  y : Int
deriving DecidableEq, Repr, Inhabited

/-- The x coordinate, `Point::getX`. -/
def Point.getX (p : Point) : Int := p.x

/-- Modelled from the spec: `juce::Range<int64>` is not among the sources. A half-open
interval `[getStart, getEnd)`; the two-argument constructor is `Range.make`. -/
structure Range where
  getStart : Int
  getEnd : Int
deriving DecidableEq, Repr, Inhabited

namespace Range

/-- Modelled from the spec: the constructor `Range (start, end)`, which never lets the end
lie before the start. -/
def make (s e : Int) : Range := ⟨s, max s e⟩

/-- Modelled from the spec: the default constructed range, `[0, 0)`. -/
def empty : Range := ⟨0, 0⟩

/-- Modelled from the spec: `Range::getLength`. -/
def getLength (r : Range) : Int := r.getEnd - r.getStart

/-- Modelled from the spec: `Range::isEmpty`. -/
def isEmpty (r : Range) : Bool := r.getStart == r.getEnd

/-- Modelled from the spec: `Range::contains (position)`. -/
def contains (r : Range) (p : Int) : Bool := decide (r.getStart ≤ p) && decide (p < r.getEnd)

/-- Modelled from the spec: `Range::getUnionWith`. -/
def getUnionWith (r o : Range) : Range :=
  make (min r.getStart o.getStart) (max r.getEnd o.getEnd)

/-- Modelled from the spec: `Range::getIntersectionWith`. -/
def getIntersectionWith (r o : Range) : Range :=
  make (max r.getStart o.getStart) (min r.getEnd o.getEnd)

/-- Modelled from the spec: `Range::withStartAndLength`. -/
def withStartAndLength (s len : Int) : Range := make s (s + len)

/-- Modelled from the spec: `Range::operator+`, the range moved by an amount. -/
def shift (r : Range) (d : Int) : Range := make (r.getStart + d) (r.getEnd + d)

end Range

/-- The font of a run. Fonts are only compared and passed on, so a number stands for one. -/
abbrev Font := Nat

/-- A glyph as produced by the low-level shaper, `struct ShapedGlyph`. -/
structure ShapedGlyph where
  glyphId : Nat
  cluster : Int
  unsafeToBreak : Bool
  whitespace : Bool
  advance : Point
  offset : Point
deriving DecidableEq, Repr, Inhabited

/-- A span of shaped glyphs that ends at a soft-break opportunity, `struct OwnedGlyphsSpan`:
the viewed glyphs, the direction and font of the owning storage, the text range of the
whole chunk sequence and the visual order of its first glyph. -/
structure OwnedGlyphsSpan where
  glyphs : List ShapedGlyph
  ltr : Bool
  font : Font
  textRange : Range
  visualOrder : Nat
deriving DecidableEq, Repr, Inhabited

namespace OwnedGlyphsSpan

/-- Number of glyphs in the span, `glyphs.size()`. -/
def size (s : OwnedGlyphsSpan) : Nat := s.glyphs.length

/-- The accessor `isLtr`. -/
def isLtr (s : OwnedGlyphsSpan) : Bool := s.ltr

/-- The accessor `getTextRange`. -/
def getTextRange (s : OwnedGlyphsSpan) : Range := s.textRange

/-- The accessor `getVisualOrder`. -/
def getVisualOrder (s : OwnedGlyphsSpan) : Nat := s.visualOrder

/-- The accessor `getFont`. -/
def getFont (s : OwnedGlyphsSpan) : Font := s.font

end OwnedGlyphsSpan

/-- The chunk sequence between two safe breaks, `using WrappedGlyphs`. -/
abbrev WrappedGlyphs := List OwnedGlyphsSpan

/-! ## The cursor -/

/-- The private `WrappedGlyphsCursor::Index`: chunk number and glyph number inside it. -/
structure Index where
  i : Nat
  j : Nat
deriving DecidableEq, Repr, Inhabited

/-- The comparison `Index::operator<`, lexicographic on `(i, j)`. -/
def Index.lt (a b : Index) : Bool := decide (a.i < b.i) || (decide (a.i = b.i) && decide (a.j < b.j))

/-- A position inside a chunk sequence, `struct WrappedGlyphsCursor`. -/
structure WrappedGlyphsCursor where
  data : List OwnedGlyphsSpan
  index : Index
deriving DecidableEq, Repr, Inhabited

namespace WrappedGlyphsCursor

/-- The constructor: a cursor at the start of the chunk sequence. -/
def init (d : List OwnedGlyphsSpan) : WrappedGlyphsCursor := ⟨d, ⟨0, 0⟩⟩

/-- The method `empty`: no chunk, or the last chunk holds no glyph. -/
def empty (c : WrappedGlyphsCursor) : Bool :=
  match c.data.getLast? with
  | none => true
  | some b => b.glyphs.isEmpty

/-- The method `isBeyondEnd`. -/
def isBeyondEnd (c : WrappedGlyphsCursor) : Bool :=
  c.empty || decide (c.data.length ≤ c.index.i)

/-- The chunk `data[index.i]`. -/
def chunk (c : WrappedGlyphsCursor) : OwnedGlyphsSpan := c.data.getD c.index.i default

/-- The loop of `operator+=`. The subtraction `size - j` is a `size_t` subtraction; every
cursor the class can build has `j ≤ size`, so it is modelled on `Nat`. -/
def plusAssignLoop : Nat → WrappedGlyphsCursor → Nat → WrappedGlyphsCursor
  | 0, c, _ => c
  | fuel + 1, c, d =>
    if 0 < d ∧ c.isBeyondEnd = false then
      let delta := min d (c.chunk.size - c.index.j)
      let j1 := c.index.j + delta
      if j1 = c.chunk.size then
        plusAssignLoop fuel ⟨c.data, ⟨c.index.i + 1, 0⟩⟩ (d - delta)
      else
        plusAssignLoop fuel ⟨c.data, ⟨c.index.i, j1⟩⟩ (d - delta)
    else c

/-- The operator `+=`. Every pass of its loop either moves to the next chunk or uses up
`d`, so `data.length + 2` passes are enough. -/
def plusAssign (c : WrappedGlyphsCursor) (d : Nat) : WrappedGlyphsCursor :=
  plusAssignLoop (c.data.length + 2) c d

/-- The prefix `operator++`. -/
def next (c : WrappedGlyphsCursor) : WrappedGlyphsCursor := c.plusAssign 1

/-- The glyph under the cursor, `operator*`. Reading outside a chunk is undefined in the
source; the model returns the default glyph there. -/
def deref (c : WrappedGlyphsCursor) : ShapedGlyph := c.chunk.glyphs.getD c.index.j default

/-- An upper bound on the number of `operator++` steps that any cursor over `d` can take. -/
def stepBound (d : List OwnedGlyphsSpan) : Nat := (d.map (fun s => s.size + 1)).sum

/-- The counting loop of `size`. -/
def sizeLoop : Nat → WrappedGlyphsCursor → Nat → Nat
  | 0, _, n => n
  | fuel + 1, c, n => if c.isBeyondEnd then n else sizeLoop fuel c.next (n + 1)

/-- The method `size`: the number of `operator++` steps to the end. -/
def size (c : WrappedGlyphsCursor) : Nat :=
  if c.empty || c.isBeyondEnd then 0 else sizeLoop (stepBound c.data + 1) c 0

/-- The method `getTextRange`: the union of the text ranges of all chunks, starting from
the default range. -/
def getTextRange (c : WrappedGlyphsCursor) : Range :=
  c.data.foldl (fun r ch => r.getUnionWith ch.getTextRange) Range.empty

/-- The glyphs at and after the cursor, in stored order. -/
def remaining (c : WrappedGlyphsCursor) : List ShapedGlyph :=
  (c.chunk.glyphs.drop c.index.j) ++ ((c.data.drop (c.index.i + 1)).map (fun s => s.glyphs)).flatten

/-- A cursor is valid when every chunk holds a glyph and the cursor points at a glyph of
its chunk (or stands right after the last chunk). These are the cursors `operator*` may be
applied to before the end. -/
def Valid (c : WrappedGlyphsCursor) : Prop :=
  (∀ s ∈ c.data, s.glyphs ≠ []) ∧
  (c.index.i < c.data.length → c.index.j < c.chunk.size) ∧
  (c.data.length ≤ c.index.i → c.index.i = c.data.length ∧ c.index.j = 0)

instance (c : WrappedGlyphsCursor) : Decidable c.Valid := by
  unfold Valid; infer_instance

/-- Strictly ahead: same chunk sequence and a lexicographically larger index. -/
def Ahead (a b : WrappedGlyphsCursor) : Prop := a.data = b.data ∧ b.index.lt a.index = true

instance (a b : WrappedGlyphsCursor) : Decidable (a.Ahead b) := by
  unfold Ahead; infer_instance

end WrappedGlyphsCursor

/-! ## The line being filled -/

/-- The accumulator of one line, `struct LineState`. The members `maxWidth` and `width`
are `float` in the source and whole numbers of layout units here, on which the arithmetic
of the source is exact up to a magnitude of `2 ^ 24`. -/
structure LineState where
  largestVisualOrderInLine : Int
  maxWidth : Int
  width : Int
  trailingWhitespaceCanExtendBeyondMargin : Bool
deriving DecidableEq, Repr, Inhabited

namespace LineState

/-- The constructor `LineState (w, f)`. -/
def init (w : Int) (f : Bool) : LineState := ⟨-1, w, 0, f⟩

/-- The method `isInTrailingPosition`. -/
def isInTrailingPosition (s : LineState) (g : ShapedGlyph) : Bool :=
  decide (g.cluster ≥ s.largestVisualOrderInLine)

/-- The method `isEmpty`. -/
def isEmpty (s : LineState) : Bool := decide (s.largestVisualOrderInLine < 0)

end LineState

/-- A pair of cursors, `struct WrappedGlyphsCursorRange`. -/
structure WrappedGlyphsCursorRange where
  «begin» : WrappedGlyphsCursor
  «end» : WrappedGlyphsCursor
deriving DecidableEq, Repr, Inhabited

/-- The class `LineOfWrappedGlyphCursorRanges`. -/
structure LineOfWrappedGlyphCursorRanges where
  state : LineState
  consumedChunks : List WrappedGlyphsCursorRange
deriving DecidableEq, Repr, Inhabited

namespace LineOfWrappedGlyphCursorRanges

/-- The constructor from a max width and the trailing-whitespace option. -/
def init (maxWidth : Int) (trailing : Bool) : LineOfWrappedGlyphCursorRanges :=
  ⟨LineState.init maxWidth trailing, []⟩

/-- The body of the loop of `consumeIf`: the glyph is added to the width and to the
largest cluster seen. -/
def addGlyph (st : LineState) (g : ShapedGlyph) : LineState :=
  { st with width := st.width + g.advance.getX
            largestVisualOrderInLine := max st.largestVisualOrderInLine g.cluster }

/-- The loop of `consumeIf`. -/
def consumeIfLoop (predicate : LineState → ShapedGlyph → Bool) :
    Nat → LineState → WrappedGlyphsCursor → LineState × WrappedGlyphsCursor
  | 0, st, it => (st, it)
  | fuel + 1, st, it =>
    if it.isBeyondEnd = false ∧ predicate st it.deref = true then
      consumeIfLoop predicate fuel (addGlyph st it.deref) it.next
    else (st, it)

/-- The static method `consumeIf`. The loop advances the cursor on every pass, so
`stepBound` passes are enough. -/
def consumeIf (state : LineState) (it : WrappedGlyphsCursor)
    (predicate : LineState → ShapedGlyph → Bool) : LineState × WrappedGlyphsCursor :=
  consumeIfLoop predicate (WrappedGlyphsCursor.stepBound it.data + 1) state it

/-- The first lambda of `consume`: take every glyph. -/
def takeAll (_ : LineState) (_ : ShapedGlyph) : Bool := true

/-- The second lambda of `consume`: take a glyph when the line is empty, when it fits, or
when it is trailing whitespace that may extend beyond the margin. The subtraction and the
comparison are those of `float` in the source, exact on whole numbers of magnitude up to
`2 ^ 23`. -/
def fits (nextState : LineState) (glyph : ShapedGlyph) : Bool :=
  let remainingWidth := nextState.maxWidth - nextState.width
  nextState.isEmpty
    || decide (glyph.advance.getX ≤ remainingWidth)
    || (nextState.trailingWhitespaceCanExtendBeyondMargin
        && glyph.whitespace
        && nextState.isInTrailingPosition glyph)

/-- The method `consume`: the line after the call and the returned cursor. -/
def consume (line : LineOfWrappedGlyphCursorRanges) (glyphIt : WrappedGlyphsCursor)
    (forceConsumeFirstWord : Bool) : LineOfWrappedGlyphCursorRanges × WrappedGlyphsCursor :=
  if forceConsumeFirstWord && line.state.isEmpty then
    let r := consumeIf line.state glyphIt takeAll
    (⟨r.1, line.consumedChunks ++ [⟨glyphIt, r.2⟩]⟩, r.2)
  else
    let r := consumeIf line.state glyphIt fits
    if !line.state.isEmpty && !r.2.isBeyondEnd then
      (line, glyphIt)
    else if r.2 ≠ glyphIt then
      (⟨r.1, line.consumedChunks ++ [⟨glyphIt, r.2⟩]⟩, r.2)
    else
      (⟨r.1, line.consumedChunks⟩, r.2)

/-- The accessor `getConsumedChunks`. -/
def getConsumedChunks (line : LineOfWrappedGlyphCursorRanges) : List WrappedGlyphsCursorRange :=
  line.consumedChunks

end LineOfWrappedGlyphCursorRanges

/-- The sum of the x advances of a glyph list. -/
def sumAdvances (gs : List ShapedGlyph) : Int := (gs.map (fun g => g.advance.getX)).sum


/-! ## Auxiliary notions used in the statements and proofs -/

/-- The cursor after `k` applications of `operator++`. -/
def WrappedGlyphsCursor.nextN : Nat → WrappedGlyphsCursor → WrappedGlyphsCursor
  | 0, c => c
  | k + 1, c => nextN k c.next

/-- The loop of `consumeIf` read on the list of glyphs still ahead of the cursor: the state
after the loop and the number of glyphs taken. -/
def consumeList (predicate : LineState → ShapedGlyph → Bool) :
    LineState → List ShapedGlyph → LineState × Nat
  | st, [] => (st, 0)
  | st, g :: gs =>
    if predicate st g then
      ((consumeList predicate (LineOfWrappedGlyphCursorRanges.addGlyph st g) gs).1,
       (consumeList predicate (LineOfWrappedGlyphCursorRanges.addGlyph st g) gs).2 + 1)
    else (st, 0)

/-- The largest cluster of a glyph list, starting from a given value. -/
def maxCluster (m : Int) (gs : List ShapedGlyph) : Int := gs.foldl (fun a g => max a g.cluster) m

/-! ## Sample data for the concrete instances -/

/-- A glyph with the given cluster, x advance and whitespace flag. -/
def mkGlyph (cluster adv : Int) (ws : Bool) : ShapedGlyph :=
  ⟨0, cluster, false, ws, ⟨adv, 0⟩, ⟨0, 0⟩⟩

/-- The chunk `"bb "` of the text `"a bb ccc"`: clusters 2, 3 and 4, unit advances. -/
def sampleChunkBB : OwnedGlyphsSpan :=
  ⟨[mkGlyph 2 1 false, mkGlyph 3 1 false, mkGlyph 4 1 true], true, 0, ⟨2, 5⟩, 2⟩

/-- A line of max width 3 that already holds `"a "` (width 2, largest cluster 1). -/
def sampleLineA : LineOfWrappedGlyphCursorRanges := ⟨⟨1, 3, 2, false⟩, []⟩

/-- The chunk `"a "` of the text `"a bb ccc"`: clusters 0 and 1, unit advances. -/
def sampleChunkA : OwnedGlyphsSpan :=
  ⟨[mkGlyph 0 1 false, mkGlyph 1 1 true], true, 0, ⟨0, 2⟩, 0⟩

/-- The line of max width 3 after a fresh line has consumed the chunk `"a "`. -/
def sampleLineAfterA : LineOfWrappedGlyphCursorRanges :=
  ((LineOfWrappedGlyphCursorRanges.init 3 false).consume
    (WrappedGlyphsCursor.init [sampleChunkA]) true).1


/-! ## Ranged values -/

/-- Modelled from the spec: `detail::RangedValues<T>` is not among the sources. An interval
map: a list of (range, value) items, kept sorted by range, the ranges non-empty and
disjoint. -/
abbrev RangedValues (T : Type) := List (Range × T)

namespace RangedValues

variable {T : Type}

/-- Modelled from the spec: the number of ranges, `getRanges().size()` or `size()`. -/
def size (xs : RangedValues T) : Nat := xs.length

/-- Modelled from the spec: `find (i)`, the iterator to the item whose range contains `i`,
given as that item followed by the items after it; the empty list stands for `end()`. -/
def find (xs : RangedValues T) (i : Int) : List (Range × T) :=
  xs.dropWhile (fun e => !e.1.contains i)

/-- Modelled from the spec: `getItemWithEnclosingRange (i)`, the item whose range contains
`i`, when there is one. -/
def getItemWithEnclosingRange (xs : RangedValues T) (i : Int) : Option (Range × T) :=
  xs.find? (fun e => e.1.contains i)

/-- Modelled from the spec: the walk of `getRanges().covers (range)` over the items from the
one containing the start of the range: it fails at the first gap and succeeds at the first
item that reaches the end of the range. `prevEnd` is the end of the item before. -/
def coversLoop (rangeEnd : Int) : Option Int → List (Range × T) → Bool
  | _, [] => false
  | prevEnd, e :: rest =>
    if prevEnd.isSome && prevEnd != some e.1.getStart then false
    else if rangeEnd ≤ e.1.getEnd then true
    else coversLoop rangeEnd (some e.1.getEnd) rest

/-- Modelled from the spec: `getRanges().covers (range)`, whether the items cover the whole
range without a gap. -/
def covers (xs : RangedValues T) (r : Range) : Bool :=
  coversLoop r.getEnd none (find xs r.getStart)

/-- Modelled from the spec: the part of `set` that frees a range: every item keeps the
parts of its range that lie left and right of `r`, with its value. -/
def erase (r : Range) : RangedValues T → RangedValues T
  | [] => []
  | e :: xs =>
    (if e.1.getStart < min e.1.getEnd r.getStart
      then [(⟨e.1.getStart, min e.1.getEnd r.getStart⟩, e.2)] else [])
    ++ (if max e.1.getStart r.getEnd < e.1.getEnd
      then [(⟨max e.1.getStart r.getEnd, e.1.getEnd⟩, e.2)] else [])
    ++ erase r xs

/-- Modelled from the spec: the part of `set` that puts the new item in front of the first
item that does not start before it. -/
def insertItem (x : Range × T) : RangedValues T → RangedValues T
  | [] => [x]
  | e :: xs => if e.1.getStart < x.1.getStart then e :: insertItem x xs else x :: e :: xs

/-- Modelled from the spec: `set<MergeEqualItems::no> (range, value)`: the range is given
the value, replacing whatever the items held there; an empty range changes nothing. -/
def setNoMerge (xs : RangedValues T) (r : Range) (v : T) : RangedValues T :=
  if r.isEmpty then xs else insertItem (r, v) (erase r xs)

/-- Modelled from the spec: the merging of neighbouring items: two items that touch and hold
equal values become one. -/
def mergeEqualItems [DecidableEq T] : RangedValues T → RangedValues T
  | [] => []
  | e :: xs =>
    match mergeEqualItems xs with
    | [] => [e]
    | f :: ys =>
      if e.1.getEnd = f.1.getStart ∧ e.2 = f.2 then (⟨e.1.getStart, f.1.getEnd⟩, e.2) :: ys
      else e :: f :: ys

/-- Modelled from the spec: `set (range, value)` with the default `MergeEqualItems::yes`. -/
def set [DecidableEq T] (xs : RangedValues T) (r : Range) (v : T) : RangedValues T :=
  mergeEqualItems (setNoMerge xs r v)

end RangedValues

/-! ## The shaper of one hard line -/

/-- The parameters of a shaping run, `struct ShapingParams`; script and language are
opaque numbers. -/
structure ShapingParams where
  script : Nat
  language : Nat
  embeddingLevel : Nat
  resolvedFont : Font
deriving DecidableEq, Repr, Inhabited

/-- The glyphs of one shaped run with its direction and font, `struct GlyphsStorage`. -/
structure GlyphsStorage where
  data : List ShapedGlyph
  ltr : Bool
  font : Font
deriving DecidableEq, Repr, Inhabited

/-- The call of `lowLevelShape`, which hands the text to the external shaping engine: from
the codepoints of the line, the range to shape and the parameters of the run to the glyphs
in logical order. -/
abbrev LowLevelShape := List Nat → Range → ShapingParams → List ShapedGlyph

/-- The members of `struct Shaper` after its constructor has run. The constructor fills
`visualOrder`, `shaperRuns` and `softBreakBeforePoints` from the Unicode and bidi analysis;
`shapedGlyphs` starts empty. -/
structure Shaper where
  string : List Nat
  visualOrder : List Nat
  shaperRuns : RangedValues ShapingParams
  softBreakBeforePoints : List Int
  shapedGlyphs : RangedValues GlyphsStorage
deriving Repr, Inhabited

namespace Shaper

/-- The first lambda of `getChunksUpToNextSafeBreak`: `std::upper_bound` over the sorted
`softBreakBeforePoints` gives the first point greater than `startFrom`; without one the
result is `visualOrder.size()`. -/
def nextSoftBreakBefore (s : Shaper) (startFrom : Int) : Int :=
  match s.softBreakBeforePoints.find? (fun v => decide (startFrom < v)) with
  | none => (s.visualOrder.length : Int)
  | some v => v

/-- The shaping loop of `getChunksUpToNextSafeBreak` over the runs from the one that
contains `startFrom`: every run that starts before `next` is shaped from
`max startFrom start` to its end and stored. -/
def shapeRuns (lowLevelShape : LowLevelShape) (string : List Nat) (startFrom next : Int) :
    List (Range × ShapingParams) → RangedValues GlyphsStorage → RangedValues GlyphsStorage
  | [], cache => cache
  | it :: rest, cache =>
    if it.1.getStart < next then
      let shapingRange := Range.make (max startFrom it.1.getStart) it.1.getEnd
      let g := lowLevelShape string shapingRange it.2
      shapeRuns lowLevelShape string startFrom next rest
        (RangedValues.setNoMerge cache shapingRange
          ⟨g, decide (it.2.embeddingLevel % 2 = 0), it.2.resolvedFont⟩)
    else cache

/-- The `while (true)` loop of `getChunksUpToNextSafeBreak` over the stored runs from the
one that contains `startFrom`. In each, `start` skips the glyphs whose cluster is below
`startFrom` and `end` runs on while the cluster is below `next`. The visual order is read at
the cluster of `*start`. -/
def collectChunks (visualOrder : List Nat) (startFrom next : Int) :
    List (Range × GlyphsStorage) → WrappedGlyphs
  | [] => []
  | it :: rest =>
    let fromStart := it.2.data.dropWhile (fun g => decide (g.cluster < startFrom))
    let taken := fromStart.takeWhile (fun g => decide (g.cluster < next))
    let fromEnd := fromStart.dropWhile (fun g => decide (g.cluster < next))
    let chunk : OwnedGlyphsSpan :=
      ⟨taken, it.2.ltr, it.2.font, Range.make startFrom next,
       visualOrder.getD (fromStart.headD default).cluster.toNat 0⟩
    match fromEnd with
    | g :: _ => if g.cluster ≥ next then [chunk] else chunk :: collectChunks visualOrder startFrom next rest
    | [] => chunk :: collectChunks visualOrder startFrom next rest

/-- The stored runs after the shaping step of `getChunksUpToNextSafeBreak`. -/
def shapedGlyphsAfter (lowLevelShape : LowLevelShape) (s : Shaper) (startFrom : Int) :
    RangedValues GlyphsStorage :=
  if !RangedValues.covers s.shapedGlyphs (Range.make startFrom (s.nextSoftBreakBefore startFrom)) then
    shapeRuns lowLevelShape s.string startFrom (s.nextSoftBreakBefore startFrom)
      (RangedValues.find s.shaperRuns startFrom) s.shapedGlyphs
  else s.shapedGlyphs

/-- The method `getChunksUpToNextSafeBreak`: the shaper with its updated store and the
returned chunks. -/
def getChunksUpToNextSafeBreak (lowLevelShape : LowLevelShape) (s : Shaper) (startFrom : Int) :
    Shaper × WrappedGlyphs :=
  ({ s with shapedGlyphs := shapedGlyphsAfter lowLevelShape s startFrom },
   collectChunks s.visualOrder startFrom (s.nextSoftBreakBefore startFrom)
     (RangedValues.find (shapedGlyphsAfter lowLevelShape s startFrom) startFrom))

end Shaper


/-! ## Filling lines -/

/-- The result of `fillLines`, `struct LineDataAndChunkStorage`. -/
structure LineDataAndChunkStorage where
  chunkStorage : List WrappedGlyphs
  lines : List (List WrappedGlyphsCursorRange)
deriving DecidableEq, Repr, Inhabited

/-- The options of `fillLines`, `struct FillLinesOptions`. -/
structure FillLinesOptions where
  width : Int
  firstLinePadding : Int
  trailingWhitespaceCanExtendBeyondMargin : Bool
  forceConsumeFirstWord : Bool
deriving DecidableEq, Repr, Inhabited

namespace FillLinesOptions

/-- The inner `while (! cursor.isBeyondEnd())` loop of `fillLines`: the line being filled,
the cursor and the finished lines. `none` when the step budget runs out. -/
def fillChunks (o : FillLinesOptions) :
    Nat → LineOfWrappedGlyphCursorRanges → WrappedGlyphsCursor →
      List (List WrappedGlyphsCursorRange) →
      Option (LineOfWrappedGlyphCursorRanges × WrappedGlyphsCursor ×
        List (List WrappedGlyphsCursorRange))
  | 0, _, _, _ => none
  | fuel + 1, line, cursor, lines =>
    if cursor.isBeyondEnd then some (line, cursor, lines)
    else
      let r := line.consume cursor o.forceConsumeFirstWord
      if !r.2.isBeyondEnd then
        fillChunks o fuel
          (LineOfWrappedGlyphCursorRanges.init o.width o.trailingWhitespaceCanExtendBeyondMargin)
          r.2 (lines ++ [r.1.getConsumedChunks])
      else
        fillChunks o fuel r.1 r.2 lines

/-- The outer `for` loop of `fillLines` from the chunks just fetched. `none` when the step
budget runs out. -/
def fillLoop (o : FillLinesOptions) (lowLevelShape : LowLevelShape) :
    Nat → Shaper → WrappedGlyphs → LineOfWrappedGlyphCursorRanges → LineDataAndChunkStorage →
      Option LineDataAndChunkStorage
  | 0, _, _, _, _ => none
  | fuel + 1, shaper, chunks, line, result =>
    if chunks.isEmpty then
      some { result with lines := result.lines ++ [line.getConsumedChunks] }
    else
      match fillChunks o (2 * WrappedGlyphsCursor.stepBound chunks + 2) line
          (WrappedGlyphsCursor.init chunks) result.lines with
      | none => none
      | some (line1, cursor, lines1) =>
        let next := shaper.getChunksUpToNextSafeBreak lowLevelShape cursor.getTextRange.getEnd
        fillLoop o lowLevelShape fuel next.1 next.2 line1
          ⟨result.chunkStorage ++ [chunks], lines1⟩

/-- The method `fillLines`. Every pass of the outer loop fetches the chunks after a later
safe break, so there are at most as many passes as safe-break points, plus two. -/
def fillLines (o : FillLinesOptions) (lowLevelShape : LowLevelShape) (shaper : Shaper) :
    Option LineDataAndChunkStorage :=
  let first := shaper.getChunksUpToNextSafeBreak lowLevelShape 0
  fillLoop o lowLevelShape (shaper.softBreakBeforePoints.length + 3) first.1 first.2
    (LineOfWrappedGlyphCursorRanges.init (o.width - o.firstLinePadding)
      o.trailingWhitespaceCanExtendBeyondMargin)
    ⟨[], []⟩

end FillLinesOptions

/-! ## From lines to glyphs -/

/-- The span `WrappedGlyphsCursor::ShapedGlyphSpan`. The two pointers are positions in the
glyphs of one chunk, kept next to them; a right-to-left span has `start` above `end` and
`end` may be one before the first glyph. -/
structure ShapedGlyphSpan where
  glyphs : List ShapedGlyph
  start : Int
  «end» : Int
  visualOrder : Nat
  textRange : Range
  font : Font
deriving DecidableEq, Repr, Inhabited

namespace WrappedGlyphsCursor

/-- The body of the loop of `getShapedGlyphSpansUpTo` for the chunk at `indexCopy`. -/
def spanAt (c : WrappedGlyphsCursor) (endIndex indexCopy : Index) : ShapedGlyphSpan :=
  let chunk := c.data.getD indexCopy.i default
  let glyphsStart := indexCopy.j
  let glyphsEnd := chunk.size - (if indexCopy.i < endIndex.i then 0 else chunk.size - endIndex.j)
  let directionalStart : Int := if chunk.isLtr then glyphsStart else (glyphsEnd : Int) - 1
  let directionalEnd : Int := if chunk.isLtr then glyphsEnd else (glyphsStart : Int) - 1
  let textStart := (chunk.glyphs.getD glyphsStart default).cluster
  let textEnd := if glyphsEnd < chunk.size then (chunk.glyphs.getD glyphsEnd default).cluster
                 else chunk.getTextRange.getEnd
  ⟨chunk.glyphs, directionalStart, directionalEnd, chunk.getVisualOrder,
   Range.make textStart textEnd, chunk.getFont⟩

/-- The loop of `getShapedGlyphSpansUpTo`: one span per chunk from `indexCopy` while it is
below the index of the end cursor. -/
def spansLoop (c : WrappedGlyphsCursor) (endIndex : Index) : Nat → Index → List ShapedGlyphSpan
  | 0, _ => []
  | fuel + 1, indexCopy =>
    if indexCopy.lt endIndex then
      spanAt c endIndex indexCopy :: spansLoop c endIndex fuel ⟨indexCopy.i + 1, 0⟩
    else []

/-- The method `getShapedGlyphSpansUpTo`. The loop moves to the next chunk on every pass and
stops at the chunk of the end cursor at the latest. -/
def getShapedGlyphSpansUpTo (c : WrappedGlyphsCursor) («end» : WrappedGlyphsCursor) :
    List ShapedGlyphSpan :=
  if c.data ≠ «end».data then []
  else spansLoop c «end».index («end».index.i + 2 - c.index.i) c.index

end WrappedGlyphsCursor

/-- The comparison of `std::sort` in `getShapedGlyphSpansInVisualOrder` puts a span in front
of the first span whose visual order is not smaller. -/
def insertByVisualOrder (a : ShapedGlyphSpan) : List ShapedGlyphSpan → List ShapedGlyphSpan
  | [] => [a]
  | b :: l => if a.visualOrder ≤ b.visualOrder then a :: b :: l
              else b :: insertByVisualOrder a l

/-- The call of `std::sort` by visual order. Spans with equal visual order keep their
order, which `std::sort` leaves open. -/
def sortByVisualOrder (l : List ShapedGlyphSpan) : List ShapedGlyphSpan :=
  l.foldr insertByVisualOrder []

/-- The function `getShapedGlyphSpansInVisualOrder`: the spans of every consumed range are
put in front of those collected so far, and the whole is sorted by visual order. -/
def getShapedGlyphSpansInVisualOrder (lineData : List WrappedGlyphsCursorRange) :
    List ShapedGlyphSpan :=
  sortByVisualOrder
    (lineData.foldl (fun glyphSpans chunk =>
      chunk.«begin».getShapedGlyphSpansUpTo chunk.«end» ++ glyphSpans) [])

/-- The function `foldLinesBeyondLineLimit`. -/
def foldLinesBeyondLineLimit (lines : List (List WrappedGlyphsCursorRange)) (maxNumLines : Nat) :
    List (List WrappedGlyphsCursorRange) :=
  if lines.length ≤ maxNumLines ∨ maxNumLines = 0 then lines
  else
    lines.take (maxNumLines - 1)
      ++ [lines.getD (maxNumLines - 1) [] ++ (lines.drop maxNumLines).flatten]

/-! ## The shaped text -/

/-- The options read by `SimpleShapedText::shape`, from `class ShapedTextOptions`. -/
structure ShapedTextOptions where
  maxWidth : Option Int
  firstLineIndent : Int
  allowBreakingInsideWord : Bool
  trailingWhitespacesShouldFit : Bool
  maxNumLines : Int
deriving DecidableEq, Repr, Inhabited

/-- The value of `std::numeric_limits<int64>::max()`. -/
def int64Max : Int := 2 ^ 63 - 1

/-- The member initialisers of `ShapedTextOptions`. The member
`trailingWhitespacesShouldFit` has none, so its value is a parameter. -/
def ShapedTextOptions.defaults (trailingWhitespacesShouldFit : Bool) : ShapedTextOptions :=
  ⟨none, 0, false, trailingWhitespacesShouldFit, int64Max⟩

/-- The value of a glyph lookup item, `struct GlyphLookupEntry`. -/
structure GlyphLookupEntry where
  glyphRange : Range
  ltr : Bool
deriving DecidableEq, Repr, Inhabited

/-- The members of `class SimpleShapedText` that `shape` fills. -/
structure SimpleShapedText where
  glyphsInVisualOrder : List ShapedGlyph
  lineNumbers : RangedValues Int
  resolvedFonts : RangedValues Font
  glyphLookup : RangedValues GlyphLookupEntry
deriving DecidableEq, Repr, Inhabited

/-- The conversion of an `int64` to `size_t`. -/
def toSizeT (x : Int) : Nat := (x % 2 ^ 64).toNat

/-- The subtraction of two `size_t` values. -/
def subSizeT (a b : Nat) : Nat := (a + 2 ^ 64 - b % 2 ^ 64) % 2 ^ 64

namespace SimpleShapedText

/-- The empty text before `shape` runs. -/
def init : SimpleShapedText := ⟨[], [], [], []⟩

/-- The accessor `getNumLines`. -/
def getNumLines (t : SimpleShapedText) : Int := (RangedValues.size t.lineNumbers : Int)

/-- The accessor `getNumGlyphs`. -/
def getNumGlyphs (t : SimpleShapedText) : Int := (t.glyphsInVisualOrder.length : Int)

/-- The glyphs that the two copying loops of `shape` push for a span: from `start` up to
`end` when `start < end`, else from `start` down to `end`; the flag is the `ltr` of the
span. -/
def spanGlyphs (s : ShapedGlyphSpan) : List ShapedGlyph × Bool :=
  if s.start < s.«end» then
    ((List.range (s.«end» - s.start).toNat).map
      (fun (k : Nat) => s.glyphs.getD (s.start + (k : Int)).toNat default), true)
  else
    ((List.range (s.start - s.«end»).toNat).map
      (fun (k : Nat) => s.glyphs.getD (s.start - (k : Int)).toNat default), false)

/-- The body of the loop over the spans of a line in `shape`. -/
def addSpan (lineRangeStart : Int) (t : SimpleShapedText) (s : ShapedGlyphSpan) :
    SimpleShapedText :=
  let start : Int := t.glyphsInVisualOrder.length
  let pushed := (spanGlyphs s).1.map (fun g => { g with cluster := g.cluster + lineRangeStart })
  let glyphs := t.glyphsInVisualOrder ++ pushed
  let «end» : Int := glyphs.length
  { t with
    glyphsInVisualOrder := glyphs
    glyphLookup := RangedValues.setNoMerge t.glyphLookup (s.textRange.shift lineRangeStart)
      ⟨Range.make start «end», (spanGlyphs s).2⟩
    resolvedFonts := RangedValues.set t.resolvedFonts (Range.make start «end») s.font }

/-- The body of the loop over the lines of a hard line in `shape`. -/
def addLine (lineRangeStart : Int) (t : SimpleShapedText) (line : List WrappedGlyphsCursorRange) :
    SimpleShapedText :=
  let lineStart : Int := t.glyphsInVisualOrder.length
  let t1 := (getShapedGlyphSpansInVisualOrder line).foldl (addSpan lineRangeStart) t
  let lineEnd : Int := t1.glyphsInVisualOrder.length
  { t1 with
    lineNumbers := RangedValues.set t1.lineNumbers (Range.make lineStart lineEnd)
      (RangedValues.size t1.lineNumbers : Int) }

/-- The loop of `shape` over the hard lines. `shaperFor` stands for the constructor of
`Shaper` on a line range. `none` when `fillLines` runs out of its step budget. -/
def shapeLines (lowLevelShape : LowLevelShape) (shaperFor : Range → Shaper)
    (options : ShapedTextOptions) : List Range → SimpleShapedText → Option SimpleShapedText
  | [], t => some t
  | lineRange :: rest, t =>
    let fill : FillLinesOptions :=
      ⟨options.maxWidth.getD 1000000, options.firstLineIndent,
       !options.trailingWhitespacesShouldFit, !options.allowBreakingInsideWord⟩
    match fill.fillLines lowLevelShape (shaperFor lineRange) with
    | none => none
    | some lineDataAndStorage =>
      let lineData := foldLinesBeyondLineLimit lineDataAndStorage.lines
        (subSizeT (toSizeT options.maxNumLines) (RangedValues.size t.lineNumbers))
      if RangedValues.size t.lineNumbers ≥ toSizeT options.maxNumLines then some t
      else
        shapeLines lowLevelShape shaperFor options rest
          (lineData.foldl (addLine lineRange.getStart) t)

/-- The method `shape`. `lineRanges` stands for the result of `getLineRanges`. -/
def shape (lowLevelShape : LowLevelShape) (shaperFor : Range → Shaper)
    (lineRanges : List Range) (options : ShapedTextOptions) : Option SimpleShapedText :=
  shapeLines lowLevelShape shaperFor options lineRanges init

/-- The glyph `glyphRun[k]` of the span that starts at glyph `base` of the vector. The span
has no bounds check; outside the vector the model returns the default glyph. -/
def glyphAt (t : SimpleShapedText) (base k : Int) : ShapedGlyph :=
  if 0 ≤ base + k then t.glyphsInVisualOrder.getD (base + k).toNat default else default

/-- The lambda `left` of `getTextRange`: `n` glyphs are still to be looked at, the next one
at index `n - 1` of the run. -/
def scanLeft (t : SimpleShapedText) (base cluster : Int) : Nat → Int
  | 0 => cluster
  | n + 1 =>
    if (glyphAt t base n).cluster ≠ cluster then (glyphAt t base n).cluster
    else scanLeft t base cluster n

/-- The lambda `right` of `getTextRange`: `n` glyphs are still to be looked at, the next one
at index `i` of the run. -/
def scanRight (t : SimpleShapedText) (base cluster : Int) : Nat → Int → Int
  | 0, _ => cluster
  | n + 1, i =>
    if (glyphAt t base i).cluster ≠ cluster then (glyphAt t base i).cluster
    else scanRight t base cluster n (i + 1)

/-- The method `getTextRange`. `none` when no lookup item encloses the cluster of the
glyph, where the source dereferences an empty optional. -/
def getTextRange (t : SimpleShapedText) (glyphIndex : Int) : Option Range :=
  let startingCodepoint := (glyphAt t 0 glyphIndex).cluster
  match RangedValues.getItemWithEnclosingRange t.glyphLookup startingCodepoint with
  | none => none
  | some item =>
    let glyphRange := item.2.glyphRange
    let indexInRun := glyphIndex - glyphRange.getStart
    let cluster := (glyphAt t glyphRange.getStart indexInRun).cluster
    let left := scanLeft t glyphRange.getStart cluster (indexInRun + 1).toNat
    let right := scanRight t glyphRange.getStart cluster
      (glyphRange.getLength - indexInRun).toNat indexInRun
    let nextAdjacentCluster := max left right
    some (Range.withStartAndLength cluster (max 1 (nextAdjacentCluster - cluster)))

end SimpleShapedText

/-! ## Well-formedness notions used in the statements -/

/-- The invariant of a `RangedValues`: every range is non-empty and every item ends before
the next one starts. -/
def RangedValues.Ordered {T : Type} (xs : RangedValues T) : Prop :=
  (∀ e ∈ xs, e.1.getStart < e.1.getEnd) ∧ xs.Pairwise (fun a b => a.1.getEnd ≤ b.1.getStart)

/-- The glyphs have non-decreasing clusters. -/
def ClustersMonotone (gs : List ShapedGlyph) : Prop :=
  gs.Pairwise (fun a b => a.cluster ≤ b.cluster)

/-- What the embedding assumes of the external shaping engine: the glyphs of a run come in
logical order (non-decreasing clusters) and every cluster lies in the shaped range. -/
def LowLevelShape.WellBehaved (lowLevelShape : LowLevelShape) (string : List Nat) : Prop :=
  ∀ (r : Range) (p : ShapingParams),
    ClustersMonotone (lowLevelShape string r p)
    ∧ ∀ g ∈ lowLevelShape string r p, r.getStart ≤ g.cluster ∧ g.cluster < r.getEnd

/-- The state of the glyph store between two calls of `getChunksUpToNextSafeBreak`, for
calls at or after position `p`: the store is ordered, and every stored run that reaches
beyond `p` holds glyphs in logical order with clusters inside its range, and ends where a
shaping run ends. -/
def Shaper.StoreWellFormed (s : Shaper) (p : Int) : Prop :=
  RangedValues.Ordered s.shapedGlyphs
  ∧ ∀ e ∈ s.shapedGlyphs, p < e.1.getEnd →
      ClustersMonotone e.2.data
      ∧ (∀ g ∈ e.2.data, e.1.getStart ≤ g.cluster ∧ g.cluster < e.1.getEnd)
      ∧ ∃ R ∈ s.shaperRuns, R.1.getStart ≤ e.1.getStart ∧ e.1.getEnd = R.1.getEnd

/-! ## More sample data -/

/-- A shaping engine that returns one glyph per codepoint, in logical order, with unit
advance; the glyph of a space (codepoint 32) is whitespace. -/
def sampleLowLevelShape : LowLevelShape := fun string r _ =>
  (List.range r.getLength.toNat).map (fun (k : Nat) =>
    mkGlyph (r.getStart + (k : Int)) 1 (string.getD (r.getStart + (k : Int)).toNat 0 == 32))

/-- The codepoints of `"a bb ccc"`. -/
def sampleString : List Nat := [97, 32, 98, 98, 32, 99, 99, 99]

/-- The shaper of the line `"a bb ccc"`: left to right, one shaping run, safe breaks
before 2, 5 and at the end. -/
def sampleShaper : Shaper :=
  ⟨sampleString, List.range 8, [(⟨0, 8⟩, ⟨0, 0, 0, 0⟩)], [2, 5, 8], []⟩


/-! ## Further queries of the shaped text -/

namespace SimpleShapedText

/-- The method `getGlyphs (glyphRange)`: the span of `r.getLength()` glyphs from glyph
`r.getStart()` of the vector, `r` being the range clipped to `[0, size)`. -/
def getGlyphs (t : SimpleShapedText) (glyphRange : Range) : List ShapedGlyph :=
  let r := glyphRange.getIntersectionWith (Range.make 0 (t.glyphsInVisualOrder.length : Int))
  (List.range r.getLength.toNat).map (fun (k : Nat) => glyphAt t r.getStart (k : Int))

end SimpleShapedText

/-! ## Safe-break points from the line-break analysis -/

/-- Modelled from the spec: `enum class TextBreakType` is not among the sources; the
line-break class of a codepoint (soft, hard or none). -/
inductive TextBreakType where
  | none
  | soft
  | hard
deriving DecidableEq, Repr, Inhabited

/-- Modelled from the spec: `Unicode::Codepoint` is not among the sources; a codepoint
tagged with its line-break class and its script. -/
structure Codepoint where
  codepoint : Nat
  breaking : TextBreakType
  script : Nat
deriving DecidableEq, Repr, Inhabited

/-- The iterator `struct CanBreakBeforeIterator`; the cursor is an index into the span. -/
structure CanBreakBeforeIterator where
  span : List Codepoint
  cursor : Nat
deriving DecidableEq, Repr, Inhabited

namespace CanBreakBeforeIterator

/-- The lambda `nextCodepointIsLinebreak` of `next` for the codepoint at `cursor`. -/
def nextCodepointIsLinebreak (span : List Codepoint) (cursor : Nat) : Bool :=
  if ¬ (cursor + 1 < span.length) then false
  else (span.getD (cursor + 1) default).codepoint == 0x0a
    || (span.getD (cursor + 1) default).codepoint == 0x0d

/-- The loop `while (++cursor < span.begin() + span.size())` of `next`: the returned
position, if any, and the cursor afterwards. -/
def nextLoop (span : List Codepoint) : Nat → Nat → Option Nat × Nat
  | 0, cursor => (none, cursor)
  | fuel + 1, cursor =>
    if cursor + 1 < span.length then
      if (span.getD (cursor + 1) default).breaking = TextBreakType.soft
          ∧ nextCodepointIsLinebreak span (cursor + 1) = false then
        (some (cursor + 1 + 1), cursor + 1)
      else nextLoop span fuel (cursor + 1)
    else (none, cursor + 1)

/-- The method `next`. The cursor moves on in every pass of the loop, so `span.size() + 1`
passes are enough. -/
def next (it : CanBreakBeforeIterator) : Option Nat × CanBreakBeforeIterator :=
  ((nextLoop it.span (it.span.length + 1) it.cursor).1,
   ⟨it.span, (nextLoop it.span (it.span.length + 1) it.cursor).2⟩)

end CanBreakBeforeIterator

/-- The value of `std::numeric_limits<int64>::min()`. -/
def int64Min : Int := -(2 ^ 63)

/-- The iterator `struct IntegralCanBreakBeforeIterator`. -/
structure IntegralCanBreakBeforeIterator where
  span : List Codepoint
  it : CanBreakBeforeIterator
  restrictedTo : Range
  rangeEndReturned : Bool
deriving DecidableEq, Repr, Inhabited

namespace IntegralCanBreakBeforeIterator

/-- The constructor: not restricted, nothing returned yet. -/
def init (s : List Codepoint) : IntegralCanBreakBeforeIterator :=
  ⟨s, ⟨s, 0⟩, ⟨int64Min, int64Max⟩, false⟩

/-- The `for` loop of `next` over the positions of the inner iterator: the value to return,
if the loop returns one, and the inner iterator afterwards. -/
def nextLoop (restrictedTo : Range) :
    Nat → CanBreakBeforeIterator → Option Int × CanBreakBeforeIterator
  | 0, it => (none, it)
  | fuel + 1, it =>
    match it.next with
    | (none, it1) => (none, it1)
    | (some ptr, it1) =>
      if (ptr : Int) > restrictedTo.getEnd then (none, it1)
      else if restrictedTo.getStart < (ptr : Int) ∧ (ptr : Int) ≤ restrictedTo.getEnd then
        (some (ptr : Int), it1)
      else nextLoop restrictedTo fuel it1

/-- The method `next`. -/
def next (s : IntegralCanBreakBeforeIterator) : Option Int × IntegralCanBreakBeforeIterator :=
  match nextLoop s.restrictedTo (s.span.length + 1) s.it with
  | (some v, it1) => (some v, { s with it := it1 })
  | (none, it1) =>
    if s.rangeEndReturned = false then
      (some (min (s.span.length : Int) s.restrictedTo.getEnd),
       { s with it := it1, rangeEndReturned := true })
    else (none, { s with it := it1 })

end IntegralCanBreakBeforeIterator

namespace Shaper

/-- The last loop of the constructor of `Shaper`: every value of the iterator that differs
from the last point stored is appended. `none` when the step budget runs out. -/
def softBreakLoop : Nat → IntegralCanBreakBeforeIterator → List Int → Option (List Int)
  | 0, _, _ => none
  | fuel + 1, it, points =>
    match it.next with
    | (none, _) => some points
    | (some v, it1) =>
      softBreakLoop fuel it1
        (if points.isEmpty ∨ points.getLast? ≠ some v then points ++ [v] else points)

/-- The member `softBreakBeforePoints` as the constructor of `Shaper` leaves it, from the
analysed codepoints of the line. The iterator returns at most one value per codepoint and
the end, so `size + 3` passes are enough. -/
def softBreakBeforePointsOf (analysis : List Codepoint) : Option (List Int) :=
  softBreakLoop (analysis.length + 3) (IntegralCanBreakBeforeIterator.init analysis) []

end Shaper

/-- The loop that asks an iterator for values until it returns none, and lists them. -/
def IntegralCanBreakBeforeIterator.drain :
    Nat → IntegralCanBreakBeforeIterator → List Int
  | 0, _ => []
  | fuel + 1, it =>
    match it.next with
    | (none, _) => []
    | (some v, it1) => v :: drain fuel it1

/-- Two analysed codepoints, of which the first allows a soft break after it. -/
def sampleAnalysisTwo : List Codepoint :=
  [⟨0x4e2d, TextBreakType.soft, 0⟩, ⟨0x6587, TextBreakType.none, 0⟩]

/-- The analysis of `"a bb ccc"`: a soft break after each of the two spaces. -/
def sampleAnalysis : List Codepoint :=
  [⟨97, TextBreakType.none, 0⟩, ⟨32, TextBreakType.soft, 0⟩, ⟨98, TextBreakType.none, 0⟩,
   ⟨98, TextBreakType.none, 0⟩, ⟨32, TextBreakType.soft, 0⟩, ⟨99, TextBreakType.none, 0⟩,
   ⟨99, TextBreakType.none, 0⟩, ⟨99, TextBreakType.none, 0⟩]

/-- The shaper of a right-to-left word of four codepoints whose first two codepoints
resolve to font 0 and whose last two resolve to font 1: two shaping runs of embedding
level 1, the visual order reversed, no safe break before the end. -/
def sampleRtlShaper : Shaper :=
  ⟨[0x5d0, 0x5d1, 0x5d2, 0x5d3], [3, 2, 1, 0],
   [(⟨0, 2⟩, ⟨0, 0, 1, 0⟩), (⟨2, 4⟩, ⟨0, 0, 1, 1⟩)], [4], []⟩

/-- The shaped text of the right-to-left word of `sampleRtlShaper` under the default
options. -/
def sampleRtlText : Option SimpleShapedText :=
  SimpleShapedText.shape sampleLowLevelShape (fun _ => sampleRtlShaper) [⟨0, 4⟩]
    (ShapedTextOptions.defaults false)


/-! ## Font fallback -/

/-- The external parts of font resolution: whether fallback is enabled for the base font
(`Font::getFallbackEnabled`), whether a font can render a codepoint
(`isFontSuitableForCodepoint`), and the fallback search (`Font::findSuitableFontForText`).
The search is given the number of earlier calls, so it may answer differently each time. -/
structure FontFallback where
  fallbackEnabled : Bool
  isFontSuitableForCodepoint : Font → Nat → Bool
  findSuitableFontForText : Nat → List Nat → Font

/-- The lambda `getResult` of `findSuitableFontsForText`. -/
def getResult (fonts : RangedValues (Option Font)) (font : Font) : List (Range × Font) :=
  fonts.map (fun e => (e.1, e.2.getD font))

/-- The inner loop of the lambda `markMissingGlyphs` over the positions of one range: `it`
is the offset of the text iterator, `fontNotFound` the positions collected so far. -/
def markRange (fb : FontFallback) (text : List Nat) (f : Option Font) :
    List Int → Nat → List Int → List Int × Nat
  | [], it, fontNotFound => (fontNotFound, it)
  | i :: rest, it, fontNotFound =>
    markRange fb text f rest (it + 1)
      (match f with
       | some g => if fb.isFontSuitableForCodepoint g (text.getD it 0) = false
                   then fontNotFound ++ [i] else fontNotFound
       | none => fontNotFound)

/-- The positions of a range, `r.getStart()` up to `r.getEnd() - 1`. -/
def Range.positions (r : Range) : List Int :=
  (List.range r.getLength.toNat).map (fun (k : Nat) => r.getStart + (k : Int))

/-- The outer loop of the lambda `markMissingGlyphs` over the ranges. -/
def markRanges (fb : FontFallback) (text : List Nat) :
    List (Range × Option Font) → Nat → List Int → List Int
  | [], _, fontNotFound => fontNotFound
  | e :: rest, it, fontNotFound =>
    markRanges fb text rest
      (markRange fb text e.2 e.1.positions it fontNotFound).2
      (markRange fb text e.2 e.1.positions it fontNotFound).1

/-- The lambda `markMissingGlyphs`: the fonts with every position whose font cannot render
its codepoint reset to no font, and the number of those positions. -/
def markMissingGlyphs (fb : FontFallback) (text : List Nat)
    (fonts : RangedValues (Option Font)) : RangedValues (Option Font) × Nat :=
  ((markRanges fb text fonts 0 []).foldl
      (fun fs i => RangedValues.set fs (Range.make i (i + 1)) none) fonts,
   (markRanges fb text fonts 0 []).length)

/-- The first loop of a pass of `findSuitableFontsForText`: for every range without a font
the fallback search is asked for the text of the range. `calls` counts the earlier calls of
the search. -/
def collectChanges (fb : FontFallback) (text : List Nat) :
    List (Range × Option Font) → Nat → List (Range × Font) → List (Range × Font) × Nat
  | [], calls, changes => (changes, calls)
  | e :: rest, calls, changes =>
    match e.2 with
    | none =>
      collectChanges fb text rest (calls + 1)
        (changes ++ [(e.1, fb.findSuitableFontForText calls
          ((text.drop e.1.getStart.toNat).take (e.1.getEnd.toNat - e.1.getStart.toNat)))])
    | some _ => collectChanges fb text rest calls changes

/-- The fonts after one pass of the loop of `findSuitableFontsForText` and the number
returned by `markMissingGlyphs` at its end. -/
def fallbackPass (fb : FontFallback) (text : List Nat) (calls : Nat)
    (fonts : RangedValues (Option Font)) : (RangedValues (Option Font) × Nat) × Nat :=
  (markMissingGlyphs fb text
    ((collectChanges fb text fonts calls []).1.foldl
      (fun fs c => RangedValues.set fs c.1 (some c.2)) fonts),
   (collectChanges fb text fonts calls []).2)

/-- The loop of `findSuitableFontsForText`: the fonts when it ends and, for the statements
about it, the successive values of `numMissingGlyphs` (the value before the loop first).
`none` when the step budget runs out. -/
def fallbackLoop (fb : FontFallback) (text : List Nat) :
    Nat → Nat → Nat → RangedValues (Option Font) → List Nat →
      Option (RangedValues (Option Font) × List Nat)
  | 0, _, _, _, _ => none
  | fuel + 1, numMissingGlyphs, calls, fonts, history =>
    if 0 < numMissingGlyphs then
      if numMissingGlyphs = (fallbackPass fb text calls fonts).1.2 then
        some ((fallbackPass fb text calls fonts).1.1,
          history ++ [(fallbackPass fb text calls fonts).1.2])
      else
        fallbackLoop fb text fuel (fallbackPass fb text calls fonts).1.2
          (fallbackPass fb text calls fonts).2 (fallbackPass fb text calls fonts).1.1
          (history ++ [(fallbackPass fb text calls fonts).1.2])
    else some (fonts, history)

/-- The fonts of `findSuitableFontsForText` before `getResult` is applied, with the values
of `numMissingGlyphs` (none when fallback is disabled). The number of missing glyphs falls
in every pass but the last, so one pass more than the first number is enough. -/
def resolveFonts (fb : FontFallback) (font : Font) (text : List Nat) :
    Option (RangedValues (Option Font) × List Nat) :=
  if fb.fallbackEnabled = false then
    some (RangedValues.set [] (Range.make 0 (text.length : Int)) (some font), [])
  else
    fallbackLoop fb text
      ((markMissingGlyphs fb text
        (RangedValues.set [] (Range.make 0 (text.length : Int)) (some font))).2 + 1)
      (markMissingGlyphs fb text
        (RangedValues.set [] (Range.make 0 (text.length : Int)) (some font))).2
      0
      (markMissingGlyphs fb text
        (RangedValues.set [] (Range.make 0 (text.length : Int)) (some font))).1
      [(markMissingGlyphs fb text
        (RangedValues.set [] (Range.make 0 (text.length : Int)) (some font))).2]

/-- The function `findSuitableFontsForText`. -/
def findSuitableFontsForText (fb : FontFallback) (font : Font) (text : List Nat) :
    Option (List (Range × Font)) :=
  (resolveFonts fb font text).map (fun r => getResult r.1 font)

/-- The value that a `RangedValues` holds at a position, if any. -/
def RangedValues.valueAt {T : Type} (xs : RangedValues T) (i : Int) : Option T :=
  (RangedValues.getItemWithEnclosingRange xs i).map (fun e => e.2)

/-- The items are an ordered partition of `[a, b)`: the first starts at `a`, each is
non-empty and starts where the one before ends, and the last ends at `b`. -/
def IsPartition {T : Type} : Int → Int → List (Range × T) → Prop
  | a, b, [] => a = b
  | a, b, e :: rest => e.1.getStart = a ∧ e.1.getStart < e.1.getEnd ∧ IsPartition e.1.getEnd b rest

/-- The items cover exactly the positions of `[a, b)`. -/
def RangedValues.Covers {T : Type} (xs : RangedValues T) (a b : Int) : Prop :=
  ∀ i : Int, (∃ e ∈ xs, e.1.contains i = true) ↔ (a ≤ i ∧ i < b)

/-- The lambda `markMissingGlyphs` looks for the positions that hold a font which cannot
render the codepoint there. -/
def fontMissingAt (fb : FontFallback) (text : List Nat) (fonts : RangedValues (Option Font))
    (i : Int) : Bool :=
  match RangedValues.valueAt fonts i with
  | some (some g) => fb.isFontSuitableForCodepoint g (text.getD i.toNat 0) == false
  | _ => false

/-- The invariant of the loop of `findSuitableFontsForText` after `markMissingGlyphs`: the
fonts partition the text, every font held can render its codepoints, and
`numMissingGlyphs` counts the positions without a font. -/
def FontsResolved (fb : FontFallback) (text : List Nat) (fonts : RangedValues (Option Font))
    (numMissingGlyphs : Nat) : Prop :=
  RangedValues.Ordered fonts
  ∧ RangedValues.Covers fonts 0 (text.length : Int)
  ∧ (∀ (i : Int) (g : Font), RangedValues.valueAt fonts i = some (some g) →
      fb.isFontSuitableForCodepoint g (text.getD i.toNat 0) = true)
  ∧ numMissingGlyphs
      = ((Range.positions ⟨0, (text.length : Int)⟩).filter
          (fun i => decide (RangedValues.valueAt fonts i = some none))).length

/-- A font setup in which fallback is disabled for the base font and no font renders
anything. -/
def sampleNoFallback : FontFallback := ⟨false, fun _ _ => false, fun k _ => k + 1⟩


/-! ## Measures used in the statements about `fillLines` -/

/-- The number of glyphs of a chunk sequence. -/
def numGlyphsOf (chunks : WrappedGlyphs) : Nat := (chunks.map (fun s => s.size)).sum

/-- The number of glyphs handed to `fillLines`, over all the chunk sequences it kept. -/
def LineDataAndChunkStorage.numGlyphs (r : LineDataAndChunkStorage) : Nat :=
  (r.chunkStorage.map numGlyphsOf).sum

/-- The text positions at which `fillLines` called `getChunksUpToNextSafeBreak`: 0 first,
then the end of the text range of each chunk sequence it kept. -/
def LineDataAndChunkStorage.startPositions (r : LineDataAndChunkStorage) : List Int :=
  0 :: r.chunkStorage.map (fun chunks => (WrappedGlyphsCursor.init chunks).getTextRange.getEnd)

/-- A cursor range that holds at least one glyph: fewer glyphs remain at its end than at
its start. -/
def WrappedGlyphsCursorRange.HoldsGlyph (rg : WrappedGlyphsCursorRange) : Prop :=
  rg.«end».remaining.length < rg.«begin».remaining.length

/-- A line that consumed at least one glyph. -/
def ConsumesGlyph (l : List WrappedGlyphsCursorRange) : Prop :=
  ∃ rg ∈ l, rg.HoldsGlyph

/-- A cursor as the constructor and `operator+=` leave it: at a glyph of its chunk or at
the start of a chunk. -/
def WrappedGlyphsCursor.Normal (c : WrappedGlyphsCursor) : Prop :=
  c.index.j < c.chunk.size ∨ c.index.j = 0

/-- The shaping runs and the stored glyph runs of a shaper end at or before the length of
the line. The constructor of `Shaper` builds the runs from the analysis of the line and
leaves the store empty. -/
def Shaper.RangesWithin (s : Shaper) : Prop :=
  (∀ e ∈ s.shaperRuns, e.1.getEnd ≤ (s.visualOrder.length : Int))
  ∧ (∀ e ∈ s.shapedGlyphs, e.1.getEnd ≤ (s.visualOrder.length : Int))

/-- The number of safe-break points above a position, plus one while the position is below
the length of the line: a bound on the calls of `getChunksUpToNextSafeBreak` that are still
to return chunks. -/
def Shaper.breaksLeft (s : Shaper) (p : Int) : Nat :=
  s.softBreakBeforePoints.countP (fun v => decide (p < v))
    + (if p < (s.visualOrder.length : Int) then 1 else 0)

/-- What `shape` keeps true of the line numbers: they are ordered and cover the glyphs
pushed so far. -/
def SimpleShapedText.LinesCover (t : SimpleShapedText) : Prop :=
  RangedValues.Ordered t.lineNumbers
  ∧ RangedValues.Covers t.lineNumbers 0 (t.glyphsInVisualOrder.length : Int)

/-- A shaping engine without ligatures for the samples: one glyph per codepoint, cluster
equal to the codepoint index, every advance equal to `a`, spaces flagged as whitespace. -/
def sampleShapeWithAdvance (a : Int) : LowLevelShape := fun string r _ =>
  (List.range r.getLength.toNat).map (fun (k : Nat) =>
    mkGlyph (r.getStart + (k : Int)) a (string.getD (r.getStart + (k : Int)).toNat 0 == 32))

/-- The shaper of one hard line of a left-to-right text in a single font and script: the
codepoints of the line, the identity visual order, one shaping run over the line, a safe
break at the listed positions and at the end of the line, and an empty glyph store. -/
def sampleShaperFor (text : List Nat) (breaks : List Int) (r : Range) : Shaper :=
  ⟨(text.drop r.getStart.toNat).take r.getLength.toNat,
   List.range r.getLength.toNat,
   [(⟨0, r.getLength⟩, ⟨0, 0, 0, 0⟩)],
   (breaks.filter (fun b => decide (r.getStart < b ∧ b < r.getEnd))).map (fun b => b - r.getStart)
     ++ [r.getLength],
   []⟩

/-- The codepoints of `"a\nb\nc"`, three hard lines. -/
def sampleThreeLines : List Nat := [97, 10, 98, 10, 99]


/-! ## Notions for the lines of `fillLines` -/

/-- The glyphs between the two cursors of a range, in stored order. -/
def WrappedGlyphsCursorRange.glyphs (rg : WrappedGlyphsCursorRange) : List ShapedGlyph :=
  rg.«begin».remaining.take (rg.«begin».remaining.length - rg.«end».remaining.length)

/-- The glyphs of a line, range after range. -/
def lineGlyphs (l : List WrappedGlyphsCursorRange) : List ShapedGlyph :=
  (l.map (fun rg => rg.glyphs)).flatten

/-- The glyphs of a chunk sequence, chunk after chunk. -/
def allGlyphs (chunks : WrappedGlyphs) : List ShapedGlyph :=
  (chunks.map (fun s => s.glyphs)).flatten

/-- Every chunk of the chunk sequence holds a glyph and no cluster is negative. The source
reads the first glyph of every chunk it builds, and `LineState` takes a line with a
negative largest cluster for empty. -/
def ChunksOk (chunks : WrappedGlyphs) : Prop :=
  ∀ ch ∈ chunks, ch.glyphs ≠ [] ∧ ∀ g ∈ ch.glyphs, 0 ≤ g.cluster

/-- A whole number on which the `float` arithmetic of the line state is exact: its
magnitude is at most `2 ^ 23`, so that the sum and the difference of two such numbers have
a magnitude of at most `2 ^ 24` and are `float` values themselves. -/
def ExactInFloat (x : Int) : Prop := -(2 ^ 23) ≤ x ∧ x ≤ 2 ^ 23

instance (x : Int) : Decidable (ExactInFloat x) := by
  unfold ExactInFloat
  infer_instance

/-- The max width of line `k` of a hard line: the first line is shortened by the padding. -/
def FillLinesOptions.lineWidth (o : FillLinesOptions) (k : Nat) : Int :=
  if k = 0 then o.width - o.firstLinePadding else o.width

/-- The width bound of a line: up to every glyph that is not whitespace and comes after the
first consumed range, the advances sum to at most `W`. -/
def WithinWidth (W : Int) : List WrappedGlyphsCursorRange → Prop
  | [] => True
  | first :: rest =>
    ∀ (A : List ShapedGlyph) (g : ShapedGlyph) (B : List ShapedGlyph),
      lineGlyphs rest = A ++ g :: B → g.whitespace = false →
        sumAdvances (first.glyphs ++ A ++ [g]) ≤ W

/-- A consumed range over one chunk sequence: both cursors are valid cursors of it, the
range holds a glyph, and the glyphs ahead of its start are its glyphs followed by those
ahead of its end. -/
def WrappedGlyphsCursorRange.Ok (rg : WrappedGlyphsCursorRange) : Prop :=
  rg.«begin».data = rg.«end».data ∧ rg.«begin».Valid ∧ rg.«end».Valid
  ∧ rg.glyphs ≠ []
  ∧ rg.«begin».remaining = rg.glyphs ++ rg.«end».remaining

/-- A line over the stored chunk sequences: its ranges are well formed and lie in chunk
sequences of increasing position in the storage. -/
def LineOk (storage : List WrappedGlyphs) (l : List WrappedGlyphsCursorRange) : Prop :=
  List.Sublist (l.map (fun rg => rg.«begin».data)) storage ∧ ∀ rg ∈ l, rg.Ok

/-- The state of the line being filled, for a line of max width `W`: the width of the state
is the sum of the advances taken, the state is empty exactly when nothing was taken, and
the width bound holds. -/
structure LineInv (W : Int) (line : LineOfWrappedGlyphCursorRanges) : Prop where
  maxWidth : line.state.maxWidth = W
  width : line.state.width = sumAdvances (lineGlyphs line.consumedChunks)
  empty_iff : line.state.isEmpty = true ↔ line.consumedChunks = []
  within : WithinWidth W line.consumedChunks

/-- What `fillLines` keeps true of the lines finished so far, the line being filled and the
glyphs still ahead of the cursor: the lines respect their widths, are well formed over the
chunk sequences fetched (the line being filled over those in `prev`), and together with
the glyphs ahead of the cursor they hold every glyph of the chunk sequences, in order. -/
structure FillInv (o : FillLinesOptions) (prev storage : List WrappedGlyphs)
    (cur : LineOfWrappedGlyphCursorRanges) (rest : List ShapedGlyph)
    (lines : List (List WrappedGlyphsCursorRange)) : Prop where
  curInv : LineInv (o.lineWidth lines.length) cur
  curOk : LineOk prev cur.consumedChunks
  within : ∀ (k : Nat) (l : List WrappedGlyphsCursorRange), lines[k]? = some l →
    WithinWidth (o.lineWidth k) l
  linesOk : ∀ l ∈ lines, LineOk storage l ∧ l ≠ []
  tiling : (lines.map lineGlyphs).flatten ++ lineGlyphs cur.consumedChunks ++ rest
    = (storage.map allGlyphs).flatten

/-- A shaping engine for the samples: the glyph of codepoint 0 of the line has advance 10,
every other glyph has advance 1 and is whitespace. -/
def sampleWideThenSpace : LowLevelShape := fun _ r _ =>
  (List.range r.getLength.toNat).map (fun (k : Nat) =>
    if r.getStart + (k : Int) = 0 then mkGlyph 0 10 false
    else mkGlyph (r.getStart + (k : Int)) 1 true)

/-- The glyphs of a line without its final run of whitespace glyphs. -/
def withoutTrailingWhitespace (gs : List ShapedGlyph) : List ShapedGlyph :=
  (gs.reverse.dropWhile (fun g => g.whitespace)).reverse

/-- The codepoints of `"W \t"`: a word, a space and a tab, with a line-break opportunity
after the space. -/
def sampleWideSpaceTab : List Nat := [87, 32, 9]

instance (chunks : WrappedGlyphs) : Decidable (ChunksOk chunks) := by
  unfold ChunksOk
  infer_instance

/-- The lines of `"a bb ccc"` filled at a width of four glyphs of advance 1, with trailing
whitespace allowed beyond the margin: `"a bb "` and `"ccc"`. -/
def sampleFilledLines : LineDataAndChunkStorage :=
  (FillLinesOptions.fillLines ⟨4, 0, true, false⟩ (sampleShapeWithAdvance 1)
    (sampleShaperFor sampleString [2, 5] ⟨0, 8⟩)).getD ⟨[], []⟩


/-! ## Companded samples (`juce_AudioDataConverters.cpp`) -/

namespace AudioData

/-- The table of `AudioData::decodeALawToInt16`. -/
def aLawTable : List Int :=
  [
    -5504, -5248, -6016, -5760, -4480, -4224, -4992, -4736, -7552, -7296, -8064, -7808, -6528,
    -6272, -7040, -6784, -2752, -2624, -3008, -2880, -2240, -2112, -2496, -2368, -3776, -3648,
    -4032, -3904, -3264, -3136, -3520, -3392, -22016, -20992, -24064, -23040, -17920, -16896,
    -19968, -18944, -30208, -29184, -32256, -31232, -26112, -25088, -28160, -27136, -11008,
    -10496, -12032, -11520, -8960, -8448, -9984, -9472, -15104, -14592, -16128, -15616, -13056,
    -12544, -14080, -13568, -344, -328, -376, -360, -280, -264, -312, -296, -472, -456, -504,
    -488, -408, -392, -440, -424, -88, -72, -120, -104, -24, -8, -56, -40, -216, -200, -248,
    -232, -152, -136, -184, -168, -1376, -1312, -1504, -1440, -1120, -1056, -1248, -1184, -1888,
    -1824, -2016, -1952, -1632, -1568, -1760, -1696, -688, -656, -752, -720, -560, -528, -624,
    -592, -944, -912, -1008, -976, -816, -784, -880, -848, 5504, 5248, 6016, 5760, 4480, 4224,
    4992, 4736, 7552, 7296, 8064, 7808, 6528, 6272, 7040, 6784, 2752, 2624, 3008, 2880, 2240,
    2112, 2496, 2368, 3776, 3648, 4032, 3904, 3264, 3136, 3520, 3392, 22016, 20992, 24064,
    23040, 17920, 16896, 19968, 18944, 30208, 29184, 32256, 31232, 26112, 25088, 28160, 27136,
    11008, 10496, 12032, 11520, 8960, 8448, 9984, 9472, 15104, 14592, 16128, 15616, 13056,
    12544, 14080, 13568, 344, 328, 376, 360, 280, 264, 312, 296, 472, 456, 504, 488, 408, 392,
    440, 424, 88, 72, 120, 104, 24, 8, 56, 40, 216, 200, 248, 232, 152, 136, 184, 168, 1376,
    1312, 1504, 1440, 1120, 1056, 1248, 1184, 1888, 1824, 2016, 1952, 1632, 1568, 1760, 1696,
    688, 656, 752, 720, 560, 528, 624, 592, 944, 912, 1008, 976, 816, 784, 880, 848]

/-- The function `AudioData::decodeALawToInt16`: the table entry at the sample byte. -/
def decodeALawToInt16 (alawSample : Nat) : Int := aLawTable.getD (alawSample % 256) 0

/-- The ITU-T G.711 A-law expansion as the specification words it: with `x = s XOR 0x55`,
`e = (x >> 4) AND 7` and `m = x AND 15`, the magnitude is `16 m + 8` for `e = 0` and
`(16 m + 264) * 2 ^ (e - 1)` otherwise, positive when bit 7 of `x` is set. -/
def aLawExpand (s : Nat) : Int :=
  let x := s ^^^ 0x55
  let e := (x >>> 4) &&& 7
  let m := x &&& 15
  let magnitude : Int := if e = 0 then 16 * m + 8 else (16 * m + 264) * 2 ^ (e - 1)
  if x &&& 0x80 ≠ 0 then magnitude else -magnitude

/-- The table of `AudioData::decodeMuLawToInt16`. -/
def muLawTable : List Int :=
  [
    -32124, -31100, -30076, -29052, -28028, -27004, -25980, -24956, -23932, -22908, -21884,
    -20860, -19836, -18812, -17788, -16764, -15996, -15484, -14972, -14460, -13948, -13436,
    -12924, -12412, -11900, -11388, -10876, -10364, -9852, -9340, -8828, -8316, -7932, -7676,
    -7420, -7164, -6908, -6652, -6396, -6140, -5884, -5628, -5372, -5116, -4860, -4604, -4348,
    -4092, -3900, -3772, -3644, -3516, -3388, -3260, -3132, -3004, -2876, -2748, -2620, -2492,
    -2364, -2236, -2108, -1980, -1884, -1820, -1756, -1692, -1628, -1564, -1500, -1436, -1372,
    -1308, -1244, -1180, -1116, -1052, -988, -924, -876, -844, -812, -780, -748, -716, -684,
    -652, -620, -588, -556, -524, -492, -460, -428, -396, -372, -356, -340, -324, -308, -292,
    -276, -260, -244, -228, -212, -196, -180, -164, -148, -132, -120, -112, -104, -96, -88, -80,
    -72, -64, -56, -48, -40, -32, -24, -16, -8, 0, 32124, 31100, 30076, 29052, 28028, 27004,
    25980, 24956, 23932, 22908, 21884, 20860, 19836, 18812, 17788, 16764, 15996, 15484, 14972,
    14460, 13948, 13436, 12924, 12412, 11900, 11388, 10876, 10364, 9852, 9340, 8828, 8316, 7932,
    7676, 7420, 7164, 6908, 6652, 6396, 6140, 5884, 5628, 5372, 5116, 4860, 4604, 4348, 4092,
    3900, 3772, 3644, 3516, 3388, 3260, 3132, 3004, 2876, 2748, 2620, 2492, 2364, 2236, 2108,
    1980, 1884, 1820, 1756, 1692, 1628, 1564, 1500, 1436, 1372, 1308, 1244, 1180, 1116, 1052,
    988, 924, 876, 844, 812, 780, 748, 716, 684, 652, 620, 588, 556, 524, 492, 460, 428, 396,
    372, 356, 340, 324, 308, 292, 276, 260, 244, 228, 212, 196, 180, 164, 148, 132, 120, 112,
    104, 96, 88, 80, 72, 64, 56, 48, 40, 32, 24, 16, 8, 0]

/-- The function `AudioData::decodeMuLawToInt16`: the table entry at the sample byte. -/
def decodeMuLawToInt16 (muLawSample : Nat) : Int := muLawTable.getD (muLawSample % 256) 0

/-- The ITU-T G.711 mu-law expansion as the specification words it: with `u = NOT s` on 8
bits, `e = (u >> 4) AND 7`, `m = u AND 15` and `t = (8 m + 132) * 2 ^ e`, the value is
`132 - t` when bit 7 of `u` is set and `t - 132` otherwise. -/
def muLawExpand (s : Nat) : Int :=
  let u := 255 - s % 256
  let e := (u >>> 4) &&& 7
  let m := u &&& 15
  let t : Int := (8 * m + 132) * 2 ^ e
  if u &&& 0x80 ≠ 0 then 132 - t else t - 132

/-- Modelled from the spec: `jlimit (lower, upper, value)` of `juce_MathsFunctions.h`, which
is not among the sources: the value limited to `[lower, upper]`. -/
def jlimit (lower upper value : Int) : Int :=
  if value < lower then lower else if upper < value then upper else value

/-- The conversion to `int16`, the return type of an expander function. -/
def toInt16 (x : Int) : Int := (x + 32768) % 65536 - 32768

/-- The function `AudioData::decodeCompandedSampleToFloat32`. The product of a 16-bit
integer and `32768.0f` is an integer below `2 ^ 30` in magnitude with at most 15
significant bits, which `float` holds exactly, so the value is computed on integers. -/
def decodeCompandedSampleToFloat32 (sample : Nat) (expanderFunc : Nat → Int) : Int :=
  jlimit (-1) 1 (toInt16 (expanderFunc (sample % 256)) * 32768)

/-- The function `AudioData::decodeALawToFloat32`. -/
def decodeALawToFloat32 (alawSample : Nat) : Int :=
  decodeCompandedSampleToFloat32 alawSample decodeALawToInt16

end AudioData


/-! ## 24-bit samples (`juce_AudioDataConverters.cpp`) -/

namespace AudioDataConverters

/-- The byte at an address of the source buffer. -/
def byteAt (source : List Nat) (address : Nat) : Nat := source.getD address 0 % 256

/-- The value of a byte read as `int8`. -/
def toInt8 (b : Nat) : Int := if b % 256 < 128 then (b % 256 : Nat) else ((b % 256 : Nat) : Int) - 256

/-- The conversion `(short)` of an `int`: the low 16 bits read as a signed integer. -/
def toShort (x : Int) : Int := (x + 32768) % 65536 - 32768

/-- Modelled from the spec: `ByteOrder::littleEndian24Bit` of `juce_ByteOrder.h`, which is
not among the sources: the three bytes at the address as a signed 24-bit integer, lowest
byte first. -/
def littleEndian24Bit (source : List Nat) (address : Nat) : Int :=
  toInt8 (byteAt source (address + 2)) * 65536 + (byteAt source (address + 1) : Int) * 256
    + (byteAt source address : Int)

/-- Modelled from the spec: `ByteOrder::bigEndian24Bit` of `juce_ByteOrder.h`, which is not
among the sources: the three bytes at the address as a signed 24-bit integer, highest byte
first. -/
def bigEndian24Bit (source : List Nat) (address : Nat) : Int :=
  toInt8 (byteAt source address) * 65536 + (byteAt source (address + 1) : Int) * 256
    + (byteAt source (address + 2) : Int)

/-- The first loop of the converters: sample `i` is read at `intData`, which then moves up
by the stride. -/
def convertLoopUp (read : Nat → ℚ) (srcBytesPerSample : Nat) :
    Nat → Nat → Nat → List ℚ → List ℚ
  | 0, _, _, dest => dest
  | count + 1, i, intData, dest =>
    convertLoopUp read srcBytesPerSample count (i + 1) (intData + srcBytesPerSample)
      (dest.set i (read intData))

/-- The second loop of the converters, used in place with a stride below 4: `intData`
starts behind the last sample and moves down by the stride before sample `i` is read, for
`i` from `numSamples - 1` down to 0. -/
def convertLoopDown (read : Nat → ℚ) (srcBytesPerSample : Nat) :
    Nat → Nat → List ℚ → List ℚ
  | 0, _, dest => dest
  | i + 1, intData, dest =>
    convertLoopDown read srcBytesPerSample i (intData - srcBytesPerSample)
      (dest.set i (read (intData - srcBytesPerSample)))

/-- The function `AudioDataConverters::convertInt24LEToFloat`. `fl` is the rounding of a
real number to `float`; `inPlace` says that `source` and `dest` are the same address (the
overlap of the two buffers is not modelled: `dest` is a list of its own). -/
def convertInt24LEToFloat (fl : ℚ → ℚ) (source : List Nat) (dest : List ℚ)
    (numSamples srcBytesPerSample : Nat) (inPlace : Bool) : List ℚ :=
  let scale : ℚ := fl (1 / 0x7fffff)
  if !inPlace || decide (4 ≤ srcBytesPerSample) then
    convertLoopUp (fun intData => fl (scale * (toShort (littleEndian24Bit source intData) : ℚ)))
      srcBytesPerSample numSamples 0 0 dest
  else
    convertLoopDown (fun intData => fl (scale * (toShort (littleEndian24Bit source intData) : ℚ)))
      srcBytesPerSample numSamples (srcBytesPerSample * numSamples) dest

/-- The function `AudioDataConverters::convertInt24BEToFloat`. -/
def convertInt24BEToFloat (fl : ℚ → ℚ) (source : List Nat) (dest : List ℚ)
    (numSamples srcBytesPerSample : Nat) (inPlace : Bool) : List ℚ :=
  let scale : ℚ := fl (1 / 0x7fffff)
  if !inPlace || decide (4 ≤ srcBytesPerSample) then
    convertLoopUp (fun intData => fl (scale * (toShort (bigEndian24Bit source intData) : ℚ)))
      srcBytesPerSample numSamples 0 0 dest
  else
    convertLoopDown (fun intData => fl (scale * (toShort (bigEndian24Bit source intData) : ℚ)))
      srcBytesPerSample numSamples (srcBytesPerSample * numSamples) dest

end AudioDataConverters

/-! ## Control characters (`juce_SimpleShapedText.cpp`) -/

/-- The kinds of control character, `enum class ControlCharacter`. -/
inductive ControlCharacter where
  | crFollowedByLf
  | cr
  | lf
  | tab
deriving DecidableEq, Repr, Inhabited

/-- The assignment `result[i] = value` on a `std::map<size_t, ControlCharacter>`, kept as a
list sorted by key. -/
def mapAssign (m : List (Nat × ControlCharacter)) (key : Nat) (value : ControlCharacter) :
    List (Nat × ControlCharacter) :=
  match m with
  | [] => [(key, value)]
  | e :: rest =>
    if key < e.1 then (key, value) :: e :: rest
    else if key = e.1 then (key, value) :: rest
    else e :: mapAssign rest key value

/-- The lookup of a key in the map. -/
def mapFind (m : List (Nat × ControlCharacter)) (key : Nat) : Option ControlCharacter :=
  (m.find? (fun e => e.1 == key)).map (fun e => e.2)

/-- The loop of `findControlCharacters` over the codepoints still ahead, `i` the index of
the next one. -/
def findControlLoop (text : List Nat) :
    List Nat → Nat → List (Nat × ControlCharacter) → List (Nat × ControlCharacter)
  | [], _, result => result
  | c :: rest, i, result =>
    if c = 0x0a then
      findControlLoop text rest (i + 1) (mapAssign result i ControlCharacter.lf)
    else if c = 0x0d then
      if text.length - i > 1 ∧ text.getD (i + 1) 0 = 0x0a then
        findControlLoop text rest (i + 1) (mapAssign result i ControlCharacter.crFollowedByLf)
      else
        findControlLoop text rest (i + 1) (mapAssign result i ControlCharacter.cr)
    else if c = 0x09 then
      findControlLoop text rest (i + 1) (mapAssign result i ControlCharacter.tab)
    else
      findControlLoop text rest (i + 1) result

/-- The function `findControlCharacters`. -/
def findControlCharacters (text : List Nat) : List (Nat × ControlCharacter) :=
  findControlLoop text text 0 []

/-- The classification that `findControlCharacters` is to compute for index `i`. -/
def controlCharacterAt (text : List Nat) (i : Nat) : Option ControlCharacter :=
  if i < text.length then
    if text.getD i 0 = 0x0a then some ControlCharacter.lf
    else if text.getD i 0 = 0x09 then some ControlCharacter.tab
    else if text.getD i 0 = 0x0d then
      if i + 1 < text.length ∧ text.getD (i + 1) 0 = 0x0a then some ControlCharacter.crFollowedByLf
      else some ControlCharacter.cr
    else none
  else none

/-! ## The processor chain (`juce_ProcessorChain.h`) -/

namespace dsp

/-- What `ProcessorChain::process` reads of the incoming context. -/
structure ProcessContext where
  usesSeparateInputAndOutputBlocks : Bool
  isBypassed : Bool
deriving DecidableEq, Repr, Inhabited

/-- The context handed to an inner processor: a `ProcessContextReplacing` built on the
output block (`replacing`), or a copy of the incoming context; with its bypass flag. -/
structure InnerContext where
  replacing : Bool
  isBypassed : Bool
deriving DecidableEq, Repr, Inhabited

/-- The element `ProcessorWithBypass` of the tuple of a chain. -/
structure ProcessorWithBypass (P : Type) where
  processor : P
  isBypassed : Bool
deriving Repr

/-- The overload of `detail::forEachInTuple` that takes the index sequence: the function is
applied to `std::get<Ix> (tuple)` and `Ix` for every index `Ix` of the sequence, in the
order of the initializer list. `S` is what the function captures by reference. An index
beyond the tuple does not compile; the model passes it over. -/
def forEachInTupleAt {S Item : Type} (fn : S → Item → Nat → S × Item) :
    List Nat → S → List Item → S × List Item
  | [], s, tuple => (s, tuple)
  | ix :: rest, s, tuple =>
    match tuple[ix]? with
    | none => forEachInTupleAt fn rest s tuple
    | some item => forEachInTupleAt fn rest (fn s item ix).1 (tuple.set ix (fn s item ix).2)

/-- The alias `TupleIndexSequence<T>`, which is `std::index_sequence_for` applied to the
one type `T` of the tuple: `std::index_sequence_for` yields one index per type argument,
so the sequence is `0` alone, whatever the number of elements of the tuple. -/
def TupleIndexSequence : List Nat := List.range 1

/-- The overload of `detail::forEachInTuple` that takes the function and the tuple only: it
calls the other overload with `TupleIndexSequence<Tuple>`. -/
def forEachInTuple {S Item : Type} (fn : S → Item → Nat → S × Item) (tuple : List Item)
    (s : S) : S × List Item :=
  forEachInTupleAt fn TupleIndexSequence s tuple

/-- The lambda of `ProcessorChain::process` for one element. `procProcess` is the
`process` of the inner processors, acting on the processor and on the audio blocks `W`;
the list records the calls made, with the index of the processor. -/
def processItem {P W : Type} (procProcess : P → InnerContext → W → P × W)
    (context : ProcessContext) (s : W × List (Nat × InnerContext))
    (item : ProcessorWithBypass P) (index : Nat) :
    (W × List (Nat × InnerContext)) × ProcessorWithBypass P :=
  if context.usesSeparateInputAndOutputBlocks && decide (index ≠ 0) then
    let replacingContext : InnerContext := ⟨true, item.isBypassed || context.isBypassed⟩
    (((procProcess item.processor replacingContext s.1).2, s.2 ++ [(index, replacingContext)]),
     { item with processor := (procProcess item.processor replacingContext s.1).1 })
  else
    let contextCopy : InnerContext := ⟨false, item.isBypassed || context.isBypassed⟩
    (((procProcess item.processor contextCopy s.1).2, s.2 ++ [(index, contextCopy)]),
     { item with processor := (procProcess item.processor contextCopy s.1).1 })

/-- The method `ProcessorChain::process`: the audio blocks and the chain after the call,
with the record of the calls of the inner `process`. -/
def ProcessorChain.process {P W : Type} (procProcess : P → InnerContext → W → P × W)
    (processors : List (ProcessorWithBypass P)) (context : ProcessContext) (blocks : W) :
    (W × List (Nat × InnerContext)) × List (ProcessorWithBypass P) :=
  forEachInTuple (processItem procProcess context) processors (blocks, [])

end dsp

/-! ## Sample data for the cursor over chunks without glyphs -/

/-- A chunk sequence whose first chunk holds one glyph and whose last chunk holds none. -/
def sampleChunksEmptyLast : WrappedGlyphs :=
  [⟨[mkGlyph 0 1 false], true, 0, ⟨0, 1⟩, 0⟩, ⟨[], true, 0, ⟨0, 1⟩, 1⟩]

/-- A chunk sequence with a chunk without glyphs between two chunks of one glyph. -/
def sampleChunksEmptyMiddle : WrappedGlyphs :=
  [⟨[mkGlyph 0 1 false], true, 0, ⟨0, 2⟩, 0⟩, ⟨[], true, 0, ⟨0, 2⟩, 1⟩,
   ⟨[mkGlyph 1 1 false], true, 0, ⟨0, 2⟩, 1⟩]

/-- A chunk sequence of a left-to-right chunk followed by a right-to-left chunk, two glyphs
each. -/
def sampleChunksBidi : WrappedGlyphs :=
  [⟨[mkGlyph 0 1 false, mkGlyph 1 1 false], true, 0, ⟨0, 4⟩, 0⟩,
   ⟨[mkGlyph 2 1 false, mkGlyph 3 1 false], false, 0, ⟨0, 4⟩, 2⟩]

/-- A line of max width 4 that already holds `"a "` (width 2, largest cluster 1) and lets
trailing whitespace extend beyond the margin. -/
def sampleLineATrailing : LineOfWrappedGlyphCursorRanges := ⟨⟨1, 4, 2, true⟩, []⟩


/-! ## Notions for the glyphs and line numbers recorded by `shape` -/

/-- The glyphs that `shape` pushes for one span, their clusters moved by the start of the
hard line. -/
def spanPushed (lineRangeStart : Int) (s : ShapedGlyphSpan) : List ShapedGlyph :=
  (SimpleShapedText.spanGlyphs s).1.map
    (fun g => { g with cluster := g.cluster + lineRangeStart })

/-- The glyphs that `shape` pushes for one line, span after span in visual order. -/
def linePushed (lineRangeStart : Int) (line : List WrappedGlyphsCursorRange) :
    List ShapedGlyph :=
  ((getShapedGlyphSpansInVisualOrder line).map (spanPushed lineRangeStart)).flatten

/-- The glyphs pushed for the spans of one consumed range, in chunk order. -/
def rangePushed (lineRangeStart : Int) (rg : WrappedGlyphsCursorRange) : List ShapedGlyph :=
  ((rg.«begin».getShapedGlyphSpansUpTo rg.«end»).map (spanPushed lineRangeStart)).flatten

/-- The line numbers that `shape` records for lines of the given glyph counts, the first of
them starting at glyph `start` with number `n`: a line without glyphs leaves no item and
takes no number. -/
def lineNumbersFrom : Int → Nat → List Nat → RangedValues Int
  | _, _, [] => []
  | start, n, len :: rest =>
    if len = 0 then lineNumbersFrom start n rest
    else (⟨start, start + (len : Int)⟩, (n : Int)) :: lineNumbersFrom (start + (len : Int)) (n + 1) rest

/-- The lines of `"a bb ccc"` filled at a width of three glyphs of advance 1 with the first
word forced and trailing whitespace allowed beyond the margin: `"a "`, `"bb "`, `"ccc"`. -/
def sampleFilledThree : LineDataAndChunkStorage :=
  (FillLinesOptions.fillLines ⟨3, 0, true, true⟩ (sampleShapeWithAdvance 1)
    (sampleShaperFor sampleString [2, 5] ⟨0, 8⟩)).getD ⟨[], []⟩

/-- The text `"a bb ccc"` shaped at a width of three glyphs without a limit on the number
of lines. -/
def sampleShapedThree : SimpleShapedText :=
  (SimpleShapedText.shape (sampleShapeWithAdvance 1) (sampleShaperFor sampleString [2, 5])
    [⟨0, 8⟩] ⟨some 3, 0, false, false, int64Max⟩).getD SimpleShapedText.init


/-! ## Notions for the text ranges of the glyphs -/

/-- Every consumed range of the list ends at the end of its chunk sequence or where another
range of the list begins. -/
def RangesClosed (R : List WrappedGlyphsCursorRange) : Prop :=
  ∀ rg ∈ R, rg.«end».isBeyondEnd = true ∨ ∃ rg2 ∈ R, rg2.«begin» = rg.«end»

/-- The same while a chunk sequence is being consumed: a range may also end at the cursor. -/
def RangesClosedUpTo (R : List WrappedGlyphsCursorRange) (cursor : WrappedGlyphsCursor) :
    Prop :=
  ∀ rg ∈ R, rg.«end».isBeyondEnd = true ∨ (∃ rg2 ∈ R, rg2.«begin» = rg.«end»)
    ∨ rg.«end» = cursor

/-- What the text ranges of the glyphs rely on in a chunk sequence of a line of `n`
codepoints: every chunk holds a glyph, its glyphs are in logical order, and their clusters
are not negative and lie before the end of the text range of the chunk, which lies in the
line. -/
def ChunksWellFormed (n : Int) (chunks : WrappedGlyphs) : Prop :=
  ∀ ch ∈ chunks, ch.glyphs ≠ [] ∧ ClustersMonotone ch.glyphs
    ∧ (∀ g ∈ ch.glyphs, 0 ≤ g.cluster ∧ g.cluster < ch.textRange.getEnd)
    ∧ ch.textRange.getEnd ≤ n

/-- Every glyph of the text has its cluster in `[0, len)` and inside the text range of an
item of the glyph lookup. -/
def SimpleShapedText.ClustersCovered (len : Int) (t : SimpleShapedText) : Prop :=
  ∀ g ∈ t.glyphsInVisualOrder, 0 ≤ g.cluster ∧ g.cluster < len
    ∧ ∃ e ∈ t.glyphLookup, e.1.contains g.cluster = true

instance (n : Int) (chunks : WrappedGlyphs) : Decidable (ChunksWellFormed n chunks) := by
  unfold ChunksWellFormed ClustersMonotone
  infer_instance


/-! ## Left-to-right text without ligatures -/

/-- The shaping engine returns exactly one glyph per codepoint of the shaped range, in
logical order, the cluster of each glyph being the index of its codepoint. -/
def LowLevelShape.NoLigatures (lowLevelShape : LowLevelShape) : Prop :=
  ∀ (string : List Nat) (r : Range) (p : ShapingParams),
    (lowLevelShape string r p).map (fun g => g.cluster) = r.positions

/-- What the constructor of `Shaper` leaves for a left-to-right line of `n` codepoints,
apart from the glyph store: the identity visual order, shaping runs of even embedding
level that partition the line, and increasing safe-break points up to the end of the
line. -/
def Shaper.LtrSetup (s : Shaper) (n : Nat) : Prop :=
  s.visualOrder = List.range n
  ∧ IsPartition 0 (n : Int) s.shaperRuns
  ∧ (∀ e ∈ s.shaperRuns, e.2.embeddingLevel % 2 = 0)
  ∧ s.softBreakBeforePoints.Pairwise (fun a b => a < b)
  ∧ (∀ b ∈ s.softBreakBeforePoints, b ≤ (n : Int))

/-- A `Shaper` as its constructor leaves it for a left-to-right line of `n` codepoints: the
glyph store is empty. -/
def Shaper.LeftToRight (s : Shaper) (n : Nat) : Prop :=
  s.LtrSetup n ∧ s.shapedGlyphs = []

/-- A stored run of a left-to-right line without ligatures: one glyph per position of its
range, and the run is left to right. -/
def ItemExact (e : Range × GlyphsStorage) : Prop :=
  e.2.data.map (fun g => g.cluster) = e.1.positions ∧ e.2.ltr = true
    ∧ e.1.getStart < e.1.getEnd

/-- The glyph store of a left-to-right line without ligatures before the call of
`getChunksUpToNextSafeBreak` at `p`: the stored runs that end at or before `p`, followed by
at most one run, which starts before `p` and ends with the shaping run around `p`. -/
def Shaper.StoreAt (s : Shaper) (p : Int) : Prop :=
  ∃ junk tail, s.shapedGlyphs = junk ++ tail
    ∧ (∀ e ∈ junk, e.1.getStart < e.1.getEnd ∧ e.1.getEnd ≤ p)
    ∧ (tail = [] ∨ ∃ e, tail = [e] ∧ ItemExact e ∧ e.1.getStart < p ∧ p < e.1.getEnd
        ∧ ∃ R ∈ s.shaperRuns, R.1.contains p = true ∧ e.1.getEnd = R.1.getEnd)

/-- The chunks of a left-to-right line without ligatures fetched at `p` up to the safe break
`next`: they hold the glyphs of the positions from `p` to `next`, each chunk holds a glyph,
is left to right, carries the text range `[p, next)` and has the cluster of its first glyph
as visual order. -/
def ChunksExact (p next : Int) (chunks : WrappedGlyphs) : Prop :=
  (allGlyphs chunks).map (fun g => g.cluster) = (⟨p, next⟩ : Range).positions
  ∧ ∀ ch ∈ chunks, ch.glyphs ≠ [] ∧ ch.ltr = true ∧ ch.textRange = ⟨p, next⟩
      ∧ ch.visualOrder = (ch.glyphs.headD default).cluster.toNat

/-- The hard lines follow on one another from `a` to `b`. -/
def LinesTile : Int → Int → List Range → Prop
  | a, b, [] => a = b
  | a, b, r :: rest => r.getStart = a ∧ r.getStart ≤ r.getEnd ∧ LinesTile r.getEnd b rest

/-- The item that `getChunksUpToNextSafeBreak` stores for a shaping run shaped as a
whole. -/
def Shaper.storedRun (lowLevelShape : LowLevelShape) (string : List Nat)
    (R : Range × ShapingParams) : Range × GlyphsStorage :=
  (R.1, ⟨lowLevelShape string R.1 R.2, decide (R.2.embeddingLevel % 2 = 0), R.2.resolvedFont⟩)

/-- The chunk sequences stored by `fillLines` for a left-to-right line of `n` codepoints
without ligatures, once the positions up to `q` have been fetched: together they hold the
glyphs of the positions from 0 to `q`, and each of them is as `ChunksExact` says. -/
def StorageExact (n : Nat) (q : Int) (storage : List WrappedGlyphs) : Prop :=
  ((storage.map allGlyphs).flatten).map (fun g => g.cluster) = (⟨0, q⟩ : Range).positions
  ∧ ∀ cs ∈ storage, ∃ a b, ChunksExact a b cs ∧ 0 ≤ a ∧ a < b ∧ b ≤ (n : Int)


/-! ## Notions and samples for the line limit and the words of `"a bb ccc"` -/

/-- What `shape` keeps true of the text it builds: the line numbers are those of lines of
the glyph counts `lens`, and the counts sum to the number of glyphs. -/
def SimpleShapedText.Tidy (t : SimpleShapedText) (lens : List Nat) : Prop :=
  t.lineNumbers = lineNumbersFrom 0 0 lens ∧ t.glyphsInVisualOrder.length = lens.sum

/-- The chunks of the three words of `"a bb ccc"` between the safe breaks, one glyph of
advance `a` per codepoint; the spaces are whitespace glyphs. -/
def sampleWords (a : Int) : List WrappedGlyphs :=
  [[⟨[mkGlyph 0 a false, mkGlyph 1 a true], true, 0, ⟨0, 2⟩, 0⟩],
   [⟨[mkGlyph 2 a false, mkGlyph 3 a false, mkGlyph 4 a true], true, 0, ⟨2, 5⟩, 2⟩],
   [⟨[mkGlyph 5 a false, mkGlyph 6 a false, mkGlyph 7 a false], true, 0, ⟨5, 8⟩, 5⟩]]

/-- The lines of `"a bb ccc"` with one word on each line: every line is one consumed range
from the start of the chunk of its word to the cursor right after it. -/
def sampleWordLines (a : Int) : LineDataAndChunkStorage :=
  ⟨sampleWords a,
   (sampleWords a).map (fun chunks => [⟨WrappedGlyphsCursor.init chunks, ⟨chunks, ⟨1, 0⟩⟩⟩])⟩

/-- The text `"a\nb\nc"` shaped without a limit on the number of lines: three hard lines,
three lines. -/
def sampleShapedHardLines : SimpleShapedText :=
  (SimpleShapedText.shape (sampleShapeWithAdvance 1) (sampleShaperFor sampleThreeLines [])
    [⟨0, 2⟩, ⟨2, 4⟩, ⟨4, 5⟩] ⟨none, 0, false, false, int64Max⟩).getD SimpleShapedText.init


/-! ## Lemmas on the cursor -/

namespace WrappedGlyphsCursor

theorem empty_eq_false_of_valid {c : WrappedGlyphsCursor} (h : c.Valid) (hd : c.data ≠ []) :
    c.empty = false := by
  unfold empty
  have hl := List.getLast?_eq_getLast c.data hd
  rw [hl]
  have hm : c.data.getLast hd ∈ c.data := List.getLast_mem hd
  have := h.1 _ hm
  cases hg : (c.data.getLast hd).glyphs with
  | nil => exact absurd hg this
  | cons a l => simp [hg]

theorem isBeyondEnd_eq_false_iff {c : WrappedGlyphsCursor} (h : c.Valid) :
    c.isBeyondEnd = false ↔ c.index.i < c.data.length := by
  unfold isBeyondEnd
  constructor
  · intro hb
    simp only [Bool.or_eq_false_iff, decide_eq_false_iff_not, not_le] at hb
    exact hb.2
  · intro hi
    have hd : c.data ≠ [] := by
      intro h0
      rw [h0] at hi
      simp at hi
    simp [empty_eq_false_of_valid h hd, hi]

theorem chunk_eq_get {c : WrappedGlyphsCursor} (hi : c.index.i < c.data.length) :
    c.chunk = c.data.get ⟨c.index.i, hi⟩ := by
  unfold chunk
  simp [List.getD_eq_getElem?_getD, List.getElem?_eq_getElem hi]

theorem chunk_mem {c : WrappedGlyphsCursor} (hi : c.index.i < c.data.length) :
    c.chunk ∈ c.data := by
  rw [chunk_eq_get hi]
  exact List.get_mem _ _ _

end WrappedGlyphsCursor

namespace WrappedGlyphsCursor

theorem plusAssignLoop_zero (fuel : Nat) (c : WrappedGlyphsCursor) :
    plusAssignLoop fuel c 0 = c := by
  cases fuel <;> simp [plusAssignLoop]

theorem next_eq {c : WrappedGlyphsCursor} (h : c.Valid) (hb : c.isBeyondEnd = false) :
    c.next = if c.index.j + 1 = c.chunk.size then ⟨c.data, ⟨c.index.i + 1, 0⟩⟩
             else ⟨c.data, ⟨c.index.i, c.index.j + 1⟩⟩ := by
  have hi := (isBeyondEnd_eq_false_iff h).1 hb
  have hj := h.2.1 hi
  have hmin : min 1 (c.chunk.size - c.index.j) = 1 := by omega
  unfold next plusAssign
  rw [show c.data.length + 2 = (c.data.length + 1) + 1 from rfl, plusAssignLoop]
  simp only [hb, hmin, and_self, if_true, Nat.sub_self, plusAssignLoop_zero, Nat.zero_lt_one]

theorem plusAssignLoop_data (fuel : Nat) (c : WrappedGlyphsCursor) (d : Nat) :
    (plusAssignLoop fuel c d).data = c.data := by
  induction fuel generalizing c d with
  | zero => rfl
  | succ n ih =>
    rw [plusAssignLoop]
    split
    · dsimp only
      split <;> rw [ih]
    · rfl

theorem next_data (c : WrappedGlyphsCursor) : c.next.data = c.data :=
  plusAssignLoop_data _ _ _

theorem default_chunk_glyphs : (default : OwnedGlyphsSpan).glyphs = [] := rfl

theorem chunk_glyphs_of_le {c : WrappedGlyphsCursor} (hi : c.data.length ≤ c.index.i) :
    c.chunk.glyphs = [] := by
  unfold chunk
  rw [List.getD_eq_getElem?_getD, List.getElem?_eq_none hi]
  rfl

theorem drop_succ_eq_chunk (d : List OwnedGlyphsSpan) (i : Nat) :
    ((d.drop i).map (fun s => s.glyphs)).flatten
      = (d.getD i default).glyphs ++ ((d.drop (i + 1)).map (fun s => s.glyphs)).flatten := by
  by_cases hi : i < d.length
  · rw [List.drop_eq_getElem_cons hi, List.map_cons, List.flatten_cons,
      List.getD_eq_getElem?_getD, List.getElem?_eq_getElem hi]
    rfl
  · have hi2 : d.length ≤ i := Nat.le_of_not_lt hi
    rw [List.drop_eq_nil_of_le hi2, List.drop_eq_nil_of_le (Nat.le_succ_of_le hi2),
      List.getD_eq_getElem?_getD, List.getElem?_eq_none hi2]
    rfl

theorem remaining_eq_cons {c : WrappedGlyphsCursor} (h : c.Valid) (hb : c.isBeyondEnd = false) :
    c.remaining = c.deref :: c.next.remaining := by
  have hi := (isBeyondEnd_eq_false_iff h).1 hb
  have hj := h.2.1 hi
  rw [next_eq h hb]
  unfold OwnedGlyphsSpan.size at hj
  have hdrop : c.chunk.glyphs.drop c.index.j
      = c.deref :: c.chunk.glyphs.drop (c.index.j + 1) := by
    rw [List.drop_eq_getElem_cons hj]
    simp [deref, List.getD_eq_getElem?_getD, List.getElem?_eq_getElem hj]
  unfold remaining
  rw [hdrop]
  split
  · rename_i he
    unfold OwnedGlyphsSpan.size at he
    have h0 : c.chunk.glyphs.drop (c.index.j + 1) = [] := by
      apply List.drop_eq_nil_of_le; omega
    rw [h0]
    simp only [List.cons_append, List.nil_append, List.drop_zero, chunk]
    rw [drop_succ_eq_chunk c.data (c.index.i + 1)]
  · simp [chunk]

theorem next_valid {c : WrappedGlyphsCursor} (h : c.Valid) (hb : c.isBeyondEnd = false) :
    c.next.Valid := by
  have hi := (isBeyondEnd_eq_false_iff h).1 hb
  have hj := h.2.1 hi
  rw [next_eq h hb]
  split
  · refine ⟨h.1, ?_, ?_⟩
    · intro hlt
      have hm := chunk_mem (c := ⟨c.data, ⟨c.index.i + 1, 0⟩⟩) hlt
      have := h.1 _ hm
      unfold OwnedGlyphsSpan.size
      exact List.length_pos.2 this
    · intro hle
      have hle2 : c.data.length ≤ c.index.i + 1 := hle
      show c.index.i + 1 = c.data.length ∧ 0 = 0
      omega
  · rename_i hne
    refine ⟨h.1, ?_, ?_⟩
    · intro _
      show c.index.j + 1 < c.chunk.size
      omega
    · intro hle
      have hle2 : c.data.length ≤ c.index.i := hle
      omega

theorem next_ahead {c : WrappedGlyphsCursor} (h : c.Valid) (hb : c.isBeyondEnd = false) :
    c.next.Ahead c := by
  rw [next_eq h hb]
  split <;> simp [Ahead, Index.lt]

theorem remaining_eq_nil {c : WrappedGlyphsCursor} (h : c.Valid) (hb : c.isBeyondEnd = true) :
    c.remaining = [] := by
  have hi : c.data.length ≤ c.index.i := by
    by_contra hlt
    have := (isBeyondEnd_eq_false_iff h).2 (Nat.lt_of_not_le hlt)
    rw [hb] at this
    exact Bool.noConfusion this
  unfold remaining
  rw [chunk_glyphs_of_le hi, List.drop_eq_nil_of_le (Nat.le_succ_of_le hi)]
  simp

end WrappedGlyphsCursor

open WrappedGlyphsCursor LineOfWrappedGlyphCursorRanges

theorem flatten_drop_length_le {α : Type} (L : List (List α)) (i : Nat) :
    (L.drop i).flatten.length ≤ L.flatten.length := by
  induction L generalizing i with
  | nil => simp
  | cons a l ih =>
    cases i with
    | zero => simp
    | succ k =>
      have := ih k
      simp only [List.drop_succ_cons, List.flatten_cons, List.length_append]
      omega

theorem remaining_length_le_stepBound_aux (d : List OwnedGlyphsSpan) :
    ((d.map (fun s => s.glyphs)).flatten).length ≤ stepBound d := by
  induction d with
  | nil => simp [stepBound]
  | cons a l ih =>
    simp only [List.map_cons, List.flatten_cons, List.length_append, stepBound, List.sum_cons,
      OwnedGlyphsSpan.size] at ih ⊢
    omega

theorem remaining_length_le_stepBound (c : WrappedGlyphsCursor) :
    c.remaining.length ≤ stepBound c.data := by
  have h1 : c.remaining.length
      ≤ (((c.data.drop c.index.i).map (fun s => s.glyphs)).flatten).length := by
    rw [drop_succ_eq_chunk, remaining, List.length_append, List.length_append, chunk,
      List.length_drop]
    omega
  have h2 : (((c.data.drop c.index.i).map (fun s => s.glyphs)).flatten).length
      ≤ ((c.data.map (fun s => s.glyphs)).flatten).length := by
    rw [List.map_drop]
    exact flatten_drop_length_le _ _
  exact le_trans h1 (le_trans h2 (remaining_length_le_stepBound_aux _))

theorem consumeIfLoop_eq (predicate : LineState → ShapedGlyph → Bool) :
    ∀ (fuel : Nat) (st : LineState) (it : WrappedGlyphsCursor), it.Valid →
      it.remaining.length ≤ fuel →
      consumeIfLoop predicate fuel st it
        = ((consumeList predicate st it.remaining).1,
           it.nextN (consumeList predicate st it.remaining).2) := by
  intro fuel
  induction fuel with
  | zero =>
    intro st it hv hf
    have h0 : it.remaining = [] := List.length_eq_zero.1 (Nat.le_zero.1 hf)
    simp [consumeIfLoop, h0, consumeList, nextN]
  | succ n ih =>
    intro st it hv hf
    rw [consumeIfLoop]
    cases hb : it.isBeyondEnd with
    | true =>
      rw [remaining_eq_nil hv hb]
      simp [consumeList, nextN]
    | false =>
      have hr := remaining_eq_cons hv hb
      rw [hr] at hf ⊢
      simp only [List.length_cons, Nat.succ_le_succ_iff] at hf
      by_cases hp : predicate st it.deref = true
      · rw [if_pos ⟨rfl, hp⟩, ih _ _ (next_valid hv hb) hf]
        simp [consumeList, hp, nextN]
      · rw [if_neg (fun h => hp h.2)]
        simp [consumeList, hp, nextN]


open WrappedGlyphsCursor LineOfWrappedGlyphCursorRanges

theorem consumeIf_eq (predicate : LineState → ShapedGlyph → Bool) (st : LineState)
    (it : WrappedGlyphsCursor) (hv : it.Valid) :
    consumeIf st it predicate
      = ((consumeList predicate st it.remaining).1,
         it.nextN (consumeList predicate st it.remaining).2) :=
  consumeIfLoop_eq predicate _ st it hv
    (Nat.le_succ_of_le (remaining_length_le_stepBound it))

theorem consumeList_le (predicate : LineState → ShapedGlyph → Bool) (st : LineState)
    (gs : List ShapedGlyph) : (consumeList predicate st gs).2 ≤ gs.length := by
  induction gs generalizing st with
  | nil => simp [consumeList]
  | cons g gs ih =>
    rw [consumeList]
    split
    · have := ih (addGlyph st g)
      simp only [List.length_cons]
      omega
    · simp

theorem isBeyondEnd_iff_remaining {c : WrappedGlyphsCursor} (h : c.Valid) :
    c.isBeyondEnd = true ↔ c.remaining = [] := by
  constructor
  · exact remaining_eq_nil h
  · intro hr
    cases hb : c.isBeyondEnd with
    | true => rfl
    | false =>
      rw [remaining_eq_cons h hb] at hr
      exact List.noConfusion hr

theorem nextN_spec (k : Nat) : ∀ (c : WrappedGlyphsCursor), c.Valid → k ≤ c.remaining.length →
    (c.nextN k).Valid ∧ (c.nextN k).remaining = c.remaining.drop k ∧
    (c.nextN k).data = c.data ∧ (0 < k → (c.nextN k).Ahead c) := by
  induction k with
  | zero =>
    intro c hv _
    exact ⟨hv, by simp [nextN], rfl, fun h => absurd h (Nat.lt_irrefl 0)⟩
  | succ n ih =>
    intro c hv hk
    have hb : c.isBeyondEnd = false := by
      cases hb : c.isBeyondEnd with
      | false => rfl
      | true =>
        rw [remaining_eq_nil hv hb] at hk
        simp at hk
    have hr := remaining_eq_cons hv hb
    have hk2 : n ≤ c.next.remaining.length := by
      rw [hr] at hk
      simpa using hk
    obtain ⟨h1, h2, h3, h4⟩ := ih c.next (next_valid hv hb) hk2
    refine ⟨h1, ?_, ?_, ?_⟩
    · rw [nextN, h2, hr, List.drop_succ_cons]
    · rw [nextN, h3, next_data]
    · intro _
      rw [nextN]
      have ha := next_ahead hv hb
      cases n with
      | zero => exact ha
      | succ m =>
        have hb2 := h4 (Nat.succ_pos m)
        refine ⟨hb2.1.trans ha.1, ?_⟩
        have l1 := hb2.2
        have l2 := ha.2
        simp only [Index.lt, Bool.or_eq_true, Bool.and_eq_true, decide_eq_true_eq] at l1 l2 ⊢
        omega

theorem consumeList_takeAll (st : LineState) (gs : List ShapedGlyph) :
    consumeList takeAll st gs
      = (⟨maxCluster st.largestVisualOrderInLine gs, st.maxWidth, st.width + sumAdvances gs,
          st.trailingWhitespaceCanExtendBeyondMargin⟩, gs.length) := by
  induction gs generalizing st with
  | nil => simp [consumeList, maxCluster, sumAdvances]
  | cons g gs ih =>
    rw [consumeList]
    simp only [takeAll, if_true, ih, addGlyph, maxCluster, sumAdvances, List.foldl_cons,
      List.map_cons, List.sum_cons, List.length_cons, add_assoc]


open WrappedGlyphsCursor LineOfWrappedGlyphCursorRanges

theorem consumeIfLoop_of_beyondEnd (predicate : LineState → ShapedGlyph → Bool) (fuel : Nat)
    (st : LineState) (it : WrappedGlyphsCursor) (hb : it.isBeyondEnd = true) :
    consumeIfLoop predicate fuel st it = (st, it) := by
  cases fuel with
  | zero => rfl
  | succ n => simp [consumeIfLoop, hb]

/-- C7: on a non-empty line `consume` takes a chunk whole or not at all. For every line
whose state is not empty, every cursor and both values of `forceConsumeFirstWord`, the
returned cursor is beyond the end or is the input cursor; and when it is the input cursor
the line (its width, its largest-cluster mark and its consumed ranges) is unchanged. -/
theorem consume_all_or_nothing (line : LineOfWrappedGlyphCursorRanges)
    (glyphIt : WrappedGlyphsCursor) (forceConsumeFirstWord : Bool)
    (hne : line.state.isEmpty = false) :
    ((line.consume glyphIt forceConsumeFirstWord).2.isBeyondEnd = true
      ∨ (line.consume glyphIt forceConsumeFirstWord).2 = glyphIt)
    ∧ ((line.consume glyphIt forceConsumeFirstWord).2 = glyphIt →
        (line.consume glyphIt forceConsumeFirstWord).1.state.width = line.state.width
        ∧ (line.consume glyphIt forceConsumeFirstWord).1.state.largestVisualOrderInLine
            = line.state.largestVisualOrderInLine
        ∧ (line.consume glyphIt forceConsumeFirstWord).1.consumedChunks
            = line.consumedChunks) := by
  unfold consume
  simp only [hne, Bool.and_false, Bool.false_eq_true, if_false, Bool.not_false, Bool.true_and]
  cases hb : (consumeIf line.state glyphIt fits).2.isBeyondEnd with
  | false => simp
  | true =>
    simp only [Bool.not_true, Bool.false_eq_true, if_false]
    by_cases heq : (consumeIf line.state glyphIt fits).2 = glyphIt
    · simp only [heq, ne_eq, not_true_eq_false, if_false, or_true, true_and, forall_const]
      have hb2 : glyphIt.isBeyondEnd = true := by rw [← heq]; exact hb
      have : consumeIf line.state glyphIt fits = (line.state, glyphIt) :=
        consumeIfLoop_of_beyondEnd _ _ _ _ hb2
      rw [this]
      exact ⟨rfl, rfl, trivial⟩
    · simp only [ne_eq, heq, not_false_eq_true, if_true, hb, true_or, true_and]
      intro h
      exact absurd h (by simp)

/-- Witness of C7: the line holding `"a "` is offered the chunk `"bb "`. -/
theorem consume_all_or_nothing_witness :
    sampleLineA.state.isEmpty = false
    ∧ (sampleLineA.consume (WrappedGlyphsCursor.init [sampleChunkBB]) true).2
        = WrappedGlyphsCursor.init [sampleChunkBB]
    ∧ (sampleLineA.consume (WrappedGlyphsCursor.init [sampleChunkBB]) true).1.state.width = 2 :=
  ⟨by decide, by decide,
   ((consume_all_or_nothing sampleLineA (WrappedGlyphsCursor.init [sampleChunkBB]) true
      (by decide)).2 (by decide)).1⟩


open WrappedGlyphsCursor LineOfWrappedGlyphCursorRanges

/-- Counterexample to C8: the line that holds `"a "` (max width 3) is offered the chunk
`"bb "`, whose second glyph does not fit; the cursor is valid and not beyond its end, yet
`consume` returns it unchanged, for both values of `forceConsumeFirstWord`. -/
theorem consume_progress_counterexample :
    sampleLineAfterA.state = ⟨1, 3, 2, false⟩
    ∧ (WrappedGlyphsCursor.init [sampleChunkBB]).Valid
    ∧ (WrappedGlyphsCursor.init [sampleChunkBB]).isBeyondEnd = false
    ∧ ¬ (sampleLineAfterA.consume (WrappedGlyphsCursor.init [sampleChunkBB]) true).2.Ahead
          (WrappedGlyphsCursor.init [sampleChunkBB])
    ∧ ¬ (sampleLineAfterA.consume (WrappedGlyphsCursor.init [sampleChunkBB]) false).2.Ahead
          (WrappedGlyphsCursor.init [sampleChunkBB]) := by
  decide

theorem fits_of_isEmpty (st : LineState) (g : ShapedGlyph) (he : st.isEmpty = true) :
    fits st g = true := by
  simp [fits, he]

/-- C8 as amended: on an empty line `consume` always makes progress. For every line whose
state is empty, both values of `forceConsumeFirstWord` and every valid cursor that is not
beyond its end, the returned cursor is strictly ahead of the cursor passed in. -/
theorem consume_progress_on_empty_line (line : LineOfWrappedGlyphCursorRanges)
    (glyphIt : WrappedGlyphsCursor) (forceConsumeFirstWord : Bool)
    (he : line.state.isEmpty = true) (hv : glyphIt.Valid) (hb : glyphIt.isBeyondEnd = false) :
    (line.consume glyphIt forceConsumeFirstWord).2.Ahead glyphIt := by
  have hr := remaining_eq_cons hv hb
  unfold consume
  cases forceConsumeFirstWord with
  | true =>
    simp only [he, Bool.and_self, if_true]
    rw [consumeIf_eq _ _ _ hv, consumeList_takeAll]
    refine (nextN_spec _ _ hv (le_refl _)).2.2.2 ?_
    rw [hr]
    exact Nat.succ_pos _
  | false =>
    simp only [Bool.false_and, Bool.false_eq_true, if_false, he, Bool.not_true]
    rw [consumeIf_eq _ _ _ hv]
    have hk : 0 < (consumeList fits line.state glyphIt.remaining).2 := by
      rw [hr, consumeList, if_pos (fits_of_isEmpty _ _ he)]
      exact Nat.succ_pos _
    have ha := (nextN_spec _ _ hv (consumeList_le fits line.state glyphIt.remaining)).2.2.2 hk
    split <;> exact ha

/-- Witness of the amended C8: a fresh line of max width 0 is offered the chunk `"bb "`
without forcing the first word, and takes its first glyph. -/
theorem consume_progress_on_empty_line_witness :
    (LineOfWrappedGlyphCursorRanges.init 0 false).state.isEmpty = true
    ∧ (WrappedGlyphsCursor.init [sampleChunkBB]).Valid
    ∧ (WrappedGlyphsCursor.init [sampleChunkBB]).isBeyondEnd = false
    ∧ ((LineOfWrappedGlyphCursorRanges.init 0 false).consume
          (WrappedGlyphsCursor.init [sampleChunkBB]) false).2.Ahead
        (WrappedGlyphsCursor.init [sampleChunkBB]) :=
  ⟨by decide, by decide, by decide,
   consume_progress_on_empty_line _ _ false (by decide) (by decide) (by decide)⟩


open WrappedGlyphsCursor LineOfWrappedGlyphCursorRanges

/-- C9: on an empty line with `forceConsumeFirstWord = true`, `consume` takes the whole
chunk sequence whatever the advances and whatever the max width (zero and negative
included). For every line whose state is empty and every valid cursor: the returned cursor
is beyond the end, the width grows by the sum of the advances of all glyphs from the cursor
to the end (so a line of width 0 gets exactly that sum), and the range from the input
cursor to the returned cursor is appended to the consumed ranges. -/
theorem consume_forced_first_word (line : LineOfWrappedGlyphCursorRanges)
    (glyphIt : WrappedGlyphsCursor)
    (he : line.state.isEmpty = true) (hv : glyphIt.Valid) :
    (line.consume glyphIt true).2.isBeyondEnd = true
    ∧ (line.consume glyphIt true).1.state.width
        = line.state.width + sumAdvances glyphIt.remaining
    ∧ (line.state.width = 0 →
        (line.consume glyphIt true).1.state.width = sumAdvances glyphIt.remaining)
    ∧ (line.consume glyphIt true).1.consumedChunks
        = line.consumedChunks ++ [⟨glyphIt, (line.consume glyphIt true).2⟩] := by
  have hc : line.consume glyphIt true
      = (⟨(consumeIf line.state glyphIt takeAll).1,
          line.consumedChunks ++ [⟨glyphIt, (consumeIf line.state glyphIt takeAll).2⟩]⟩,
         (consumeIf line.state glyphIt takeAll).2) := by
    unfold consume
    simp only [he, Bool.and_self, if_true]
  rw [hc, consumeIf_eq _ _ _ hv, consumeList_takeAll]
  obtain ⟨h1, h2, _, _⟩ := nextN_spec glyphIt.remaining.length glyphIt hv (le_refl _)
  refine ⟨?_, rfl, ?_, rfl⟩
  · apply (isBeyondEnd_iff_remaining h1).2
    rw [h2, List.drop_length]
  · intro h0
    show line.state.width + sumAdvances glyphIt.remaining = sumAdvances glyphIt.remaining
    rw [h0, zero_add]

/-- Witness of C9: a fresh line of max width -5 is offered the chunk `"bb "`. -/
theorem consume_forced_first_word_witness :
    (LineOfWrappedGlyphCursorRanges.init (-5) false).state.isEmpty = true
    ∧ (WrappedGlyphsCursor.init [sampleChunkBB]).Valid
    ∧ ((LineOfWrappedGlyphCursorRanges.init (-5) false).consume
          (WrappedGlyphsCursor.init [sampleChunkBB]) true).1.state.width = 3 :=
  ⟨by decide, by decide,
   ((consume_forced_first_word (LineOfWrappedGlyphCursorRanges.init (-5) false)
      (WrappedGlyphsCursor.init [sampleChunkBB]) (by decide) (by decide)).2.2.1 (by decide)).trans
     (by decide)⟩



/-! ## Lemmas on ranged values -/

namespace RangedValues
variable {T : Type}

theorem mem_erase {r : Range} {xs : RangedValues T} {x : Range × T} (h : x ∈ erase r xs) :
    ∃ e ∈ xs, x.2 = e.2 ∧ x.1.getStart < x.1.getEnd ∧
      ((x.1.getStart = e.1.getStart ∧ x.1.getEnd = min e.1.getEnd r.getStart)
        ∨ (x.1.getStart = max e.1.getStart r.getEnd ∧ x.1.getEnd = e.1.getEnd)) := by
  induction xs with
  | nil => simp [erase] at h
  | cons e xs ih =>
    rw [erase, List.mem_append, List.mem_append] at h
    rcases h with (h | h) | h
    · split at h
      · rename_i hlt
        rw [List.mem_singleton] at h
        subst h
        exact ⟨e, List.mem_cons_self _ _, rfl, hlt, Or.inl ⟨rfl, rfl⟩⟩
      · simp at h
    · split at h
      · rename_i hlt
        rw [List.mem_singleton] at h
        subst h
        exact ⟨e, List.mem_cons_self _ _, rfl, hlt, Or.inr ⟨rfl, rfl⟩⟩
      · simp at h
    · obtain ⟨e', he', hx⟩ := ih h
      exact ⟨e', List.mem_cons_of_mem _ he', hx⟩

theorem erase_ordered {r : Range} (hr : r.getStart ≤ r.getEnd) {xs : RangedValues T}
    (h : Ordered xs) : Ordered (erase r xs) := by
  refine ⟨fun x hx => (mem_erase hx).choose_spec.2.2.1, ?_⟩
  induction xs with
  | nil => simp [erase]
  | cons e xs ih =>
    have hp := List.pairwise_cons.1 h.2
    have hxs : Ordered xs := ⟨fun x hx => h.1 x (List.mem_cons_of_mem _ hx), hp.2⟩
    rw [erase, List.append_assoc]
    rw [List.pairwise_append]
    refine ⟨?_, ?_, ?_⟩
    · split <;> simp
    · rw [List.pairwise_append]
      refine ⟨?_, ih hxs, ?_⟩
      · split <;> simp
      · intro a ha b hb
        obtain ⟨e', he', _, _, hcase⟩ := mem_erase hb
        have hee := hp.1 e' he'
        have hne := h.1 e' (List.mem_cons_of_mem _ he')
        split at ha
        · rw [List.mem_singleton] at ha
          subst ha
          simp only
          rcases hcase with ⟨h1, _⟩ | ⟨h1, _⟩ <;> rw [h1] <;> omega
        · simp at ha
    · intro a ha b hb
      have hne := h.1 e (List.mem_cons_self _ _)
      split at ha
      · rw [List.mem_singleton] at ha
        subst ha
        simp only
        rw [List.mem_append] at hb
        rcases hb with hb | hb
        · split at hb
          · rw [List.mem_singleton] at hb
            subst hb
            simp only
            omega
          · simp at hb
        · obtain ⟨e', he', _, _, hcase⟩ := mem_erase hb
          have hee := hp.1 e' he'
          rcases hcase with ⟨h1, _⟩ | ⟨h1, _⟩ <;> rw [h1] <;> omega
      · simp at ha

theorem erase_disjoint {r : Range} {xs : RangedValues T} {x : Range × T}
    (h : x ∈ erase r xs) : x.1.getEnd ≤ r.getStart ∨ r.getEnd ≤ x.1.getStart := by
  obtain ⟨e, _, _, _, hcase⟩ := mem_erase h
  rcases hcase with ⟨_, h2⟩ | ⟨h1, _⟩
  · left; rw [h2]; omega
  · right; rw [h1]; omega

theorem mem_insertItem {x y : Range × T} {xs : RangedValues T} :
    y ∈ insertItem x xs ↔ y = x ∨ y ∈ xs := by
  induction xs with
  | nil => simp [insertItem]
  | cons e xs ih =>
    rw [insertItem]
    split
    · rw [List.mem_cons, ih, List.mem_cons]
      tauto
    · rw [List.mem_cons]

theorem insertItem_ordered {x : Range × T} (hx : x.1.getStart < x.1.getEnd)
    {xs : RangedValues T} (h : Ordered xs)
    (hd : ∀ e ∈ xs, e.1.getEnd ≤ x.1.getStart ∨ x.1.getEnd ≤ e.1.getStart) :
    Ordered (insertItem x xs) := by
  refine ⟨fun y hy => ?_, ?_⟩
  · rcases mem_insertItem.1 hy with rfl | hy
    · exact hx
    · exact h.1 y hy
  · induction xs with
    | nil => simp [insertItem]
    | cons e xs ih =>
      have hp := List.pairwise_cons.1 h.2
      have hxs : Ordered xs := ⟨fun x hx => h.1 x (List.mem_cons_of_mem _ hx), hp.2⟩
      have hne := h.1 e (List.mem_cons_self _ _)
      have hde := hd e (List.mem_cons_self _ _)
      rw [insertItem]
      split
      · rename_i hlt
        rw [List.pairwise_cons]
        refine ⟨fun y hy => ?_, ih hxs (fun e' he' => hd e' (List.mem_cons_of_mem _ he'))⟩
        rcases mem_insertItem.1 hy with rfl | hy
        · omega
        · exact hp.1 y hy
      · rename_i hge
        rw [List.pairwise_cons]
        refine ⟨fun y hy => ?_, h.2⟩
        rcases List.mem_cons.1 hy with rfl | hy
        · omega
        · have := hp.1 y hy
          omega

theorem mem_setNoMerge {xs : RangedValues T} {r : Range} {v : T} {x : Range × T}
    (h : x ∈ setNoMerge xs r v) :
    x ∈ xs ∨ x = (r, v) ∨ x ∈ erase r xs := by
  unfold setNoMerge at h
  split at h
  · exact Or.inl h
  · exact Or.inr (mem_insertItem.1 h)

theorem setNoMerge_of_nonempty {xs : RangedValues T} {r : Range} {v : T}
    (hr : r.getStart < r.getEnd) : setNoMerge xs r v = insertItem (r, v) (erase r xs) := by
  unfold setNoMerge
  have : r.isEmpty = false := by
    simp only [Range.isEmpty, beq_eq_false_iff_ne, ne_eq]
    omega
  simp [this]

theorem setNoMerge_ordered {xs : RangedValues T} {r : Range} {v : T}
    (hr : r.getStart ≤ r.getEnd) (h : Ordered xs) : Ordered (setNoMerge xs r v) := by
  by_cases hne : r.getStart < r.getEnd
  · rw [setNoMerge_of_nonempty hne]
    exact insertItem_ordered hne (erase_ordered hr h) (fun e he => erase_disjoint he)
  · have : r.isEmpty = true := by
      simp only [Range.isEmpty, beq_iff_eq]
      omega
    simp [setNoMerge, this, h]

end RangedValues


namespace RangedValues
variable {T : Type}

theorem find_suffix (xs : RangedValues T) (i : Int) : find xs i <:+ xs :=
  List.dropWhile_suffix _

theorem mem_of_mem_find {xs : RangedValues T} {i : Int} {x : Range × T} (h : x ∈ find xs i) :
    x ∈ xs :=
  (find_suffix xs i).subset h

theorem Ordered.suffix {xs ys : RangedValues T} (h : Ordered xs) (hs : ys <:+ xs) :
    Ordered ys :=
  ⟨fun e he => h.1 e (hs.subset he), h.2.sublist hs.sublist⟩

theorem find_head_contains {xs : RangedValues T} {i : Int} {e : Range × T}
    {rest : List (Range × T)} (h : find xs i = e :: rest) : e.1.contains i = true := by
  unfold find at h
  have := List.head_dropWhile_not (fun e : Range × T => !e.1.contains i) xs
    (by rw [h]; exact List.cons_ne_nil _ _)
  simp only [h, List.head_cons, Bool.not_eq_eq_eq_not, Bool.not_false,
    Bool.not_eq_true', Bool.not_not] at this
  simpa using this

theorem Range_contains_iff (r : Range) (i : Int) :
    r.contains i = true ↔ r.getStart ≤ i ∧ i < r.getEnd := by
  simp [Range.contains]

theorem mem_find_of_end_gt {xs : RangedValues T} (h : Ordered xs) {i : Int}
    {x : Range × T} (hx : x ∈ xs) (hend : i < x.1.getEnd)
    (hne : find xs i ≠ []) : x ∈ find xs i := by
  induction xs with
  | nil => simp at hx
  | cons e xs ih =>
    have hp := List.pairwise_cons.1 h.2
    have hxs : Ordered xs := ⟨fun x hx => h.1 x (List.mem_cons_of_mem _ hx), hp.2⟩
    unfold find at hne ⊢
    rw [List.dropWhile_cons] at hne ⊢
    split
    · rename_i hc
      rw [if_pos hc] at hne
      rcases List.mem_cons.1 hx with rfl | hx
      · -- the dropped head ends after i but does not contain i: then it starts after i,
        -- and nothing later can contain i
        exfalso
        cases hf : List.dropWhile (fun e : Range × T => !e.1.contains i) xs with
        | nil => exact hne hf
        | cons f rest =>
          have hfc : f.1.contains i = true := @find_head_contains _ xs i f rest hf
          have hfm : f ∈ xs := by
            have : f ∈ find xs i := by unfold find; rw [hf]; exact List.mem_cons_self _ _
            exact mem_of_mem_find this
          have := hp.1 f hfm
          rw [Range_contains_iff] at hfc
          simp only [Bool.not_eq_eq_eq_not, Bool.not_true] at hc
          have hc2 : ¬ (x.1.getStart ≤ i ∧ i < x.1.getEnd) := by
            rw [← Range_contains_iff]; simp [hc]
          omega
      · exact ih hxs hx hne
    · exact hx

theorem find_eq_nil_iff {xs : RangedValues T} {i : Int} :
    find xs i = [] ↔ ∀ e ∈ xs, e.1.contains i = false := by
  unfold find
  rw [List.dropWhile_eq_nil_iff]
  simp

end RangedValues

/-! ## Lemmas on the chunks between two safe breaks -/

theorem ClustersMonotone.dropWhile_ge {gs : List ShapedGlyph} (hm : ClustersMonotone gs)
    (p : Int) : ∀ g ∈ gs.dropWhile (fun g => decide (g.cluster < p)), p ≤ g.cluster := by
  induction gs with
  | nil => simp
  | cons a l ih =>
    have hp := List.pairwise_cons.1 hm
    rw [List.dropWhile_cons]
    split
    · exact ih hp.2
    · rename_i hc
      simp only [decide_eq_true_eq, not_lt] at hc
      intro g hg
      rcases List.mem_cons.1 hg with rfl | hg
      · exact hc
      · exact le_trans hc (hp.1 g hg)

theorem mem_dropWhile_of_ge {gs : List ShapedGlyph} {g : ShapedGlyph} {p : Int}
    (hg : g ∈ gs) (hp : p ≤ g.cluster) :
    g ∈ gs.dropWhile (fun g => decide (g.cluster < p)) := by
  induction gs with
  | nil => simp at hg
  | cons a l ih =>
    rw [List.dropWhile_cons]
    split
    · rename_i hc
      simp only [decide_eq_true_eq] at hc
      rcases List.mem_cons.1 hg with rfl | hg
      · omega
      · exact ih hg
    · exact hg

theorem ClustersMonotone.mem_takeWhile {gs : List ShapedGlyph} (hm : ClustersMonotone gs)
    {g : ShapedGlyph} {b : Int} (hg : g ∈ gs) (hb : g.cluster < b) :
    g ∈ gs.takeWhile (fun g => decide (g.cluster < b)) := by
  induction gs with
  | nil => simp at hg
  | cons a l ih =>
    have hp := List.pairwise_cons.1 hm
    rw [List.takeWhile_cons]
    split
    · rcases List.mem_cons.1 hg with rfl | hg
      · exact List.mem_cons_self _ _
      · exact List.mem_cons_of_mem _ (ih hp.2 hg)
    · rename_i hc
      simp only [decide_eq_true_eq, not_lt] at hc
      rcases List.mem_cons.1 hg with rfl | hg
      · omega
      · have := hp.1 g hg
        omega

theorem ClustersMonotone.dropWhile {gs : List ShapedGlyph} (hm : ClustersMonotone gs)
    (q : ShapedGlyph → Bool) : ClustersMonotone (gs.dropWhile q) :=
  List.Pairwise.sublist (List.dropWhile_sublist q) hm


namespace Shaper
open RangedValues

theorem collectChunks_textRange (vo : List Nat) (p b : Int) (L : List (Range × GlyphsStorage)) :
    ∀ ch ∈ collectChunks vo p b L, ch.textRange = Range.make p b := by
  induction L with
  | nil => simp [collectChunks]
  | cons it rest ih =>
    intro ch hch
    rw [collectChunks] at hch
    split at hch
    · split at hch
      · rw [List.mem_singleton] at hch
        rw [hch]
      · rcases List.mem_cons.1 hch with h | h
        · rw [h]
        · exact ih ch h
    · rcases List.mem_cons.1 hch with h | h
      · rw [h]
      · exact ih ch h

theorem collectChunks_clusters (vo : List Nat) (p b : Int) (L : List (Range × GlyphsStorage))
    (hm : ∀ e ∈ L, ClustersMonotone e.2.data) :
    ∀ ch ∈ collectChunks vo p b L, ∀ g ∈ ch.glyphs, p ≤ g.cluster ∧ g.cluster < b := by
  induction L with
  | nil => simp [collectChunks]
  | cons it rest ih =>
    have hrest := ih (fun e he => hm e (List.mem_cons_of_mem _ he))
    have hchunk : ∀ g ∈ (it.2.data.dropWhile (fun g => decide (g.cluster < p))).takeWhile
        (fun g => decide (g.cluster < b)), p ≤ g.cluster ∧ g.cluster < b := by
      intro g hg
      refine ⟨?_, ?_⟩
      · exact (hm it (List.mem_cons_self _ _)).dropWhile_ge p g
          ((List.takeWhile_sublist _).subset hg)
      · simpa using List.mem_takeWhile_imp hg
    intro ch hch
    rw [collectChunks] at hch
    split at hch
    · split at hch
      · rw [List.mem_singleton] at hch
        rw [hch]; exact hchunk
      · rcases List.mem_cons.1 hch with h | h
        · rw [h]; exact hchunk
        · exact hrest ch h
    · rcases List.mem_cons.1 hch with h | h
      · rw [h]; exact hchunk
      · exact hrest ch h

theorem collectChunks_complete (vo : List Nat) (p b : Int) (L : List (Range × GlyphsStorage))
    (ho : Ordered L) (hm : ∀ e ∈ L, ClustersMonotone e.2.data)
    (hin : ∀ e ∈ L, ∀ g ∈ e.2.data, e.1.getStart ≤ g.cluster ∧ g.cluster < e.1.getEnd) :
    ∀ e ∈ L, ∀ g ∈ e.2.data, p ≤ g.cluster → g.cluster < b →
      ∃ ch ∈ collectChunks vo p b L, g ∈ ch.glyphs := by
  induction L with
  | nil => simp
  | cons it rest ih =>
    have hp := List.pairwise_cons.1 ho.2
    have hrest := ih ⟨fun x hx => ho.1 x (List.mem_cons_of_mem _ hx), hp.2⟩
      (fun e he => hm e (List.mem_cons_of_mem _ he))
      (fun e he => hin e (List.mem_cons_of_mem _ he))
    intro e he g hg hpg hgb
    rcases List.mem_cons.1 he with rfl | he
    · -- the glyph is in the first stored run: it is among the glyphs taken
      have h1 : g ∈ (e.2.data.dropWhile (fun g => decide (g.cluster < p))).takeWhile
          (fun g => decide (g.cluster < b)) :=
        ((hm e (List.mem_cons_self _ _)).dropWhile _).mem_takeWhile
          (mem_dropWhile_of_ge hg hpg) hgb
      rw [collectChunks]
      split
      · split
        · exact ⟨_, List.mem_singleton.2 rfl, h1⟩
        · exact ⟨_, List.mem_cons_self _ _, h1⟩
      · exact ⟨_, List.mem_cons_self _ _, h1⟩
    · -- the glyph is in a later run: the loop did not stop at the first one
      obtain ⟨ch, hch, hgch⟩ := hrest e he g hg hpg hgb
      rw [collectChunks]
      split
      · rename_i g1 tl heq
        split
        · rename_i hge
          exfalso
          have hg1 : g1 ∈ it.2.data := by
            have : g1 ∈ List.dropWhile (fun g => decide (g.cluster < b))
                (List.dropWhile (fun g => decide (g.cluster < p)) it.2.data) := by
              rw [heq]; exact List.mem_cons_self _ _
            exact (List.dropWhile_sublist _).subset ((List.dropWhile_sublist _).subset this)
          have h2 := (hin it (List.mem_cons_self _ _) g1 hg1).2
          have h3 := hp.1 e he
          have h4 := (hin e (List.mem_cons_of_mem _ he) g hg).1
          omega
        · exact ⟨ch, List.mem_cons_of_mem _ hch, hgch⟩
      · exact ⟨ch, List.mem_cons_of_mem _ hch, hgch⟩

theorem nextSoftBreakBefore_spec (s : Shaper) (startFrom : Int)
    (hs : s.softBreakBeforePoints.Pairwise (fun a b => a < b)) :
    (s.nextSoftBreakBefore startFrom ∈ s.softBreakBeforePoints
      ∧ startFrom < s.nextSoftBreakBefore startFrom
      ∧ ∀ v ∈ s.softBreakBeforePoints, startFrom < v → s.nextSoftBreakBefore startFrom ≤ v)
    ∨ (s.nextSoftBreakBefore startFrom = (s.visualOrder.length : Int)
      ∧ ∀ v ∈ s.softBreakBeforePoints, v ≤ startFrom) := by
  unfold nextSoftBreakBefore
  generalize s.softBreakBeforePoints = l at hs
  induction l with
  | nil => right; simp
  | cons a l ih =>
    have hp := List.pairwise_cons.1 hs
    rw [List.find?_cons]
    by_cases ha : startFrom < a
    · left
      simp only [ha, decide_True]
      refine ⟨List.mem_cons_self _ _, trivial, fun v hv _ => ?_⟩
      rcases List.mem_cons.1 hv with rfl | hv
      · exact le_refl _
      · exact le_of_lt (hp.1 v hv)
    · simp only [ha, decide_False]
      rcases ih hp.2 with ⟨h1, h2, h3⟩ | ⟨h1, h2⟩
      · left
        refine ⟨List.mem_cons_of_mem _ h1, h2, fun v hv hlt => ?_⟩
        rcases List.mem_cons.1 hv with rfl | hv
        · exact absurd hlt ha
        · exact h3 v hv hlt
      · right
        refine ⟨h1, fun v hv => ?_⟩
        rcases List.mem_cons.1 hv with rfl | hv
        · omega
        · exact h2 v hv

end Shaper


namespace RangedValues
variable {T : Type}

theorem Ordered.eq_or_disjoint {xs : RangedValues T} (h : Ordered xs) {a b : Range × T}
    (ha : a ∈ xs) (hb : b ∈ xs) :
    a = b ∨ a.1.getEnd ≤ b.1.getStart ∨ b.1.getEnd ≤ a.1.getStart := by
  induction xs with
  | nil => simp at ha
  | cons e xs ih =>
    have hp := List.pairwise_cons.1 h.2
    have hxs : Ordered xs := ⟨fun x hx => h.1 x (List.mem_cons_of_mem _ hx), hp.2⟩
    rcases List.mem_cons.1 ha with ha1 | ha1
    · rcases List.mem_cons.1 hb with hb1 | hb1
      · exact Or.inl (ha1.trans hb1.symm)
      · rw [ha1]; exact Or.inr (Or.inl (hp.1 b hb1))
    · rcases List.mem_cons.1 hb with hb1 | hb1
      · rw [hb1]; exact Or.inr (Or.inr (hp.1 a ha1))
      · exact ih hxs ha1 hb1

theorem mem_erase_of_before {r : Range} {xs : RangedValues T} {x : Range × T}
    (hx : x ∈ xs) (hne : x.1.getStart < x.1.getEnd) (hd : x.1.getEnd ≤ r.getStart) :
    x ∈ erase r xs := by
  induction xs with
  | nil => simp at hx
  | cons e xs ih =>
    rw [erase, List.mem_append, List.mem_append]
    rcases List.mem_cons.1 hx with rfl | hx
    · left; left
      have hmin : min x.1.getEnd r.getStart = x.1.getEnd := min_eq_left hd
      rw [hmin, if_pos hne]
      exact List.mem_singleton.2 rfl
    · right
      exact ih hx

theorem mem_setNoMerge_of_before {r : Range} {v : T} {xs : RangedValues T} {x : Range × T}
    (hx : x ∈ xs) (hne : x.1.getStart < x.1.getEnd) (hd : x.1.getEnd ≤ r.getStart) :
    x ∈ setNoMerge xs r v := by
  unfold setNoMerge
  split
  · exact hx
  · exact mem_insertItem.2 (Or.inr (mem_erase_of_before hx hne hd))

theorem mem_setNoMerge_self {r : Range} {v : T} {xs : RangedValues T}
    (hr : r.getStart < r.getEnd) : (r, v) ∈ setNoMerge xs r v := by
  rw [setNoMerge_of_nonempty hr]
  exact mem_insertItem.2 (Or.inl rfl)

theorem coversLoop_nil (e : Int) (p : Option Int) :
    coversLoop e p ([] : List (Range × T)) = false := by
  simp [coversLoop]

end RangedValues

namespace Shaper
open RangedValues

theorem make_run_range {p : Int} {R : Range} (hR : R.getStart < R.getEnd) (hp : p < R.getEnd) :
    Range.make (max p R.getStart) R.getEnd = ⟨max p R.getStart, R.getEnd⟩ := by
  unfold Range.make
  congr 1
  apply max_eq_right
  exact le_of_lt (max_lt hp hR)

/-- One pass of the shaping loop keeps the store well formed. -/
theorem storeWellFormed_set (lowLevelShape : LowLevelShape) (s : Shaper) (p : Int)
    (hl : lowLevelShape.WellBehaved s.string) (hr : Ordered s.shaperRuns)
    (hc : s.StoreWellFormed p) (R : Range × ShapingParams) (hR : R ∈ s.shaperRuns)
    (hp : p < R.1.getEnd) (ltr : Bool) (font : Font) :
    ({ s with shapedGlyphs := (setNoMerge s.shapedGlyphs
        (Range.make (max p R.1.getStart) R.1.getEnd)
        ⟨lowLevelShape s.string (Range.make (max p R.1.getStart) R.1.getEnd) R.2, ltr, font⟩) }
      : Shaper).StoreWellFormed p := by
  have hRne := hr.1 R hR
  have hmk := make_run_range hRne hp
  have hrne : (Range.make (max p R.1.getStart) R.1.getEnd).getStart
      < (Range.make (max p R.1.getStart) R.1.getEnd).getEnd := by
    rw [hmk]; exact max_lt hp hRne
  refine ⟨setNoMerge_ordered (le_of_lt hrne) hc.1, ?_⟩
  intro x hx hpx
  rcases mem_setNoMerge hx with hx | hx | hx
  · exact hc.2 x hx hpx
  · subst hx
    refine ⟨(hl _ _).1, (hl _ _).2, R, hR, ?_, ?_⟩
    · show R.1.getStart ≤ (Range.make (max p R.1.getStart) R.1.getEnd).getStart
      rw [hmk]; exact le_max_right _ _
    · show (Range.make (max p R.1.getStart) R.1.getEnd).getEnd = R.1.getEnd
      rw [hmk]
  · obtain ⟨e, he, hv, hne, hcase⟩ := mem_erase hx
    rw [hmk] at hcase
    simp only at hcase
    have hene := hc.1.1 e he
    rcases hcase with ⟨h1, h2⟩ | ⟨h1, h2⟩
    · have hpe : p < e.1.getEnd := by rw [h2] at hpx; exact lt_of_lt_of_le hpx (min_le_left _ _)
      obtain ⟨hm, hin, R', hR', hs1, hs2⟩ := hc.2 e he hpe
      have hkey : e.1.getEnd ≤ max p R.1.getStart := by
        by_contra hcon
        have hcon2 : max p R.1.getStart < e.1.getEnd := lt_of_not_le hcon
        have hx2 : x.1.getEnd = max p R.1.getStart := by rw [h2]; exact min_eq_right (le_of_lt hcon2)
        have hR'ne := hr.1 R' hR'
        rcases hr.eq_or_disjoint hR hR' with heq | hd | hd
        · subst heq; omega
        · omega
        · omega
      have hx2 : x.1.getEnd = e.1.getEnd := by rw [h2]; exact min_eq_left hkey
      rw [hv, h1, hx2]
      exact ⟨hm, hin, R', hR', hs1, hs2⟩
    · have hpe : p < e.1.getEnd := by rw [h2] at hpx; exact hpx
      obtain ⟨hm, hin, R', hR', hs1, hs2⟩ := hc.2 e he hpe
      have hkey : R.1.getEnd ≤ e.1.getStart := by
        by_contra hcon
        have hR'ne := hr.1 R' hR'
        rcases hr.eq_or_disjoint hR hR' with heq | hd | hd
        · subst heq; omega
        · omega
        · omega
      have hx1 : x.1.getStart = e.1.getStart := by rw [h1]; exact max_eq_left hkey
      rw [hv, hx1, h2]
      exact ⟨hm, hin, R', hR', hs1, hs2⟩

/-- The shaping loop keeps the store well formed. -/
theorem storeWellFormed_shapeRuns (lowLevelShape : LowLevelShape) (s : Shaper) (p b : Int)
    (hl : lowLevelShape.WellBehaved s.string) (hr : Ordered s.shaperRuns)
    (runs : List (Range × ShapingParams)) :
    ∀ (cache : RangedValues GlyphsStorage),
      (∀ R ∈ runs, R ∈ s.shaperRuns ∧ p < R.1.getEnd) →
      ({ s with shapedGlyphs := cache } : Shaper).StoreWellFormed p →
      ({ s with shapedGlyphs := shapeRuns lowLevelShape s.string p b runs cache }
        : Shaper).StoreWellFormed p := by
  induction runs with
  | nil => intro cache _ hc; exact hc
  | cons R rest ih =>
    intro cache hruns hc
    rw [shapeRuns]
    split
    · apply ih
      · exact fun R' hR' => hruns R' (List.mem_cons_of_mem _ hR')
      · exact storeWellFormed_set lowLevelShape { s with shapedGlyphs := cache } p hl hr hc R
          (hruns R (List.mem_cons_self _ _)).1 (hruns R (List.mem_cons_self _ _)).2 _ _
    · exact hc

/-- An item that ends before every run still to be shaped stays in the store. -/
theorem mem_shapeRuns_of_before (lowLevelShape : LowLevelShape) (string : List Nat) (p b : Int)
    (x : Range × GlyphsStorage) (hne : x.1.getStart < x.1.getEnd)
    (runs : List (Range × ShapingParams)) :
    ∀ (cache : RangedValues GlyphsStorage), x ∈ cache →
      (∀ R ∈ runs, x.1.getEnd ≤ R.1.getStart) →
      x ∈ shapeRuns lowLevelShape string p b runs cache := by
  induction runs with
  | nil => intro cache hx _; exact hx
  | cons R rest ih =>
    intro cache hx hruns
    rw [shapeRuns]
    split
    · apply ih
      · apply mem_setNoMerge_of_before hx hne
        have := hruns R (List.mem_cons_self _ _)
        show x.1.getEnd ≤ max p R.1.getStart
        exact le_trans this (le_max_right _ _)
      · exact fun R' hR' => hruns R' (List.mem_cons_of_mem _ hR')
    · exact hx

end Shaper

namespace Shaper
open RangedValues

theorem find_tail_after {T : Type} {xs : RangedValues T} (h : Ordered xs) {i : Int}
    {e : Range × T} {rest : List (Range × T)} (hf : find xs i = e :: rest) :
    ∀ x ∈ rest, e.1.getEnd ≤ x.1.getStart := by
  have ho := h.suffix (hf ▸ find_suffix xs i)
  exact (List.pairwise_cons.1 ho.2).1

theorem find_all_end_gt {T : Type} {xs : RangedValues T} (h : Ordered xs) {i : Int} :
    ∀ x ∈ find xs i, i < x.1.getEnd := by
  cases hf : find xs i with
  | nil => simp
  | cons e rest =>
    have hc := (Range_contains_iff _ _).1 (find_head_contains hf)
    intro x hx
    rcases List.mem_cons.1 hx with rfl | hx
    · exact hc.2
    · have h1 := find_tail_after h hf x hx
      have h2 := h.1 x (mem_of_mem_find (hf ▸ List.mem_cons_of_mem _ hx))
      omega

theorem covers_find_ne_nil {T : Type} {xs : RangedValues T} {r : Range}
    (h : covers xs r = true) : find xs r.getStart ≠ [] := by
  intro hn
  unfold covers at h
  rw [hn, coversLoop_nil] at h
  exact Bool.noConfusion h

theorem storeWellFormed_after (lowLevelShape : LowLevelShape) (s : Shaper) (startFrom : Int)
    (hr : Ordered s.shaperRuns) (hl : lowLevelShape.WellBehaved s.string)
    (hc : s.StoreWellFormed startFrom) :
    (s.getChunksUpToNextSafeBreak lowLevelShape startFrom).1.StoreWellFormed startFrom := by
  unfold getChunksUpToNextSafeBreak shapedGlyphsAfter
  split
  · exact storeWellFormed_shapeRuns lowLevelShape s startFrom _ hl hr _ _
      (fun R hR => ⟨mem_of_mem_find hR, find_all_end_gt hr R hR⟩) hc
  · exact hc

theorem find_after_ne_nil (lowLevelShape : LowLevelShape) (s : Shaper) (startFrom : Int)
    (hbr : startFrom < s.nextSoftBreakBefore startFrom)
    (hr : Ordered s.shaperRuns)
    (hin : ∃ R ∈ s.shaperRuns, R.1.contains startFrom = true) :
    find (shapedGlyphsAfter lowLevelShape s startFrom) startFrom ≠ [] := by
  unfold shapedGlyphsAfter
  split
  · -- the run that contains `startFrom` is shaped from `startFrom` on and stays stored
    obtain ⟨R, hR, hRc⟩ := hin
    cases hf : find s.shaperRuns startFrom with
    | nil =>
      have := (find_eq_nil_iff.1 hf) R hR
      rw [hRc] at this
      exact Bool.noConfusion this
    | cons R0 rest =>
      have hc0 := (Range_contains_iff _ _).1 (find_head_contains hf)
      have hR0ne := hr.1 R0 (mem_of_mem_find (hf ▸ List.mem_cons_self _ _))
      have hmk := make_run_range hR0ne hc0.2
      have hmax : max startFrom R0.1.getStart = startFrom := max_eq_left hc0.1
      rw [shapeRuns, if_pos (lt_of_le_of_lt hc0.1 hbr)]
      intro hn
      have hmem := mem_shapeRuns_of_before lowLevelShape s.string startFrom
        (s.nextSoftBreakBefore startFrom)
        (Range.make (max startFrom R0.1.getStart) R0.1.getEnd,
          (⟨lowLevelShape s.string (Range.make (max startFrom R0.1.getStart) R0.1.getEnd) R0.2,
            decide (R0.2.embeddingLevel % 2 = 0), R0.2.resolvedFont⟩ : GlyphsStorage))
        (by rw [hmk, hmax]; exact hc0.2) rest
        (setNoMerge s.shapedGlyphs (Range.make (max startFrom R0.1.getStart) R0.1.getEnd)
          ⟨lowLevelShape s.string (Range.make (max startFrom R0.1.getStart) R0.1.getEnd) R0.2,
            decide (R0.2.embeddingLevel % 2 = 0), R0.2.resolvedFont⟩)
        (mem_setNoMerge_self (by rw [hmk, hmax]; exact hc0.2))
        (fun R' hR' => by
          have := find_tail_after hr hf R' hR'
          rw [hmk]; exact this)
      have := (find_eq_nil_iff.1 hn) _ hmem
      rw [hmk, hmax] at this
      simp [Range.contains, hc0.2] at this
  · rename_i hcov
    simp only [Bool.not_eq_true, Bool.not_eq_false'] at hcov
    have := covers_find_ne_nil hcov
    have hb : (Range.make startFrom (s.nextSoftBreakBefore startFrom)).getStart = startFrom := rfl
    rw [hb] at this
    exact this

end Shaper

open RangedValues

theorem sampleLowLevelShape_wellBehaved (string : List Nat) :
    LowLevelShape.WellBehaved sampleLowLevelShape string := by
  intro r p
  refine ⟨?_, ?_⟩
  · unfold ClustersMonotone sampleLowLevelShape
    rw [List.pairwise_map]
    refine List.Pairwise.imp ?_ (List.pairwise_lt_range _)
    intro a b hab
    simp only [mkGlyph]
    omega
  · intro g hg
    unfold sampleLowLevelShape at hg
    rw [List.mem_map] at hg
    obtain ⟨k, hk, rfl⟩ := hg
    rw [List.mem_range] at hk
    simp only [mkGlyph, Range.getLength] at hk ⊢
    omega

/-- C10: the chunks returned by `getChunksUpToNextSafeBreak (startFrom)`. For every
`startFrom` in `[0, line length)`, with the safe-break points strictly increasing, the
shaping runs ordered and one of them containing `startFrom`, a shaping engine that returns
glyphs in logical order with clusters inside the shaped range, and a glyph store as left by
earlier calls at positions up to `startFrom`: `b`, the value of `nextSoftBreakBefore`, is the
smallest safe-break point greater than `startFrom`, or the line length when there is none;
every returned chunk carries the text range `[startFrom, b)`; every returned glyph has its
cluster in `[startFrom, b)`; every glyph stored for a position of `[startFrom, b)` is
returned; and the store is again as the next call needs it. -/
theorem getChunksUpToNextSafeBreak_spec (lowLevelShape : LowLevelShape) (s : Shaper)
    (startFrom : Int)
    (_h0 : 0 ≤ startFrom) (h1 : startFrom < (s.visualOrder.length : Int))
    (hbreaks : s.softBreakBeforePoints.Pairwise (fun a b => a < b))
    (hr : Ordered s.shaperRuns)
    (hin : ∃ R ∈ s.shaperRuns, R.1.contains startFrom = true)
    (hl : lowLevelShape.WellBehaved s.string)
    (hc : s.StoreWellFormed startFrom) :
    ((s.nextSoftBreakBefore startFrom ∈ s.softBreakBeforePoints
        ∧ startFrom < s.nextSoftBreakBefore startFrom
        ∧ ∀ v ∈ s.softBreakBeforePoints, startFrom < v → s.nextSoftBreakBefore startFrom ≤ v)
      ∨ (s.nextSoftBreakBefore startFrom = (s.visualOrder.length : Int)
        ∧ ∀ v ∈ s.softBreakBeforePoints, v ≤ startFrom))
    ∧ (∀ ch ∈ (s.getChunksUpToNextSafeBreak lowLevelShape startFrom).2,
        ch.getTextRange = ⟨startFrom, s.nextSoftBreakBefore startFrom⟩)
    ∧ (∀ ch ∈ (s.getChunksUpToNextSafeBreak lowLevelShape startFrom).2, ∀ g ∈ ch.glyphs,
        startFrom ≤ g.cluster ∧ g.cluster < s.nextSoftBreakBefore startFrom)
    ∧ (∀ e ∈ (s.getChunksUpToNextSafeBreak lowLevelShape startFrom).1.shapedGlyphs,
        ∀ g ∈ e.2.data, e.1.contains g.cluster = true →
          startFrom ≤ g.cluster → g.cluster < s.nextSoftBreakBefore startFrom →
          ∃ ch ∈ (s.getChunksUpToNextSafeBreak lowLevelShape startFrom).2, g ∈ ch.glyphs)
    ∧ (s.getChunksUpToNextSafeBreak lowLevelShape startFrom).1.StoreWellFormed startFrom := by
  have hspec := Shaper.nextSoftBreakBefore_spec s startFrom hbreaks
  have hlt : startFrom < s.nextSoftBreakBefore startFrom := by
    rcases hspec with ⟨_, h, _⟩ | ⟨h, _⟩
    · exact h
    · rw [h]; exact h1
  have hwf := Shaper.storeWellFormed_after lowLevelShape s startFrom hr hl hc
  have hne := Shaper.find_after_ne_nil lowLevelShape s startFrom hlt hr hin
  have hwf2 : ∀ e ∈ find (Shaper.shapedGlyphsAfter lowLevelShape s startFrom) startFrom,
      ClustersMonotone e.2.data
      ∧ (∀ g ∈ e.2.data, e.1.getStart ≤ g.cluster ∧ g.cluster < e.1.getEnd) := by
    intro e he
    have := hwf.2 e (mem_of_mem_find he) (Shaper.find_all_end_gt hwf.1 e he)
    exact ⟨this.1, this.2.1⟩
  refine ⟨hspec, ?_, ?_, ?_, hwf⟩
  · intro ch hch
    have := Shaper.collectChunks_textRange _ _ _ _ ch hch
    show ch.textRange = _
    rw [this, Range.make, max_eq_right (le_of_lt hlt)]
  · exact Shaper.collectChunks_clusters _ _ _ _ (fun e he => (hwf2 e he).1)
  · intro e he g hg hcon hge hgb
    have hend : startFrom < e.1.getEnd := by
      have := (Range_contains_iff _ _).1 hcon
      omega
    have hmem := mem_find_of_end_gt hwf.1 he hend hne
    exact Shaper.collectChunks_complete _ _ _ _ (hwf.1.suffix (find_suffix _ _))
      (fun e he => (hwf2 e he).1) (fun e he => (hwf2 e he).2) e hmem g hg hge hgb

/-- Witness of C10: the fresh shaper of `"a bb ccc"` asked for the chunks from 2 returns
the chunk `"bb "` with the text range `[2, 5)`. -/
theorem getChunksUpToNextSafeBreak_spec_witness :
    sampleShaper.nextSoftBreakBefore 2 = 5
    ∧ ((sampleShaper.getChunksUpToNextSafeBreak sampleLowLevelShape 2).2.map
        (fun ch => ch.glyphs.map (fun g => g.cluster))) = [[2, 3, 4]]
    ∧ ∀ ch ∈ (sampleShaper.getChunksUpToNextSafeBreak sampleLowLevelShape 2).2,
        ch.getTextRange = ⟨2, sampleShaper.nextSoftBreakBefore 2⟩ :=
  ⟨by decide, by decide,
   (getChunksUpToNextSafeBreak_spec sampleLowLevelShape sampleShaper 2 (by decide) (by decide)
      (by decide) ⟨by decide, by decide⟩ ⟨(⟨0, 8⟩, ⟨0, 0, 0, 0⟩), by decide, by decide⟩
      (sampleLowLevelShape_wellBehaved _)
      ⟨⟨by decide, by decide⟩, fun e he => absurd he (List.not_mem_nil e)⟩).2.1⟩


namespace SimpleShapedText

/-- C11: `getGlyphs (range)` clips instead of failing. For every shaped text and every
range `[a, b)` (negative, past the end or empty ones included), the returned view holds, in
order, exactly the glyphs whose index lies in both `[a, b)` and `[0, getNumGlyphs())`: its
`k`-th element is glyph `max a 0 + k` as long as that index is below `min b n`, and nothing
after; the view is empty when the two ranges do not meet. -/
theorem getGlyphs_clips (t : SimpleShapedText) (glyphRange : Range) :
    (∀ k : Nat, (t.getGlyphs glyphRange)[k]?
        = if max glyphRange.getStart 0 + (k : Int)
              < min glyphRange.getEnd (t.glyphsInVisualOrder.length : Int)
          then t.glyphsInVisualOrder[(max glyphRange.getStart 0).toNat + k]? else none)
    ∧ (min glyphRange.getEnd (t.glyphsInVisualOrder.length : Int) ≤ max glyphRange.getStart 0 →
        t.getGlyphs glyphRange = []) := by
  have hlen : ∀ k : Nat, (k < ((glyphRange.getIntersectionWith
        (Range.make 0 (t.glyphsInVisualOrder.length : Int))).getLength).toNat)
      ↔ max glyphRange.getStart 0 + (k : Int)
          < min glyphRange.getEnd (t.glyphsInVisualOrder.length : Int) := by
    intro k
    simp only [Range.getIntersectionWith, Range.make, Range.getLength]
    omega
  have hstart : (glyphRange.getIntersectionWith
      (Range.make 0 (t.glyphsInVisualOrder.length : Int))).getStart
      = max glyphRange.getStart 0 := by
    simp only [Range.getIntersectionWith, Range.make]
  refine ⟨fun k => ?_, fun hle => ?_⟩
  · unfold getGlyphs
    simp only [List.getElem?_map, List.getElem?_range]
    by_cases hk : max glyphRange.getStart 0 + (k : Int)
        < min glyphRange.getEnd (t.glyphsInVisualOrder.length : Int)
    · have hk2 := (hlen k).2 hk
      rw [if_pos hk, List.getElem?_range hk2, hstart]
      have hin : (max glyphRange.getStart 0).toNat + k < t.glyphsInVisualOrder.length := by
        omega
      simp only [Option.map_some', glyphAt]
      rw [if_pos (by omega), List.getD_eq_getElem?_getD]
      have he : (max glyphRange.getStart 0 + (k : Int)).toNat
          = (max glyphRange.getStart 0).toNat + k := by omega
      rw [he, List.getElem?_eq_getElem hin]
      rfl
    · have hk2 : ¬ k < ((glyphRange.getIntersectionWith
          (Range.make 0 (t.glyphsInVisualOrder.length : Int))).getLength).toNat :=
        fun h => hk ((hlen k).1 h)
      rw [if_neg hk]
      have : (List.range ((glyphRange.getIntersectionWith
          (Range.make 0 (t.glyphsInVisualOrder.length : Int))).getLength).toNat)[k]? = none := by
        apply List.getElem?_eq_none
        rw [List.length_range]
        omega
      rw [this]
      rfl
  · unfold getGlyphs
    have h0 : ((glyphRange.getIntersectionWith
        (Range.make 0 (t.glyphsInVisualOrder.length : Int))).getLength).toNat = 0 := by
      have := (hlen 0)
      simp only [Range.getIntersectionWith, Range.make, Range.getLength] at this ⊢
      omega
    simp only [h0, List.range_zero, List.map_nil]

end SimpleShapedText


theorem insertByVisualOrder_perm (a : ShapedGlyphSpan) (l : List ShapedGlyphSpan) :
    List.Perm (insertByVisualOrder a l) (a :: l) := by
  induction l with
  | nil => exact List.Perm.refl _
  | cons b l ih =>
    rw [insertByVisualOrder]
    split
    · exact List.Perm.refl _
    · exact (List.Perm.cons b ih).trans (List.Perm.swap a b l)

theorem insertByVisualOrder_sorted (a : ShapedGlyphSpan) (l : List ShapedGlyphSpan)
    (h : l.Pairwise (fun x y => x.visualOrder ≤ y.visualOrder)) :
    (insertByVisualOrder a l).Pairwise (fun x y => x.visualOrder ≤ y.visualOrder) := by
  induction l with
  | nil => simp [insertByVisualOrder]
  | cons b l ih =>
    have hp := List.pairwise_cons.1 h
    rw [insertByVisualOrder]
    split
    · rename_i hab
      rw [List.pairwise_cons]
      refine ⟨fun y hy => ?_, h⟩
      rcases List.mem_cons.1 hy with rfl | hy
      · exact hab
      · exact le_trans hab (hp.1 y hy)
    · rename_i hab
      rw [List.pairwise_cons]
      refine ⟨fun y hy => ?_, ih hp.2⟩
      rcases List.mem_cons.1 ((insertByVisualOrder_perm a l).subset hy) with rfl | hy
      · omega
      · exact hp.1 y hy

theorem sortByVisualOrder_perm (l : List ShapedGlyphSpan) :
    List.Perm (sortByVisualOrder l) l := by
  induction l with
  | nil => exact List.Perm.refl _
  | cons a l ih =>
    unfold sortByVisualOrder at ih ⊢
    rw [List.foldr_cons]
    exact (insertByVisualOrder_perm a _).trans (List.Perm.cons a ih)

theorem sortByVisualOrder_sorted (l : List ShapedGlyphSpan) :
    (sortByVisualOrder l).Pairwise (fun x y => x.visualOrder ≤ y.visualOrder) := by
  induction l with
  | nil => simp [sortByVisualOrder]
  | cons a l ih =>
    unfold sortByVisualOrder at ih ⊢
    rw [List.foldr_cons]
    exact insertByVisualOrder_sorted a _ ih

theorem collectSpans_perm (lineData : List WrappedGlyphsCursorRange) :
    ∀ acc : List ShapedGlyphSpan,
      List.Perm
        (lineData.foldl (fun glyphSpans chunk =>
          chunk.«begin».getShapedGlyphSpansUpTo chunk.«end» ++ glyphSpans) acc)
        (acc ++ (lineData.map (fun chunk =>
          chunk.«begin».getShapedGlyphSpansUpTo chunk.«end»)).flatten) := by
  induction lineData with
  | nil => intro acc; simp
  | cons c l ih =>
    intro acc
    rw [List.foldl_cons, List.map_cons, List.flatten_cons]
    refine (ih _).trans ?_
    rw [← List.append_assoc]
    exact List.Perm.append_right _ List.perm_append_comm

/-- C18: `getShapedGlyphSpansInVisualOrder` returns, for a line, a permutation of all the
glyph spans that lie between the begin and end cursors of the consumed ranges of the line,
ordered by non-decreasing visual order. -/
theorem getShapedGlyphSpansInVisualOrder_sorted_perm (lineData : List WrappedGlyphsCursorRange) :
    List.Perm (getShapedGlyphSpansInVisualOrder lineData)
      ((lineData.map (fun chunk =>
        chunk.«begin».getShapedGlyphSpansUpTo chunk.«end»)).flatten)
    ∧ (getShapedGlyphSpansInVisualOrder lineData).Pairwise
        (fun x y => x.visualOrder ≤ y.visualOrder) := by
  refine ⟨?_, sortByVisualOrder_sorted _⟩
  unfold getShapedGlyphSpansInVisualOrder
  refine (sortByVisualOrder_perm _).trans ?_
  simpa using collectSpans_perm lineData []



namespace CanBreakBeforeIterator

theorem nextLoop_spec (span : List Codepoint) :
    ∀ (fuel c : Nat), span.length ≤ fuel + c →
      (∀ p, (nextLoop span fuel c).1 = some p →
          c < (nextLoop span fuel c).2 ∧ (nextLoop span fuel c).2 < span.length
          ∧ p = (nextLoop span fuel c).2 + 1)
      ∧ ((nextLoop span fuel c).1 = none → span.length ≤ (nextLoop span fuel c).2)
      ∧ c ≤ (nextLoop span fuel c).2 := by
  intro fuel
  induction fuel with
  | zero =>
    intro c hc
    simp only [nextLoop]
    refine ⟨fun p hp => by simp at hp, fun _ => by omega, le_refl _⟩
  | succ f ih =>
    intro c hc
    rw [nextLoop]
    split
    · rename_i hlt
      split
      · refine ⟨fun p hp => ?_, fun h => by simp at h, by simp⟩
        simp only [Option.some.injEq] at hp
        refine ⟨by simp, by simpa using hlt, hp.symm⟩
      · obtain ⟨h1, h2, h3⟩ := ih (c + 1) (by omega)
        refine ⟨fun p hp => ?_, h2, by omega⟩
        obtain ⟨a, b, d⟩ := h1 p hp
        exact ⟨by omega, b, d⟩
    · rename_i hge
      refine ⟨fun p hp => by simp at hp, fun _ => by simp only; omega, by simp⟩

theorem next_span (it : CanBreakBeforeIterator) : it.next.2.span = it.span := rfl

theorem next_spec (it : CanBreakBeforeIterator) :
    (∀ p, it.next.1 = some p →
        it.cursor < it.next.2.cursor ∧ it.next.2.cursor < it.span.length
        ∧ p = it.next.2.cursor + 1)
    ∧ (it.next.1 = none → it.span.length ≤ it.next.2.cursor)
    ∧ it.cursor ≤ it.next.2.cursor :=
  nextLoop_spec it.span (it.span.length + 1) it.cursor (by omega)

end CanBreakBeforeIterator

namespace IntegralCanBreakBeforeIterator

/-- The loop of `next` on an iterator that is not restricted. -/
theorem integralNextLoop_spec (span : List Codepoint) (hn : (span.length : Int) ≤ int64Max) :
    ∀ (fuel : Nat) (it : CanBreakBeforeIterator), it.span = span → 0 < fuel →
      (nextLoop ⟨int64Min, int64Max⟩ fuel it).2.span = span
      ∧ (∀ v, (nextLoop ⟨int64Min, int64Max⟩ fuel it).1 = some v →
          it.cursor < (nextLoop ⟨int64Min, int64Max⟩ fuel it).2.cursor
          ∧ (nextLoop ⟨int64Min, int64Max⟩ fuel it).2.cursor < span.length
          ∧ v = ((nextLoop ⟨int64Min, int64Max⟩ fuel it).2.cursor : Int) + 1)
      ∧ ((nextLoop ⟨int64Min, int64Max⟩ fuel it).1 = none →
          span.length ≤ (nextLoop ⟨int64Min, int64Max⟩ fuel it).2.cursor)
      ∧ it.cursor ≤ (nextLoop ⟨int64Min, int64Max⟩ fuel it).2.cursor := by
  intro fuel it hs hf
  obtain ⟨f, rfl⟩ : ∃ f, fuel = f + 1 := ⟨fuel - 1, by omega⟩
  obtain ⟨h1, h2, h3⟩ := it.next_spec
  rw [hs] at h1 h2
  rw [nextLoop]
  cases hnx : it.next with
  | mk r it1 =>
    rw [hnx] at h1 h2 h3
    have hsp : it1.span = span := by
      have := it.next_span
      rw [hnx] at this
      exact this.trans hs
    cases r with
    | none =>
      simp only
      exact ⟨hsp, fun v hv => by simp at hv, fun _ => h2 rfl, h3⟩
    | some ptr =>
      obtain ⟨a, b, c⟩ := h1 ptr rfl
      simp only at a b c
      have hle : ¬ ((ptr : Int) > int64Max) := by
        have : (ptr : Int) ≤ (span.length : Int) := by omega
        omega
      have hgt : int64Min < (ptr : Int) := by
        have : (0 : Int) ≤ (ptr : Int) := Int.ofNat_nonneg _
        unfold int64Min
        omega
      simp only [hle, if_false, hgt, true_and]
      rw [if_pos (by omega)]
      refine ⟨hsp, fun v hv => ?_, fun h => by simp at h, h3⟩
      simp only [Option.some.injEq] at hv
      refine ⟨a, b, ?_⟩
      rw [← hv, c]
      push_cast
      rfl

end IntegralCanBreakBeforeIterator

namespace IntegralCanBreakBeforeIterator

/-- One call of `next` on an iterator that is not restricted: a value of the inner
iterator, or the end once, or nothing. -/
theorem integralNext_spec (span : List Codepoint) (hn : (span.length : Int) ≤ int64Max)
    (s : IntegralCanBreakBeforeIterator) (hs : s.span = span) (hit : s.it.span = span)
    (hr : s.restrictedTo = ⟨int64Min, int64Max⟩) :
    s.next.2.span = span ∧ s.next.2.it.span = span
    ∧ s.next.2.restrictedTo = ⟨int64Min, int64Max⟩
    ∧ s.it.cursor ≤ s.next.2.it.cursor
    ∧ (∀ v, s.next.1 = some v →
        (s.next.2.rangeEndReturned = s.rangeEndReturned
          ∧ s.it.cursor < s.next.2.it.cursor ∧ s.next.2.it.cursor < span.length
          ∧ v = (s.next.2.it.cursor : Int) + 1)
        ∨ (s.rangeEndReturned = false ∧ s.next.2.rangeEndReturned = true
          ∧ span.length ≤ s.next.2.it.cursor ∧ v = (span.length : Int)))
    ∧ (s.next.1 = none → s.rangeEndReturned = true) := by
  obtain ⟨sp, it, rt, flag⟩ := s
  simp only at hs hit hr
  subst hs
  subst hr
  obtain ⟨h1, h2, h3, h4⟩ := integralNextLoop_spec sp hn (sp.length + 1) it hit (Nat.succ_pos _)
  unfold next
  simp only
  cases hl : nextLoop ⟨int64Min, int64Max⟩ (sp.length + 1) it with
  | mk r it1 =>
    rw [hl] at h1 h2 h3 h4
    simp only at h1 h2 h3 h4
    cases r with
    | some v =>
      refine ⟨rfl, h1, rfl, h4, fun w hw => ?_, fun h => ?_⟩
      · have hw2 : v = w := Option.some.inj hw
        subst hw2
        exact Or.inl ⟨rfl, h2 v rfl⟩
      · exact Option.noConfusion h
    | none =>
      cases flag with
      | false =>
        simp only [if_true]
        refine ⟨trivial, h1, trivial, h4, fun w hw => ?_, fun h => ?_⟩
        · refine Or.inr ⟨trivial, trivial, h3 rfl, ?_⟩
          have hw2 := Option.some.inj hw
          rw [← hw2]
          exact min_eq_left hn
        · exact Option.noConfusion h
      | true =>
        simp only [Bool.true_eq_false, if_false]
        refine ⟨trivial, h1, trivial, h4, fun w hw => ?_, fun _ => trivial⟩
        exact Option.noConfusion hw

end IntegralCanBreakBeforeIterator

namespace Shaper

theorem getLast?_append_singleton {α : Type} (l : List α) (a : α) :
    (l ++ [a]).getLast? = some a := by
  simp

theorem softBreakLoop_spec (span : List Codepoint) (hn : (span.length : Int) ≤ int64Max) :
    ∀ (fuel : Nat) (s : IntegralCanBreakBeforeIterator) (points : List Int),
      s.span = span → s.it.span = span → s.restrictedTo = ⟨int64Min, int64Max⟩ →
      points.Pairwise (fun a b => a < b) →
      (∀ v ∈ points, 0 ≤ v ∧ v ≤ (span.length : Int)) →
      (s.rangeEndReturned = false → ∀ v ∈ points, v ≤ (s.it.cursor : Int) + 1) →
      (s.rangeEndReturned = true →
        points.getLast? = some (span.length : Int) ∧ span.length ≤ s.it.cursor) →
      (span.length - s.it.cursor) + (if s.rangeEndReturned then 0 else 1) + 1 ≤ fuel →
      ∃ result, softBreakLoop fuel s points = some result
        ∧ result.Pairwise (fun a b => a < b)
        ∧ (∀ v ∈ result, 0 ≤ v ∧ v ≤ (span.length : Int))
        ∧ result.getLast? = some (span.length : Int) := by
  intro fuel
  induction fuel with
  | zero => intro s points _ _ _ _ _ _ _ hf; omega
  | succ f ih =>
    intro s points hs hit hr hsorted hbound hfalse htrue hf
    obtain ⟨n1, n2, n3, n4, n5, n6⟩ := IntegralCanBreakBeforeIterator.integralNext_spec span hn s hs hit hr
    rw [softBreakLoop]
    cases hnx : s.next with
    | mk r s1 =>
      rw [hnx] at n1 n2 n3 n4 n5 n6
      simp only at n1 n2 n3 n4 n5 n6
      cases r with
      | none =>
        simp only
        exact ⟨points, rfl, hsorted, hbound, (htrue (n6 rfl)).1⟩
      | some v =>
        simp only
        rcases n5 v rfl with ⟨e1, e2, e3, e4⟩ | ⟨e1, e2, e3, e4⟩
        · -- a value of the inner iterator: larger than every point stored
          have hflag : s.rangeEndReturned = false := by
            cases hfl : s.rangeEndReturned with
            | false => rfl
            | true =>
              have := (htrue hfl).2
              omega
          have hlt : ∀ w ∈ points, w < v := by
            intro w hw
            have := hfalse hflag w hw
            omega
          have happ : (points.isEmpty ∨ points.getLast? ≠ some v) := by
            by_cases hem : points = []
            · left; simp [hem]
            · right
              intro hl
              have hm : v ∈ points := List.mem_of_getLast?_eq_some hl
              have := hlt v hm
              omega
          rw [if_pos happ]
          apply ih s1 (points ++ [v]) n1 n2 n3
          · rw [List.pairwise_append]
            refine ⟨hsorted, List.pairwise_singleton _ _, fun a ha b hb => ?_⟩
            rw [List.mem_singleton] at hb
            rw [hb]; exact hlt a ha
          · intro w hw
            rcases List.mem_append.1 hw with hw | hw
            · exact hbound w hw
            · rw [List.mem_singleton] at hw
              omega
          · intro _ w hw
            rcases List.mem_append.1 hw with hw | hw
            · have := hlt w hw; omega
            · rw [List.mem_singleton] at hw
              omega
          · intro h
            rw [e1, hflag] at h
            exact Bool.noConfusion h
          · have hm : (if s1.rangeEndReturned = true then 0 else 1) = 1 := by
              rw [e1, hflag]; rfl
            have hm0 : (if s.rangeEndReturned = true then 0 else 1) = 1 := by
              rw [hflag]; rfl
            rw [hm]
            rw [hm0] at hf
            omega
        · -- the end of the range, returned once
          have hfin : ∃ pts : List Int,
              (if points.isEmpty ∨ points.getLast? ≠ some v then points ++ [v] else points) = pts
              ∧ pts.Pairwise (fun a b => a < b)
              ∧ (∀ w ∈ pts, 0 ≤ w ∧ w ≤ (span.length : Int))
              ∧ pts.getLast? = some (span.length : Int) := by
            by_cases happ : (points.isEmpty ∨ points.getLast? ≠ some v)
            · rw [if_pos happ]
              refine ⟨_, rfl, ?_, ?_, ?_⟩
              · rw [List.pairwise_append]
                refine ⟨hsorted, List.pairwise_singleton _ _, fun a ha b hb => ?_⟩
                rw [List.mem_singleton] at hb
                rw [hb, e4]
                -- every stored point is at most the length, and the last one is not it
                rcases happ with hem | hne
                · simp only [List.isEmpty_iff] at hem
                  rw [hem] at ha
                  simp at ha
                · have hle := (hbound a ha).2
                  rcases lt_or_eq_of_le hle with h | h
                  · exact h
                  · exfalso
                    -- `a` equals the length, so nothing follows it and it is the last
                    apply hne
                    rw [e4]
                    have hne2 : points ≠ [] := List.ne_nil_of_mem ha
                    rw [List.getLast?_eq_getLast _ hne2]
                    congr 1
                    have hlm := List.getLast_mem hne2
                    have hl2 := (hbound _ hlm).2
                    by_contra hcon
                    have hlt2 : points.getLast hne2 < (span.length : Int) :=
                      lt_of_le_of_ne hl2 hcon
                    -- sortedness: `a` is before or equal to the last element
                    have : a ≤ points.getLast hne2 := by
                      obtain ⟨init, hinit⟩ : ∃ init, points = init ++ [points.getLast hne2] :=
                        ⟨points.dropLast, (List.dropLast_append_getLast hne2).symm⟩
                      have hs2 := hsorted
                      rw [hinit, List.pairwise_append] at hs2
                      rw [hinit] at ha
                      rcases List.mem_append.1 ha with ha | ha
                      · exact le_of_lt (hs2.2.2 a ha _ (List.mem_singleton.2 rfl))
                      · rw [List.mem_singleton] at ha; exact le_of_eq ha
                    omega
              · intro w hw
                rcases List.mem_append.1 hw with hw | hw
                · exact hbound w hw
                · rw [List.mem_singleton] at hw
                  rw [hw, e4]
                  exact ⟨Int.ofNat_nonneg _, le_refl _⟩
              · rw [getLast?_append_singleton, e4]
            · rw [if_neg happ]
              refine ⟨_, rfl, hsorted, hbound, ?_⟩
              have : points.getLast? = some v := by
                by_contra h
                exact happ (Or.inr h)
              rw [this, e4]
          obtain ⟨pts, hpts, k1, k2, k3⟩ := hfin
          rw [hpts]
          apply ih s1 pts n1 n2 n3 k1 k2
          · intro h
            rw [e2] at h
            exact Bool.noConfusion h
          · intro _
            exact ⟨k3, e3⟩
          · have hm : (if s1.rangeEndReturned = true then 0 else 1) = 0 := by
              rw [e2]; rfl
            have hm0 : (if s.rangeEndReturned = true then 0 else 1) = 1 := by
              rw [e1]; rfl
            rw [hm]
            rw [hm0] at hf
            omega

end Shaper


/-- C16: the safe-break list of a constructed `Shaper`. For every analysed line (of a
length an `int64` can hold) the last loop of the constructor ends, and the list it leaves in
`softBreakBeforePoints` is strictly increasing, has every element in `[0, line length]` and
ends with the line length. -/
theorem softBreakBeforePoints_sorted (analysis : List Codepoint)
    (hn : (analysis.length : Int) ≤ int64Max) :
    ∃ points, Shaper.softBreakBeforePointsOf analysis = some points
      ∧ points.Pairwise (fun a b => a < b)
      ∧ (∀ v ∈ points, 0 ≤ v ∧ v ≤ (analysis.length : Int))
      ∧ points.getLast? = some (analysis.length : Int) := by
  unfold Shaper.softBreakBeforePointsOf
  apply Shaper.softBreakLoop_spec analysis hn _ _ _ rfl rfl rfl List.Pairwise.nil
  · intro v hv; simp at hv
  · intro _ v hv; simp at hv
  · intro h; exact Bool.noConfusion h
  · show (analysis.length - 0) + (if false = true then 0 else 1) + 1 ≤ analysis.length + 3
    simp

/-- Witness of C16: the analysis of `"a bb ccc"` gives the safe breaks 2, 5 and 8. -/
theorem softBreakBeforePoints_sorted_witness :
    ((sampleAnalysis.length : Int) ≤ int64Max)
    ∧ Shaper.softBreakBeforePointsOf sampleAnalysis = some [2, 5, 8]
    ∧ ∃ points, Shaper.softBreakBeforePointsOf sampleAnalysis = some points
        ∧ points.Pairwise (fun a b => a < b)
        ∧ (∀ v ∈ points, 0 ≤ v ∧ v ≤ (sampleAnalysis.length : Int))
        ∧ points.getLast? = some (sampleAnalysis.length : Int) :=
  ⟨by decide, by decide, softBreakBeforePoints_sorted sampleAnalysis (by decide)⟩

/-- C17 at the failing input: two codepoints of which the first is tagged as a soft break
and the second is neither LF nor CR. A break before position 1 is possible, but the
iterator returns only the end position 2 and then nothing: `next` of
`CanBreakBeforeIterator` increments the cursor before it looks at the first codepoint. -/
theorem canBreakBefore_skips_first_codepoint :
    (sampleAnalysisTwo.getD 0 default).breaking = TextBreakType.soft
    ∧ (sampleAnalysisTwo.getD 1 default).codepoint ≠ 0x0a
    ∧ (sampleAnalysisTwo.getD 1 default).codepoint ≠ 0x0d
    ∧ (IntegralCanBreakBeforeIterator.init sampleAnalysisTwo).drain 10 = [2]
    ∧ ((IntegralCanBreakBeforeIterator.init sampleAnalysisTwo).next.2.next.1 = none) := by
  decide



/-- C20 at the failing input: a right-to-left word of two font runs. `shape` pushes the
glyphs of the run `[2, 4)` first (glyphs 0 and 1) and stores the lookup item
`[2, 4) → glyphs [0, 2)`; the item of the run `[0, 2)` is then stored under the text range
`[0, 4)` of the whole chunk sequence and replaces it. The lookup item that encloses the
cluster of glyph 0 therefore has the glyph range `[2, 4)`, which does not contain 0. -/
theorem glyphLookup_rtl_two_runs :
    sampleRtlText.map (fun t => t.glyphsInVisualOrder.map (fun g => g.cluster))
        = some [3, 2, 1, 0]
    ∧ sampleRtlText.map (fun t => t.glyphLookup) = some [(⟨0, 4⟩, ⟨⟨2, 4⟩, false⟩)]
    ∧ sampleRtlText.map (fun t => RangedValues.getItemWithEnclosingRange t.glyphLookup
          (SimpleShapedText.glyphAt t 0 0).cluster)
        = some (some (⟨0, 4⟩, ⟨⟨2, 4⟩, false⟩))
    ∧ (⟨2, 4⟩ : Range).contains 0 = false := by
  decide


namespace RangedValues
variable {T : Type}

theorem erase_contains_iff {r : Range} {xs : RangedValues T} {i : Int} {w : T} :
    (∃ e ∈ erase r xs, e.1.contains i = true ∧ e.2 = w)
      ↔ (r.contains i = false ∧ ∃ e ∈ xs, e.1.contains i = true ∧ e.2 = w) := by
  induction xs with
  | nil => simp [erase]
  | cons e xs ih =>
    rw [erase]
    simp only [List.mem_append, List.mem_cons, or_and_right, exists_or, exists_eq_left]
    rw [ih]
    have key : ((∃ x, x ∈ (if e.1.getStart < min e.1.getEnd r.getStart
          then [((⟨e.1.getStart, min e.1.getEnd r.getStart⟩ : Range), e.2)] else [])
          ∧ x.1.contains i = true ∧ x.2 = w)
        ∨ (∃ x, x ∈ (if max e.1.getStart r.getEnd < e.1.getEnd
          then [((⟨max e.1.getStart r.getEnd, e.1.getEnd⟩ : Range), e.2)] else [])
          ∧ x.1.contains i = true ∧ x.2 = w))
        ↔ (r.contains i = false ∧ e.1.contains i = true ∧ e.2 = w) := by
      constructor
      · rintro (⟨x, hx, hc, hv⟩ | ⟨x, hx, hc, hv⟩)
        · split at hx
          · rw [List.mem_singleton] at hx
            subst hx
            simp only [Range.contains, Bool.and_eq_true, decide_eq_true_eq] at hc ⊢
            refine ⟨?_, ⟨by omega, by omega⟩, hv⟩
            simp only [Bool.and_eq_false_iff, decide_eq_false_iff_not]
            omega
          · simp at hx
        · split at hx
          · rw [List.mem_singleton] at hx
            subst hx
            simp only [Range.contains, Bool.and_eq_true, decide_eq_true_eq] at hc ⊢
            refine ⟨?_, ⟨by omega, by omega⟩, hv⟩
            simp only [Bool.and_eq_false_iff, decide_eq_false_iff_not]
            omega
          · simp at hx
      · rintro ⟨hr, hc, hv⟩
        simp only [Range.contains, Bool.and_eq_true, decide_eq_true_eq, Bool.and_eq_false_iff,
          decide_eq_false_iff_not] at hr hc
        by_cases hlt : i < r.getStart
        · left
          refine ⟨(⟨e.1.getStart, min e.1.getEnd r.getStart⟩, e.2), ?_, ?_, hv⟩
          · rw [if_pos (by omega)]; exact List.mem_singleton.2 rfl
          · simp only [Range.contains, Bool.and_eq_true, decide_eq_true_eq]; omega
        · right
          refine ⟨(⟨max e.1.getStart r.getEnd, e.1.getEnd⟩, e.2), ?_, ?_, hv⟩
          · rw [if_pos (by omega)]; exact List.mem_singleton.2 rfl
          · simp only [Range.contains, Bool.and_eq_true, decide_eq_true_eq]; omega
    constructor
    · rintro ((h | h) | h)
      · have := key.1 (Or.inl h); exact ⟨this.1, Or.inl this.2⟩
      · have := key.1 (Or.inr h); exact ⟨this.1, Or.inl this.2⟩
      · exact ⟨h.1, Or.inr h.2⟩
    · rintro ⟨hr, h | h⟩
      · rcases key.2 ⟨hr, h⟩ with h | h
        · exact Or.inl (Or.inl h)
        · exact Or.inl (Or.inr h)
      · exact Or.inr ⟨hr, h⟩

theorem setNoMerge_contains_iff {r : Range} {v : T} {xs : RangedValues T} {i : Int} {w : T}
    (hr : r.getStart ≤ r.getEnd) :
    (∃ e ∈ setNoMerge xs r v, e.1.contains i = true ∧ e.2 = w)
      ↔ ((r.contains i = true ∧ v = w)
          ∨ (r.contains i = false ∧ ∃ e ∈ xs, e.1.contains i = true ∧ e.2 = w)) := by
  by_cases hne : r.getStart < r.getEnd
  · rw [setNoMerge_of_nonempty hne]
    simp only [mem_insertItem, or_and_right, exists_or, exists_eq_left]
    rw [erase_contains_iff]
  · have hrc : r.contains i = false := by
      simp only [Range.contains, Bool.and_eq_false_iff, decide_eq_false_iff_not]
      omega
    have : r.isEmpty = true := by
      simp only [Range.isEmpty, beq_iff_eq]
      omega
    simp [setNoMerge, this, hrc]

end RangedValues

namespace RangedValues
variable {T : Type} [DecidableEq T]

theorem mergeEqualItems_cons (e : Range × T) (xs : RangedValues T) :
    mergeEqualItems (e :: xs)
      = match mergeEqualItems xs with
        | [] => [e]
        | f :: ys =>
          if e.1.getEnd = f.1.getStart ∧ e.2 = f.2 then (⟨e.1.getStart, f.1.getEnd⟩, e.2) :: ys
          else e :: f :: ys := by
  cases hm : mergeEqualItems xs with
  | nil => simp only [mergeEqualItems, hm]
  | cons f ys => simp only [mergeEqualItems, hm]

theorem mergeEqualItems_start {xs : RangedValues T} :
    ∀ x ∈ mergeEqualItems xs, ∃ e ∈ xs, x.1.getStart = e.1.getStart := by
  induction xs with
  | nil => simp [mergeEqualItems]
  | cons e xs ih =>
    intro x hx
    rw [mergeEqualItems_cons] at hx
    cases hm : mergeEqualItems xs with
    | nil =>
      rw [hm] at hx
      rw [List.mem_singleton] at hx
      exact ⟨e, List.mem_cons_self _ _, by rw [hx]⟩
    | cons f ys =>
      rw [hm] at hx ih
      simp only at hx
      split at hx
      · rcases List.mem_cons.1 hx with h | h
        · exact ⟨e, List.mem_cons_self _ _, by rw [h]⟩
        · obtain ⟨e', he', hs⟩ := ih x (List.mem_cons_of_mem _ h)
          exact ⟨e', List.mem_cons_of_mem _ he', hs⟩
      · rcases List.mem_cons.1 hx with h | h
        · exact ⟨e, List.mem_cons_self _ _, by rw [h]⟩
        · obtain ⟨e', he', hs⟩ := ih x h
          exact ⟨e', List.mem_cons_of_mem _ he', hs⟩

theorem mergeEqualItems_ordered {xs : RangedValues T} (h : Ordered xs) :
    Ordered (mergeEqualItems xs) := by
  induction xs with
  | nil => simpa [mergeEqualItems] using h
  | cons e xs ih =>
    have hp := List.pairwise_cons.1 h.2
    have hxs : Ordered xs := ⟨fun x hx => h.1 x (List.mem_cons_of_mem _ hx), hp.2⟩
    have hne := h.1 e (List.mem_cons_self _ _)
    have ihx := ih hxs
    have hstart := @mergeEqualItems_start T _ xs
    rw [mergeEqualItems_cons]
    cases hm : mergeEqualItems xs with
    | nil =>
      exact ⟨fun x hx => by rw [List.mem_singleton] at hx; rw [hx]; exact hne,
        List.pairwise_singleton _ _⟩
    | cons f ys =>
      rw [hm] at ihx hstart
      have hpf := List.pairwise_cons.1 ihx.2
      have hfne := ihx.1 f (List.mem_cons_self _ _)
      have hafter : ∀ x ∈ f :: ys, e.1.getEnd ≤ x.1.getStart := by
        intro x hx
        obtain ⟨e', he', hs⟩ := hstart x hx
        rw [hs]
        exact hp.1 e' he'
      simp only
      split
      · rename_i hcond
        refine ⟨fun x hx => ?_, ?_⟩
        · rcases List.mem_cons.1 hx with h1 | h1
          · rw [h1]
            show e.1.getStart < f.1.getEnd
            omega
          · exact ihx.1 x (List.mem_cons_of_mem _ h1)
        · rw [List.pairwise_cons]
          exact ⟨fun y hy => hpf.1 y hy, hpf.2⟩
      · refine ⟨fun x hx => ?_, ?_⟩
        · rcases List.mem_cons.1 hx with h1 | h1
          · rw [h1]; exact hne
          · exact ihx.1 x h1
        · rw [List.pairwise_cons]
          exact ⟨hafter, ihx.2⟩

theorem mergeEqualItems_contains_iff {xs : RangedValues T} (h : Ordered xs) {i : Int} {w : T} :
    (∃ e ∈ mergeEqualItems xs, e.1.contains i = true ∧ e.2 = w)
      ↔ (∃ e ∈ xs, e.1.contains i = true ∧ e.2 = w) := by
  induction xs with
  | nil => simp [mergeEqualItems]
  | cons e xs ih =>
    have hp := List.pairwise_cons.1 h.2
    have hxs : Ordered xs := ⟨fun x hx => h.1 x (List.mem_cons_of_mem _ hx), hp.2⟩
    have hne := h.1 e (List.mem_cons_self _ _)
    have ihx := ih hxs
    have hord := mergeEqualItems_ordered hxs
    rw [mergeEqualItems_cons]
    cases hm : mergeEqualItems xs with
    | nil =>
      rw [hm] at ihx
      simp only [List.mem_cons, or_and_right, exists_or, exists_eq_left]
      rw [← ihx]
    | cons f ys =>
      rw [hm] at ihx hord
      have hfne := hord.1 f (List.mem_cons_self _ _)
      simp only
      split
      · rename_i hcond
        simp only [List.mem_cons, or_and_right, exists_or, exists_eq_left] at ihx ⊢
        rw [← ihx]
        constructor
        · rintro (⟨hc, hv⟩ | hy)
          · simp only [Range.contains, Bool.and_eq_true, decide_eq_true_eq] at hc
            by_cases hlt : i < e.1.getEnd
            · left
              refine ⟨?_, hv⟩
              simp only [Range.contains, Bool.and_eq_true, decide_eq_true_eq]
              omega
            · right; left
              refine ⟨?_, by rw [← hcond.2]; exact hv⟩
              simp only [Range.contains, Bool.and_eq_true, decide_eq_true_eq]
              omega
          · right; right; exact hy
        · rintro (⟨hc, hv⟩ | ⟨hc, hv⟩ | hy)
          · left
            simp only [Range.contains, Bool.and_eq_true, decide_eq_true_eq] at hc ⊢
            exact ⟨by omega, hv⟩
          · left
            simp only [Range.contains, Bool.and_eq_true, decide_eq_true_eq] at hc ⊢
            exact ⟨by omega, by rw [hcond.2]; exact hv⟩
          · right; exact hy
      · simp only [List.mem_cons, or_and_right, exists_or, exists_eq_left] at ihx ⊢
        rw [← ihx]

theorem set_ordered {xs : RangedValues T} {r : Range} {v : T}
    (hr : r.getStart ≤ r.getEnd) (h : Ordered xs) : Ordered (set xs r v) :=
  mergeEqualItems_ordered (setNoMerge_ordered hr h)

theorem set_contains_iff {r : Range} {v : T} {xs : RangedValues T} {i : Int} {w : T}
    (hr : r.getStart ≤ r.getEnd) (h : Ordered xs) :
    (∃ e ∈ set xs r v, e.1.contains i = true ∧ e.2 = w)
      ↔ ((r.contains i = true ∧ v = w)
          ∨ (r.contains i = false ∧ ∃ e ∈ xs, e.1.contains i = true ∧ e.2 = w)) := by
  unfold set
  rw [mergeEqualItems_contains_iff (setNoMerge_ordered hr h), setNoMerge_contains_iff hr]

end RangedValues

namespace RangedValues
variable {T : Type}

theorem valueAt_eq_some_iff {xs : RangedValues T} (h : Ordered xs) {i : Int} {w : T} :
    valueAt xs i = some w ↔ ∃ e ∈ xs, e.1.contains i = true ∧ e.2 = w := by
  unfold valueAt getItemWithEnclosingRange
  constructor
  · intro hv
    cases hf : xs.find? (fun e => e.1.contains i) with
    | none => rw [hf] at hv; simp at hv
    | some e =>
      rw [hf] at hv
      simp only [Option.map_some', Option.some.injEq] at hv
      exact ⟨e, List.mem_of_find?_eq_some hf, by simpa using List.find?_some hf, hv⟩
  · rintro ⟨e, he, hc, hv⟩
    cases hf : xs.find? (fun e => e.1.contains i) with
    | none =>
      rw [List.find?_eq_none] at hf
      have := hf e he
      simp [hc] at this
    | some e' =>
      have hc' : e'.1.contains i = true := by simpa using List.find?_some hf
      have he' := List.mem_of_find?_eq_some hf
      simp only [Option.map_some', Option.some.injEq]
      rw [Range_contains_iff] at hc hc'
      rcases h.eq_or_disjoint he he' with heq | hd | hd
      · rw [← heq]; exact hv
      · omega
      · omega

theorem valueAt_eq_none_iff {xs : RangedValues T} {i : Int} :
    valueAt xs i = none ↔ ∀ e ∈ xs, e.1.contains i = false := by
  unfold valueAt getItemWithEnclosingRange
  rw [Option.map_eq_none', List.find?_eq_none]
  simp

theorem valueAt_set [DecidableEq T] {xs : RangedValues T} (h : Ordered xs) {r : Range} {v : T}
    (hr : r.getStart ≤ r.getEnd) (i : Int) :
    valueAt (set xs r v) i = if r.contains i = true then some v else valueAt xs i := by
  have ho := set_ordered (v := v) hr h
  apply Option.ext
  intro w
  simp only [Option.mem_def]
  rw [valueAt_eq_some_iff ho, set_contains_iff hr h]
  by_cases hc : r.contains i = true
  · rw [if_pos hc]
    simp [hc]
  · rw [if_neg hc, valueAt_eq_some_iff h]
    simp only [Bool.not_eq_true] at hc
    simp [hc]

theorem Covers.set [DecidableEq T] {xs : RangedValues T} {a b : Int} (h : Ordered xs)
    (hc : Covers xs a b) {r : Range} {v : T} (hr : r.getStart ≤ r.getEnd)
    (hin : r.getStart < r.getEnd → a ≤ r.getStart ∧ r.getEnd ≤ b) :
    Covers (RangedValues.set xs r v) a b := by
  intro i
  have key : (∃ e ∈ RangedValues.set xs r v, e.1.contains i = true)
      ↔ (r.contains i = true ∨ ∃ e ∈ xs, e.1.contains i = true) := by
    constructor
    · rintro ⟨e, he, hce⟩
      rcases (set_contains_iff hr h).1 ⟨e, he, hce, rfl⟩ with ⟨h1, _⟩ | ⟨_, e', he', hc', _⟩
      · exact Or.inl h1
      · exact Or.inr ⟨e', he', hc'⟩
    · rintro (h1 | ⟨e', he', hc'⟩)
      · obtain ⟨e, he, hce, _⟩ := (set_contains_iff (w := v) hr h).2 (Or.inl ⟨h1, rfl⟩)
        exact ⟨e, he, hce⟩
      · by_cases h1 : r.contains i = true
        · obtain ⟨e, he, hce, _⟩ := (set_contains_iff (w := v) hr h).2 (Or.inl ⟨h1, rfl⟩)
          exact ⟨e, he, hce⟩
        · simp only [Bool.not_eq_true] at h1
          obtain ⟨e, he, hce, _⟩ := (set_contains_iff (w := e'.2) (v := v) hr h).2
            (Or.inr ⟨h1, e', he', hc', rfl⟩)
          exact ⟨e, he, hce⟩
  rw [key, hc i]
  constructor
  · rintro (h1 | h1)
    · rw [Range_contains_iff] at h1
      have := hin (by omega)
      omega
    · exact h1
  · intro h1
    exact Or.inr h1

end RangedValues

theorem IsPartition.ordered_covers {T : Type} {xs : List (Range × T)} :
    ∀ {a b : Int}, IsPartition a b xs →
      RangedValues.Ordered xs ∧ RangedValues.Covers xs a b ∧ a ≤ b := by
  induction xs with
  | nil =>
    intro a b h
    simp only [IsPartition] at h
    refine ⟨⟨fun e he => by simp at he, List.Pairwise.nil⟩, fun i => ?_, by omega⟩
    simp only [List.not_mem_nil, false_and, exists_false, false_iff]
    omega
  | cons e rest ih =>
    intro a b h
    simp only [IsPartition] at h
    obtain ⟨h1, h2, h3⟩ := h
    obtain ⟨ho, hc, hab⟩ := ih h3
    refine ⟨⟨fun x hx => ?_, ?_⟩, fun i => ?_, by omega⟩
    · rcases List.mem_cons.1 hx with rfl | hx
      · exact h2
      · exact ho.1 x hx
    · rw [List.pairwise_cons]
      refine ⟨fun y hy => ?_, ho.2⟩
      have hy1 := ho.1 y hy
      have := (hc y.1.getStart).1 ⟨y, hy, by rw [RangedValues.Range_contains_iff]; omega⟩
      omega
    · simp only [List.mem_cons, or_and_right, exists_or, exists_eq_left]
      rw [hc i, RangedValues.Range_contains_iff]
      omega

theorem IsPartition.of_ordered_covers {T : Type} {xs : List (Range × T)} :
    ∀ {a b : Int}, RangedValues.Ordered xs → RangedValues.Covers xs a b → a ≤ b →
      IsPartition a b xs := by
  induction xs with
  | nil =>
    intro a b _ hc hab
    simp only [IsPartition]
    have := (hc a)
    simp only [List.not_mem_nil, false_and, exists_false, false_iff] at this
    omega
  | cons e rest ih =>
    intro a b ho hc hab
    have hp := List.pairwise_cons.1 ho.2
    have hrest : RangedValues.Ordered rest :=
      ⟨fun x hx => ho.1 x (List.mem_cons_of_mem _ hx), hp.2⟩
    have hne := ho.1 e (List.mem_cons_self _ _)
    have hs := (hc e.1.getStart).1 ⟨e, List.mem_cons_self _ _,
      by rw [RangedValues.Range_contains_iff]; omega⟩
    have hl := (hc (e.1.getEnd - 1)).1 ⟨e, List.mem_cons_self _ _,
      by rw [RangedValues.Range_contains_iff]; omega⟩
    have hstart : e.1.getStart = a := by
      obtain ⟨e', he', hc'⟩ := (hc a).2 ⟨le_refl _, by omega⟩
      rw [RangedValues.Range_contains_iff] at hc'
      rcases List.mem_cons.1 he' with rfl | he'
      · omega
      · have := hp.1 e' he'
        omega
    simp only [IsPartition]
    refine ⟨hstart, hne, ih hrest (fun i => ?_) (by omega)⟩
    constructor
    · rintro ⟨x, hx, hcx⟩
      have h1 := (hc i).1 ⟨x, List.mem_cons_of_mem _ hx, hcx⟩
      rw [RangedValues.Range_contains_iff] at hcx
      have := hp.1 x hx
      omega
    · intro hi
      obtain ⟨x, hx, hcx⟩ := (hc i).2 ⟨by omega, hi.2⟩
      rcases List.mem_cons.1 hx with rfl | hx
      · rw [RangedValues.Range_contains_iff] at hcx
        omega
      · exact ⟨x, hx, hcx⟩


open RangedValues

/-- A sequence of `set` calls: every position keeps its value or gets the value of one of
the calls whose range contains it. -/
theorem foldl_set_spec {T : Type} [DecidableEq T] (n : Int) (as : List (Range × T)) :
    ∀ (xs : RangedValues T), Ordered xs → Covers xs 0 n →
      (∀ a ∈ as, a.1.getStart ≤ a.1.getEnd
        ∧ (a.1.getStart < a.1.getEnd → 0 ≤ a.1.getStart ∧ a.1.getEnd ≤ n)) →
      Ordered (as.foldl (fun fs a => RangedValues.set fs a.1 a.2) xs)
      ∧ Covers (as.foldl (fun fs a => RangedValues.set fs a.1 a.2) xs) 0 n
      ∧ ∀ i : Int,
          ((∀ a ∈ as, a.1.contains i = false)
            ∧ valueAt (as.foldl (fun fs a => RangedValues.set fs a.1 a.2) xs) i = valueAt xs i)
          ∨ (∃ a ∈ as, a.1.contains i = true
            ∧ valueAt (as.foldl (fun fs a => RangedValues.set fs a.1 a.2) xs) i = some a.2) := by
  induction as with
  | nil =>
    intro xs ho hc _
    exact ⟨ho, hc, fun i => Or.inl ⟨fun a ha => by simp at ha, rfl⟩⟩
  | cons a rest ih =>
    intro xs ho hc hall
    have ha := hall a (List.mem_cons_self _ _)
    have ho1 : Ordered (RangedValues.set xs a.1 a.2) := set_ordered ha.1 ho
    have hc1 : Covers (RangedValues.set xs a.1 a.2) 0 n := hc.set ho ha.1 ha.2
    obtain ⟨r1, r2, r3⟩ := ih _ ho1 hc1 (fun b hb => hall b (List.mem_cons_of_mem _ hb))
    rw [List.foldl_cons]
    refine ⟨r1, r2, fun i => ?_⟩
    rcases r3 i with ⟨h1, h2⟩ | ⟨b, hb, hbc, hbv⟩
    · rw [valueAt_set ho ha.1] at h2
      by_cases hac : a.1.contains i = true
      · right
        rw [if_pos hac] at h2
        exact ⟨a, List.mem_cons_self _ _, hac, h2⟩
      · left
        rw [if_neg hac] at h2
        simp only [Bool.not_eq_true] at hac
        refine ⟨fun c hc' => ?_, h2⟩
        rcases List.mem_cons.1 hc' with rfl | hc'
        · exact hac
        · exact h1 c hc'
    · right
      exact ⟨b, List.mem_cons_of_mem _ hb, hbc, hbv⟩

theorem positions_eq_range' (r : Range) (h0 : 0 ≤ r.getStart) :
    r.positions = (List.range' r.getStart.toNat r.getLength.toNat).map (fun (k : Nat) => (k : Int)) := by
  unfold Range.positions
  rw [List.range'_eq_map_range, List.map_map]
  apply List.map_congr_left
  intro k _
  simp only [Function.comp]
  omega

theorem mem_positions {r : Range} {i : Int} :
    i ∈ r.positions ↔ r.getStart ≤ i ∧ i < r.getEnd := by
  unfold Range.positions Range.getLength
  rw [List.mem_map]
  constructor
  · rintro ⟨k, hk, rfl⟩
    rw [List.mem_range] at hk
    omega
  · intro h
    refine ⟨(i - r.getStart).toNat, ?_, by omega⟩
    rw [List.mem_range]
    omega

theorem positions_append {a b c : Int} (hab : a ≤ b) (hbc : b ≤ c) :
    (⟨a, c⟩ : Range).positions = (⟨a, b⟩ : Range).positions ++ (⟨b, c⟩ : Range).positions := by
  unfold Range.positions Range.getLength
  simp only
  have h1 : (c - a).toNat = (b - a).toNat + (c - b).toNat := by omega
  rw [h1, List.range_add, List.map_append, List.map_map]
  congr 1
  apply List.map_congr_left
  intro k _
  simp only [Function.comp]
  omega

theorem markRange_spec (fb : FontFallback) (text : List Nat) (f : Option Font) (n : Nat) :
    ∀ (it : Nat) (acc : List Int),
      markRange fb text f ((List.range' it n).map (fun (k : Nat) => (k : Int))) it acc
        = (acc ++ ((List.range' it n).map (fun (k : Nat) => (k : Int))).filter
            (fun i => match f with
              | some g => fb.isFontSuitableForCodepoint g (text.getD i.toNat 0) == false
              | none => false),
           it + n) := by
  induction n with
  | zero => intro it acc; simp [markRange]
  | succ n ih =>
    intro it acc
    rw [List.range'_succ, List.map_cons]
    cases f with
    | none =>
      simp only [markRange]
      rw [ih]
      simp
      omega
    | some g =>
      simp only [markRange]
      rw [ih]
      simp only [List.filter_cons, Int.toNat_ofNat]
      refine Prod.ext ?_ (by simp only; omega)
      simp only
      by_cases hs : fb.isFontSuitableForCodepoint g (text.getD it 0) = false
      · simp only [hs, if_true, beq_self_eq_true, List.append_assoc, List.singleton_append]
      · simp only [Bool.not_eq_false] at hs
        simp only [hs, Bool.true_eq_false, if_false, beq_iff_eq]


open RangedValues

theorem markRanges_spec_aux (fb : FontFallback) (text : List Nat)
    (val : Int → Option (Option Font)) (b : Int) :
    ∀ (xs : List (Range × Option Font)) (a : Int) (acc : List Int),
      IsPartition a b xs → 0 ≤ a →
      (∀ e ∈ xs, ∀ i, e.1.contains i = true → val i = some e.2) →
      markRanges fb text xs a.toNat acc
        = acc ++ (Range.positions ⟨a, b⟩).filter (fun i =>
            match val i with
            | some (some g) => fb.isFontSuitableForCodepoint g (text.getD i.toNat 0) == false
            | _ => false) := by
  intro xs
  induction xs with
  | nil =>
    intro a acc hp _ _
    simp only [IsPartition] at hp
    subst hp
    simp [markRanges, Range.positions, Range.getLength]
  | cons e rest ih =>
    intro a acc hp h0 hval
    simp only [IsPartition] at hp
    obtain ⟨h1, h2, h3⟩ := hp
    have hle := (IsPartition.ordered_covers h3).2.2
    have he0 : 0 ≤ e.1.getStart := by omega
    rw [markRanges, positions_eq_range' e.1 he0]
    have hit : a.toNat = e.1.getStart.toNat := by rw [h1]
    rw [hit, markRange_spec]
    simp only
    have hend : e.1.getStart.toNat + e.1.getLength.toNat = e.1.getEnd.toNat := by
      unfold Range.getLength; omega
    rw [hend, ih e.1.getEnd _ h3 (by omega)
      (fun x hx i hi => hval x (List.mem_cons_of_mem _ hx) i hi)]
    rw [positions_append (a := a) (b := e.1.getEnd) (c := b) (by omega) hle, List.filter_append,
      List.append_assoc]
    congr 2
    rw [← positions_eq_range' e.1 he0]
    have hrange : (⟨a, e.1.getEnd⟩ : Range) = e.1 := by rw [← h1]
    rw [hrange]
    apply List.filter_congr
    intro i hi
    rw [mem_positions] at hi
    rw [hval e (List.mem_cons_self _ _) i (by rw [Range_contains_iff]; exact hi)]
    cases e.2 <;> rfl

theorem markRanges_spec (fb : FontFallback) (text : List Nat)
    (fonts : RangedValues (Option Font)) (ho : Ordered fonts)
    (hc : Covers fonts 0 (text.length : Int)) :
    markRanges fb text fonts 0 []
      = (Range.positions ⟨0, (text.length : Int)⟩).filter (fontMissingAt fb text fonts) := by
  have hp := IsPartition.of_ordered_covers ho hc (Int.ofNat_nonneg _)
  have := markRanges_spec_aux fb text (valueAt fonts) (text.length : Int) fonts 0 [] hp
    (le_refl _) (fun e he i hi => (valueAt_eq_some_iff ho).2 ⟨e, he, hi, rfl⟩)
  simp only [Int.toNat_zero, List.nil_append] at this
  rw [this]
  apply List.filter_congr
  intro i _
  unfold fontMissingAt
  rfl


open RangedValues

theorem fontMissingAt_iff (fb : FontFallback) (text : List Nat)
    (fonts : RangedValues (Option Font)) (i : Int) :
    fontMissingAt fb text fonts i = true
      ↔ ∃ g, valueAt fonts i = some (some g)
          ∧ fb.isFontSuitableForCodepoint g (text.getD i.toNat 0) = false := by
  unfold fontMissingAt
  cases hv : valueAt fonts i with
  | none => simp
  | some o =>
    cases o with
    | none => simp
    | some g => simp

/-- The lambda `markMissingGlyphs` on fonts that partition the text and have a font
everywhere. -/
theorem markMissingGlyphs_spec (fb : FontFallback) (text : List Nat)
    (fonts : RangedValues (Option Font)) (ho : Ordered fonts)
    (hc : Covers fonts 0 (text.length : Int))
    (hsome : ∀ i, valueAt fonts i ≠ some none)
    (hok : ∀ (i : Int) (g : Font), valueAt fonts i = some (some g) →
      fontMissingAt fb text fonts i = false →
      fb.isFontSuitableForCodepoint g (text.getD i.toNat 0) = true) :
    (markMissingGlyphs fb text fonts).2
        = ((Range.positions ⟨0, (text.length : Int)⟩).filter
            (fontMissingAt fb text fonts)).length
    ∧ FontsResolved fb text (markMissingGlyphs fb text fonts).1
        (markMissingGlyphs fb text fonts).2 := by
  have hlist := markRanges_spec fb text fonts ho hc
  have hfold : (markMissingGlyphs fb text fonts).1
      = ((markRanges fb text fonts 0 []).map
          (fun i => ((Range.make i (i + 1), none) : Range × Option Font))).foldl
          (fun fs a => RangedValues.set fs a.1 a.2) fonts := by
    unfold markMissingGlyphs
    rw [List.foldl_map]
  have hmk : ∀ i : Int, Range.make i (i + 1) = ⟨i, i + 1⟩ := by
    intro i
    unfold Range.make
    congr 1
    omega
  obtain ⟨r1, r2, r3⟩ := foldl_set_spec (text.length : Int)
    ((markRanges fb text fonts 0 []).map
      (fun i => ((Range.make i (i + 1), none) : Range × Option Font))) fonts ho hc (by
        intro a ha
        rw [List.mem_map] at ha
        obtain ⟨i, hi, rfl⟩ := ha
        rw [hlist] at hi
        have := (mem_positions.1 (List.mem_of_mem_filter hi))
        simp only [hmk] at this ⊢
        omega)
  rw [← hfold] at r1 r2 r3
  -- the value at every position after the marking
  have hval : ∀ i : Int, valueAt (markMissingGlyphs fb text fonts).1 i
      = if i ∈ markRanges fb text fonts 0 [] then some none else valueAt fonts i := by
    intro i
    rcases r3 i with ⟨h1, h2⟩ | ⟨a, ha, hac, hav⟩
    · have hni : i ∉ markRanges fb text fonts 0 [] := by
        intro hi
        have := h1 (Range.make i (i + 1), none) (List.mem_map.2 ⟨i, hi, rfl⟩)
        simp only [hmk, Range.contains] at this
        simp at this
      rw [if_neg hni, h2]
    · rw [List.mem_map] at ha
      obtain ⟨j, hj, rfl⟩ := ha
      simp only [hmk, Range_contains_iff] at hac
      have hij : i = j := by omega
      subst hij
      rw [if_pos hj, hav]
  have hmem : ∀ i : Int, i ∈ markRanges fb text fonts 0 []
      ↔ (i ∈ Range.positions ⟨0, (text.length : Int)⟩ ∧ fontMissingAt fb text fonts i = true) := by
    intro i
    rw [hlist, List.mem_filter]
  refine ⟨by unfold markMissingGlyphs; rw [hlist], r1, r2, ?_, ?_⟩
  · intro i g hv
    rw [hval i] at hv
    split at hv
    · simp at hv
    · rename_i hni
      apply hok i g hv
      by_contra hm
      simp only [Bool.not_eq_false] at hm
      -- a position that holds a font lies in the text
      have hpos : i ∈ Range.positions ⟨0, (text.length : Int)⟩ := by
        obtain ⟨e, he, hce, _⟩ := (valueAt_eq_some_iff ho).1 hv
        exact mem_positions.2 ((hc i).1 ⟨e, he, hce⟩)
      exact hni ((hmem i).2 ⟨hpos, hm⟩)
  · have h2 : (markMissingGlyphs fb text fonts).2
        = ((Range.positions ⟨0, (text.length : Int)⟩).filter
            (fontMissingAt fb text fonts)).length := by
      unfold markMissingGlyphs; rw [hlist]
    rw [h2]
    congr 1
    apply List.filter_congr
    intro i hi
    rw [hval i]
    by_cases hm : fontMissingAt fb text fonts i = true
    · rw [if_pos ((hmem i).2 ⟨hi, hm⟩), hm]
      simp
    · have hni : i ∉ markRanges fb text fonts 0 [] := fun h => hm ((hmem i).1 h).2
      rw [if_neg hni]
      simp only [Bool.not_eq_true] at hm
      rw [hm]
      have := hsome i
      simp [this]


open RangedValues

theorem collectChanges_spec (fb : FontFallback) (text : List Nat) :
    ∀ (xs : List (Range × Option Font)) (calls : Nat) (acc : List (Range × Font)),
      ∃ L, (collectChanges fb text xs calls acc).1 = acc ++ L
        ∧ (∀ c ∈ L, ∃ e ∈ xs, e.2 = none ∧ c.1 = e.1)
        ∧ (∀ e ∈ xs, e.2 = none → ∃ c ∈ L, c.1 = e.1) := by
  intro xs
  induction xs with
  | nil =>
    intro calls acc
    exact ⟨[], by simp [collectChanges], fun c hc => by simp at hc, fun e he => by simp at he⟩
  | cons e rest ih =>
    intro calls acc
    cases hv : e.2 with
    | none =>
      obtain ⟨L, h1, h2, h3⟩ := ih (calls + 1)
        (acc ++ [(e.1, fb.findSuitableFontForText calls
          ((text.drop e.1.getStart.toNat).take (e.1.getEnd.toNat - e.1.getStart.toNat)))])
      refine ⟨(e.1, fb.findSuitableFontForText calls
          ((text.drop e.1.getStart.toNat).take (e.1.getEnd.toNat - e.1.getStart.toNat))) :: L,
        ?_, ?_, ?_⟩
      · simp only [collectChanges, hv]
        rw [h1, List.append_assoc]
        rfl
      · intro c hc
        rcases List.mem_cons.1 hc with rfl | hc
        · exact ⟨e, List.mem_cons_self _ _, hv, rfl⟩
        · obtain ⟨e', he', hx⟩ := h2 c hc
          exact ⟨e', List.mem_cons_of_mem _ he', hx⟩
      · intro e' he' hn
        rcases List.mem_cons.1 he' with rfl | he'
        · exact ⟨_, List.mem_cons_self _ _, rfl⟩
        · obtain ⟨c, hc, hx⟩ := h3 e' he' hn
          exact ⟨c, List.mem_cons_of_mem _ hc, hx⟩
    | some g =>
      obtain ⟨L, h1, h2, h3⟩ := ih calls acc
      refine ⟨L, ?_, ?_, ?_⟩
      · simp only [collectChanges, hv]
        exact h1
      · intro c hc
        obtain ⟨e', he', hx⟩ := h2 c hc
        exact ⟨e', List.mem_cons_of_mem _ he', hx⟩
      · intro e' he' hn
        rcases List.mem_cons.1 he' with rfl | he'
        · rw [hv] at hn; exact Option.noConfusion hn
        · exact h3 e' he' hn

/-- One pass of the loop of `findSuitableFontsForText` keeps the invariant and does not
raise the number of missing glyphs. -/
theorem fallbackPass_spec (fb : FontFallback) (text : List Nat) (calls : Nat)
    (fonts : RangedValues (Option Font)) (m : Nat) (h : FontsResolved fb text fonts m) :
    FontsResolved fb text (fallbackPass fb text calls fonts).1.1
        (fallbackPass fb text calls fonts).1.2
    ∧ (fallbackPass fb text calls fonts).1.2 ≤ m := by
  obtain ⟨ho, hc, hok, hm⟩ := h
  obtain ⟨L, hL, hL1, hL2⟩ := collectChanges_spec fb text fonts calls []
  rw [List.nil_append] at hL
  -- the fonts after the changes have been applied
  have hfold : (L.foldl (fun fs c => RangedValues.set fs c.1 (some c.2)) fonts)
      = (L.map (fun c => ((c.1, some c.2) : Range × Option Font))).foldl
          (fun fs a => RangedValues.set fs a.1 a.2) fonts := by
    rw [List.foldl_map]
  obtain ⟨r1, r2, r3⟩ := foldl_set_spec (text.length : Int)
    (L.map (fun c => ((c.1, some c.2) : Range × Option Font))) fonts ho hc (by
      intro a ha
      rw [List.mem_map] at ha
      obtain ⟨c, hcL, rfl⟩ := ha
      obtain ⟨e, he, _, hce⟩ := hL1 c hcL
      simp only [hce]
      have hne := ho.1 e he
      refine ⟨le_of_lt hne, fun _ => ?_⟩
      have h1 := (hc e.1.getStart).1 ⟨e, he, by rw [Range_contains_iff]; omega⟩
      have h2 := (hc (e.1.getEnd - 1)).1 ⟨e, he, by rw [Range_contains_iff]; omega⟩
      omega)
  rw [← hfold] at r1 r2 r3
  have hG : ∀ i : Int,
      (valueAt fonts i ≠ some none →
        valueAt (L.foldl (fun fs c => RangedValues.set fs c.1 (some c.2)) fonts) i
          = valueAt fonts i)
      ∧ valueAt (L.foldl (fun fs c => RangedValues.set fs c.1 (some c.2)) fonts) i
          ≠ some none := by
    intro i
    rcases r3 i with ⟨h1, h2⟩ | ⟨a, ha, hac, hav⟩
    · refine ⟨fun _ => h2, fun hn => ?_⟩
      rw [h2] at hn
      obtain ⟨e, he, hce, hv⟩ := (valueAt_eq_some_iff ho).1 hn
      obtain ⟨c, hcL, hcr⟩ := hL2 e he hv
      have := h1 (c.1, some c.2) (List.mem_map.2 ⟨c, hcL, rfl⟩)
      simp only [hcr] at this
      rw [hce] at this
      exact Bool.noConfusion this
    · rw [List.mem_map] at ha
      obtain ⟨c, hcL, rfl⟩ := ha
      refine ⟨fun hne => ?_, fun hn => ?_⟩
      · exfalso
        obtain ⟨e, he, hv, hce⟩ := hL1 c hcL
        simp only [hce] at hac
        exact hne ((valueAt_eq_some_iff ho).2 ⟨e, he, hac, hv⟩)
      · rw [hav] at hn
        simp at hn
  have hpass : fallbackPass fb text calls fonts
      = (markMissingGlyphs fb text
          (L.foldl (fun fs c => RangedValues.set fs c.1 (some c.2)) fonts),
         (collectChanges fb text fonts calls []).2) := by
    unfold fallbackPass
    rw [hL]
  rw [hpass]
  obtain ⟨k1, k2⟩ := markMissingGlyphs_spec fb text _ r1 r2 (fun i => (hG i).2) (by
    intro i g hv hmiss
    by_contra hcon
    simp only [Bool.not_eq_true] at hcon
    have := (fontMissingAt_iff fb text _ i).2 ⟨g, hv, hcon⟩
    rw [hmiss] at this
    exact Bool.noConfusion this)
  refine ⟨k2, ?_⟩
  simp only
  rw [k1, hm]
  -- a position that misses its font after the changes had no font before
  apply List.Sublist.length_le
  apply List.monotone_filter_right
  intro i hi
  obtain ⟨g, hv, hbad⟩ := (fontMissingAt_iff fb text _ i).1 hi
  simp only [decide_eq_true_eq]
  by_contra hne
  rw [(hG i).1 hne] at hv
  have := hok i g hv
  rw [hbad] at this
  exact Bool.noConfusion this


open RangedValues

theorem fallbackLoop_spec (fb : FontFallback) (text : List Nat) (m0 : Nat) :
    ∀ (fuel m calls : Nat) (fonts : RangedValues (Option Font)) (history : List Nat),
      FontsResolved fb text fonts m → m + 1 ≤ fuel →
      (∀ a ∈ history, m ≤ a) → history.Pairwise (fun a b => b ≤ a) →
      history.length + m ≤ m0 + 1 →
      ∃ fonts1 history1, fallbackLoop fb text fuel m calls fonts history
          = some (fonts1, history1)
        ∧ (∃ m1, FontsResolved fb text fonts1 m1)
        ∧ history1.Pairwise (fun a b => b ≤ a)
        ∧ history1.length ≤ m0 + 1
        ∧ history <+: history1 := by
  intro fuel
  induction fuel with
  | zero => intro m _ _ _ _ hf; omega
  | succ f ih =>
    intro m calls fonts history hinv hf hall hsorted hlen
    obtain ⟨p1, p2⟩ := fallbackPass_spec fb text calls fonts m hinv
    have happ : (history ++ [(fallbackPass fb text calls fonts).1.2]).Pairwise
        (fun a b => b ≤ a) := by
      rw [List.pairwise_append]
      refine ⟨hsorted, List.pairwise_singleton _ _, fun a ha b hb => ?_⟩
      rw [List.mem_singleton] at hb
      rw [hb]
      exact le_trans p2 (hall a ha)
    rw [fallbackLoop]
    by_cases hm : 0 < m
    · rw [if_pos hm]
      by_cases heq : m = (fallbackPass fb text calls fonts).1.2
      · rw [if_pos heq]
        refine ⟨_, _, rfl, ⟨_, p1⟩, happ, ?_, List.prefix_append _ _⟩
        rw [List.length_append, List.length_singleton]
        omega
      · rw [if_neg heq]
        obtain ⟨fonts1, history1, e1, e2, e3, e4, e5⟩ := ih (fallbackPass fb text calls fonts).1.2
          (fallbackPass fb text calls fonts).2 (fallbackPass fb text calls fonts).1.1
          (history ++ [(fallbackPass fb text calls fonts).1.2]) p1 (by omega)
          (by
            intro a ha
            rcases List.mem_append.1 ha with ha | ha
            · exact le_trans p2 (hall a ha)
            · rw [List.mem_singleton] at ha; omega)
          happ
          (by rw [List.length_append, List.length_singleton]; omega)
        exact ⟨fonts1, history1, e1, e2, e3, e4,
          (List.prefix_append _ _).trans e5⟩
    · rw [if_neg hm]
      exact ⟨fonts, history, rfl, ⟨m, hinv⟩, hsorted, by omega, List.prefix_refl _⟩

theorem make_zero_length (n : Nat) : Range.make 0 (n : Int) = ⟨0, (n : Int)⟩ := by
  unfold Range.make
  rw [max_eq_right (Int.ofNat_nonneg _)]

theorem initialFonts_spec (font : Font) (text : List Nat) :
    Ordered (RangedValues.set ([] : RangedValues (Option Font))
      (Range.make 0 (text.length : Int)) (some font))
    ∧ Covers (RangedValues.set ([] : RangedValues (Option Font))
      (Range.make 0 (text.length : Int)) (some font)) 0 (text.length : Int)
    ∧ ∀ i, valueAt (RangedValues.set ([] : RangedValues (Option Font))
        (Range.make 0 (text.length : Int)) (some font)) i
        = if (⟨0, (text.length : Int)⟩ : Range).contains i = true then some (some font)
          else none := by
  have hnil : Ordered ([] : RangedValues (Option Font)) :=
    ⟨fun e he => by simp at he, List.Pairwise.nil⟩
  have hr : (Range.make 0 (text.length : Int)).getStart
      ≤ (Range.make 0 (text.length : Int)).getEnd := by
    rw [make_zero_length]; exact Int.ofNat_nonneg _
  refine ⟨set_ordered hr hnil, fun i => ?_, fun i => ?_⟩
  · constructor
    · rintro ⟨e, he, hce⟩
      rcases (set_contains_iff hr hnil).1 ⟨e, he, hce, rfl⟩ with ⟨h1, _⟩ | ⟨_, e', he', _⟩
      · rw [make_zero_length, Range_contains_iff] at h1
        exact h1
      · simp at he'
    · intro hi
      obtain ⟨e, he, hce, _⟩ := (set_contains_iff (w := some font) hr hnil).2
        (Or.inl ⟨by rw [make_zero_length, Range_contains_iff]; exact hi, rfl⟩)
      exact ⟨e, he, hce⟩
  · rw [valueAt_set hnil hr, make_zero_length]
    rfl

/-- The fonts held when `findSuitableFontsForText` reaches `getResult`. -/
theorem resolveFonts_spec (fb : FontFallback) (font : Font) (text : List Nat) :
    ∃ fonts history, resolveFonts fb font text = some (fonts, history)
      ∧ Ordered fonts ∧ Covers fonts 0 (text.length : Int)
      ∧ (∀ (i : Int) (g : Font), valueAt fonts i = some (some g) →
          fb.isFontSuitableForCodepoint g (text.getD i.toNat 0) = true ∨ g = font)
      ∧ history.Pairwise (fun a b => b ≤ a)
      ∧ history.length - 1 ≤ history.headD 0 := by
  obtain ⟨i1, i2, i3⟩ := initialFonts_spec font text
  unfold resolveFonts
  by_cases hfb : fb.fallbackEnabled = false
  · rw [if_pos hfb]
    refine ⟨_, _, rfl, i1, i2, ?_, List.Pairwise.nil, by simp⟩
    intro i g hv
    rw [i3 i] at hv
    split at hv
    · simp only [Option.some.injEq] at hv
      exact Or.inr hv.symm
    · exact Option.noConfusion hv
  · rw [if_neg hfb]
    obtain ⟨k1, k2⟩ := markMissingGlyphs_spec fb text _ i1 i2
      (fun i => by rw [i3 i]; split <;> simp)
      (by
        intro i g hv hmiss
        by_contra hcon
        simp only [Bool.not_eq_true] at hcon
        have := (fontMissingAt_iff fb text _ i).2 ⟨g, hv, hcon⟩
        rw [hmiss] at this
        exact Bool.noConfusion this)
    obtain ⟨fonts1, history1, e1, ⟨m1, e2⟩, e3, e4, e5⟩ := fallbackLoop_spec fb text
      (markMissingGlyphs fb text (RangedValues.set [] (Range.make 0 (text.length : Int))
        (some font))).2 _ _ 0 _
      [(markMissingGlyphs fb text (RangedValues.set [] (Range.make 0 (text.length : Int))
        (some font))).2] k2 (le_refl _)
      (by intro a ha; rw [List.mem_singleton] at ha; omega)
      (List.pairwise_singleton _ _) (by simp only [List.length_singleton]; omega)
    refine ⟨fonts1, history1, e1, e2.1, e2.2.1, fun i g hv => Or.inl (e2.2.2.1 i g hv), e3, ?_⟩
    obtain ⟨t, ht⟩ := e5
    rw [← ht]
    simp only [List.singleton_append, List.headD_cons]
    rw [← ht] at e4
    simp only [List.singleton_append] at e4
    omega


open RangedValues

/-- C12: `findSuitableFontsForText` terminates. For every text, every base font and every
behaviour of the can-render test and of the fallback search (which is given the number of
earlier calls and so may answer differently each time), the loop ends within its step
budget; the successive values of `numMissingGlyphs` never increase; and the number of
passes is at most the value after the first scan. -/
theorem findSuitableFontsForText_terminates (fb : FontFallback) (font : Font)
    (text : List Nat) :
    ∃ fonts history, resolveFonts fb font text = some (fonts, history)
      ∧ history.Pairwise (fun a b => b ≤ a)
      ∧ history.length - 1 ≤ history.headD 0 := by
  obtain ⟨fonts, history, h1, _, _, _, h5, h6⟩ := resolveFonts_spec fb font text
  exact ⟨fonts, history, h1, h5, h6⟩

theorem mem_getResult {fonts : RangedValues (Option Font)} {font : Font} {e : Range × Option Font}
    (he : e ∈ fonts) : (e.1, e.2.getD font) ∈ getResult fonts font :=
  List.mem_map.2 ⟨e, he, rfl⟩

/-- C13: the fonts returned by `findSuitableFontsForText`. For every text, base font and
behaviour of the fallback, the function returns, and every codepoint of the text lies in a
returned range whose font can render that codepoint or is the base font: positions left
without a font when the fallback is exhausted get the base font from `value_or`. -/
theorem findSuitableFontsForText_suitable_or_base (fb : FontFallback) (font : Font)
    (text : List Nat) :
    ∃ result, findSuitableFontsForText fb font text = some result
      ∧ ∀ i : Nat, i < text.length →
          ∃ e ∈ result, e.1.contains (i : Int) = true
            ∧ (fb.isFontSuitableForCodepoint e.2 (text.getD i 0) = true ∨ e.2 = font) := by
  obtain ⟨fonts, history, h1, h2, h3, h4, _, _⟩ := resolveFonts_spec fb font text
  refine ⟨getResult fonts font, by unfold findSuitableFontsForText; rw [h1]; rfl, ?_⟩
  intro i hi
  obtain ⟨e, he, hce⟩ := (h3 (i : Int)).2 ⟨Int.ofNat_nonneg _, by omega⟩
  refine ⟨_, mem_getResult he, hce, ?_⟩
  cases hv : e.2 with
  | none => right; rfl
  | some g =>
    have := h4 (i : Int) g ((valueAt_eq_some_iff h2).2 ⟨e, he, hce, hv⟩)
    simpa using this

/-- C14: with fallback disabled for the base font, `findSuitableFontsForText` returns, for
every non-empty text, the single item that maps `[0, length)` to the base font, whatever
the can-render test and the fallback search would answer. -/
theorem findSuitableFontsForText_fallback_disabled (fb : FontFallback) (font : Font)
    (text : List Nat) (hfb : fb.fallbackEnabled = false) (hne : text ≠ []) :
    findSuitableFontsForText fb font text = some [(⟨0, (text.length : Int)⟩, font)] := by
  have hlen : (0 : Int) < (text.length : Int) := by
    have := List.length_pos.2 hne
    omega
  unfold findSuitableFontsForText resolveFonts
  rw [if_pos hfb, make_zero_length]
  have hset : RangedValues.set ([] : RangedValues (Option Font)) ⟨0, (text.length : Int)⟩
      (some font) = [(⟨0, (text.length : Int)⟩, some font)] := by
    unfold RangedValues.set
    rw [setNoMerge_of_nonempty hlen]
    simp [erase, insertItem, mergeEqualItems]
  rw [hset]
  rfl

/-- Witness of C14: a text of three codepoints with fallback disabled. -/
theorem findSuitableFontsForText_fallback_disabled_witness :
    findSuitableFontsForText sampleNoFallback 7 [97, 0x4e2d, 98] = some [(⟨0, 3⟩, 7)] :=
  findSuitableFontsForText_fallback_disabled sampleNoFallback 7 [97, 0x4e2d, 98]
    (by decide) (by decide)

theorem IsPartition.map_fst {T U : Type} (f : Range × T → U) :
    ∀ {xs : List (Range × T)} {a b : Int}, IsPartition a b xs →
      IsPartition a b (xs.map (fun e => (e.1, f e))) := by
  intro xs
  induction xs with
  | nil => intro a b h; exact h
  | cons e rest ih =>
    intro a b h
    simp only [IsPartition, List.map_cons] at h ⊢
    exact ⟨h.1, h.2.1, ih h.2.2⟩

/-- C15: the list returned by `findSuitableFontsForText` is an ordered partition of
`[0, length of the text)`: the first range starts at 0, each range is non-empty and starts
where the one before ends, and the last ends at the length of the text. -/
theorem findSuitableFontsForText_partition (fb : FontFallback) (font : Font)
    (text : List Nat) :
    ∃ result, findSuitableFontsForText fb font text = some result
      ∧ IsPartition 0 (text.length : Int) result := by
  obtain ⟨fonts, history, h1, h2, h3, _, _, _⟩ := resolveFonts_spec fb font text
  refine ⟨getResult fonts font, by unfold findSuitableFontsForText; rw [h1]; rfl, ?_⟩
  exact IsPartition.map_fst (fun e => e.2.getD font)
    (IsPartition.of_ordered_covers h2 h3 (Int.ofNat_nonneg _))



namespace WrappedGlyphsCursor

theorem init_normal (d : List OwnedGlyphsSpan) : (init d).Normal := Or.inr rfl

theorem remaining_init (d : List OwnedGlyphsSpan) :
    (init d).remaining.length = numGlyphsOf d := by
  have h := drop_succ_eq_chunk d 0
  unfold remaining init chunk
  simp only [List.drop_zero] at h ⊢
  rw [← h, List.length_flatten, List.map_map]
  rfl

theorem last_chunk_nonempty {c : WrappedGlyphsCursor} (he : c.empty = false)
    (hi : c.index.i + 1 = c.data.length) : c.chunk.glyphs ≠ [] := by
  unfold empty at he
  have hlt : c.index.i < c.data.length := by omega
  have hl : c.data.getLast? = some (c.data.get ⟨c.index.i, hlt⟩) := by
    rw [List.getLast?_eq_getElem?]
    have : c.data.length - 1 = c.index.i := by omega
    rw [this, List.getElem?_eq_getElem hlt]
    rfl
  rw [hl] at he
  rw [chunk_eq_get hlt]
  intro hnil
  dsimp only at he
  rw [hnil] at he
  simp at he

theorem remaining_length (d : List OwnedGlyphsSpan) (i j : Nat) :
    (remaining ⟨d, ⟨i, j⟩⟩).length
      = ((d.getD i default).glyphs.length - j)
        + (((d.drop (i + 1)).map (fun s => s.glyphs)).flatten).length := by
  unfold remaining chunk
  rw [List.length_append, List.length_drop]

theorem remaining_next_chunk (d : List OwnedGlyphsSpan) (i : Nat) :
    (remaining ⟨d, ⟨i + 1, 0⟩⟩).length
      = (((d.drop (i + 1)).map (fun s => s.glyphs)).flatten).length := by
  rw [drop_succ_eq_chunk d (i + 1)]
  rfl

theorem plusAssignLoop_one : ∀ (fuel : Nat) (c : WrappedGlyphsCursor), c.Normal →
    c.isBeyondEnd = false → c.data.length - c.index.i < fuel →
    (plusAssignLoop fuel c 1).Normal
      ∧ (plusAssignLoop fuel c 1).remaining.length + 1 = c.remaining.length := by
  intro fuel
  induction fuel with
  | zero => intro c _ _ h; omega
  | succ n ih =>
    intro c hn hb hf
    have hbe := hb
    unfold isBeyondEnd at hbe
    simp only [Bool.or_eq_false_iff, decide_eq_false_iff_not, not_le] at hbe
    obtain ⟨hne, hi⟩ := hbe
    have hlast := @last_chunk_nonempty c hne
    rw [plusAssignLoop]
    simp only [hb, and_self, if_true, Nat.zero_lt_one]
    obtain ⟨d, ⟨i, j⟩⟩ := c
    simp only [Normal, chunk, OwnedGlyphsSpan.size] at hn hi hf hlast ⊢
    by_cases hj : j < (d.getD i default).glyphs.length
    · have hmin : min 1 ((d.getD i default).glyphs.length - j) = 1 := by omega
      rw [hmin]
      by_cases hl : j + 1 = (d.getD i default).glyphs.length
      · rw [if_pos hl, Nat.sub_self, plusAssignLoop_zero]
        refine ⟨Or.inr rfl, ?_⟩
        rw [remaining_next_chunk, remaining_length]
        omega
      · rw [if_neg hl, Nat.sub_self, plusAssignLoop_zero]
        refine ⟨Or.inl (by show j + 1 < (d.getD i default).glyphs.length; omega), ?_⟩
        rw [remaining_length, remaining_length]
        omega
    · have hj0 : j = 0 := by
        rcases hn with h | h
        · exact absurd h hj
        · exact h
      subst hj0
      have hs0 : (d.getD i default).glyphs.length = 0 := by omega
      have hmin : min 1 ((d.getD i default).glyphs.length - 0) = 0 := by omega
      rw [hmin]
      have hl : 0 + 0 = (d.getD i default).glyphs.length := by omega
      rw [if_pos hl]
      have hi2 : i + 1 < d.length := by
        by_contra hcon
        have heq : i + 1 = d.length := by omega
        exact hlast heq (List.length_eq_zero.1 hs0)
      have hb2 : isBeyondEnd ⟨d, ⟨i + 1, 0⟩⟩ = false := by
        unfold isBeyondEnd
        simp only [Bool.or_eq_false_iff, decide_eq_false_iff_not, not_le]
        exact ⟨hne, hi2⟩
      have := ih ⟨d, ⟨i + 1, 0⟩⟩ (Or.inr rfl) hb2 (by show d.length - (i + 1) < n; omega)
      refine ⟨this.1, ?_⟩
      rw [Nat.sub_zero, this.2, remaining_next_chunk, remaining_length]
      omega

theorem next_normal {c : WrappedGlyphsCursor} (hn : c.Normal) (hb : c.isBeyondEnd = false) :
    c.next.Normal ∧ c.next.remaining.length + 1 = c.remaining.length :=
  plusAssignLoop_one _ c hn hb (by omega)

end WrappedGlyphsCursor

namespace LineOfWrappedGlyphCursorRanges
open WrappedGlyphsCursor

theorem addGlyph_isEmpty (st : LineState) (g : ShapedGlyph) (h : st.isEmpty = false) :
    (addGlyph st g).isEmpty = false := by
  unfold LineState.isEmpty addGlyph at *
  simp only [decide_eq_false_iff_not, not_lt] at h ⊢
  exact le_trans h (le_max_left _ _)

theorem consumeIfLoop_general (p : LineState → ShapedGlyph → Bool) :
    ∀ (fuel : Nat) (st : LineState) (it : WrappedGlyphsCursor), it.Normal →
      it.remaining.length < fuel →
      (consumeIfLoop p fuel st it).2.data = it.data
      ∧ (consumeIfLoop p fuel st it).2.Normal
      ∧ (consumeIfLoop p fuel st it).2.remaining.length ≤ it.remaining.length
      ∧ (it.isBeyondEnd = false → p st it.deref = true →
          (consumeIfLoop p fuel st it).2.remaining.length < it.remaining.length)
      ∧ ((consumeIfLoop p fuel st it).2.isBeyondEnd = true
          ∨ p (consumeIfLoop p fuel st it).1 (consumeIfLoop p fuel st it).2.deref = false)
      ∧ (st.isEmpty = false → (consumeIfLoop p fuel st it).1.isEmpty = false) := by
  intro fuel
  induction fuel with
  | zero => intro st it _ h; omega
  | succ n ih =>
    intro st it hn hf
    rw [consumeIfLoop]
    by_cases hc : it.isBeyondEnd = false ∧ p st it.deref = true
    · rw [if_pos hc]
      obtain ⟨hn2, hr⟩ := next_normal hn hc.1
      obtain ⟨h1, h2, h3, _, h5, h6⟩ := ih (addGlyph st it.deref) it.next hn2 (by omega)
      refine ⟨by rw [h1, next_data], h2, by omega, fun _ _ => by omega, h5, ?_⟩
      intro he
      exact h6 (addGlyph_isEmpty _ _ he)
    · rw [if_neg hc]
      refine ⟨rfl, hn, le_refl _, fun h1 h2 => absurd ⟨h1, h2⟩ hc, ?_, fun h => h⟩
      by_cases hb : it.isBeyondEnd = true
      · exact Or.inl hb
      · right
        have hb2 : it.isBeyondEnd = false := by simpa using hb
        by_contra hp
        exact hc ⟨hb2, by simpa using hp⟩

theorem consumeIf_general (p : LineState → ShapedGlyph → Bool) (st : LineState)
    (it : WrappedGlyphsCursor) (hn : it.Normal) :
    (consumeIf st it p).2.data = it.data
    ∧ (consumeIf st it p).2.Normal
    ∧ (consumeIf st it p).2.remaining.length ≤ it.remaining.length
    ∧ (it.isBeyondEnd = false → p st it.deref = true →
        (consumeIf st it p).2.remaining.length < it.remaining.length)
    ∧ ((consumeIf st it p).2.isBeyondEnd = true
        ∨ p (consumeIf st it p).1 (consumeIf st it p).2.deref = false)
    ∧ (st.isEmpty = false → (consumeIf st it p).1.isEmpty = false) :=
  consumeIfLoop_general p _ st it hn
    (Nat.lt_succ_of_le (remaining_length_le_stepBound it))

theorem consumesGlyph_append_left {l : List WrappedGlyphsCursorRange}
    (h : ConsumesGlyph l) (x : WrappedGlyphsCursorRange) : ConsumesGlyph (l ++ [x]) := by
  obtain ⟨rg, hrg, hh⟩ := h
  exact ⟨rg, List.mem_append_left _ hrg, hh⟩

theorem consumesGlyph_append_right (l : List WrappedGlyphsCursorRange)
    {x : WrappedGlyphsCursorRange} (h : x.HoldsGlyph) : ConsumesGlyph (l ++ [x]) :=
  ⟨x, List.mem_append_right _ (List.mem_singleton.2 rfl), h⟩

/-- One call of `consume` from `fillLines`: the cursor returned is at the end of the chunk
sequence, or the line is finished; then either nothing was taken from a line that already
held glyphs, or at least one glyph was taken by an empty line. -/
theorem consume_general (line : LineOfWrappedGlyphCursorRanges) (glyphIt : WrappedGlyphsCursor)
    (force : Bool) (hn : glyphIt.Normal) (hb : glyphIt.isBeyondEnd = false)
    (hinv : line.state.isEmpty = false → ConsumesGlyph line.consumedChunks) :
    (line.consume glyphIt force).2.data = glyphIt.data
    ∧ (line.consume glyphIt force).2.Normal
    ∧ (line.consume glyphIt force).2.remaining.length ≤ glyphIt.remaining.length
    ∧ (((line.consume glyphIt force).2.isBeyondEnd = true
          ∧ ((line.consume glyphIt force).1.state.isEmpty = false →
              ConsumesGlyph (line.consume glyphIt force).1.consumedChunks))
        ∨ ((line.consume glyphIt force).2.isBeyondEnd = false
          ∧ ConsumesGlyph (line.consume glyphIt force).1.consumedChunks
          ∧ ((line.state.isEmpty = false ∧ (line.consume glyphIt force).2 = glyphIt)
            ∨ (line.state.isEmpty = true
              ∧ (line.consume glyphIt force).2.remaining.length
                  < glyphIt.remaining.length)))) := by
  unfold consume
  by_cases hf : (force && line.state.isEmpty) = true
  · rw [if_pos hf]
    obtain ⟨h1, h2, h3, h4, h5, _⟩ := consumeIf_general takeAll line.state glyphIt hn
    have hprog := h4 hb rfl
    refine ⟨h1, h2, h3, Or.inl ⟨?_, fun _ => consumesGlyph_append_right _ hprog⟩⟩
    rcases h5 with h | h
    · exact h
    · exact absurd h (by simp [takeAll])
  · rw [if_neg hf]
    obtain ⟨h1, h2, h3, h4, h5, h6⟩ := consumeIf_general fits line.state glyphIt hn
    by_cases hg : (!line.state.isEmpty && !(consumeIf line.state glyphIt fits).2.isBeyondEnd) = true
    · rw [if_pos hg]
      simp only [Bool.and_eq_true, Bool.not_eq_true', Bool.not_eq_eq_eq_not, Bool.not_true] at hg
      exact ⟨rfl, hn, le_refl _, Or.inr ⟨hb, hinv hg.1, Or.inl ⟨hg.1, rfl⟩⟩⟩
    · rw [if_neg hg]
      have hg2 : line.state.isEmpty = true ∨ (consumeIf line.state glyphIt fits).2.isBeyondEnd = true := by
        by_contra hcon
        push_neg at hcon
        apply hg
        simp only [Bool.and_eq_true, Bool.not_eq_true', Bool.not_eq_eq_eq_not, Bool.not_true]
        exact ⟨by simpa using hcon.1, by simpa using hcon.2⟩
      by_cases hne : (consumeIf line.state glyphIt fits).2 ≠ glyphIt
      · rw [if_pos hne]
        refine ⟨h1, h2, h3, ?_⟩
        by_cases he : line.state.isEmpty = true
        · have hprog := h4 hb (fits_of_isEmpty _ _ he)
          by_cases hbe : (consumeIf line.state glyphIt fits).2.isBeyondEnd = true
          · exact Or.inl ⟨hbe, fun _ => consumesGlyph_append_right _ hprog⟩
          · exact Or.inr ⟨by simpa using hbe, consumesGlyph_append_right _ hprog,
              Or.inr ⟨he, hprog⟩⟩
        · have he2 : line.state.isEmpty = false := by simpa using he
          have hbe : (consumeIf line.state glyphIt fits).2.isBeyondEnd = true := by
            rcases hg2 with h | h
            · exact absurd h he
            · exact h
          exact Or.inl ⟨hbe, fun _ => consumesGlyph_append_left (hinv he2) _⟩
      · rw [if_neg hne]
        have heq : (consumeIf line.state glyphIt fits).2 = glyphIt := by
          by_contra hcon
          exact hne hcon
        have he2 : line.state.isEmpty = false := by
          by_contra hcon
          have he : line.state.isEmpty = true := by simpa using hcon
          have hprog := h4 hb (fits_of_isEmpty _ _ he)
          rw [heq] at hprog
          omega
        have hbe : (consumeIf line.state glyphIt fits).2.isBeyondEnd = true := by
          rcases hg2 with h | h
          · rw [he2] at h; exact Bool.noConfusion h
          · exact h
        rw [heq] at hbe
        rw [hb] at hbe
        exact Bool.noConfusion hbe

theorem init_state_isEmpty (w : Int) (f : Bool) : (init w f).state.isEmpty = true := by
  simp [init, LineState.init, LineState.isEmpty]

end LineOfWrappedGlyphCursorRanges

namespace FillLinesOptions
open WrappedGlyphsCursor LineOfWrappedGlyphCursorRanges

theorem fillChunks_of_beyondEnd (o : FillLinesOptions) (fuel : Nat)
    (line : LineOfWrappedGlyphCursorRanges) (cursor : WrappedGlyphsCursor)
    (lines : List (List WrappedGlyphsCursorRange)) (hb : cursor.isBeyondEnd = true) :
    fillChunks o (fuel + 1) line cursor lines = some (line, cursor, lines) := by
  rw [fillChunks]
  simp [hb]

/-- The inner loop of `fillLines` ends within its step budget; every line it finishes
holds a glyph, and it finishes at most as many lines as glyphs were left, counting the
line in progress when it holds a glyph. -/
theorem fillChunks_general (o : FillLinesOptions) :
    ∀ (fuel : Nat) (line : LineOfWrappedGlyphCursorRanges) (cursor : WrappedGlyphsCursor)
      (lines : List (List WrappedGlyphsCursorRange)),
      cursor.Normal →
      2 * cursor.remaining.length + (if line.state.isEmpty = true then 0 else 1) < fuel →
      (line.state.isEmpty = false → ConsumesGlyph line.consumedChunks) →
      (∀ l ∈ lines, ConsumesGlyph l) →
      ∃ line1 cursor1 lines1,
        fillChunks o fuel line cursor lines = some (line1, cursor1, lines1)
        ∧ cursor1.data = cursor.data
        ∧ (line1.state.isEmpty = false → ConsumesGlyph line1.consumedChunks)
        ∧ (∀ l ∈ lines1, ConsumesGlyph l)
        ∧ lines1.length + (if line1.state.isEmpty = true then 0 else 1)
            ≤ lines.length + (if line.state.isEmpty = true then 0 else 1)
              + cursor.remaining.length := by
  intro fuel
  induction fuel with
  | zero => intro line cursor lines _ h; omega
  | succ n ih =>
    intro line cursor lines hn hf hinv hlines
    by_cases hb : cursor.isBeyondEnd = true
    · exact ⟨line, cursor, lines, fillChunks_of_beyondEnd o n line cursor lines hb, rfl, hinv,
        hlines, by omega⟩
    · have hb2 : cursor.isBeyondEnd = false := by simpa using hb
      have hpos : 1 ≤ cursor.remaining.length := by
        have := (next_normal hn hb2).2
        omega
      obtain ⟨h1, h2, h3, h4⟩ := consume_general line cursor o.forceConsumeFirstWord hn hb2 hinv
      rw [fillChunks]
      simp only [hb2, Bool.false_eq_true, if_false]
      rcases h4 with ⟨hbe, hinv1⟩ | ⟨hbe, hcg, hcase⟩
      · simp only [hbe, Bool.not_true, Bool.false_eq_true, if_false]
        obtain ⟨m, rfl⟩ : ∃ m, n = m + 1 := ⟨n - 1, by omega⟩
        refine ⟨_, _, _, fillChunks_of_beyondEnd o m _ _ lines hbe, h1, hinv1, hlines, ?_⟩
        split_ifs <;> omega
      · simp only [hbe, Bool.not_false, if_true]
        have hlines2 : ∀ l ∈ lines ++ [(line.consume cursor o.forceConsumeFirstWord).1.getConsumedChunks],
            ConsumesGlyph l := by
          intro l hl
          rcases List.mem_append.1 hl with h | h
          · exact hlines l h
          · rw [List.mem_singleton.1 h]; exact hcg
        have hfuel : 2 * (line.consume cursor o.forceConsumeFirstWord).2.remaining.length
            + (if (LineOfWrappedGlyphCursorRanges.init o.width
                o.trailingWhitespaceCanExtendBeyondMargin).state.isEmpty = true then 0 else 1)
            < n := by
          rw [init_state_isEmpty, if_pos rfl]
          rcases hcase with ⟨he, heq⟩ | ⟨he, hlt⟩
          · rw [heq]
            rw [he] at hf
            simp only [Bool.false_eq_true, if_false] at hf
            omega
          · omega
        obtain ⟨line1, cursor1, lines1, hres, hd, hi1, hl1, hbound⟩ :=
          ih _ _ _ h2 hfuel (fun h => by rw [init_state_isEmpty] at h; exact Bool.noConfusion h)
            hlines2
        refine ⟨line1, cursor1, lines1, hres, by rw [hd, h1], hi1, hl1, ?_⟩
        rw [init_state_isEmpty, if_pos rfl, List.length_append, List.length_singleton] at hbound
        rcases hcase with ⟨he, heq⟩ | ⟨he, hlt⟩
        · rw [heq] at hbound
          rw [he]
          simp only [Bool.false_eq_true, if_false]
          omega
        · rw [he, if_pos rfl]
          omega

end FillLinesOptions

namespace RangedValues

theorem setNoMerge_end_le {T : Type} {xs : RangedValues T} {r : Range} {v : T} {L : Int}
    (hxs : ∀ e ∈ xs, e.1.getEnd ≤ L) (hr : r.isEmpty = false → r.getEnd ≤ L) :
    ∀ e ∈ setNoMerge xs r v, e.1.getEnd ≤ L := by
  intro e he
  unfold setNoMerge at he
  by_cases hemp : r.isEmpty = true
  · rw [if_pos hemp] at he
    exact hxs e he
  · rw [if_neg hemp] at he
    rcases mem_insertItem.1 he with h | h
    · rw [h]
      exact hr (by simpa using hemp)
    · obtain ⟨e0, he0, _, _, hcase⟩ := mem_erase h
      have := hxs e0 he0
      rcases hcase with ⟨_, h2⟩ | ⟨_, h2⟩
      · rw [h2]
        exact le_trans (min_le_left _ _) this
      · rw [h2]
        exact this

end RangedValues

namespace Shaper
open RangedValues

theorem shapeRuns_end_le (lowLevelShape : LowLevelShape) (string : List Nat) (p b L : Int)
    (runs : List (Range × ShapingParams)) :
    ∀ (cache : RangedValues GlyphsStorage), (∀ R ∈ runs, R.1.getEnd ≤ L) →
      (∀ e ∈ cache, e.1.getEnd ≤ L) →
      ∀ e ∈ shapeRuns lowLevelShape string p b runs cache, e.1.getEnd ≤ L := by
  induction runs with
  | nil => intro cache _ hc; simpa [shapeRuns] using hc
  | cons R rest ih =>
    intro cache hruns hc
    rw [shapeRuns]
    by_cases hlt : R.1.getStart < b
    · rw [if_pos hlt]
      refine ih _ (fun R2 h2 => hruns R2 (List.mem_cons_of_mem _ h2)) ?_
      apply setNoMerge_end_le hc
      intro hne
      have hR := hruns R (List.mem_cons_self _ _)
      simp only [Range.isEmpty, Range.make, beq_eq_false_iff_ne, ne_eq] at hne
      simp only [Range.make]
      rcases le_total (max p R.1.getStart) R.1.getEnd with h | h
      · rw [max_eq_right h]; exact hR
      · exact absurd (max_eq_left h).symm hne
    · rw [if_neg hlt]
      exact hc

theorem rangesWithin_after (lowLevelShape : LowLevelShape) (s : Shaper) (p : Int)
    (h : s.RangesWithin) : (s.getChunksUpToNextSafeBreak lowLevelShape p).1.RangesWithin := by
  refine ⟨h.1, ?_⟩
  show ∀ e ∈ shapedGlyphsAfter lowLevelShape s p, e.1.getEnd ≤ (s.visualOrder.length : Int)
  unfold shapedGlyphsAfter
  split
  · exact shapeRuns_end_le _ _ _ _ _ _ _ (fun R hR => h.1 R (mem_of_mem_find hR)) h.2
  · exact h.2

theorem collectChunks_nil (vo : List Nat) (p b : Int) :
    collectChunks vo p b [] = [] := by
  simp [collectChunks]

theorem lt_length_of_chunks (lowLevelShape : LowLevelShape) (s : Shaper) (p : Int)
    (h : s.RangesWithin) (hne : (s.getChunksUpToNextSafeBreak lowLevelShape p).2 ≠ []) :
    p < (s.visualOrder.length : Int) := by
  have h2 := (rangesWithin_after lowLevelShape s p h).2
  unfold getChunksUpToNextSafeBreak at hne h2
  simp only at hne h2
  cases hf : RangedValues.find (shapedGlyphsAfter lowLevelShape s p) p with
  | nil => rw [hf, collectChunks_nil] at hne; exact absurd rfl hne
  | cons e rest =>
    have hc := find_head_contains hf
    have hm : e ∈ shapedGlyphsAfter lowLevelShape s p :=
      mem_of_mem_find (by rw [hf]; exact List.mem_cons_self _ _)
    have := h2 e hm
    have := (Range_contains_iff e.1 p).1 hc
    omega

theorem nextSoftBreakBefore_gt (s : Shaper) (p : Int) (h : p < (s.visualOrder.length : Int)) :
    p < s.nextSoftBreakBefore p := by
  unfold nextSoftBreakBefore
  cases hf : s.softBreakBeforePoints.find? (fun v => decide (p < v)) with
  | none => exact h
  | some v =>
    have := List.find?_some hf
    simpa using this

theorem countP_gt_lt (l : List Int) (p v : Int) (hv : v ∈ l) (hpv : p < v) :
    l.countP (fun w => decide (v < w)) < l.countP (fun w => decide (p < w)) := by
  induction l with
  | nil => simp at hv
  | cons a l ih =>
    have hmono : l.countP (fun w => decide (v < w)) ≤ l.countP (fun w => decide (p < w)) :=
      List.countP_mono_left (fun x _ hx => by
        simp only [decide_eq_true_eq] at hx ⊢
        omega)
    rw [List.countP_cons, List.countP_cons]
    rcases List.mem_cons.1 hv with h | h
    · subst h
      have h1 : (decide (v < v)) = false := by simp
      have h2 : (decide (p < v)) = true := by simpa using hpv
      rw [h1, h2]
      simp only [Bool.false_eq_true, if_false, if_true]
      omega
    · have := ih h
      by_cases hva : v < a
      · have h1 : (decide (v < a)) = true := by simpa using hva
        have h2 : (decide (p < a)) = true := by simp only [decide_eq_true_eq]; omega
        rw [h1, h2]
        simp only [if_true]
        omega
      · have h1 : (decide (v < a)) = false := by simpa using hva
        rw [h1]
        simp only [Bool.false_eq_true, if_false]
        split_ifs <;> omega

theorem breaksLeft_lt (s : Shaper) (p : Int) (h : p < (s.visualOrder.length : Int)) :
    s.breaksLeft (s.nextSoftBreakBefore p) < s.breaksLeft p := by
  unfold breaksLeft nextSoftBreakBefore
  rw [if_pos h]
  cases hf : s.softBreakBeforePoints.find? (fun v => decide (p < v)) with
  | none =>
    simp only
    have hall := List.find?_eq_none.1 hf
    have h0 : s.softBreakBeforePoints.countP
        (fun v => decide ((s.visualOrder.length : Int) < v)) = 0 := by
      rw [List.countP_eq_zero]
      intro v hv
      have := hall v hv
      simp only [decide_eq_true_eq] at this ⊢
      omega
    rw [h0, if_neg (lt_irrefl _)]
    omega
  | some v =>
    simp only
    have hpv : p < v := by simpa using List.find?_some hf
    have hv := List.mem_of_find?_eq_some hf
    have := countP_gt_lt _ p v hv hpv
    split_ifs <;> omega

theorem breaksLeft_le (s : Shaper) (p : Int) :
    s.breaksLeft p ≤ s.softBreakBeforePoints.length + 1 := by
  unfold breaksLeft
  have := List.countP_le_length (fun v => decide (p < v)) (l := s.softBreakBeforePoints)
  split_ifs <;> omega

end Shaper

namespace WrappedGlyphsCursor

theorem union_step (p b : Int) (hp : 0 ≤ p) (hb : p < b) (r : Range)
    (hr : r = Range.empty ∨ r = ⟨0, b⟩) : r.getUnionWith (Range.make p b) = ⟨0, b⟩ := by
  rcases hr with h | h <;> subst h <;>
    simp only [Range.getUnionWith, Range.make, Range.empty, Range.getStart, Range.getEnd] <;>
    congr 1 <;> omega

theorem foldl_union (p b : Int) (hp : 0 ≤ p) (hb : p < b) :
    ∀ (chunks : List OwnedGlyphsSpan) (r : Range), (r = Range.empty ∨ r = ⟨0, b⟩) →
      (∀ ch ∈ chunks, ch.getTextRange = Range.make p b) → chunks ≠ [] →
      chunks.foldl (fun r ch => r.getUnionWith ch.getTextRange) r = ⟨0, b⟩ := by
  intro chunks
  induction chunks with
  | nil => intro r _ _ h; exact absurd rfl h
  | cons a rest ih =>
    intro r hr hall _
    rw [List.foldl_cons, hall a (List.mem_cons_self _ _), union_step p b hp hb r hr]
    by_cases hrest : rest = []
    · subst hrest; rfl
    · exact ih _ (Or.inr rfl) (fun ch hch => hall ch (List.mem_cons_of_mem _ hch)) hrest

end WrappedGlyphsCursor

namespace FillLinesOptions
open WrappedGlyphsCursor LineOfWrappedGlyphCursorRanges Shaper

theorem chunks_textRange_end (lowLevelShape : LowLevelShape) (s : Shaper) (p : Int)
    (hp : 0 ≤ p) (hlt : p < (s.visualOrder.length : Int)) (c : WrappedGlyphsCursor)
    (hd : c.data = (s.getChunksUpToNextSafeBreak lowLevelShape p).2) (hne : c.data ≠ []) :
    c.getTextRange.getEnd = s.nextSoftBreakBefore p := by
  unfold getTextRange
  rw [foldl_union p (s.nextSoftBreakBefore p) hp (nextSoftBreakBefore_gt s p hlt) c.data
    Range.empty (Or.inl rfl) ?_ hne]
  intro ch hch
  rw [hd] at hch
  exact collectChunks_textRange _ _ _ _ ch hch

theorem pairwise_append_lt {l : List Int} {p q : Int} (h : l.Pairwise (fun a b => a < b))
    (hle : ∀ x ∈ l, x ≤ p) (hpq : p < q) : (l ++ [q]).Pairwise (fun a b => a < b) := by
  rw [List.pairwise_append]
  refine ⟨h, List.pairwise_singleton _ _, ?_⟩
  intro a ha b hb
  rw [List.mem_singleton.1 hb]
  exact lt_of_le_of_lt (hle a ha) hpq

/-- The outer loop of `fillLines` ends within its step budget when the ranges of the
shaper lie within the line: a call that returns chunks starts below the length of the
line, and the next call starts at the safe break after it. -/
theorem fillLoop_general (o : FillLinesOptions) (lowLevelShape : LowLevelShape) :
    ∀ (fuel : Nat) (s : Shaper) (p : Int) (line : LineOfWrappedGlyphCursorRanges)
      (result : LineDataAndChunkStorage),
      0 ≤ p → s.RangesWithin → s.breaksLeft p < fuel →
      (line.state.isEmpty = false → ConsumesGlyph line.consumedChunks) →
      (∀ l ∈ result.lines, ConsumesGlyph l) →
      result.lines.length + (if line.state.isEmpty = true then 0 else 1) ≤ result.numGlyphs →
      result.startPositions.Pairwise (fun a b => a < b) →
      (∀ q ∈ result.startPositions, q ≤ p) →
      ∃ r, fillLoop o lowLevelShape fuel (s.getChunksUpToNextSafeBreak lowLevelShape p).1
            (s.getChunksUpToNextSafeBreak lowLevelShape p).2 line result = some r
        ∧ (∀ l ∈ r.lines.dropLast, ConsumesGlyph l)
        ∧ r.lines.length ≤ r.numGlyphs + 1
        ∧ r.startPositions.Pairwise (fun a b => a < b) := by
  intro fuel
  induction fuel with
  | zero => intro s p line result _ _ h; omega
  | succ n ih =>
    intro s p line result hp hw hf hinv hlines hcount hpw hle
    rw [fillLoop]
    by_cases hemp : (s.getChunksUpToNextSafeBreak lowLevelShape p).2 = []
    · rw [hemp]
      simp only [List.isEmpty_nil, if_true]
      refine ⟨_, rfl, ?_, ?_, hpw⟩
      · simp only [List.dropLast_concat]
        exact hlines
      · simp only [List.length_append, List.length_singleton]
        have : LineDataAndChunkStorage.numGlyphs
            { result with lines := result.lines ++ [line.getConsumedChunks] }
            = result.numGlyphs := rfl
        rw [this]
        split_ifs at hcount <;> omega
    · have hne : (s.getChunksUpToNextSafeBreak lowLevelShape p).2.isEmpty = false := by
        cases hc : (s.getChunksUpToNextSafeBreak lowLevelShape p).2 with
        | nil => exact absurd hc hemp
        | cons a l => rfl
      rw [hne]
      simp only [Bool.false_eq_true, if_false]
      have hlt := lt_length_of_chunks lowLevelShape s p hw hemp
      have hfc : 2 * (WrappedGlyphsCursor.init
            (s.getChunksUpToNextSafeBreak lowLevelShape p).2).remaining.length
          + (if line.state.isEmpty = true then 0 else 1)
          < 2 * stepBound (s.getChunksUpToNextSafeBreak lowLevelShape p).2 + 2 := by
        have := remaining_length_le_stepBound
          (WrappedGlyphsCursor.init (s.getChunksUpToNextSafeBreak lowLevelShape p).2)
        have hd : (WrappedGlyphsCursor.init
          (s.getChunksUpToNextSafeBreak lowLevelShape p).2).data
            = (s.getChunksUpToNextSafeBreak lowLevelShape p).2 := rfl
        rw [hd] at this
        split_ifs <;> omega
      obtain ⟨line1, cursor1, lines1, hres, hd, hinv1, hlines1, hbound⟩ :=
        fillChunks_general o _ line
          (WrappedGlyphsCursor.init (s.getChunksUpToNextSafeBreak lowLevelShape p).2)
          result.lines (init_normal _) hfc hinv hlines
      rw [hres]
      simp only
      have hd2 : cursor1.data = (s.getChunksUpToNextSafeBreak lowLevelShape p).2 := hd
      have hend := chunks_textRange_end lowLevelShape s p hp hlt cursor1 hd2
        (by rw [hd2]; exact hemp)
      have hend0 := chunks_textRange_end lowLevelShape s p hp hlt
        (WrappedGlyphsCursor.init (s.getChunksUpToNextSafeBreak lowLevelShape p).2) rfl hemp
      rw [hend]
      have hgt := nextSoftBreakBefore_gt s p hlt
      have hbl := breaksLeft_lt s p hlt
      have hbl2 : (s.getChunksUpToNextSafeBreak lowLevelShape p).1.breaksLeft
          (s.nextSoftBreakBefore p) = s.breaksLeft (s.nextSoftBreakBefore p) := rfl
      refine ih (s.getChunksUpToNextSafeBreak lowLevelShape p).1 (s.nextSoftBreakBefore p) line1
        ⟨result.chunkStorage ++ [(s.getChunksUpToNextSafeBreak lowLevelShape p).2], lines1⟩
        (by omega) (rangesWithin_after lowLevelShape s p hw) (by rw [hbl2]; omega) hinv1
        hlines1 ?_ ?_ ?_
      · rw [remaining_init] at hbound
        show lines1.length + _ ≤
          ((result.chunkStorage ++ [(s.getChunksUpToNextSafeBreak lowLevelShape p).2]).map
            numGlyphsOf).sum
        rw [List.map_append, List.sum_append, List.map_singleton, List.sum_singleton]
        unfold LineDataAndChunkStorage.numGlyphs at hcount
        omega
      · show (0 :: (result.chunkStorage ++ [(s.getChunksUpToNextSafeBreak lowLevelShape p).2]).map
          (fun chunks => (WrappedGlyphsCursor.init chunks).getTextRange.getEnd)).Pairwise
            (fun a b => a < b)
        rw [List.map_append, List.map_singleton, hend0, ← List.cons_append]
        exact pairwise_append_lt hpw hle hgt
      · intro q hq
        have hq2 : q ∈ (0 :: result.chunkStorage.map
            (fun chunks => (WrappedGlyphsCursor.init chunks).getTextRange.getEnd))
              ++ [(WrappedGlyphsCursor.init
                (s.getChunksUpToNextSafeBreak lowLevelShape p).2).getTextRange.getEnd] := by
          simpa [LineDataAndChunkStorage.startPositions] using hq
        rcases List.mem_append.1 hq2 with h | h
        · exact le_trans (hle q h) (le_of_lt hgt)
        · rw [List.mem_singleton.1 h, hend0]

end FillLinesOptions

/-- The method `fillLines` returns within its step budget for a shaper whose ranges lie
within the line; every line but the last holds a glyph, the positions of the calls of
`getChunksUpToNextSafeBreak` increase strictly, and there are at most as many lines as
glyphs handed out, plus one. -/
theorem fillLines_returns (o : FillLinesOptions) (lowLevelShape : LowLevelShape)
    (s : Shaper) (hw : s.RangesWithin) :
    ∃ r, o.fillLines lowLevelShape s = some r
      ∧ (∀ l ∈ r.lines.dropLast, ConsumesGlyph l)
      ∧ r.lines.length ≤ r.numGlyphs + 1
      ∧ r.startPositions.Pairwise (fun a b => a < b) := by
  unfold FillLinesOptions.fillLines
  have hb := Shaper.breaksLeft_le s 0
  exact FillLinesOptions.fillLoop_general o lowLevelShape _ s 0 _ ⟨[], []⟩ (le_refl _) hw
    (by omega)
    (fun h => by
      rw [LineOfWrappedGlyphCursorRanges.init_state_isEmpty] at h
      exact Bool.noConfusion h)
    (fun l hl => absurd hl (List.not_mem_nil l))
    (by
      rw [LineOfWrappedGlyphCursorRanges.init_state_isEmpty]
      exact Nat.le_refl _)
    (List.pairwise_singleton _ _)
    (fun q hq => by
      have : q = 0 := by simpa [LineDataAndChunkStorage.startPositions] using hq
      omega)

open RangedValues

namespace RangedValues

theorem set_covered_iff {T : Type} [DecidableEq T] {r : Range} {v : T} {xs : RangedValues T}
    {i : Int} (hr : r.getStart ≤ r.getEnd) (h : Ordered xs) :
    (∃ e ∈ RangedValues.set xs r v, e.1.contains i = true)
      ↔ (r.contains i = true ∨ ∃ e ∈ xs, e.1.contains i = true) := by
  constructor
  · rintro ⟨e, he, hc⟩
    rcases (set_contains_iff hr h).1 ⟨e, he, hc, rfl⟩ with ⟨h1, _⟩ | ⟨_, e2, he2, hc2, _⟩
    · exact Or.inl h1
    · exact Or.inr ⟨e2, he2, hc2⟩
  · rintro (h1 | ⟨e, he, hc⟩)
    · obtain ⟨e2, he2, hc2, _⟩ := (set_contains_iff hr h).2 (Or.inl ⟨h1, rfl⟩)
      exact ⟨e2, he2, hc2⟩
    · by_cases hrc : r.contains i = true
      · obtain ⟨e2, he2, hc2, _⟩ := (set_contains_iff hr h).2 (Or.inl ⟨hrc, rfl⟩)
        exact ⟨e2, he2, hc2⟩
      · obtain ⟨e2, he2, hc2, _⟩ := (set_contains_iff (w := e.2) hr h).2
          (Or.inr ⟨by simpa using hrc, e, he, hc, rfl⟩)
        exact ⟨e2, he2, hc2⟩

theorem Covers.extend {T : Type} [DecidableEq T] {xs : RangedValues T} {a b : Int}
    (h : Ordered xs) (hc : Covers xs 0 a) (ha : 0 ≤ a) (hab : a ≤ b) (v : T) :
    Covers (RangedValues.set xs ⟨a, b⟩ v) 0 b := by
  intro i
  rw [set_covered_iff (by exact hab) h, Range_contains_iff, hc i]
  show (a ≤ i ∧ i < b) ∨ (0 ≤ i ∧ i < a) ↔ 0 ≤ i ∧ i < b
  omega

end RangedValues

namespace SimpleShapedText

theorem addSpan_lineNumbers (st : Int) (t : SimpleShapedText) (s : ShapedGlyphSpan) :
    (addSpan st t s).lineNumbers = t.lineNumbers := rfl

theorem addSpan_length (st : Int) (t : SimpleShapedText) (s : ShapedGlyphSpan) :
    t.glyphsInVisualOrder.length ≤ (addSpan st t s).glyphsInVisualOrder.length := by
  unfold addSpan
  simp only [List.length_append]
  omega

theorem foldl_addSpan (st : Int) (spans : List ShapedGlyphSpan) :
    ∀ t : SimpleShapedText, (spans.foldl (addSpan st) t).lineNumbers = t.lineNumbers
      ∧ t.glyphsInVisualOrder.length ≤ (spans.foldl (addSpan st) t).glyphsInVisualOrder.length := by
  induction spans with
  | nil => intro t; exact ⟨rfl, le_refl _⟩
  | cons s rest ih =>
    intro t
    rw [List.foldl_cons]
    obtain ⟨h1, h2⟩ := ih (addSpan st t s)
    exact ⟨by rw [h1, addSpan_lineNumbers], le_trans (addSpan_length st t s) h2⟩

theorem addLine_linesCover (st : Int) (t : SimpleShapedText) (line : List WrappedGlyphsCursorRange)
    (h : LinesCover t) : LinesCover (addLine st t line) := by
  obtain ⟨h1, h2⟩ := foldl_addSpan st (getShapedGlyphSpansInVisualOrder line) t
  have hle : (t.glyphsInVisualOrder.length : Int)
      ≤ (((getShapedGlyphSpansInVisualOrder line).foldl (addSpan st) t).glyphsInVisualOrder.length : Int) := by
    exact_mod_cast h2
  have hmake : Range.make (t.glyphsInVisualOrder.length : Int)
      (((getShapedGlyphSpansInVisualOrder line).foldl (addSpan st) t).glyphsInVisualOrder.length : Int)
      = ⟨(t.glyphsInVisualOrder.length : Int),
        (((getShapedGlyphSpansInVisualOrder line).foldl (addSpan st) t).glyphsInVisualOrder.length : Int)⟩ := by
    unfold Range.make
    rw [max_eq_right hle]
  unfold addLine LinesCover
  simp only [hmake, h1]
  exact ⟨set_ordered hle h.1, Covers.extend h.1 h.2 (Int.ofNat_nonneg _) hle _⟩

theorem foldl_addLine_linesCover (st : Int) (lines : List (List WrappedGlyphsCursorRange)) :
    ∀ t : SimpleShapedText, LinesCover t → LinesCover (lines.foldl (addLine st) t) := by
  induction lines with
  | nil => intro t h; exact h
  | cons l rest ih => intro t h; exact ih _ (addLine_linesCover st t l h)

theorem shapeLines_linesCover (lowLevelShape : LowLevelShape) (shaperFor : Range → Shaper)
    (options : ShapedTextOptions) (lineRanges : List Range)
    (hw : ∀ r ∈ lineRanges, (shaperFor r).RangesWithin) :
    ∀ t : SimpleShapedText, LinesCover t →
      ∃ t1, shapeLines lowLevelShape shaperFor options lineRanges t = some t1
        ∧ LinesCover t1 := by
  induction lineRanges with
  | nil => intro t h; exact ⟨t, rfl, h⟩
  | cons r rest ih =>
    intro t h
    obtain ⟨res, hres, _⟩ := fillLines_returns
      ⟨options.maxWidth.getD 1000000, options.firstLineIndent,
       !options.trailingWhitespacesShouldFit, !options.allowBreakingInsideWord⟩
      lowLevelShape (shaperFor r) (hw r (List.mem_cons_self _ _))
    rw [shapeLines]
    simp only [hres]
    split
    · exact ⟨t, rfl, h⟩
    · exact ih (fun r2 h2 => hw r2 (List.mem_cons_of_mem _ h2)) _
        (foldl_addLine_linesCover _ _ _ h)

end SimpleShapedText

theorem sampleShaper_rangesWithin : sampleShaper.RangesWithin :=
  ⟨fun e he => by
      simp only [sampleShaper, List.mem_singleton] at he
      subst he
      decide,
    fun e he => absurd he (List.not_mem_nil e)⟩

/-- C3: after `shape`, the glyph ranges recorded per line number partition
`[0, getNumGlyphs())`. For every shaping engine, every options value and every list of hard
lines whose shapers have their ranges within the line, `shape` returns, and the items of
`lineNumbers` start at 0, each is non-empty and starts where the one before ends, and the
last ends at `getNumGlyphs()`. -/
theorem shape_lineNumbers_partition (lowLevelShape : LowLevelShape)
    (shaperFor : Range → Shaper) (lineRanges : List Range) (options : ShapedTextOptions)
    (hw : ∀ r ∈ lineRanges, (shaperFor r).RangesWithin) :
    ∃ t, SimpleShapedText.shape lowLevelShape shaperFor lineRanges options = some t
      ∧ IsPartition 0 t.getNumGlyphs t.lineNumbers := by
  obtain ⟨t, ht, h1, h2⟩ := SimpleShapedText.shapeLines_linesCover lowLevelShape shaperFor
    options lineRanges hw SimpleShapedText.init
    ⟨⟨fun e he => absurd he (List.not_mem_nil e), List.Pairwise.nil⟩,
     fun i => by
      constructor
      · rintro ⟨e, he, _⟩
        exact absurd he (List.not_mem_nil e)
      · intro h
        have h0 : (SimpleShapedText.init.glyphsInVisualOrder.length : Int) = 0 := rfl
        omega⟩
  exact ⟨t, ht, IsPartition.of_ordered_covers h1 h2 (Int.ofNat_nonneg _)⟩

/-- Witness of C3: the line `"a bb ccc"` shaped at a width of three glyphs. -/
theorem shape_lineNumbers_partition_witness :
    ∃ t, SimpleShapedText.shape sampleLowLevelShape (fun _ => sampleShaper) [⟨0, 8⟩]
          ⟨some 3, 0, false, false, int64Max⟩ = some t
      ∧ IsPartition 0 t.getNumGlyphs t.lineNumbers :=
  shape_lineNumbers_partition sampleLowLevelShape (fun _ => sampleShaper) [⟨0, 8⟩]
    ⟨some 3, 0, false, false, int64Max⟩
    (fun _ _ => sampleShaper_rangesWithin)



namespace LineOfWrappedGlyphCursorRanges
open WrappedGlyphsCursor

theorem sumAdvances_cons (g : ShapedGlyph) (gs : List ShapedGlyph) :
    sumAdvances (g :: gs) = g.advance.getX + sumAdvances gs := by
  simp [sumAdvances]

theorem sumAdvances_append (a b : List ShapedGlyph) :
    sumAdvances (a ++ b) = sumAdvances a + sumAdvances b := by
  simp [sumAdvances]

theorem sumAdvances_nil : sumAdvances [] = 0 := rfl

theorem consumeList_state (p : LineState → ShapedGlyph → Bool) :
    ∀ (gs : List ShapedGlyph) (st : LineState),
      (consumeList p st gs).1.maxWidth = st.maxWidth
      ∧ (consumeList p st gs).1.width
          = st.width + sumAdvances (gs.take (consumeList p st gs).2)
      ∧ (st.isEmpty = false → (consumeList p st gs).1.isEmpty = false)
      ∧ (1 ≤ (consumeList p st gs).2 → (∀ g ∈ gs, 0 ≤ g.cluster) →
          (consumeList p st gs).1.isEmpty = false)
      ∧ ((consumeList p st gs).2 = 0 → (consumeList p st gs).1 = st) := by
  intro gs
  induction gs with
  | nil =>
    intro st
    simp [consumeList, sumAdvances]
  | cons g gs ih =>
    intro st
    rw [consumeList]
    by_cases hp : p st g = true
    · simp only [hp, if_true]
      obtain ⟨h1, h2, h3, h4, _⟩ := ih (addGlyph st g)
      refine ⟨by rw [h1]; rfl, ?_, ?_, ?_, ?_⟩
      · rw [h2, List.take_succ_cons, sumAdvances_cons]
        simp only [addGlyph]
        omega
      · intro he
        exact h3 (addGlyph_isEmpty st g he)
      · intro _ hall
        apply h3
        have hg := hall g (List.mem_cons_self _ _)
        simp only [LineState.isEmpty, addGlyph, decide_eq_false_iff_not, not_lt]
        exact le_trans hg (le_max_right _ _)
      · intro h0
        omega
    · simp [hp, sumAdvances]

theorem consumeList_fits_bound :
    ∀ (gs : List ShapedGlyph) (st : LineState), st.isEmpty = false →
      ∀ (A : List ShapedGlyph) (g : ShapedGlyph) (B : List ShapedGlyph),
        gs.take (consumeList fits st gs).2 = A ++ g :: B → g.whitespace = false →
          st.width + sumAdvances (A ++ [g]) ≤ st.maxWidth := by
  intro gs
  induction gs with
  | nil =>
    intro st _ A g B h
    simp at h
  | cons g0 gs ih =>
    intro st he A g B h hws
    rw [consumeList] at h
    by_cases hp : fits st g0 = true
    · simp only [hp, if_true, List.take_succ_cons] at h
      cases A with
      | nil =>
        simp only [List.nil_append, List.cons.injEq] at h
        obtain ⟨hg, _⟩ := h
        subst hg
        unfold fits at hp
        simp only [he, hws, Bool.false_or, Bool.and_false, Bool.false_and, Bool.or_false,
          decide_eq_true_eq] at hp
        simp only [List.nil_append, sumAdvances_cons, sumAdvances_nil]
        omega
      | cons a A2 =>
        simp only [List.cons_append, List.cons.injEq] at h
        obtain ⟨ha, h2⟩ := h
        subst ha
        have := ih (addGlyph st g0) (addGlyph_isEmpty st g0 he) A2 g B h2 hws
        simp only [addGlyph] at this
        simp only [List.cons_append, sumAdvances_cons]
        omega
    · simp only [hp, Bool.false_eq_true, if_false, List.take_zero] at h
      exact absurd h (by simp)

theorem consumeList_pos (p : LineState → ShapedGlyph → Bool) (st : LineState)
    (g : ShapedGlyph) (gs : List ShapedGlyph) (h : p st g = true) :
    1 ≤ (consumeList p st (g :: gs)).2 := by
  rw [consumeList]
  simp [h]

end LineOfWrappedGlyphCursorRanges

namespace WrappedGlyphsCursor

theorem range_glyphs_nextN {c : WrappedGlyphsCursor} (hv : c.Valid) {k : Nat}
    (hk : k ≤ c.remaining.length) :
    (WrappedGlyphsCursorRange.mk c (c.nextN k)).glyphs = c.remaining.take k := by
  unfold WrappedGlyphsCursorRange.glyphs
  simp only
  rw [(nextN_spec k c hv hk).2.1, List.length_drop]
  congr 1
  omega

theorem range_ok_nextN {c : WrappedGlyphsCursor} (hv : c.Valid) {k : Nat}
    (hk : k ≤ c.remaining.length) (hpos : 1 ≤ k) :
    (WrappedGlyphsCursorRange.mk c (c.nextN k)).Ok := by
  obtain ⟨h1, h2, h3, _⟩ := nextN_spec k c hv hk
  refine ⟨h3.symm, hv, h1, ?_, ?_⟩
  · rw [range_glyphs_nextN hv hk]
    intro h
    have := congrArg List.length h
    simp only [List.length_take, List.length_nil] at this
    omega
  · rw [range_glyphs_nextN hv hk]
    show c.remaining = _ ++ (c.nextN k).remaining
    rw [h2, List.take_append_drop]

end WrappedGlyphsCursor

theorem lineGlyphs_nil : lineGlyphs [] = [] := rfl

theorem lineGlyphs_cons (rg : WrappedGlyphsCursorRange) (l : List WrappedGlyphsCursorRange) :
    lineGlyphs (rg :: l) = rg.glyphs ++ lineGlyphs l := by
  simp [lineGlyphs]

theorem lineGlyphs_append (a b : List WrappedGlyphsCursorRange) :
    lineGlyphs (a ++ b) = lineGlyphs a ++ lineGlyphs b := by
  simp [lineGlyphs]

theorem lineGlyphs_singleton (rg : WrappedGlyphsCursorRange) : lineGlyphs [rg] = rg.glyphs := by
  simp [lineGlyphs]

theorem withinWidth_singleton (W : Int) (rg : WrappedGlyphsCursorRange) :
    WithinWidth W [rg] := by
  intro A g B h
  rw [lineGlyphs_nil] at h
  exact absurd h (by simp)

theorem withinWidth_append {W : Int} {first : WrappedGlyphsCursorRange}
    {rest : List WrappedGlyphsCursorRange} {rg : WrappedGlyphsCursorRange}
    (h : WithinWidth W (first :: rest))
    (hnew : ∀ (A : List ShapedGlyph) (g : ShapedGlyph) (B : List ShapedGlyph),
      rg.glyphs = A ++ g :: B → g.whitespace = false →
        sumAdvances (lineGlyphs (first :: rest) ++ A ++ [g]) ≤ W) :
    WithinWidth W (first :: rest ++ [rg]) := by
  intro A g B hsplit hws
  change lineGlyphs (rest ++ [rg]) = A ++ g :: B at hsplit
  rw [lineGlyphs_append, lineGlyphs_singleton] at hsplit
  rcases List.append_eq_append_iff.1 hsplit with ⟨a2, h1, h2⟩ | ⟨c2, h1, h2⟩
  · have := hnew a2 g B h2 hws
    rw [lineGlyphs_cons] at this
    rw [h1]
    simpa [List.append_assoc] using this
  · cases c2 with
    | nil =>
      simp only [List.append_nil, List.nil_append] at h1 h2
      have := hnew [] g B h2.symm hws
      rw [lineGlyphs_cons, h1] at this
      simpa [List.append_assoc] using this
    | cons x c3 =>
      simp only [List.cons_append, List.cons.injEq] at h2
      obtain ⟨hx, _⟩ := h2
      subst hx
      exact h A g c3 h1 hws

namespace LineOfWrappedGlyphCursorRanges
open WrappedGlyphsCursor

/-- One call of `consume` on a valid cursor with glyphs ahead: either the line is left as
it is, or the glyphs up to the returned cursor are added as one more range and the line
keeps its invariant; a line that already held glyphs takes the whole chunk sequence. -/
theorem consume_valid (line : LineOfWrappedGlyphCursorRanges) (glyphIt : WrappedGlyphsCursor)
    (force : Bool) (W : Int) (hv : glyphIt.Valid) (hb : glyphIt.isBeyondEnd = false)
    (hc : ∀ g ∈ glyphIt.remaining, 0 ≤ g.cluster) (hinv : LineInv W line) :
    (line.consume glyphIt force = (line, glyphIt) ∧ line.consumedChunks ≠ [])
    ∨ (∃ k, 1 ≤ k ∧ k ≤ glyphIt.remaining.length
        ∧ (line.consume glyphIt force).2 = glyphIt.nextN k
        ∧ (line.consume glyphIt force).1.consumedChunks
            = line.consumedChunks ++ [⟨glyphIt, glyphIt.nextN k⟩]
        ∧ LineInv W (line.consume glyphIt force).1
        ∧ (line.consumedChunks ≠ [] → (glyphIt.nextN k).isBeyondEnd = true)) := by
  have hrem := remaining_eq_cons hv hb
  -- the shape of the line after a range of `k` glyphs was added with state `st1`
  have key : ∀ (p : LineState → ShapedGlyph → Bool),
      1 ≤ (consumeList p line.state glyphIt.remaining).2 →
      (line.consumedChunks ≠ [] → p = fits) →
      LineInv W ⟨(consumeList p line.state glyphIt.remaining).1,
        line.consumedChunks
          ++ [⟨glyphIt, glyphIt.nextN (consumeList p line.state glyphIt.remaining).2⟩]⟩ := by
    intro p hk hp
    have hkl := consumeList_le p line.state glyphIt.remaining
    obtain ⟨h1, h2, h3, h4, _⟩ := consumeList_state p glyphIt.remaining line.state
    have hg := range_glyphs_nextN hv hkl
    refine ⟨by rw [h1]; exact hinv.maxWidth, ?_, ?_, ?_⟩
    · show (consumeList p line.state glyphIt.remaining).1.width = _
      rw [h2, lineGlyphs_append, lineGlyphs_singleton, hg, sumAdvances_append, hinv.width]
    · show (consumeList p line.state glyphIt.remaining).1.isEmpty = true ↔ _
      rw [h4 hk hc]
      simp
    · show WithinWidth W (line.consumedChunks ++ _)
      cases hcc : line.consumedChunks with
      | nil => exact withinWidth_singleton W _
      | cons first rest =>
        have hne : line.consumedChunks ≠ [] := by rw [hcc]; simp
        have hpf := hp hne
        subst hpf
        have hst : line.state.isEmpty = false := by
          cases he : line.state.isEmpty with
          | false => rfl
          | true => exact absurd (hinv.empty_iff.1 he) hne
        have hw := hinv.within
        rw [hcc] at hw
        apply withinWidth_append hw
        intro A g B hsplit hws
        rw [hg] at hsplit
        have := consumeList_fits_bound glyphIt.remaining line.state hst A g B hsplit hws
        rw [List.append_assoc, sumAdvances_append, ← hcc, ← hinv.width, ← hinv.maxWidth]
        exact this
  have hne_of_pos : ∀ k, 1 ≤ k → k ≤ glyphIt.remaining.length → glyphIt.nextN k ≠ glyphIt := by
    intro k hk hkl heq
    have := (nextN_spec k glyphIt hv hkl).2.1
    rw [heq] at this
    have := congrArg List.length this
    simp only [List.length_drop] at this
    rw [hrem] at this hkl
    simp only [List.length_cons] at this hkl
    omega
  unfold consume
  by_cases hf : (force && line.state.isEmpty) = true
  · rw [if_pos hf]
    right
    simp only [Bool.and_eq_true] at hf
    have hnil := hinv.empty_iff.1 hf.2
    rw [consumeIf_eq takeAll line.state glyphIt hv]
    have hk : 1 ≤ (consumeList takeAll line.state glyphIt.remaining).2 := by
      rw [hrem]
      exact consumeList_pos takeAll _ _ _ rfl
    exact ⟨_, hk, consumeList_le _ _ _, rfl, rfl, key takeAll hk (fun h => absurd hnil h),
      fun h => absurd hnil h⟩
  · rw [if_neg hf]
    rw [consumeIf_eq fits line.state glyphIt hv]
    simp only
    by_cases hg : (!line.state.isEmpty && !(glyphIt.nextN
        (consumeList fits line.state glyphIt.remaining).2).isBeyondEnd) = true
    · rw [if_pos hg]
      left
      simp only [Bool.and_eq_true, Bool.not_eq_true', Bool.not_eq_eq_eq_not, Bool.not_true] at hg
      refine ⟨rfl, ?_⟩
      intro hnil
      have := hinv.empty_iff.2 hnil
      rw [hg.1] at this
      exact Bool.noConfusion this
    · rw [if_neg hg]
      right
      have hkl := consumeList_le fits line.state glyphIt.remaining
      have hk : 1 ≤ (consumeList fits line.state glyphIt.remaining).2 := by
        by_contra hk0
        have hk0 : (consumeList fits line.state glyphIt.remaining).2 = 0 := by omega
        have hn0 : glyphIt.nextN (consumeList fits line.state glyphIt.remaining).2 = glyphIt := by
          rw [hk0]; rfl
        rw [hn0, hb] at hg
        cases he : line.state.isEmpty with
        | true =>
          have := consumeList_pos fits line.state glyphIt.deref glyphIt.next.remaining
            (fits_of_isEmpty _ _ he)
          rw [← hrem] at this
          omega
        | false =>
          rw [he] at hg
          simp at hg
      have hne := hne_of_pos _ hk hkl
      rw [if_pos hne]
      refine ⟨_, hk, hkl, rfl, rfl, key fits hk (fun _ => rfl), ?_⟩
      intro hcne
      have hst : line.state.isEmpty = false := by
        cases he : line.state.isEmpty with
        | false => rfl
        | true => exact absurd (hinv.empty_iff.1 he) hcne
      rw [hst] at hg
      simpa using hg

end LineOfWrappedGlyphCursorRanges


namespace WrappedGlyphsCursor

theorem mem_remaining {c : WrappedGlyphsCursor} {g : ShapedGlyph} (h : g ∈ c.remaining) :
    ∃ ch ∈ c.data, g ∈ ch.glyphs := by
  unfold remaining at h
  rcases List.mem_append.1 h with h1 | h1
  · have hg := List.mem_of_mem_drop h1
    by_cases hi : c.index.i < c.data.length
    · exact ⟨c.chunk, chunk_mem hi, hg⟩
    · rw [chunk_glyphs_of_le (Nat.le_of_not_lt hi)] at hg
      exact absurd hg (List.not_mem_nil g)
  · obtain ⟨l, hl, hgl⟩ := List.mem_flatten.1 h1
    obtain ⟨ch, hch, rfl⟩ := List.mem_map.1 hl
    exact ⟨ch, List.mem_of_mem_drop hch, hgl⟩

theorem init_valid {d : List OwnedGlyphsSpan} (h : ∀ s ∈ d, s.glyphs ≠ []) : (init d).Valid := by
  refine ⟨h, ?_, ?_⟩
  · intro hi
    have hm := chunk_mem (c := init d) hi
    have := h _ hm
    show 0 < (init d).chunk.glyphs.length
    exact List.length_pos.2 this
  · intro hle
    have h0 : d.length = 0 := Nat.le_zero.1 hle
    exact ⟨h0.symm, rfl⟩

theorem remaining_init_eq (d : List OwnedGlyphsSpan) : (init d).remaining = allGlyphs d := by
  have h := drop_succ_eq_chunk d 0
  unfold remaining init chunk allGlyphs
  simp only [List.drop_zero] at h ⊢
  rw [← h]

end WrappedGlyphsCursor

theorem LineOk.lift {prev : List WrappedGlyphs} {l : List WrappedGlyphsCursorRange}
    (h : LineOk prev l) (more : List WrappedGlyphs) : LineOk (prev ++ more) l :=
  ⟨h.1.trans (List.sublist_append_left _ _), h.2⟩

theorem LineOk.append {prev : List WrappedGlyphs} {l : List WrappedGlyphsCursorRange}
    (h : LineOk prev l) {rg : WrappedGlyphsCursorRange} (hrg : rg.Ok) :
    LineOk (prev ++ [rg.«begin».data]) (l ++ [rg]) := by
  refine ⟨?_, ?_⟩
  · rw [List.map_append, List.map_singleton]
    exact List.Sublist.append h.1 (List.Sublist.refl _)
  · intro x hx
    rcases List.mem_append.1 hx with h1 | h1
    · exact h.2 x h1
    · rw [List.mem_singleton.1 h1]; exact hrg

theorem LineOk.nil (prev : List WrappedGlyphs) : LineOk prev [] :=
  ⟨List.nil_sublist _, fun x hx => absurd hx (List.not_mem_nil x)⟩

namespace FillLinesOptions
open WrappedGlyphsCursor LineOfWrappedGlyphCursorRanges

theorem lineWidth_succ (o : FillLinesOptions) (n : Nat) : o.lineWidth (n + 1) = o.width := by
  simp [lineWidth]

theorem lineInv_init (W : Int) (f : Bool) : LineInv W (LineOfWrappedGlyphCursorRanges.init W f) :=
  ⟨rfl, rfl, by simp [LineOfWrappedGlyphCursorRanges.init, LineState.init, LineState.isEmpty],
   trivial⟩

theorem fillChunks_zero (o : FillLinesOptions) (line : LineOfWrappedGlyphCursorRanges)
    (cursor : WrappedGlyphsCursor) (lines : List (List WrappedGlyphsCursorRange)) :
    fillChunks o 0 line cursor lines = none := rfl

/-- The inner loop of `fillLines` over a chunk sequence whose chunks all hold glyphs: when
it returns, the cursor is at the end and the lines hold every glyph of the chunk sequence,
in order, within their widths. -/
theorem fillChunks_inv (o : FillLinesOptions) (prev : List WrappedGlyphs)
    (chunks : WrappedGlyphs) (hok : ChunksOk chunks) :
    ∀ (fuel : Nat) (line : LineOfWrappedGlyphCursorRanges) (cursor : WrappedGlyphsCursor)
      (lines : List (List WrappedGlyphsCursorRange))
      (r : LineOfWrappedGlyphCursorRanges × WrappedGlyphsCursor
        × List (List WrappedGlyphsCursorRange)),
      fillChunks o fuel line cursor lines = some r →
      cursor.Valid → cursor.data = chunks →
      FillInv o prev (prev ++ [chunks]) line cursor.remaining lines →
      r.2.1.data = chunks
        ∧ FillInv o (prev ++ [chunks]) (prev ++ [chunks]) r.1 [] r.2.2 := by
  intro fuel
  induction fuel with
  | zero => intro line cursor lines r h; rw [fillChunks_zero] at h; exact Option.noConfusion h
  | succ n ih =>
    intro line cursor lines r hres hv hd hinv
    have hexit : ∀ (line1 : LineOfWrappedGlyphCursorRanges) (c1 : WrappedGlyphsCursor)
        (lines1 : List (List WrappedGlyphsCursorRange)) (m : Nat)
        (r1 : LineOfWrappedGlyphCursorRanges × WrappedGlyphsCursor
          × List (List WrappedGlyphsCursorRange)),
        fillChunks o m line1 c1 lines1 = some r1 → c1.isBeyondEnd = true →
          r1 = (line1, c1, lines1) := by
      intro line1 c1 lines1 m r1 h hbe
      cases m with
      | zero => rw [fillChunks_zero] at h; exact Option.noConfusion h
      | succ k =>
        rw [fillChunks_of_beyondEnd o k line1 c1 lines1 hbe] at h
        exact (Option.some.inj h).symm
    by_cases hb : cursor.isBeyondEnd = true
    · have := hexit line cursor lines (n + 1) r hres hb
      subst this
      have hrem := remaining_eq_nil hv hb
      rw [hrem] at hinv
      exact ⟨hd, hinv.curInv, hinv.curOk.lift _, hinv.within, hinv.linesOk, hinv.tiling⟩
    · have hb2 : cursor.isBeyondEnd = false := by simpa using hb
      have hcl : ∀ g ∈ cursor.remaining, 0 ≤ g.cluster := by
        intro g hg
        obtain ⟨ch, hch, hgc⟩ := mem_remaining hg
        rw [hd] at hch
        exact (hok ch hch).2 g hgc
      rw [fillChunks] at hres
      simp only [hb2, Bool.false_eq_true, if_false] at hres
      rcases consume_valid line cursor o.forceConsumeFirstWord _ hv hb2 hcl hinv.curInv with
        ⟨heq, hne⟩ | ⟨k, hk, hkl, h2, hcc, hli, hlast⟩
      · -- nothing taken: the line is finished
        rw [heq] at hres
        simp only [hb2, Bool.not_false, if_true] at hres
        refine ih _ _ _ r hres hv hd ?_
        refine ⟨?_, LineOk.nil _, ?_, ?_, ?_⟩
        · rw [List.length_append, List.length_singleton, lineWidth_succ]
          exact lineInv_init _ _
        · intro j l hj
          by_cases hjl : j < lines.length
          · rw [List.getElem?_append_left hjl] at hj
            exact hinv.within j l hj
          · have hjl2 : lines.length ≤ j := Nat.le_of_not_lt hjl
            rw [List.getElem?_append_right hjl2] at hj
            have hj0 : j - lines.length = 0 := by
              by_contra hcon
              rw [List.getElem?_eq_none (by simp; omega)] at hj
              exact Option.noConfusion hj
            rw [hj0] at hj
            simp only [List.getElem?_cons_zero, Option.some.injEq] at hj
            have hjj : j = lines.length := by omega
            rw [← hj, hjj]
            exact hinv.curInv.within
        · intro l hl
          rcases List.mem_append.1 hl with h1 | h1
          · exact hinv.linesOk l h1
          · rw [List.mem_singleton.1 h1]
            exact ⟨hinv.curOk.lift _, hne⟩
        · have := hinv.tiling
          simp only [List.map_append, List.map_singleton, List.flatten_append,
            List.flatten_singleton, LineOfWrappedGlyphCursorRanges.init, lineGlyphs_nil,
            List.append_nil, getConsumedChunks] at this ⊢
          simpa [List.append_assoc] using this
      · have hrg := range_ok_nextN hv hkl hk
        have hgl := range_glyphs_nextN hv hkl
        obtain ⟨hv2, hrem2, hd2, _⟩ := nextN_spec k cursor hv hkl
        have hsplit : cursor.remaining
            = (WrappedGlyphsCursorRange.mk cursor (cursor.nextN k)).glyphs
              ++ (cursor.nextN k).remaining := hrg.2.2.2.2
        have hlok : LineOk (prev ++ [chunks])
            (line.consumedChunks ++ [⟨cursor, cursor.nextN k⟩]) := by
          have := hinv.curOk.append hrg
          rw [show (WrappedGlyphsCursorRange.mk cursor (cursor.nextN k)).«begin».data = chunks
            from hd] at this
          exact this
        by_cases hbe : (cursor.nextN k).isBeyondEnd = true
        · -- the chunk sequence is used up
          rw [h2] at hres
          simp only [hbe, Bool.not_true, Bool.false_eq_true, if_false] at hres
          have := hexit _ _ _ n r hres hbe
          subst this
          have hrem := remaining_eq_nil hv2 hbe
          refine ⟨by show (cursor.nextN k).data = chunks; rw [hd2, hd], hli, ?_, hinv.within,
            hinv.linesOk, ?_⟩
          · show LineOk _ (line.consume cursor o.forceConsumeFirstWord).1.consumedChunks
            rw [hcc]
            exact hlok
          · show _ ++ lineGlyphs (line.consume cursor o.forceConsumeFirstWord).1.consumedChunks
              ++ [] = _
            rw [hcc, lineGlyphs_append, lineGlyphs_singleton, ← hinv.tiling, hsplit, hrem]
            simp [List.append_assoc]
        · -- the line is full inside the chunk sequence: it was empty before
          have hbe2 : (cursor.nextN k).isBeyondEnd = false := by simpa using hbe
          have hnil : line.consumedChunks = [] := by
            by_contra hcon
            rw [hlast hcon] at hbe2
            exact Bool.noConfusion hbe2
          rw [h2] at hres
          simp only [hbe2, Bool.not_false, if_true] at hres
          refine ih _ _ _ r hres hv2 (by rw [hd2, hd]) ?_
          refine ⟨?_, LineOk.nil _, ?_, ?_, ?_⟩
          · rw [List.length_append, List.length_singleton, lineWidth_succ]
            exact lineInv_init _ _
          · intro j l hj
            by_cases hjl : j < lines.length
            · rw [List.getElem?_append_left hjl] at hj
              exact hinv.within j l hj
            · have hjl2 : lines.length ≤ j := Nat.le_of_not_lt hjl
              rw [List.getElem?_append_right hjl2] at hj
              have hj0 : j - lines.length = 0 := by
                by_contra hcon
                rw [List.getElem?_eq_none (by simp; omega)] at hj
                exact Option.noConfusion hj
              rw [hj0] at hj
              simp only [List.getElem?_cons_zero, Option.some.injEq] at hj
              have hjj : j = lines.length := by omega
              rw [← hj, hjj]
              exact hli.within
          · intro l hl
            rcases List.mem_append.1 hl with h1 | h1
            · exact hinv.linesOk l h1
            · rw [List.mem_singleton.1 h1]
              show LineOk _ (line.consume cursor o.forceConsumeFirstWord).1.consumedChunks
                ∧ (line.consume cursor o.forceConsumeFirstWord).1.consumedChunks ≠ []
              rw [hcc]
              exact ⟨hlok, by simp⟩
          · have ht := hinv.tiling
            rw [hnil, lineGlyphs_nil, List.append_nil, hsplit] at ht
            simp only [List.map_append, List.map_singleton, List.flatten_append,
              List.flatten_singleton, LineOfWrappedGlyphCursorRanges.init, lineGlyphs_nil,
              List.append_nil, getConsumedChunks, hcc, hnil, List.nil_append,
              lineGlyphs_singleton] at ht ⊢
            simpa [List.append_assoc] using ht

end FillLinesOptions

namespace AudioData

set_option maxRecDepth 100000 in
/-- C27: for every byte `s`, `decodeALawToInt16 (s)` is the ITU-T G.711 A-law expansion of
`s`: the table entry equals the value computed from `x = s XOR 0x55`, its exponent bits and
its mantissa bits, with the sign of bit 7 of `x`. -/
theorem decodeALawToInt16_is_g711 (s : Fin 256) :
    decodeALawToInt16 s.val = aLawExpand s.val := by
  revert s
  decide

set_option maxRecDepth 100000 in
/-- C28: for every byte `s`, `decodeMuLawToInt16 (s)` is the ITU-T G.711 mu-law expansion of
`s`: the table entry equals `132 - t` or `t - 132` with `t = (8 m + 132) * 2 ^ e` computed
from the complement of `s`. -/
theorem decodeMuLawToInt16_is_g711 (s : Fin 256) :
    decodeMuLawToInt16 s.val = muLawExpand s.val := by
  revert s
  decide

end AudioData

namespace AudioData

theorem jlimit_scaled (x : Int) :
    jlimit (-1) 1 (x * 32768) = if 0 < x then 1 else if x < 0 then -1 else 0 := by
  unfold jlimit
  split_ifs <;> omega

set_option maxRecDepth 100000 in
theorem aLawTable_nonzero (s : Fin 256) : toInt16 (decodeALawToInt16 (s.val % 256)) ≠ 0 := by
  revert s
  decide

/-- C29: for every sample byte and every expander, `decodeCompandedSampleToFloat32` is
exactly 1 when the expanded 16-bit value is positive, exactly -1 when it is negative and 0
when it is zero: the value is multiplied by 32768 and then limited to `[-1, 1]`. In
particular `decodeALawToFloat32` returns 1 or -1 for each of the 256 bytes. -/
theorem decodeCompandedSampleToFloat32_saturates :
    (∀ (s : Nat) (f : Nat → Int),
      decodeCompandedSampleToFloat32 s f
        = if 0 < toInt16 (f (s % 256)) then 1
          else if toInt16 (f (s % 256)) < 0 then -1 else 0)
    ∧ (∀ s : Fin 256, decodeALawToFloat32 s.val = 1 ∨ decodeALawToFloat32 s.val = -1) := by
  refine ⟨fun s f => jlimit_scaled _, ?_⟩
  intro s
  unfold decodeALawToFloat32 decodeCompandedSampleToFloat32
  rw [jlimit_scaled]
  have := aLawTable_nonzero s
  split_ifs with h1 h2
  · exact Or.inl rfl
  · exact Or.inr rfl
  · exact absurd (by omega) this

end AudioData

namespace AudioDataConverters

theorem convertLoopUp_getD (read : Nat → ℚ) (stride : Nat) :
    ∀ (count i intData : Nat) (dest : List ℚ) (j : Nat),
      (convertLoopUp read stride count i intData dest).getD j 0
        = if i ≤ j ∧ j < i + count ∧ j < dest.length then read (intData + (j - i) * stride)
          else dest.getD j 0 := by
  intro count
  induction count with
  | zero =>
    intro i intData dest j
    rw [convertLoopUp, if_neg (by omega)]
  | succ n ih =>
    intro i intData dest j
    rw [convertLoopUp, ih]
    simp only [List.length_set]
    by_cases hj : j = i
    · subst hj
      by_cases hl : j < dest.length
      · rw [if_neg (by omega), if_pos (by omega)]
        simp [List.getD_eq_getElem?_getD, List.getElem?_set, hl]
      · rw [if_neg (by omega), if_neg (by omega)]
        simp [List.getD_eq_getElem?_getD, List.getElem?_set, hl,
          List.getElem?_eq_none (Nat.le_of_not_lt hl)]
    · by_cases hc : i + 1 ≤ j ∧ j < i + 1 + n ∧ j < dest.length
      · rw [if_pos hc, if_pos (by omega)]
        congr 1
        have : j - i = (j - (i + 1)) + 1 := by omega
        rw [this, Nat.add_mul]
        omega
      · rw [if_neg hc, if_neg (by omega)]
        simp only [List.getD_eq_getElem?_getD]
        rw [List.getElem?_set_ne (Ne.symm hj)]

theorem convertLoopDown_getD (read : Nat → ℚ) (stride : Nat) :
    ∀ (i : Nat) (dest : List ℚ) (j : Nat),
      (convertLoopDown read stride i (stride * i) dest).getD j 0
        = if j < i ∧ j < dest.length then read (stride * j) else dest.getD j 0 := by
  intro i
  induction i with
  | zero =>
    intro dest j
    rw [convertLoopDown, if_neg (by omega)]
  | succ n ih =>
    intro dest j
    have hsub : stride * (n + 1) - stride = stride * n := by
      rw [Nat.mul_succ, Nat.add_sub_cancel]
    rw [convertLoopDown, hsub, ih]
    simp only [List.length_set]
    by_cases hj : j = n
    · subst hj
      by_cases hl : j < dest.length
      · rw [if_neg (by omega), if_pos (by omega)]
        simp [List.getD_eq_getElem?_getD, List.getElem?_set, hl]
      · rw [if_neg (by omega), if_neg (by omega)]
        simp [List.getD_eq_getElem?_getD, List.getElem?_set, hl,
          List.getElem?_eq_none (Nat.le_of_not_lt hl)]
    · by_cases hc : j < n ∧ j < dest.length
      · rw [if_pos hc, if_pos (by omega)]
      · rw [if_neg hc, if_neg (by omega)]
        simp only [List.getD_eq_getElem?_getD]
        rw [List.getElem?_set_ne (Ne.symm hj)]

theorem toShort_add_mul (x k : Int) : toShort (k * 65536 + x) = toShort x := by
  unfold toShort
  have : k * 65536 + x + 32768 = (x + 32768) + 65536 * k := by ring
  rw [this, Int.add_mul_emod_self_left]

theorem toShort_littleEndian24Bit (source : List Nat) (a : Nat) :
    toShort (littleEndian24Bit source a)
      = toShort ((byteAt source (a + 1) : Int) * 256 + (byteAt source a : Int)) := by
  unfold littleEndian24Bit
  rw [add_assoc, toShort_add_mul]

theorem toShort_bigEndian24Bit (source : List Nat) (a : Nat) :
    toShort (bigEndian24Bit source a)
      = toShort ((byteAt source (a + 1) : Int) * 256 + (byteAt source (a + 2) : Int)) := by
  unfold bigEndian24Bit
  rw [add_assoc, toShort_add_mul]

/-- The sample `i` written by one of the two loops. -/
theorem convert_getD (read : Nat → ℚ) (dest : List ℚ) (numSamples stride : Nat)
    (inPlace : Bool) (i : Nat) (hi : i < numSamples) (hd : numSamples ≤ dest.length) :
    (if !inPlace || decide (4 ≤ stride) then convertLoopUp read stride numSamples 0 0 dest
      else convertLoopDown read stride numSamples (stride * numSamples) dest).getD i 0
      = read (i * stride) := by
  split
  · rw [convertLoopUp_getD, if_pos (by omega)]
    simp
  · rw [convertLoopDown_getD, if_pos (by omega), Nat.mul_comm]

/-- C30: `convertInt24LEToFloat` and `convertInt24BEToFloat` use only the low 16 bits of
each 24-bit sample. For every rounding `fl` to `float`, every source buffer, stride and
sample count, in place or not, sample `i` of the output is `fl (fl (1 / 0x7fffff) * v)`
with `v` the two low bytes of the sample read as a signed 16-bit integer; the high byte of
the sample does not enter. -/
theorem convertInt24ToFloat_low16 (fl : ℚ → ℚ) (source : List Nat) (dest : List ℚ)
    (numSamples srcBytesPerSample : Nat) (inPlace : Bool) (i : Nat) (hi : i < numSamples)
    (hd : numSamples ≤ dest.length) :
    (convertInt24LEToFloat fl source dest numSamples srcBytesPerSample inPlace).getD i 0
      = fl (fl (1 / 0x7fffff)
          * (toShort ((byteAt source (i * srcBytesPerSample + 1) : Int) * 256
              + (byteAt source (i * srcBytesPerSample) : Int)) : ℚ))
    ∧ (convertInt24BEToFloat fl source dest numSamples srcBytesPerSample inPlace).getD i 0
      = fl (fl (1 / 0x7fffff)
          * (toShort ((byteAt source (i * srcBytesPerSample + 1) : Int) * 256
              + (byteAt source (i * srcBytesPerSample + 2) : Int)) : ℚ)) := by
  constructor
  · unfold convertInt24LEToFloat
    simp only
    rw [convert_getD _ dest numSamples srcBytesPerSample inPlace i hi hd,
      toShort_littleEndian24Bit]
  · unfold convertInt24BEToFloat
    simp only
    rw [convert_getD _ dest numSamples srcBytesPerSample inPlace i hi hd,
      toShort_bigEndian24Bit]

/-- Witness of C30: the sample value 0x010000, bytes 00 00 01 in little-endian and
01 00 00 in big-endian order, converts to 0 (with exact arithmetic for `fl`). -/
theorem convertInt24ToFloat_low16_witness :
    (convertInt24LEToFloat id [0, 0, 1] [7] 1 3 false).getD 0 0 = 0
    ∧ (convertInt24BEToFloat id [1, 0, 0] [7] 1 3 false).getD 0 0 = 0 :=
  ⟨by
    rw [(convertInt24ToFloat_low16 id [0, 0, 1] [7] 1 3 false 0 (by decide) (by decide)).1]
    simp [toShort, byteAt],
   by
    rw [(convertInt24ToFloat_low16 id [1, 0, 0] [7] 1 3 false 0 (by decide) (by decide)).2]
    simp [toShort, byteAt]⟩

end AudioDataConverters


theorem mapFind_mapAssign (m : List (Nat × ControlCharacter)) (key : Nat)
    (value : ControlCharacter) (k : Nat) :
    mapFind (mapAssign m key value) k = if k = key then some value else mapFind m k := by
  induction m with
  | nil =>
    unfold mapAssign mapFind
    by_cases h : k = key
    · simp [h]
    · have : (key == k) = false := by simpa using (fun e => h e.symm)
      simp [h, List.find?, this]
  | cons e rest ih =>
    unfold mapAssign
    by_cases h1 : key < e.1
    · rw [if_pos h1]
      unfold mapFind
      by_cases h : k = key
      · simp [h]
      · have : (key == k) = false := by simpa using (fun e => h e.symm)
        simp [h, List.find?_cons, this]
    · rw [if_neg h1]
      by_cases h2 : key = e.1
      · rw [if_pos h2]
        unfold mapFind
        by_cases h : k = key
        · simp [h]
        · have : (key == k) = false := by simpa using (fun e => h e.symm)
          have h3 : (e.1 == k) = false := by rw [← h2]; exact this
          simp [h, List.find?_cons, this, h3]
      · rw [if_neg h2]
        have ih2 := ih
        unfold mapFind at ih2 ⊢
        by_cases h3 : (e.1 == k) = true
        · have hk : e.1 = k := by simpa using h3
          have hne : ¬ k = key := by
            intro hh
            exact h2 (by rw [hk, hh])
          simp [List.find?_cons, h3, hne]
        · have h4 : (e.1 == k) = false := by simpa using h3
          simp only [List.find?_cons, h4]
          exact ih2

theorem drop_eq_cons_getD {text : List Nat} {i c : Nat} {rest : List Nat}
    (h : text.drop i = c :: rest) :
    i < text.length ∧ text.getD i 0 = c ∧ text.drop (i + 1) = rest := by
  have hl : i < text.length := by
    by_contra hcon
    rw [List.drop_eq_nil_of_le (Nat.le_of_not_lt hcon)] at h
    exact List.noConfusion h
  rw [List.drop_eq_getElem_cons hl] at h
  simp only [List.cons.injEq] at h
  refine ⟨hl, ?_, h.2⟩
  rw [List.getD_eq_getElem?_getD, List.getElem?_eq_getElem hl]
  exact h.1

theorem findControlLoop_spec (text : List Nat) :
    ∀ (rest : List Nat) (i : Nat) (result : List (Nat × ControlCharacter)),
      text.drop i = rest → (∀ k, i ≤ k → mapFind result k = none) →
      ∀ k, mapFind (findControlLoop text rest i result) k
        = if i ≤ k then controlCharacterAt text k else mapFind result k := by
  intro rest
  induction rest with
  | nil =>
    intro i result hd hinv k
    rw [findControlLoop]
    have hlen : text.length ≤ i := by
      have := congrArg List.length hd
      simp only [List.length_drop, List.length_nil] at this
      omega
    by_cases hk : i ≤ k
    · rw [if_pos hk, hinv k hk]
      unfold controlCharacterAt
      rw [if_neg (by omega)]
    · rw [if_neg hk]
  | cons c rest ih =>
    intro i result hd hinv k
    obtain ⟨hl, hc, hrest⟩ := drop_eq_cons_getD hd
    have step : ∀ (res2 : List (Nat × ControlCharacter)),
        (∀ j, mapFind res2 j = if j = i then controlCharacterAt text i else mapFind result j) →
        mapFind (findControlLoop text rest (i + 1) res2) k
          = if i ≤ k then controlCharacterAt text k else mapFind result k := by
      intro res2 h2
      rw [ih (i + 1) res2 hrest (fun j hj => by rw [h2 j, if_neg (by omega), hinv j (by omega)])]
      by_cases hk : i + 1 ≤ k
      · rw [if_pos hk, if_pos (by omega)]
      · rw [if_neg hk, h2 k]
        by_cases hki : k = i
        · rw [if_pos hki, if_pos (by omega), hki]
        · rw [if_neg hki, if_neg (by omega)]
    have hcca : controlCharacterAt text i
        = if c = 0x0a then some ControlCharacter.lf
          else if c = 0x09 then some ControlCharacter.tab
          else if c = 0x0d then
            if i + 1 < text.length ∧ text.getD (i + 1) 0 = 0x0a
              then some ControlCharacter.crFollowedByLf
            else some ControlCharacter.cr
          else none := by
      unfold controlCharacterAt
      rw [if_pos hl, hc]
    rw [findControlLoop]
    by_cases h1 : c = 0x0a
    · rw [if_pos h1]
      apply step
      intro j
      rw [if_pos h1] at hcca
      rw [mapFind_mapAssign, hcca]
    · rw [if_neg h1]
      rw [if_neg h1] at hcca
      by_cases h2 : c = 0x0d
      · rw [if_pos h2]
        have h9 : ¬ c = 0x09 := by omega
        rw [if_neg h9, if_pos h2] at hcca
        by_cases h3 : text.length - i > 1 ∧ text.getD (i + 1) 0 = 0x0a
        · rw [if_pos h3]
          apply step
          intro j
          rw [if_pos ⟨by omega, h3.2⟩] at hcca
          rw [mapFind_mapAssign, hcca]
        · rw [if_neg h3]
          apply step
          intro j
          rw [if_neg (fun h => h3 ⟨by omega, h.2⟩)] at hcca
          rw [mapFind_mapAssign, hcca]
      · rw [if_neg h2]
        by_cases h3 : c = 0x09
        · rw [if_pos h3]
          apply step
          intro j
          rw [if_pos h3] at hcca
          rw [mapFind_mapAssign, hcca]
        · rw [if_neg h3]
          apply step
          intro j
          rw [if_neg h3, if_neg h2] at hcca
          rw [hcca]
          by_cases hj : j = i
          · rw [if_pos hj, hj, hinv i (le_refl _)]
          · rw [if_neg hj]

/-- C26: `findControlCharacters` classifies exactly the control characters of the span. For
every text and every index `i`, the result maps `i` to `lf` when the codepoint there is LF,
to `tab` when it is TAB, to `crFollowedByLf` when it is CR and the next index is inside the
span and holds LF, to `cr` for any other CR (so for a CR at the last index), and has no
entry for `i` otherwise, nor for an index outside the span. -/
theorem findControlCharacters_spec (text : List Nat) (i : Nat) :
    mapFind (findControlCharacters text) i = controlCharacterAt text i := by
  unfold findControlCharacters
  rw [findControlLoop_spec text text 0 [] (List.drop_zero _) (fun k _ => rfl) i,
    if_pos (Nat.zero_le _)]



namespace dsp

/-- C21: `ProcessorChain::process` does not call `process` on every inner processor. The
index sequence that `forEachInTuple` builds for the tuple of the chain holds the index 0
alone, so for every chain of two or more processors, every incoming context and every
behaviour of the inner processors, the record of the calls holds one call, that of
processor 0 (on a copy of the context, with `isBypassed` equal to the bypass flag of the
processor or that of the incoming context); the audio blocks are those left by processor
0, and every other element of the chain is as it was. -/
theorem ProcessorChain_process_first_only {P W : Type}
    (procProcess : P → InnerContext → W → P × W)
    (first second : ProcessorWithBypass P) (rest : List (ProcessorWithBypass P))
    (context : ProcessContext) (blocks : W) :
    ProcessorChain.process procProcess (first :: second :: rest) context blocks
      = (((procProcess first.processor
              ⟨false, first.isBypassed || context.isBypassed⟩ blocks).2,
            [(0, ⟨false, first.isBypassed || context.isBypassed⟩)]),
          { first with processor := (procProcess first.processor
              ⟨false, first.isBypassed || context.isBypassed⟩ blocks).1 }
            :: second :: rest) := by
  unfold ProcessorChain.process forEachInTuple TupleIndexSequence
  simp [forEachInTupleAt, processItem, List.range_succ]

end dsp

theorem foldLines_unchanged (lines : List (List WrappedGlyphsCursorRange)) (m : Nat)
    (h : m = 0 ∨ lines.length ≤ m) : foldLinesBeyondLineLimit lines m = lines := by
  unfold foldLinesBeyondLineLimit
  rw [if_pos (by rcases h with h | h; exact Or.inr h; exact Or.inl h)]

theorem foldLines_folded (lines : List (List WrappedGlyphsCursorRange)) (m : Nat)
    (h1 : 1 ≤ m) (h2 : m < lines.length) :
    foldLinesBeyondLineLimit lines m
      = lines.take (m - 1) ++ [(lines.drop (m - 1)).flatten] := by
  unfold foldLinesBeyondLineLimit
  rw [if_neg (by omega)]
  congr 2
  have hlt : m - 1 < lines.length := by omega
  rw [List.drop_eq_getElem_cons hlt, List.flatten_cons, List.getD_eq_getElem?_getD,
    List.getElem?_eq_getElem hlt]
  have : m - 1 + 1 = m := by omega
  rw [this]
  rfl

/-- What `foldLinesBeyondLineLimit` does, for every list of lines and every limit. -/
theorem foldLines_facts (lines : List (List WrappedGlyphsCursorRange)) (m : Nat) :
    (foldLinesBeyondLineLimit lines m).length
        = (if m = 0 then lines.length else min lines.length m)
    ∧ (foldLinesBeyondLineLimit lines m).take (m - 1) = lines.take (m - 1)
    ∧ (foldLinesBeyondLineLimit lines m)[m - 1]?
        = (if 1 ≤ m ∧ m ≤ lines.length then some ((lines.drop (m - 1)).flatten)
           else lines[m - 1]?)
    ∧ (foldLinesBeyondLineLimit lines m).flatten = lines.flatten
    ∧ (m = 0 ∨ lines.length ≤ m → foldLinesBeyondLineLimit lines m = lines) := by
  by_cases h : m = 0 ∨ lines.length ≤ m
  · rw [foldLines_unchanged lines m h]
    refine ⟨?_, rfl, ?_, rfl, fun _ => rfl⟩
    · split_ifs with h0
      · rfl
      · rcases h with h | h
        · exact absurd h h0
        · omega
    · split_ifs with hc
      · have heq : m = lines.length := by rcases h with h | h <;> omega
        have hlt : m - 1 < lines.length := by omega
        rw [List.getElem?_eq_getElem hlt, List.drop_eq_getElem_cons hlt]
        have : m - 1 + 1 = lines.length := by omega
        rw [this, List.drop_length]
        simp
      · rfl
  · have h1 : 1 ≤ m := by omega
    have h2 : m < lines.length := by omega
    rw [foldLines_folded lines m h1 h2]
    have hlen : (lines.take (m - 1)).length = m - 1 := by
      rw [List.length_take]; omega
    refine ⟨?_, ?_, ?_, ?_, fun hh => absurd hh h⟩
    · rw [List.length_append, hlen, if_neg (by omega)]
      simp only [List.length_singleton]
      omega
    · rw [List.take_append_of_le_length (by omega), List.take_take]
      simp
    · rw [if_pos ⟨h1, by omega⟩, List.getElem?_append_right (by omega), hlen]
      simp
    · rw [List.flatten_append, List.flatten_singleton, ← List.flatten_append,
        List.take_append_drop]

/-- C22: `foldLinesBeyondLineLimit (lines, m)`. For every list of lines and every `m`: with
`m >= 1` exactly `min (len, m)` lines are left, the first `m - 1` lines are unchanged, the
`m`-th line is the in-order concatenation of the former lines `m`, `m + 1`, ..., and the
in-order concatenation of all consumed ranges is the same; with `m = 0` or `len <= m`
nothing changes. -/
theorem foldLinesBeyondLineLimit_spec (lines : List (List WrappedGlyphsCursorRange))
    (m : Nat) :
    (foldLinesBeyondLineLimit lines m).length
        = (if m = 0 then lines.length else min lines.length m)
    ∧ (foldLinesBeyondLineLimit lines m).take (m - 1) = lines.take (m - 1)
    ∧ (foldLinesBeyondLineLimit lines m)[m - 1]?
        = (if 1 ≤ m ∧ m ≤ lines.length then some ((lines.drop (m - 1)).flatten)
           else lines[m - 1]?)
    ∧ (foldLinesBeyondLineLimit lines m).flatten = lines.flatten
    ∧ (m = 0 ∨ lines.length ≤ m → foldLinesBeyondLineLimit lines m = lines) :=
  foldLines_facts lines m

/-- Witness of C22: three lines of one range each, folded to two. -/
theorem foldLinesBeyondLineLimit_spec_witness :
    (foldLinesBeyondLineLimit [[default], [default], [default]] 2).length
        = (if 2 = 0 then [[default], [default], [(default : WrappedGlyphsCursorRange)]].length
           else min [[default], [default], [(default : WrappedGlyphsCursorRange)]].length 2)
    ∧ (foldLinesBeyondLineLimit [[default], [default], [default]] 2).take (2 - 1)
        = [[default], [default], [(default : WrappedGlyphsCursorRange)]].take (2 - 1)
    ∧ (foldLinesBeyondLineLimit [[default], [default], [default]] 2)[2 - 1]?
        = (if 1 ≤ 2 ∧ 2 ≤ [[default], [default], [(default : WrappedGlyphsCursorRange)]].length
           then some (([[default], [default], [(default : WrappedGlyphsCursorRange)]].drop
             (2 - 1)).flatten)
           else [[default], [default], [(default : WrappedGlyphsCursorRange)]][2 - 1]?)
    ∧ (foldLinesBeyondLineLimit [[default], [default], [default]] 2).flatten
        = [[default], [default], [(default : WrappedGlyphsCursorRange)]].flatten
    ∧ (2 = 0 ∨ [[default], [default], [(default : WrappedGlyphsCursorRange)]].length ≤ 2 →
        foldLinesBeyondLineLimit [[default], [default], [default]] 2
          = [[default], [default], [default]]) :=
  foldLinesBeyondLineLimit_spec [[default], [default], [default]] 2


namespace WrappedGlyphsCursor

theorem empty_congr {c1 c2 : WrappedGlyphsCursor} (h : c1.data = c2.data) :
    c1.empty = c2.empty := by
  unfold empty
  rw [h]

theorem plusAssignLoop_normal : ∀ (fuel : Nat) (c : WrappedGlyphsCursor) (d : Nat),
    c.Normal → (plusAssignLoop fuel c d).Normal := by
  intro fuel
  induction fuel with
  | zero => intro c d h; exact h
  | succ n ih =>
    intro c d h
    rw [plusAssignLoop]
    split
    · dsimp only
      split
      · exact ih _ _ (Or.inr rfl)
      · rename_i hne
        apply ih
        left
        show c.index.j + min d (c.chunk.size - c.index.j) < c.chunk.size
        rcases h with h | h <;> omega
    · exact h

theorem plusAssign_normal (c : WrappedGlyphsCursor) (d : Nat) (h : c.Normal) :
    (c.plusAssign d).Normal :=
  plusAssignLoop_normal _ c d h

theorem plusAssign_data (c : WrappedGlyphsCursor) (d : Nat) : (c.plusAssign d).data = c.data :=
  plusAssignLoop_data _ c d

/-- The cursor reached from the start of `d` by a sequence of `operator+=` steps. -/
theorem reached_normal (d : List OwnedGlyphsSpan) (steps : List Nat) :
    (steps.foldl (fun c n => c.plusAssign n) (init d)).Normal
    ∧ (steps.foldl (fun c n => c.plusAssign n) (init d)).data = d := by
  have : ∀ (c : WrappedGlyphsCursor), c.Normal →
      (steps.foldl (fun c n => c.plusAssign n) c).Normal
      ∧ (steps.foldl (fun c n => c.plusAssign n) c).data = c.data := by
    induction steps with
    | nil => intro c h; exact ⟨h, rfl⟩
    | cons s rest ih =>
      intro c h
      rw [List.foldl_cons]
      obtain ⟨h1, h2⟩ := ih (c.plusAssign s) (plusAssign_normal c s h)
      exact ⟨h1, by rw [h2, plusAssign_data]⟩
  exact this (init d) (init_normal d)

theorem remaining_ne_nil {c : WrappedGlyphsCursor} (hn : c.Normal) (hb : c.isBeyondEnd = false) :
    c.remaining ≠ [] := by
  intro h
  have := (next_normal hn hb).2
  rw [h] at this
  simp at this

theorem remaining_eq_nil_of_le {c : WrappedGlyphsCursor} (hi : c.data.length ≤ c.index.i) :
    c.remaining = [] := by
  unfold remaining
  rw [chunk_glyphs_of_le hi, List.drop_eq_nil_of_le (Nat.le_succ_of_le hi)]
  simp

theorem isBeyondEnd_iff_of_not_empty {c : WrappedGlyphsCursor} (hn : c.Normal)
    (he : c.empty = false) : c.isBeyondEnd = true ↔ c.remaining = [] := by
  constructor
  · intro hb
    unfold isBeyondEnd at hb
    rw [he] at hb
    simp only [Bool.false_or, decide_eq_true_eq] at hb
    exact remaining_eq_nil_of_le hb
  · intro hr
    cases hb : c.isBeyondEnd with
    | true => rfl
    | false => exact absurd hr (remaining_ne_nil hn hb)

theorem sizeLoop_eq : ∀ (fuel : Nat) (c : WrappedGlyphsCursor) (n : Nat), c.Normal →
    c.empty = false → c.remaining.length < fuel →
    sizeLoop fuel c n = n + c.remaining.length := by
  intro fuel
  induction fuel with
  | zero => intro c n _ _ h; omega
  | succ m ih =>
    intro c n hn he hf
    rw [sizeLoop]
    cases hb : c.isBeyondEnd with
    | true =>
      rw [(isBeyondEnd_iff_of_not_empty hn he).1 hb]
      simp
    | false =>
      obtain ⟨h1, h2⟩ := next_normal hn hb
      simp only [Bool.false_eq_true, if_false]
      rw [ih c.next (n + 1) h1 (by rw [empty_congr (next_data c), he]) (by omega)]
      omega

theorem size_eq_remaining {c : WrappedGlyphsCursor} (hn : c.Normal) (he : c.empty = false) :
    c.size = c.remaining.length := by
  unfold size
  rw [he]
  cases hb : c.isBeyondEnd with
  | true =>
    rw [(isBeyondEnd_iff_of_not_empty hn he).1 hb]
    rfl
  | false =>
    simp only [Bool.false_or, Bool.false_eq_true, if_false]
    rw [sizeLoop_eq _ c 0 hn he (Nat.lt_succ_of_le (remaining_length_le_stepBound c))]
    omega

theorem size_of_empty {c : WrappedGlyphsCursor} (he : c.empty = true) :
    c.isBeyondEnd = true ∧ c.size = 0 := by
  unfold isBeyondEnd size
  rw [he]
  simp

/-- C25, as stated, fails: over two chunks of which the first holds a glyph and the last
holds none, the cursor at the start has `isBeyondEnd()` true and `size()` 0 while one
glyph remains at the cursor. -/
theorem isBeyondEnd_with_empty_last_chunk :
    (init sampleChunksEmptyLast).isBeyondEnd = true
    ∧ (init sampleChunksEmptyLast).size = 0
    ∧ (init sampleChunksEmptyLast).remaining.length = 1 := by
  decide

/-- C25, amended: for every chunk sequence whose last chunk holds a glyph (the chunks
before it may hold none) and every cursor reached from the start by `operator+=`,
`isBeyondEnd()` is true exactly when no glyph remains at or after the cursor, and `size()`
is the number of glyphs remaining. When the sequence is empty or its last chunk holds no
glyph, `isBeyondEnd()` is true and `size()` is 0 at every such cursor. -/
theorem isBeyondEnd_size_spec (d : List OwnedGlyphsSpan) (steps : List Nat) :
    ((init d).empty = false →
      (((steps.foldl (fun c n => c.plusAssign n) (init d)).isBeyondEnd = true
          ↔ (steps.foldl (fun c n => c.plusAssign n) (init d)).remaining = [])
        ∧ (steps.foldl (fun c n => c.plusAssign n) (init d)).size
          = (steps.foldl (fun c n => c.plusAssign n) (init d)).remaining.length))
    ∧ ((init d).empty = true →
      (steps.foldl (fun c n => c.plusAssign n) (init d)).isBeyondEnd = true
        ∧ (steps.foldl (fun c n => c.plusAssign n) (init d)).size = 0) := by
  obtain ⟨hn, hd⟩ := reached_normal d steps
  have he : (steps.foldl (fun c n => c.plusAssign n) (init d)).empty = (init d).empty :=
    empty_congr hd
  constructor
  · intro h
    rw [← he] at h
    exact ⟨isBeyondEnd_iff_of_not_empty hn h, size_eq_remaining hn h⟩
  · intro h
    rw [← he] at h
    exact size_of_empty h

/-- Witness of C25, amended: over a sequence with a chunk without glyphs in the middle, the
cursor after one step has one glyph remaining. -/
theorem isBeyondEnd_size_spec_witness :
    (init sampleChunksEmptyMiddle).empty = false
    ∧ (([1].foldl (fun c n => c.plusAssign n) (init sampleChunksEmptyMiddle)).isBeyondEnd = true
          ↔ ([1].foldl (fun c n => c.plusAssign n) (init sampleChunksEmptyMiddle)).remaining = [])
    ∧ ([1].foldl (fun c n => c.plusAssign n) (init sampleChunksEmptyMiddle)).size
        = ([1].foldl (fun c n => c.plusAssign n)
            (init sampleChunksEmptyMiddle)).remaining.length :=
  ⟨by decide, (isBeyondEnd_size_spec sampleChunksEmptyMiddle [1]).1 (by decide)⟩

end WrappedGlyphsCursor


theorem range_map_getD_eq_slice (gs : List ShapedGlyph) (j ge : Nat) (h1 : j ≤ ge)
    (h2 : ge ≤ gs.length) :
    (List.range (ge - j)).map (fun (k : Nat) => gs.getD (j + k) default)
      = (gs.drop j).take (ge - j) := by
  apply List.ext_getElem?
  intro n
  by_cases hn : n < ge - j
  · rw [List.getElem?_map, List.getElem?_range hn, List.getElem?_take_of_lt hn,
      List.getElem?_drop]
    have hlt : j + n < gs.length := by omega
    simp [List.getD_eq_getElem?_getD, List.getElem?_eq_getElem hlt]
  · rw [List.getElem?_eq_none (by simp; omega), List.getElem?_eq_none]
    rw [List.length_take, List.length_drop]
    omega

theorem range_map_getD_eq_reverse (gs : List ShapedGlyph) (j ge : Nat) (h1 : j ≤ ge)
    (h2 : ge ≤ gs.length) :
    (List.range (ge - j)).map (fun (k : Nat) => gs.getD (ge - 1 - k) default)
      = ((gs.drop j).take (ge - j)).reverse := by
  apply List.ext_getElem?
  intro n
  have hlen : ((gs.drop j).take (ge - j)).length = ge - j := by
    rw [List.length_take, List.length_drop]; omega
  by_cases hn : n < ge - j
  · rw [List.getElem?_map, List.getElem?_range hn, List.getElem?_reverse (by omega), hlen,
      List.getElem?_take_of_lt (by omega), List.getElem?_drop]
    have hlt : ge - 1 - n < gs.length := by omega
    have hidx : j + (ge - j - 1 - n) = ge - 1 - n := by omega
    rw [hidx]
    simp [List.getD_eq_getElem?_getD, List.getElem?_eq_getElem hlt]
  · rw [List.getElem?_eq_none (by simp; omega), List.getElem?_eq_none]
    rw [List.length_reverse, hlen]
    omega

namespace WrappedGlyphsCursor

/-- The end of the slice of chunk `i` in the spans up to `endIndex`. -/
theorem spanAt_glyphs (c : WrappedGlyphsCursor) (endIndex idx : Index)
    (ge : Nat)
    (hge : (c.data.getD idx.i default).size
      - (if idx.i < endIndex.i then 0 else (c.data.getD idx.i default).size - endIndex.j) = ge)
    (h1 : idx.j ≤ ge) (h2 : ge ≤ (c.data.getD idx.i default).glyphs.length) :
    (SimpleShapedText.spanGlyphs (spanAt c endIndex idx)).1
      = if (c.data.getD idx.i default).isLtr
        then ((c.data.getD idx.i default).glyphs.drop idx.j).take (ge - idx.j)
        else (((c.data.getD idx.i default).glyphs.drop idx.j).take (ge - idx.j)).reverse := by
  unfold spanAt SimpleShapedText.spanGlyphs
  simp only [hge]
  cases hl : (c.data.getD idx.i default).isLtr with
  | true =>
    simp only [if_true]
    by_cases hlt : (idx.j : Int) < (ge : Int)
    · rw [if_pos hlt]
      simp only
      have hcount : ((ge : Int) - (idx.j : Int)).toNat = ge - idx.j := by omega
      rw [hcount, ← range_map_getD_eq_slice _ _ _ h1 h2]
      apply List.map_congr_left
      intro k _
      have : ((idx.j : Int) + (k : Int)).toNat = idx.j + k := by omega
      rw [this]
    · rw [if_neg hlt]
      simp only
      have hcount : ((idx.j : Int) - (ge : Int)).toNat = 0 := by omega
      have hz : ge - idx.j = 0 := by omega
      rw [hcount, hz]
      simp
  | false =>
    simp only [Bool.false_eq_true, if_false]
    have hlt : ¬ ((ge : Int) - 1 < (idx.j : Int) - 1) := by omega
    rw [if_neg hlt]
    simp only
    have hcount : ((ge : Int) - 1 - ((idx.j : Int) - 1)).toNat = ge - idx.j := by omega
    rw [hcount, ← range_map_getD_eq_reverse _ _ _ h1 h2]
    apply List.map_congr_left
    intro k hk
    have hk2 : k < ge - idx.j := by simpa using hk
    have : ((ge : Int) - 1 - (k : Int)).toNat = ge - 1 - k := by omega
    rw [this]

theorem remaining_succ (d : List OwnedGlyphsSpan) (i j : Nat) :
    remaining ⟨d, ⟨i, j⟩⟩ = (d.getD i default).glyphs.drop j ++ remaining ⟨d, ⟨i + 1, 0⟩⟩ := by
  have h : remaining ⟨d, ⟨i + 1, 0⟩⟩
      = ((d.drop (i + 1)).map (fun s => s.glyphs)).flatten := by
    rw [drop_succ_eq_chunk d (i + 1)]
    rfl
  rw [h]
  rfl

theorem remaining_length_mono (d : List OwnedGlyphsSpan) (i1 : Nat) (e : Index)
    (h : i1 ≤ e.i) :
    (remaining ⟨d, e⟩).length ≤ (remaining ⟨d, ⟨i1, 0⟩⟩).length := by
  have h1 : (remaining ⟨d, e⟩).length
      ≤ (((d.drop e.i).map (fun s => s.glyphs)).flatten).length := by
    rw [drop_succ_eq_chunk d e.i]
    unfold remaining chunk
    simp only [List.length_append, List.length_drop]
    omega
  have h2 : remaining ⟨d, ⟨i1, 0⟩⟩ = ((d.drop i1).map (fun s => s.glyphs)).flatten := by
    rw [drop_succ_eq_chunk d i1]
    rfl
  rw [h2]
  have h3 : d.drop e.i = (d.drop i1).drop (e.i - i1) := by
    rw [List.drop_drop]
    congr 1
    omega
  rw [h3, List.map_drop] at h1
  exact le_trans h1 (flatten_drop_length_le _ _)

/-- The glyphs pushed for a span, put back into stored order. -/
theorem spansLoop_glyphs (c e : WrappedGlyphsCursor) (hd : c.data = e.data) (he : e.Normal)
    (hel : e.index.i ≤ e.data.length) :
    ∀ (fuel i j : Nat), (j < (c.data.getD i default).size ∨ j = 0) →
      e.index.lt ⟨i, j⟩ = false → e.index.i + 1 - i < fuel →
      (spansLoop c e.index fuel ⟨i, j⟩).length ≤ (c.data.drop i).length
      ∧ (((spansLoop c e.index fuel ⟨i, j⟩).zip (c.data.drop i)).map (fun p =>
          if p.2.isLtr then (SimpleShapedText.spanGlyphs p.1).1
          else (SimpleShapedText.spanGlyphs p.1).1.reverse)).flatten
        = (remaining ⟨c.data, ⟨i, j⟩⟩).take
            ((remaining ⟨c.data, ⟨i, j⟩⟩).length - e.remaining.length)
      ∧ ((spansLoop c e.index fuel ⟨i, j⟩).map
          (fun s => (SimpleShapedText.spanGlyphs s).1.length)).sum
        = (remaining ⟨c.data, ⟨i, j⟩⟩).length - e.remaining.length := by
  intro fuel
  induction fuel with
  | zero => intro i j _ _ h; omega
  | succ n ih =>
    intro i j hn hle hf
    have hej : e.index.j ≤ (c.data.getD e.index.i default).size := by
      have : e.chunk = c.data.getD e.index.i default := by unfold chunk; rw [hd]
      rw [← this]
      rcases he with h | h <;> omega
    have heq : e = ⟨c.data, e.index⟩ := by rw [hd]
    rw [spansLoop]
    simp only [Index.lt, Bool.or_eq_false_iff, decide_eq_false_iff_not, Bool.and_eq_false_iff,
      not_lt] at hle
    by_cases hlt : Index.lt ⟨i, j⟩ e.index = true
    · rw [if_pos hlt]
      simp only [Index.lt, Bool.or_eq_true, Bool.and_eq_true, decide_eq_true_eq] at hlt
      by_cases hi : i < e.index.i
      · -- the whole rest of chunk `i`
        have hil : i < c.data.length := by rw [hd]; omega
        have hdrop : c.data.drop i = c.data.getD i default :: c.data.drop (i + 1) := by
          rw [List.drop_eq_getElem_cons hil, List.getD_eq_getElem?_getD,
            List.getElem?_eq_getElem hil]
          rfl
        have hjs : j ≤ (c.data.getD i default).glyphs.length := by
          unfold OwnedGlyphsSpan.size at hn
          rcases hn with h | h <;> omega
        have hsp := spanAt_glyphs c e.index ⟨i, j⟩ (c.data.getD i default).glyphs.length
          (by simp only [if_pos hi]; rfl) hjs (le_refl _)
        have hslice : ((c.data.getD i default).glyphs.drop j).take
            ((c.data.getD i default).glyphs.length - j) = (c.data.getD i default).glyphs.drop j := by
          apply List.take_of_length_le
          rw [List.length_drop]
        rw [hslice] at hsp
        obtain ⟨h1, h2, h3⟩ := ih (i + 1) 0 (Or.inr rfl)
          (by
            simp only [Index.lt, Bool.or_eq_false_iff, decide_eq_false_iff_not,
              Bool.and_eq_false_iff, not_lt]
            refine ⟨by omega, ?_⟩
            right
            simp)
          (by omega)
        have hmono := remaining_length_mono c.data (i + 1) e.index (by omega)
        rw [← heq] at hmono
        have hrs := remaining_succ c.data i j
        refine ⟨?_, ?_, ?_⟩
        · rw [hdrop]
          simp only [List.length_cons]
          omega
        · rw [hdrop, List.zip_cons_cons, List.map_cons, List.flatten_cons, h2, hrs]
          simp only
          have hU : (if (c.data.getD i default).isLtr = true
              then (SimpleShapedText.spanGlyphs (spanAt c e.index ⟨i, j⟩)).1
              else (SimpleShapedText.spanGlyphs (spanAt c e.index ⟨i, j⟩)).1.reverse)
              = (c.data.getD i default).glyphs.drop j := by
            rw [hsp]
            split
            · rfl
            · rw [List.reverse_reverse]
          rw [hU, List.length_append]
          have : ((c.data.getD i default).glyphs.drop j).length
              + (remaining ⟨c.data, ⟨i + 1, 0⟩⟩).length - e.remaining.length
              = ((c.data.getD i default).glyphs.drop j).length
                + ((remaining ⟨c.data, ⟨i + 1, 0⟩⟩).length - e.remaining.length) := by
            omega
          rw [this, List.take_append]
        · rw [List.map_cons, List.sum_cons, h3, hrs, hsp, List.length_append]
          have hl : (if (c.data.getD i default).isLtr = true
              then (c.data.getD i default).glyphs.drop j
              else ((c.data.getD i default).glyphs.drop j).reverse).length
              = ((c.data.getD i default).glyphs.drop j).length := by
            split
            · rfl
            · rw [List.length_reverse]
          rw [hl]
          omega
      · -- the chunk of the end cursor, up to its glyph
        have hie : i = e.index.i := by omega
        have hjl : j < e.index.j := by
          rcases hlt with h | h
          · exact absurd h hi
          · exact h.2
        subst hie
        have hsz : e.index.j ≤ (c.data.getD e.index.i default).glyphs.length := hej
        have hil : e.index.i < c.data.length := by
          by_contra hcon
          have : (c.data.getD e.index.i default).glyphs = [] := by
            rw [List.getD_eq_getElem?_getD, List.getElem?_eq_none (Nat.le_of_not_lt hcon)]
            rfl
          rw [this] at hsz
          simp at hsz
          omega
        have hdrop : c.data.drop e.index.i
            = c.data.getD e.index.i default :: c.data.drop (e.index.i + 1) := by
          rw [List.drop_eq_getElem_cons hil, List.getD_eq_getElem?_getD,
            List.getElem?_eq_getElem hil]
          rfl
        have hsp := spanAt_glyphs c e.index ⟨e.index.i, j⟩ e.index.j
          (by
            simp only [if_neg (Nat.lt_irrefl _)]
            unfold OwnedGlyphsSpan.size
            omega)
          (le_of_lt hjl) hsz
        have hrest : spansLoop c e.index n ⟨e.index.i + 1, 0⟩ = [] := by
          cases n with
          | zero => rfl
          | succ m =>
            rw [spansLoop, if_neg]
            simp [Index.lt]
        have hrs := remaining_succ c.data e.index.i j
        have hre : e.remaining
            = (c.data.getD e.index.i default).glyphs.drop e.index.j
              ++ remaining ⟨c.data, ⟨e.index.i + 1, 0⟩⟩ := by
          have := remaining_succ c.data e.index.i e.index.j
          rw [← this]
          conv_lhs => rw [heq]
        have hcount : (remaining ⟨c.data, ⟨e.index.i, j⟩⟩).length - e.remaining.length
            = e.index.j - j := by
          rw [hrs, hre, List.length_append, List.length_append, List.length_drop,
            List.length_drop]
          omega
        rw [hrest, hcount]
        refine ⟨?_, ?_, ?_⟩
        · rw [hdrop]
          simp
        · rw [hdrop, List.zip_cons_cons, List.zip_nil_left, List.map_cons, List.map_nil,
            List.flatten_cons, List.flatten_nil, List.append_nil, hrs]
          simp only
          have hU : (if (c.data.getD e.index.i default).isLtr = true
              then (SimpleShapedText.spanGlyphs (spanAt c e.index ⟨e.index.i, j⟩)).1
              else (SimpleShapedText.spanGlyphs (spanAt c e.index ⟨e.index.i, j⟩)).1.reverse)
              = ((c.data.getD e.index.i default).glyphs.drop j).take (e.index.j - j) := by
            rw [hsp]
            split
            · rfl
            · rw [List.reverse_reverse]
          rw [hU, List.take_append_of_le_length]
          rw [List.length_drop]
          omega
        · rw [List.map_cons, List.map_nil, List.sum_cons, List.sum_nil, hsp]
          have hl : (if (c.data.getD e.index.i default).isLtr = true
              then ((c.data.getD e.index.i default).glyphs.drop j).take (e.index.j - j)
              else (((c.data.getD e.index.i default).glyphs.drop j).take
                (e.index.j - j)).reverse).length = e.index.j - j := by
            split
            · rw [List.length_take, List.length_drop]; omega
            · rw [List.length_reverse, List.length_take, List.length_drop]; omega
          rw [hl]
          rfl
    · rw [if_neg hlt]
      simp only [Index.lt, Bool.or_eq_true, Bool.and_eq_true, decide_eq_true_eq, not_or,
        not_and, not_lt] at hlt
      have hi : i = e.index.i := by omega
      have hj : j = e.index.j := by
        rcases hle.2 with h | h
        · exact absurd hi.symm h
        · have := hlt.2 hi
          omega
      have hsame : remaining ⟨c.data, ⟨i, j⟩⟩ = e.remaining := by
        rw [hi, hj]
        conv_rhs => rw [heq]
      rw [hsame]
      simp

/-- C24: for two cursors `begin <= end` over the same chunk sequence (as the constructor
and `operator+=` leave them, `end` not behind the last chunk), the glyphs that `shape`
pushes for the spans of `begin.getShapedGlyphSpansUpTo (end)` are exactly the glyphs
between the two cursors, each once: there is one span per chunk, in chunk order, the glyphs
of a left-to-right chunk come in stored order and those of a right-to-left chunk in
reversed order. The number of glyphs pushed is the number of glyphs remaining at `begin`
minus the number remaining at `end`, which is `begin.size() - end.size()` when the last
chunk holds a glyph. -/
theorem getShapedGlyphSpansUpTo_glyphs (b e : WrappedGlyphsCursor) (hd : b.data = e.data)
    (hb : b.Normal) (he : e.Normal) (hel : e.index.i ≤ e.data.length)
    (hle : e.index.lt b.index = false) :
    (b.getShapedGlyphSpansUpTo e).length ≤ (b.data.drop b.index.i).length
    ∧ (((b.getShapedGlyphSpansUpTo e).zip (b.data.drop b.index.i)).map (fun p =>
        if p.2.isLtr then (SimpleShapedText.spanGlyphs p.1).1
        else (SimpleShapedText.spanGlyphs p.1).1.reverse)).flatten
      = (WrappedGlyphsCursorRange.mk b e).glyphs
    ∧ ((b.getShapedGlyphSpansUpTo e).map
        (fun s => (SimpleShapedText.spanGlyphs s).1.length)).sum
      = b.remaining.length - e.remaining.length
    ∧ (b.empty = false →
        ((b.getShapedGlyphSpansUpTo e).map
          (fun s => (SimpleShapedText.spanGlyphs s).1.length)).sum = b.size - e.size) := by
  have hbi : b.index.i ≤ e.index.i := by
    simp only [Index.lt, Bool.or_eq_false_iff, decide_eq_false_iff_not, not_lt] at hle
    exact hle.1
  have hfuel : e.index.i + 1 - b.index.i < e.index.i + 2 - b.index.i := by omega
  obtain ⟨h1, h2, h3⟩ := spansLoop_glyphs b e hd he hel (e.index.i + 2 - b.index.i)
    b.index.i b.index.j hb hle hfuel
  have hspans : b.getShapedGlyphSpansUpTo e
      = spansLoop b e.index (e.index.i + 2 - b.index.i) b.index := by
    unfold getShapedGlyphSpansUpTo
    rw [if_neg (by simpa using hd)]
  rw [hspans]
  refine ⟨h1, h2, h3, ?_⟩
  intro hne
  rw [h3, size_eq_remaining hb hne,
    size_eq_remaining he (by rw [← empty_congr hd]; exact hne)]

/-- Witness of C24: over a left-to-right chunk followed by a right-to-left chunk, from the
start to the end. -/
theorem getShapedGlyphSpansUpTo_glyphs_witness :
    ((init sampleChunksBidi).getShapedGlyphSpansUpTo ⟨sampleChunksBidi, ⟨2, 0⟩⟩).map
        (fun s => (SimpleShapedText.spanGlyphs s).1.map (fun g => g.cluster))
      = [[0, 1], [3, 2]]
    ∧ ((init sampleChunksBidi).getShapedGlyphSpansUpTo ⟨sampleChunksBidi, ⟨2, 0⟩⟩).length
        ≤ ((init sampleChunksBidi).data.drop (init sampleChunksBidi).index.i).length
    ∧ ((((init sampleChunksBidi).getShapedGlyphSpansUpTo ⟨sampleChunksBidi, ⟨2, 0⟩⟩).zip
          ((init sampleChunksBidi).data.drop (init sampleChunksBidi).index.i)).map (fun p =>
        if p.2.isLtr then (SimpleShapedText.spanGlyphs p.1).1
        else (SimpleShapedText.spanGlyphs p.1).1.reverse)).flatten
      = (WrappedGlyphsCursorRange.mk (init sampleChunksBidi) ⟨sampleChunksBidi, ⟨2, 0⟩⟩).glyphs
    ∧ (((init sampleChunksBidi).getShapedGlyphSpansUpTo ⟨sampleChunksBidi, ⟨2, 0⟩⟩).map
        (fun s => (SimpleShapedText.spanGlyphs s).1.length)).sum
      = (init sampleChunksBidi).remaining.length
        - (WrappedGlyphsCursor.mk sampleChunksBidi ⟨2, 0⟩).remaining.length
    ∧ ((init sampleChunksBidi).empty = false →
        (((init sampleChunksBidi).getShapedGlyphSpansUpTo ⟨sampleChunksBidi, ⟨2, 0⟩⟩).map
          (fun s => (SimpleShapedText.spanGlyphs s).1.length)).sum
        = (init sampleChunksBidi).size - (WrappedGlyphsCursor.mk sampleChunksBidi ⟨2, 0⟩).size) :=
  ⟨by decide,
   getShapedGlyphSpansUpTo_glyphs (init sampleChunksBidi) ⟨sampleChunksBidi, ⟨2, 0⟩⟩ rfl
    (Or.inr rfl) (Or.inr rfl) (by decide) (by decide)⟩

end WrappedGlyphsCursor

namespace LineOfWrappedGlyphCursorRanges
open WrappedGlyphsCursor

theorem maxCluster_cons (m : Int) (g : ShapedGlyph) (gs : List ShapedGlyph) :
    maxCluster m (g :: gs) = maxCluster (max m g.cluster) gs := rfl

theorem consumeList_fits_all :
    ∀ (gs : List ShapedGlyph) (st : LineState), st.isEmpty = false →
      st.trailingWhitespaceCanExtendBeyondMargin = true →
      (∀ k, k < gs.length →
        (gs.getD k default).advance.getX ≤ st.maxWidth - (st.width + sumAdvances (gs.take k))
        ∨ ((gs.getD k default).whitespace = true
          ∧ maxCluster st.largestVisualOrderInLine (gs.take k) ≤ (gs.getD k default).cluster)) →
      (consumeList fits st gs).2 = gs.length := by
  intro gs
  induction gs with
  | nil => intro st _ _ _; rfl
  | cons g0 rest ih =>
    intro st he ht hall
    have h0 := hall 0 (by simp)
    simp only [List.getD_cons_zero, List.take_zero, sumAdvances_nil, add_zero, maxCluster,
      List.foldl_nil] at h0
    have hfit : fits st g0 = true := by
      unfold fits LineState.isInTrailingPosition
      simp only [he, ht, Bool.false_or, Bool.true_and, Bool.or_eq_true, decide_eq_true_eq,
        Bool.and_eq_true, ge_iff_le]
      exact h0
    rw [consumeList]
    simp only [hfit, if_true, List.length_cons, add_left_inj]
    apply ih (addGlyph st g0) (addGlyph_isEmpty st g0 he) ht
    intro k hk
    have := hall (k + 1) (by simp; omega)
    simp only [List.getD_cons_succ, List.take_succ_cons, sumAdvances_cons, maxCluster_cons]
      at this
    simp only [addGlyph]
    rcases this with h | h
    · left; omega
    · right; exact h

theorem consumeList_fits_stops :
    ∀ (gs : List ShapedGlyph) (st : LineState), st.isEmpty = false →
      st.trailingWhitespaceCanExtendBeyondMargin = false →
      (∃ k, k < gs.length
        ∧ st.maxWidth - (st.width + sumAdvances (gs.take k)) < (gs.getD k default).advance.getX) →
      (consumeList fits st gs).2 < gs.length := by
  intro gs
  induction gs with
  | nil => intro st _ _ h; obtain ⟨k, hk, _⟩ := h; simp at hk
  | cons g0 rest ih =>
    intro st he ht hex
    rw [consumeList]
    by_cases hfit : fits st g0 = true
    · simp only [hfit, if_true, List.length_cons, add_lt_add_iff_right]
      obtain ⟨k, hk, hbad⟩ := hex
      cases k with
      | zero =>
        exfalso
        simp only [List.getD_cons_zero, List.take_zero, sumAdvances_nil, add_zero] at hbad
        unfold fits at hfit
        simp only [he, ht, Bool.false_or, Bool.false_and, Bool.or_false, decide_eq_true_eq]
          at hfit
        omega
      | succ n =>
        apply ih (addGlyph st g0) (addGlyph_isEmpty st g0 he) ht
        refine ⟨n, by simpa using hk, ?_⟩
        simp only [List.getD_cons_succ, List.take_succ_cons, sumAdvances_cons] at hbad
        simp only [addGlyph]
        omega
    · simp only [hfit, Bool.false_eq_true, if_false, List.length_cons]
      omega

/-- C23: the trailing-whitespace policy of `consume` on a line that already holds glyphs,
for every valid cursor and both values of `forceConsumeFirstWord`. With
`trailingWhitespaceCanExtendBeyondMargin` set, if every glyph ahead either fits in the
width left when it is reached or is whitespace with a cluster at least the largest cluster
on the line at that point, the whole chunk sequence is consumed: the returned cursor is at
the end and the width of the line grows by all the advances (so it may end above the max
width). With the option unset, a chunk sequence with a glyph that does not fit when it is
reached is rejected whole: cursor and line are returned unchanged. -/
theorem consume_trailing_whitespace_policy (line : LineOfWrappedGlyphCursorRanges)
    (glyphIt : WrappedGlyphsCursor) (force : Bool) (hv : glyphIt.Valid)
    (hne : line.state.isEmpty = false) :
    (line.state.trailingWhitespaceCanExtendBeyondMargin = true →
      (∀ k, k < glyphIt.remaining.length →
        (glyphIt.remaining.getD k default).advance.getX
          ≤ line.state.maxWidth - (line.state.width + sumAdvances (glyphIt.remaining.take k))
        ∨ ((glyphIt.remaining.getD k default).whitespace = true
          ∧ maxCluster line.state.largestVisualOrderInLine (glyphIt.remaining.take k)
              ≤ (glyphIt.remaining.getD k default).cluster)) →
      (line.consume glyphIt force).2 = glyphIt.nextN glyphIt.remaining.length
      ∧ (line.consume glyphIt force).2.isBeyondEnd = true
      ∧ (line.consume glyphIt force).1.state.width
          = line.state.width + sumAdvances glyphIt.remaining)
    ∧ (line.state.trailingWhitespaceCanExtendBeyondMargin = false →
      (∃ k, k < glyphIt.remaining.length
        ∧ line.state.maxWidth - (line.state.width + sumAdvances (glyphIt.remaining.take k))
            < (glyphIt.remaining.getD k default).advance.getX) →
      line.consume glyphIt force = (line, glyphIt)) := by
  have hbranch : (force && line.state.isEmpty) = false := by rw [hne]; simp
  constructor
  · intro ht hall
    have hk := consumeList_fits_all glyphIt.remaining line.state hne ht hall
    obtain ⟨hv2, hrem, _, _⟩ := nextN_spec glyphIt.remaining.length glyphIt hv (le_refl _)
    have hbe : (glyphIt.nextN glyphIt.remaining.length).isBeyondEnd = true := by
      rw [isBeyondEnd_iff_remaining hv2, hrem, List.drop_length]
    have hw := (consumeList_state fits glyphIt.remaining line.state).2.1
    rw [hk, List.take_length] at hw
    unfold consume
    rw [hbranch]
    simp only [Bool.false_eq_true, if_false]
    rw [consumeIf_eq fits line.state glyphIt hv, hk]
    simp only [hbe, Bool.not_true, Bool.and_false, Bool.false_eq_true, if_false]
    split
    · exact ⟨rfl, hbe, hw⟩
    · exact ⟨rfl, hbe, hw⟩
  · intro ht hex
    have hk := consumeList_fits_stops glyphIt.remaining line.state hne ht hex
    obtain ⟨hv2, hrem, _, _⟩ := nextN_spec (consumeList fits line.state glyphIt.remaining).2
      glyphIt hv (le_of_lt hk)
    have hbe : (glyphIt.nextN (consumeList fits line.state glyphIt.remaining).2).isBeyondEnd
        = false := by
      cases hb : (glyphIt.nextN (consumeList fits line.state glyphIt.remaining).2).isBeyondEnd
        with
      | false => rfl
      | true =>
        have := (isBeyondEnd_iff_remaining hv2).1 hb
        rw [hrem] at this
        have := congrArg List.length this
        simp only [List.length_drop, List.length_nil] at this
        omega
    unfold consume
    rw [hbranch]
    simp only [Bool.false_eq_true, if_false]
    rw [consumeIf_eq fits line.state glyphIt hv]
    simp only [hne, hbe, Bool.not_false, Bool.and_self, if_true]

/-- Witness of C23: the line holding `"a "` is offered the chunk `"bb "`. With max width 4
and the option set the chunk is consumed and the width ends at 5; with max width 3 and the
option unset the chunk is rejected. -/
theorem consume_trailing_whitespace_policy_witness :
    (sampleLineATrailing.consume (WrappedGlyphsCursor.init [sampleChunkBB]) true).2.isBeyondEnd
        = true
    ∧ (sampleLineATrailing.consume (WrappedGlyphsCursor.init [sampleChunkBB]) true).1.state.width
        = 5
    ∧ sampleLineA.consume (WrappedGlyphsCursor.init [sampleChunkBB]) true
        = (sampleLineA, WrappedGlyphsCursor.init [sampleChunkBB]) :=
  ⟨((consume_trailing_whitespace_policy sampleLineATrailing
      (WrappedGlyphsCursor.init [sampleChunkBB]) true (by decide) (by decide)).1 (by decide)
      (by decide)).2.1,
   by decide,
   (consume_trailing_whitespace_policy sampleLineA
      (WrappedGlyphsCursor.init [sampleChunkBB]) true (by decide) (by decide)).2 (by decide)
      ⟨1, by decide, by decide⟩⟩

end LineOfWrappedGlyphCursorRanges


namespace FillLinesOptions
open WrappedGlyphsCursor LineOfWrappedGlyphCursorRanges

theorem fillLoop_zero (o : FillLinesOptions) (lowLevelShape : LowLevelShape) (shaper : Shaper)
    (chunks : WrappedGlyphs) (line : LineOfWrappedGlyphCursorRanges)
    (result : LineDataAndChunkStorage) :
    fillLoop o lowLevelShape 0 shaper chunks line result = none := rfl

theorem fillLoop_nil (o : FillLinesOptions) (lowLevelShape : LowLevelShape) (fuel : Nat)
    (shaper : Shaper) (line : LineOfWrappedGlyphCursorRanges)
    (result : LineDataAndChunkStorage) :
    fillLoop o lowLevelShape (fuel + 1) shaper [] line result
      = some { result with lines := result.lines ++ [line.getConsumedChunks] } := by
  rw [fillLoop]
  simp

theorem fillLoop_cons (o : FillLinesOptions) (lowLevelShape : LowLevelShape) (fuel : Nat)
    (shaper : Shaper) (ch : OwnedGlyphsSpan) (chunks : WrappedGlyphs)
    (line : LineOfWrappedGlyphCursorRanges) (result : LineDataAndChunkStorage) :
    fillLoop o lowLevelShape (fuel + 1) shaper (ch :: chunks) line result
      = match fillChunks o (2 * WrappedGlyphsCursor.stepBound (ch :: chunks) + 2) line
          (WrappedGlyphsCursor.init (ch :: chunks)) result.lines with
        | none => none
        | some (line1, cursor, lines1) =>
          fillLoop o lowLevelShape fuel
            (shaper.getChunksUpToNextSafeBreak lowLevelShape cursor.getTextRange.getEnd).1
            (shaper.getChunksUpToNextSafeBreak lowLevelShape cursor.getTextRange.getEnd).2
            line1 ⟨result.chunkStorage ++ [ch :: chunks], lines1⟩ := by
  rw [fillLoop]
  simp only [List.isEmpty_cons, Bool.false_eq_true, if_false]

/-- The chunk storage only grows, and a chunk sequence handed to the loop is stored. -/
theorem fillLoop_storage (o : FillLinesOptions) (lowLevelShape : LowLevelShape) :
    ∀ (fuel : Nat) (shaper : Shaper) (chunks : WrappedGlyphs)
      (line : LineOfWrappedGlyphCursorRanges) (result r : LineDataAndChunkStorage),
      fillLoop o lowLevelShape fuel shaper chunks line result = some r →
      ∃ more, r.chunkStorage = result.chunkStorage ++ more
        ∧ (chunks ≠ [] → ∃ more2, more = chunks :: more2) := by
  intro fuel
  induction fuel with
  | zero => intro shaper chunks line result r h; rw [fillLoop_zero] at h; exact Option.noConfusion h
  | succ n ih =>
    intro shaper chunks line result r h
    cases chunks with
    | nil =>
      rw [fillLoop_nil] at h
      have := Option.some.inj h
      subst this
      exact ⟨[], by simp, fun hne => absurd rfl hne⟩
    | cons ch rest =>
      rw [fillLoop_cons] at h
      cases hfc : fillChunks o (2 * WrappedGlyphsCursor.stepBound (ch :: rest) + 2) line
          (WrappedGlyphsCursor.init (ch :: rest)) result.lines with
      | none => rw [hfc] at h; exact Option.noConfusion h
      | some res =>
        obtain ⟨line1, cursor, lines1⟩ := res
        rw [hfc] at h
        obtain ⟨more, hm, _⟩ := ih _ _ _ _ r h
        exact ⟨(ch :: rest) :: more, by rw [hm]; simp, fun _ => ⟨more, rfl⟩⟩

theorem getElem?_concat_within {α : Type} {P : Nat → α → Prop} {xs : List α} {x : α}
    (h1 : ∀ (k : Nat) (l : α), xs[k]? = some l → P k l) (h2 : P xs.length x) :
    ∀ (k : Nat) (l : α), (xs ++ [x])[k]? = some l → P k l := by
  intro j l hj
  by_cases hjl : j < xs.length
  · rw [List.getElem?_append_left hjl] at hj
    exact h1 j l hj
  · have hjl2 : xs.length ≤ j := Nat.le_of_not_lt hjl
    rw [List.getElem?_append_right hjl2] at hj
    have hj0 : j - xs.length = 0 := by
      by_contra hcon
      rw [List.getElem?_eq_none (by simp; omega)] at hj
      exact Option.noConfusion hj
    rw [hj0] at hj
    simp only [List.getElem?_cons_zero, Option.some.injEq] at hj
    have hjj : j = xs.length := by omega
    rw [← hj, hjj]
    exact h2

/-- The outer loop of `fillLines`, when every chunk sequence it stored has glyphs in every
chunk: the lines hold every glyph of the stored chunk sequences, in order, each line within
its width, over chunk sequences of increasing position. -/
theorem fillLoop_inv (o : FillLinesOptions) (lowLevelShape : LowLevelShape) :
    ∀ (fuel : Nat) (shaper : Shaper) (chunks : WrappedGlyphs)
      (line : LineOfWrappedGlyphCursorRanges) (result r : LineDataAndChunkStorage),
      fillLoop o lowLevelShape fuel shaper chunks line result = some r →
      (∀ cs ∈ r.chunkStorage, ChunksOk cs) →
      FillInv o result.chunkStorage result.chunkStorage line [] result.lines →
      (r.lines.map lineGlyphs).flatten = (r.chunkStorage.map allGlyphs).flatten
      ∧ (∀ (k : Nat) (l : List WrappedGlyphsCursorRange), r.lines[k]? = some l →
          WithinWidth (o.lineWidth k) l)
      ∧ (∀ l ∈ r.lines, LineOk r.chunkStorage l)
      ∧ (∀ l ∈ r.lines.dropLast, l ≠ []) := by
  intro fuel
  induction fuel with
  | zero =>
    intro shaper chunks line result r h
    rw [fillLoop_zero] at h
    exact Option.noConfusion h
  | succ n ih =>
    intro shaper chunks line result r h hok hinv
    cases chunks with
    | nil =>
      rw [fillLoop_nil] at h
      have := Option.some.inj h
      subst this
      refine ⟨?_, ?_, ?_, ?_⟩
      · have := hinv.tiling
        simp only [List.map_append, List.map_singleton, List.flatten_append,
          List.flatten_singleton, getConsumedChunks, List.append_nil] at this ⊢
        exact this
      · exact getElem?_concat_within hinv.within hinv.curInv.within
      · intro l hl
        simp only at hl
        rcases List.mem_append.1 hl with h1 | h1
        · exact (hinv.linesOk l h1).1
        · rw [List.mem_singleton.1 h1]
          exact hinv.curOk
      · intro l hl
        simp only [List.dropLast_concat] at hl
        exact (hinv.linesOk l hl).2
    | cons ch rest =>
      rw [fillLoop_cons] at h
      cases hfc : fillChunks o (2 * WrappedGlyphsCursor.stepBound (ch :: rest) + 2) line
          (WrappedGlyphsCursor.init (ch :: rest)) result.lines with
      | none => rw [hfc] at h; exact Option.noConfusion h
      | some res =>
        obtain ⟨line1, cursor, lines1⟩ := res
        rw [hfc] at h
        simp only at h
        obtain ⟨more, hm, _⟩ := fillLoop_storage o lowLevelShape _ _ _ _ _ r h
        have hcok : ChunksOk (ch :: rest) := by
          apply hok
          rw [hm]
          simp
        have hstart : FillInv o result.chunkStorage (result.chunkStorage ++ [ch :: rest]) line
            (WrappedGlyphsCursor.init (ch :: rest)).remaining result.lines := by
          refine ⟨hinv.curInv, hinv.curOk, hinv.within,
            fun l hl => ⟨(hinv.linesOk l hl).1.lift _, (hinv.linesOk l hl).2⟩, ?_⟩
          have := hinv.tiling
          rw [List.append_nil] at this
          rw [this, remaining_init_eq]
          simp
        obtain ⟨_, hfin⟩ := fillChunks_inv o result.chunkStorage (ch :: rest) hcok _ _ _ _ _ hfc
          (init_valid (fun s hs => (hcok s hs).1)) rfl hstart
        exact ih _ _ _ _ r h hok hfin

/-- The lines of `fillLines`, when every chunk sequence it stored has glyphs in every
chunk. -/
theorem fillLines_inv (o : FillLinesOptions) (lowLevelShape : LowLevelShape) (s : Shaper)
    (r : LineDataAndChunkStorage) (h : o.fillLines lowLevelShape s = some r)
    (hok : ∀ cs ∈ r.chunkStorage, ChunksOk cs) :
    (r.lines.map lineGlyphs).flatten = (r.chunkStorage.map allGlyphs).flatten
    ∧ (∀ (k : Nat) (l : List WrappedGlyphsCursorRange), r.lines[k]? = some l →
        WithinWidth (o.lineWidth k) l)
    ∧ (∀ l ∈ r.lines, LineOk r.chunkStorage l)
    ∧ (∀ l ∈ r.lines.dropLast, l ≠ []) := by
  unfold fillLines at h
  refine fillLoop_inv o lowLevelShape _ _ _ _ ⟨[], []⟩ r h hok ?_
  refine ⟨lineInv_init _ _, LineOk.nil _, ?_, ?_, rfl⟩
  · intro k l hk
    simp at hk
  · intro l hl
    exact absurd hl (List.not_mem_nil l)

end FillLinesOptions


theorem dropWhile_append_all {α : Type} (p : α → Bool) :
    ∀ (xs ys : List α), (∀ x ∈ xs, p x = true) → (xs ++ ys).dropWhile p = ys.dropWhile p
  | [], _, _ => rfl
  | x :: xs, ys, h => by
    rw [List.cons_append, List.dropWhile_cons, if_pos (h x (List.mem_cons_self _ _))]
    exact dropWhile_append_all p xs ys (fun y hy => h y (List.mem_cons_of_mem _ hy))

/-- Dropping the final whitespace run of glyphs that end in a glyph that is not whitespace
followed by whitespace only. -/
theorem withoutTrailingWhitespace_split (P : List ShapedGlyph) (g : ShapedGlyph)
    (B : List ShapedGlyph) (hg : g.whitespace = false) (hB : ∀ b ∈ B, b.whitespace = true) :
    withoutTrailingWhitespace (P ++ g :: B) = P ++ [g] := by
  unfold withoutTrailingWhitespace
  rw [List.reverse_append, List.reverse_cons, List.append_assoc,
    dropWhile_append_all _ _ _ (fun x hx => hB x (List.mem_reverse.1 hx))]
  simp [List.dropWhile_cons, hg]

/-- A glyph list holding a glyph that is not whitespace splits at the last such glyph. -/
theorem last_not_whitespace :
    ∀ (xs : List ShapedGlyph), (∃ g ∈ xs, g.whitespace = false) →
      ∃ (A : List ShapedGlyph) (g : ShapedGlyph) (B : List ShapedGlyph),
        xs = A ++ g :: B ∧ g.whitespace = false ∧ ∀ b ∈ B, b.whitespace = true
  | [], h => by
    obtain ⟨g, hg, _⟩ := h
    exact absurd hg (List.not_mem_nil g)
  | x :: xs, h => by
    by_cases hx : ∃ g ∈ xs, g.whitespace = false
    · obtain ⟨A, g, B, he, hg, hB⟩ := last_not_whitespace xs hx
      exact ⟨x :: A, g, B, by rw [he]; rfl, hg, hB⟩
    · obtain ⟨g, hgm, hg⟩ := h
      rcases List.mem_cons.1 hgm with h1 | h1
      · refine ⟨[], x, xs, rfl, by rw [← h1]; exact hg, ?_⟩
        intro b hb
        by_contra hcon
        exact hx ⟨b, hb, by simpa using hcon⟩
      · exact absurd ⟨g, h1, hg⟩ hx

/-- Among glyphs of advances that are not negative, the advances of a part of the glyphs
sum to at most the sum of all the advances, and to no less than zero. -/
theorem sumAdvances_sublist_bounds (part all : List ShapedGlyph) (hsub : part.Sublist all)
    (hadv : ∀ g ∈ all, 0 ≤ g.advance.getX) :
    0 ≤ sumAdvances part ∧ sumAdvances part ≤ sumAdvances all := by
  unfold sumAdvances
  refine ⟨List.sum_nonneg ?_, List.Sublist.sum_le_sum (hsub.map _) ?_⟩
  · intro x hx
    obtain ⟨g, hg, rfl⟩ := List.mem_map.1 hx
    exact hadv g (hsub.subset hg)
  · intro x hx
    obtain ⟨g, hg, rfl⟩ := List.mem_map.1 hx
    exact hadv g hg

namespace FillLinesOptions

end FillLinesOptions

open RangedValues

namespace RangedValues

theorem erase_of_before {T : Type} (r : Range) :
    ∀ (xs : RangedValues T),
      (∀ e ∈ xs, e.1.getStart < e.1.getEnd ∧ e.1.getEnd ≤ r.getStart) →
      r.getStart ≤ r.getEnd → erase r xs = xs
  | [], _, _ => rfl
  | e :: xs, h, hr => by
    obtain ⟨h1, h2⟩ := h e (List.mem_cons_self _ _)
    rw [erase, erase_of_before r xs (fun x hx => h x (List.mem_cons_of_mem _ hx)) hr]
    have hmin : min e.1.getEnd r.getStart = e.1.getEnd := min_eq_left h2
    have hmax : ¬ (max e.1.getStart r.getEnd < e.1.getEnd) := by
      have : e.1.getEnd ≤ r.getEnd := le_trans h2 hr
      intro hc
      have := lt_of_le_of_lt (le_max_right e.1.getStart r.getEnd) hc
      omega
    rw [hmin, if_pos h1, if_neg hmax]
    rfl

theorem insertItem_of_before {T : Type} (x : Range × T) :
    ∀ (xs : RangedValues T), (∀ e ∈ xs, e.1.getStart < x.1.getStart) →
      insertItem x xs = xs ++ [x]
  | [], _ => rfl
  | e :: xs, h => by
    rw [insertItem, if_pos (h e (List.mem_cons_self _ _)),
      insertItem_of_before x xs (fun y hy => h y (List.mem_cons_of_mem _ hy))]
    rfl

theorem mergeEqualItems_of_distinct {T : Type} [DecidableEq T] :
    ∀ (xs : RangedValues T), xs.Chain' (fun a b => a.2 ≠ b.2) → mergeEqualItems xs = xs
  | [], _ => rfl
  | [e], _ => rfl
  | e :: f :: ys, h => by
    rw [List.chain'_cons] at h
    rw [mergeEqualItems, mergeEqualItems_of_distinct (f :: ys) h.2]
    simp only
    rw [if_neg (fun hc => h.1 hc.2)]

/-- Setting a non-empty range behind all the items, with a value other than the last one,
appends an item. -/
theorem set_append {T : Type} [DecidableEq T] (xs : RangedValues T) (a b : Int) (v : T)
    (hab : a < b)
    (hbefore : ∀ e ∈ xs, e.1.getStart < e.1.getEnd ∧ e.1.getEnd ≤ a)
    (hchain : (xs ++ [((⟨a, b⟩ : Range), v)]).Chain' (fun x y => x.2 ≠ y.2)) :
    RangedValues.set xs ⟨a, b⟩ v = xs ++ [((⟨a, b⟩ : Range), v)] := by
  unfold RangedValues.set setNoMerge
  have hne : (⟨a, b⟩ : Range).isEmpty = false := by
    simp only [Range.isEmpty, beq_eq_false_iff_ne, ne_eq]
    omega
  rw [hne]
  simp only [Bool.false_eq_true, if_false]
  rw [erase_of_before _ xs hbefore (le_of_lt hab),
    insertItem_of_before _ xs (fun e he => lt_of_lt_of_le (hbefore e he).1 (hbefore e he).2),
    mergeEqualItems_of_distinct _ hchain]

/-- Setting an empty range changes nothing when no two neighbours hold equal values. -/
theorem set_empty_range {T : Type} [DecidableEq T] (xs : RangedValues T) (a : Int) (v : T)
    (hchain : xs.Chain' (fun x y => x.2 ≠ y.2)) :
    RangedValues.set xs ⟨a, a⟩ v = xs := by
  unfold RangedValues.set setNoMerge
  have he : (⟨a, a⟩ : Range).isEmpty = true := by simp [Range.isEmpty]
  rw [he, if_pos rfl, mergeEqualItems_of_distinct _ hchain]

end RangedValues

/-- The number of lines with glyphs among lines of the given glyph counts. -/
theorem lineNumbersFrom_length :
    ∀ (lens : List Nat) (start : Int) (n : Nat),
      (lineNumbersFrom start n lens).length = lens.countP (fun l => decide (l ≠ 0))
  | [], _, _ => rfl
  | len :: rest, start, n => by
    rw [lineNumbersFrom]
    by_cases h : len = 0
    · rw [if_pos h, lineNumbersFrom_length rest, List.countP_cons_of_neg]
      simp [h]
    · rw [if_neg h, List.length_cons, lineNumbersFrom_length rest, List.countP_cons_of_pos]
      simp [h]

theorem lineNumbersFrom_mem :
    ∀ (lens : List Nat) (start : Int) (n : Nat),
      ∀ e ∈ lineNumbersFrom start n lens,
        start ≤ e.1.getStart ∧ e.1.getStart < e.1.getEnd
        ∧ e.1.getEnd ≤ start + (lens.sum : Int)
        ∧ (n : Int) ≤ e.2 ∧ e.2 < (n : Int) + (lineNumbersFrom start n lens).length
  | [], _, _, e, he => absurd he (List.not_mem_nil e)
  | len :: rest, start, n, e, he => by
    rw [lineNumbersFrom] at he ⊢
    by_cases h : len = 0
    · rw [if_pos h] at he ⊢
      have := lineNumbersFrom_mem rest start n e he
      simp only [List.sum_cons, h, Nat.cast_add, Nat.cast_zero]
      omega
    · rw [if_neg h] at he ⊢
      simp only [List.sum_cons, List.length_cons, Nat.cast_add, Nat.cast_one]
      rcases List.mem_cons.1 he with h1 | h1
      · subst h1
        simp only
        have : 0 ≤ ((rest.sum : Nat) : Int) := Int.ofNat_nonneg _
        have : 0 ≤ (((lineNumbersFrom (start + (len : Int)) (n + 1) rest).length : Nat) : Int) :=
          Int.ofNat_nonneg _
        omega
      · have := lineNumbersFrom_mem rest (start + (len : Int)) (n + 1) e h1
        simp only [Nat.cast_add, Nat.cast_one] at this
        omega

theorem lineNumbersFrom_chain :
    ∀ (lens : List Nat) (start : Int) (n : Nat),
      (lineNumbersFrom start n lens).Pairwise (fun a b => a.2 < b.2)
  | [], _, _ => List.Pairwise.nil
  | len :: rest, start, n => by
    rw [lineNumbersFrom]
    by_cases h : len = 0
    · rw [if_pos h]
      exact lineNumbersFrom_chain rest start n
    · rw [if_neg h]
      refine List.Pairwise.cons ?_ (lineNumbersFrom_chain rest _ _)
      intro e he
      have := lineNumbersFrom_mem rest (start + (len : Int)) (n + 1) e he
      simp only [Nat.cast_add, Nat.cast_one] at this ⊢
      omega

theorem lineNumbersFrom_append :
    ∀ (lens : List Nat) (start : Int) (n : Nat) (l : Nat),
      lineNumbersFrom start n (lens ++ [l])
        = lineNumbersFrom start n lens
          ++ (if l = 0 then []
              else [(⟨start + (lens.sum : Int), start + (lens.sum : Int) + (l : Int)⟩,
                ((n + (lineNumbersFrom start n lens).length : Nat) : Int))])
  | [], start, n, l => by
    simp only [List.nil_append, lineNumbersFrom, List.sum_nil, List.length_nil]
    split_ifs <;> simp
  | len :: rest, start, n, l => by
    rw [List.cons_append, lineNumbersFrom, lineNumbersFrom]
    by_cases h : len = 0
    · rw [if_pos h, if_pos h, lineNumbersFrom_append rest start n l]
      simp [h]
    · rw [if_neg h, if_neg h, lineNumbersFrom_append rest _ _ l]
      simp only [List.sum_cons, List.length_cons, List.cons_append]
      congr 2
      split_ifs
      · rfl
      · simp only [List.cons.injEq, Prod.mk.injEq, Range.mk.injEq, and_true, Nat.cast_add,
          Nat.cast_one]
        omega

/-- Recording the next line after lines of the given glyph counts. -/
theorem set_lineNumbersFrom (lens : List Nat) (l : Nat) :
    RangedValues.set (lineNumbersFrom 0 0 lens)
        ⟨(lens.sum : Int), (lens.sum : Int) + (l : Int)⟩
        ((RangedValues.size (lineNumbersFrom 0 0 lens) : Nat) : Int)
      = lineNumbersFrom 0 0 (lens ++ [l]) := by
  have hp := lineNumbersFrom_chain lens 0 0
  have hchain : (lineNumbersFrom 0 0 lens).Chain' (fun x y => x.2 ≠ y.2) :=
    List.Pairwise.chain' (hp.imp (fun h => ne_of_lt h))
  rw [lineNumbersFrom_append]
  by_cases h : l = 0
  · rw [if_pos h, List.append_nil, h]
    simp only [Nat.cast_zero, add_zero]
    exact set_empty_range _ _ _ hchain
  · rw [if_neg h]
    simp only [zero_add, RangedValues.size]
    refine set_append _ _ _ _ (by omega) ?_ ?_
    · intro e he
      have := lineNumbersFrom_mem lens 0 0 e he
      omega
    · refine List.Pairwise.chain' ?_
      rw [List.pairwise_append]
      refine ⟨hp.imp (fun h => ne_of_lt h), List.pairwise_singleton _ _, ?_⟩
      intro a ha b hb
      rw [List.mem_singleton] at hb
      subst hb
      have := lineNumbersFrom_mem lens 0 0 a ha
      simp only [Nat.cast_add, Nat.cast_zero] at this ⊢
      omega


open RangedValues

namespace SimpleShapedText

theorem addSpan_glyphs (st : Int) (t : SimpleShapedText) (s : ShapedGlyphSpan) :
    (addSpan st t s).glyphsInVisualOrder = t.glyphsInVisualOrder ++ spanPushed st s := rfl

theorem foldl_addSpan_glyphs (st : Int) (spans : List ShapedGlyphSpan) :
    ∀ t : SimpleShapedText,
      (spans.foldl (addSpan st) t).glyphsInVisualOrder
        = t.glyphsInVisualOrder ++ (spans.map (spanPushed st)).flatten := by
  induction spans with
  | nil => intro t; simp
  | cons s rest ih =>
    intro t
    rw [List.foldl_cons, ih, addSpan_glyphs, List.map_cons, List.flatten_cons,
      List.append_assoc]

theorem addLine_glyphs (st : Int) (t : SimpleShapedText) (line : List WrappedGlyphsCursorRange) :
    (addLine st t line).glyphsInVisualOrder = t.glyphsInVisualOrder ++ linePushed st line := by
  unfold addLine linePushed
  exact foldl_addSpan_glyphs st _ t

theorem addLine_lineNumbers (st : Int) (t : SimpleShapedText)
    (line : List WrappedGlyphsCursorRange) :
    (addLine st t line).lineNumbers
      = RangedValues.set t.lineNumbers
          ⟨(t.glyphsInVisualOrder.length : Int),
           (t.glyphsInVisualOrder.length : Int) + ((linePushed st line).length : Int)⟩
          (RangedValues.size t.lineNumbers : Int) := by
  have hg := foldl_addSpan_glyphs st (getShapedGlyphSpansInVisualOrder line) t
  have hl := (foldl_addSpan st (getShapedGlyphSpansInVisualOrder line) t).1
  unfold addLine
  simp only
  rw [hl, hg]
  unfold Range.make linePushed
  congr 2
  simp only [List.length_append, Nat.cast_add]
  rw [max_eq_right]
  omega

/-- The line numbers and glyphs after the lines of a hard line have been added to a text
whose line numbers are those of lines of the glyph counts `lens`. -/
theorem foldl_addLine_exact (st : Int) (lines : List (List WrappedGlyphsCursorRange)) :
    ∀ (t : SimpleShapedText) (lens : List Nat),
      t.lineNumbers = lineNumbersFrom 0 0 lens → t.glyphsInVisualOrder.length = lens.sum →
      (lines.foldl (addLine st) t).lineNumbers
          = lineNumbersFrom 0 0 (lens ++ lines.map (fun l => (linePushed st l).length))
      ∧ (lines.foldl (addLine st) t).glyphsInVisualOrder
          = t.glyphsInVisualOrder ++ (lines.map (linePushed st)).flatten := by
  induction lines with
  | nil => intro t lens h1 _; simp [h1]
  | cons l rest ih =>
    intro t lens h1 h2
    rw [List.foldl_cons]
    have hn : (addLine st t l).lineNumbers
        = lineNumbersFrom 0 0 (lens ++ [(linePushed st l).length]) := by
      rw [addLine_lineNumbers, h1, h2, set_lineNumbersFrom]
    have hg : (addLine st t l).glyphsInVisualOrder.length
        = (lens ++ [(linePushed st l).length]).sum := by
      rw [addLine_glyphs, List.length_append, h2]
      simp
    obtain ⟨r1, r2⟩ := ih (addLine st t l) _ hn hg
    refine ⟨?_, ?_⟩
    · rw [r1, List.append_assoc]
      rfl
    · rw [r2, addLine_glyphs, List.map_cons, List.flatten_cons, List.append_assoc]

end SimpleShapedText

/-- The glyphs pushed for a line are those pushed for its consumed ranges, in some order. -/
theorem linePushed_perm (st : Int) (line : List WrappedGlyphsCursorRange) :
    List.Perm (linePushed st line) ((line.map (rangePushed st)).flatten) := by
  unfold linePushed getShapedGlyphSpansInVisualOrder
  have h1 := (sortByVisualOrder_perm _).trans (collectSpans_perm line [])
  rw [List.nil_append] at h1
  have h2 := (h1.map (spanPushed st)).flatten
  refine h2.trans ?_
  rw [List.map_flatten, List.flatten_flatten, List.map_map, List.map_map]
  exact List.Perm.refl _

theorem linePushed_length (st : Int) (line : List WrappedGlyphsCursorRange) :
    (linePushed st line).length = (line.map (fun rg => (rangePushed st rg).length)).sum := by
  rw [(linePushed_perm st line).length_eq, List.length_flatten, List.map_map]
  rfl

theorem linePushed_length_append (st : Int) (l1 l2 : List WrappedGlyphsCursorRange) :
    (linePushed st (l1 ++ l2)).length = (linePushed st l1).length + (linePushed st l2).length := by
  rw [linePushed_length, linePushed_length, linePushed_length, List.map_append, List.sum_append]


open RangedValues

namespace WrappedGlyphsCursor

/-- A cursor with more glyphs ahead is not behind. -/
theorem not_lt_of_remaining_lt (b e : WrappedGlyphsCursor) (hd : b.data = e.data)
    (h : e.remaining.length < b.remaining.length) : e.index.lt b.index = false := by
  by_contra hc
  rw [Bool.not_eq_false] at hc
  obtain ⟨d, ⟨bi, bj⟩⟩ := b
  obtain ⟨d2, ⟨ei, ej⟩⟩ := e
  simp only at hd
  subst hd
  simp only [Index.lt, Bool.or_eq_true, Bool.and_eq_true, decide_eq_true_eq] at hc
  rcases hc with hc | ⟨hc1, hc2⟩
  · have h1 := remaining_length_mono d (ei + 1) ⟨bi, bj⟩ (by show ei + 1 ≤ bi; omega)
    have h2 : (remaining ⟨d, ⟨ei + 1, 0⟩⟩).length ≤ (remaining ⟨d, ⟨ei, ej⟩⟩).length := by
      rw [remaining_succ d ei ej, List.length_append]
      omega
    omega
  · subst hc1
    rw [remaining_length, remaining_length] at h
    omega

/-- The spans of a consumed range push as many glyphs as the range holds. -/
theorem spans_count (rg : WrappedGlyphsCursorRange) (h : rg.Ok) :
    ((rg.«begin».getShapedGlyphSpansUpTo rg.«end»).map
        (fun s => (SimpleShapedText.spanGlyphs s).1.length)).sum
      = rg.glyphs.length := by
  obtain ⟨hd, hbv, hev, hne, hrem⟩ := h
  have hlen : rg.«begin».remaining.length = rg.glyphs.length + rg.«end».remaining.length := by
    rw [hrem, List.length_append]
  have hpos : 0 < rg.glyphs.length := List.length_pos.2 hne
  have hle := not_lt_of_remaining_lt rg.«begin» rg.«end» hd (by omega)
  have hen : rg.«end».Normal := by
    unfold Normal
    by_cases hi : rg.«end».index.i < rg.«end».data.length
    · exact Or.inl (hev.2.1 hi)
    · exact Or.inr (hev.2.2 (Nat.le_of_not_lt hi)).2
  have hel : rg.«end».index.i ≤ rg.«end».data.length := by
    by_cases hi : rg.«end».index.i < rg.«end».data.length
    · omega
    · exact le_of_eq (hev.2.2 (Nat.le_of_not_lt hi)).1
  have hbn : rg.«begin».index.j < (rg.«begin».data.getD rg.«begin».index.i default).size
      ∨ rg.«begin».index.j = 0 := by
    by_cases hi : rg.«begin».index.i < rg.«begin».data.length
    · exact Or.inl (hbv.2.1 hi)
    · exact Or.inr (hbv.2.2 (Nat.le_of_not_lt hi)).2
  have hbi : rg.«begin».index.i ≤ rg.«end».index.i := by
    simp only [Index.lt, Bool.or_eq_false_iff, decide_eq_false_iff_not, not_lt] at hle
    exact hle.1
  have h3 := (spansLoop_glyphs rg.«begin» rg.«end» hd hen hel
    (rg.«end».index.i + 2 - rg.«begin».index.i) rg.«begin».index.i rg.«begin».index.j hbn hle
    (by omega)).2.2
  have hspans : rg.«begin».getShapedGlyphSpansUpTo rg.«end»
      = spansLoop rg.«begin» rg.«end».index (rg.«end».index.i + 2 - rg.«begin».index.i)
          rg.«begin».index := by
    unfold getShapedGlyphSpansUpTo
    rw [if_neg (by simpa using hd)]
  rw [hspans, h3]
  have hb : (⟨rg.«begin».data, ⟨rg.«begin».index.i, rg.«begin».index.j⟩⟩ : WrappedGlyphsCursor)
      = rg.«begin» := rfl
  rw [hb]
  omega

end WrappedGlyphsCursor

theorem rangePushed_length (st : Int) (rg : WrappedGlyphsCursorRange) (h : rg.Ok) :
    (rangePushed st rg).length = rg.glyphs.length := by
  unfold rangePushed
  rw [List.length_flatten, List.map_map, ← WrappedGlyphsCursor.spans_count rg h]
  congr 1
  apply List.map_congr_left
  intro s _
  simp [spanPushed]

/-- A line that holds a well-formed range pushes a glyph. -/
theorem linePushed_pos (st : Int) (storage : List WrappedGlyphs)
    (l : List WrappedGlyphsCursorRange) (hok : LineOk storage l) (hne : l ≠ []) :
    0 < (linePushed st l).length := by
  rw [linePushed_length]
  cases l with
  | nil => exact absurd rfl hne
  | cons rg rest =>
    have h1 := rangePushed_length st rg (hok.2 rg (List.mem_cons_self _ _))
    have h2 : 0 < rg.glyphs.length :=
      List.length_pos.2 (hok.2 rg (List.mem_cons_self _ _)).2.2.2.1
    rw [List.map_cons, List.sum_cons]
    omega

theorem lineNumbersFrom_append_lines :
    ∀ (a b : List Nat) (start : Int) (n : Nat),
      lineNumbersFrom start n (a ++ b)
        = lineNumbersFrom start n a
          ++ lineNumbersFrom (start + (a.sum : Int)) (n + (lineNumbersFrom start n a).length) b
  | [], b, start, n => by simp [lineNumbersFrom]
  | len :: rest, b, start, n => by
    rw [List.cons_append, lineNumbersFrom, lineNumbersFrom]
    by_cases h : len = 0
    · rw [if_pos h, if_pos h, lineNumbersFrom_append_lines rest b start n]
      simp [h]
    · rw [if_neg h, if_neg h, lineNumbersFrom_append_lines rest b _ _]
      simp only [List.sum_cons, List.length_cons, List.cons_append, Nat.cast_add]
      congr 2
      rw [Int.add_assoc, Nat.add_assoc n 1, Nat.add_comm 1]

namespace SimpleShapedText

/-- The text that `shape` builds for a single hard line under a limit of `m` lines. -/
theorem shape_single_line (lowLevelShape : LowLevelShape) (shaperFor : Range → Shaper)
    (lineRange : Range) (o : ShapedTextOptions) (r : LineDataAndChunkStorage)
    (hr : FillLinesOptions.fillLines
      ⟨o.maxWidth.getD 1000000, o.firstLineIndent, !o.trailingWhitespacesShouldFit,
        !o.allowBreakingInsideWord⟩ lowLevelShape (shaperFor lineRange) = some r)
    (m : Int) (hm : 1 ≤ m) (hm2 : m ≤ int64Max) :
    shape lowLevelShape shaperFor [lineRange] { o with maxNumLines := m }
      = some ((foldLinesBeyondLineLimit r.lines m.toNat).foldl (addLine lineRange.getStart)
          init) := by
  have hmt : toSizeT m = m.toNat := by
    unfold toSizeT
    unfold int64Max at hm2
    rw [Int.emod_eq_of_lt (by omega) (by omega)]
  have hsub : subSizeT m.toNat 0 = m.toNat := by
    unfold subSizeT
    unfold int64Max at hm2
    have : m.toNat < 2 ^ 64 := by omega
    simp only [Nat.zero_mod, Nat.sub_zero]
    rw [Nat.add_mod_right, Nat.mod_eq_of_lt this]
  unfold shape
  rw [shapeLines]
  simp only [hr, hmt]
  have hz : RangedValues.size init.lineNumbers = 0 := rfl
  rw [hz, hsub, if_neg (by omega)]
  rfl

/-- The text built from the lines of a hard line: the number of its lines is the number of
lines that push a glyph. -/
theorem foldl_addLine_init (st : Int) (lines : List (List WrappedGlyphsCursorRange)) :
    (lines.foldl (addLine st) init).lineNumbers
        = lineNumbersFrom 0 0 (lines.map (fun l => (linePushed st l).length))
    ∧ (lines.foldl (addLine st) init).glyphsInVisualOrder
        = (lines.map (linePushed st)).flatten := by
  obtain ⟨h1, h2⟩ := foldl_addLine_exact st lines init [] rfl rfl
  rw [List.nil_append] at h1
  exact ⟨h1, by rw [h2]; rfl⟩

end SimpleShapedText


open RangedValues SimpleShapedText

theorem linePushed_perm_append (st : Int) (a b : List WrappedGlyphsCursorRange) :
    List.Perm (linePushed st (a ++ b)) (linePushed st a ++ linePushed st b) := by
  refine (linePushed_perm st (a ++ b)).trans ?_
  rw [List.map_append, List.flatten_append]
  exact ((linePushed_perm st a).symm).append ((linePushed_perm st b).symm)

theorem linePushed_nil (st : Int) : linePushed st [] = [] := rfl

/-- The glyphs pushed for lines put together into one line are those pushed for the single
lines, in some order. -/
theorem linePushed_perm_flatten (st : Int) :
    ∀ (ls : List (List WrappedGlyphsCursorRange)),
      List.Perm (linePushed st ls.flatten) ((ls.map (linePushed st)).flatten)
  | [] => by
    rw [List.flatten_nil, List.map_nil, List.flatten_nil, linePushed_nil]
  | l :: rest => by
    rw [List.flatten_cons, List.map_cons, List.flatten_cons]
    exact (linePushed_perm_append st l rest.flatten).trans
      ((linePushed_perm_flatten st rest).append_left _)

theorem linePushed_length_flatten (st : Int) (ls : List (List WrappedGlyphsCursorRange)) :
    (linePushed st ls.flatten).length = (ls.map (fun l => (linePushed st l).length)).sum := by
  rw [(linePushed_perm_flatten st ls).length_eq, List.length_flatten, List.map_map]
  rfl

theorem mem_dropLast_of_mem_take {α : Type} (xs : List α) (n : Nat) (h : n + 1 ≤ xs.length)
    (x : α) (hx : x ∈ xs.take n) : x ∈ xs.dropLast := by
  rw [List.dropLast_eq_take]
  have : xs.take n = (xs.take (xs.length - 1)).take n := by
    rw [List.take_take]
    congr 1
    omega
  rw [this] at hx
  exact List.mem_of_mem_take hx

/-- The line numbers of lines that all push a glyph: one item per line. -/
theorem lineNumbersFrom_length_pos (lens : List Nat) (h : ∀ l ∈ lens, 0 < l) (start : Int)
    (n : Nat) : (lineNumbersFrom start n lens).length = lens.length := by
  rw [lineNumbersFrom_length, List.countP_eq_length]
  intro l hl
  have := h l hl
  simp only [ne_eq, decide_not, Bool.not_eq_true', decide_eq_false_iff_not]
  omega

/-- The text built from the lines of a hard line folded to `m` lines, when every line but
the last pushes a glyph. -/
theorem foldl_addLine_folded (st : Int) (lines : List (List WrappedGlyphsCursorRange))
    (m : Nat) (h1 : 1 ≤ m) (h2 : m < lines.length)
    (hpos : ∀ l ∈ lines.dropLast, 0 < (linePushed st l).length) :
    ((foldLinesBeyondLineLimit lines m).foldl (addLine st) init).lineNumbers
        = (lineNumbersFrom 0 0 (lines.map (fun l => (linePushed st l).length))).take (m - 1)
          ++ [(⟨((lineNumbersFrom 0 0 (lines.map (fun l => (linePushed st l).length))).getD
                  (m - 1) default).1.getStart,
                (((lines.map (linePushed st)).flatten.length : Nat) : Int)⟩,
               (((m - 1 : Nat) : Nat) : Int))]
    ∧ ((foldLinesBeyondLineLimit lines m).foldl (addLine st) init).glyphsInVisualOrder
        = ((lines.take (m - 1)).map (linePushed st)).flatten
          ++ linePushed st (lines.drop (m - 1)).flatten
    ∧ (((lines.take (m - 1)).map (linePushed st)).flatten.length : Int)
        = ((lineNumbersFrom 0 0 (lines.map (fun l => (linePushed st l).length))).getD
            (m - 1) default).1.getStart
    ∧ RangedValues.size ((foldLinesBeyondLineLimit lines m).foldl (addLine st) init).lineNumbers
        = m := by
  have hsplit : lines = lines.take (m - 1) ++ lines.drop (m - 1) :=
    (List.take_append_drop _ _).symm
  have hlt : m - 1 < lines.length := by omega
  have hdrop : lines.drop (m - 1) = lines[m - 1] :: lines.drop m := by
    rw [List.drop_eq_getElem_cons hlt]
    congr 2
    omega
  have hmid : lines[m - 1] ∈ lines.dropLast := by
    apply mem_dropLast_of_mem_take lines m (by omega)
    rw [List.mem_take_iff_getElem]
    exact ⟨m - 1, by rw [Nat.lt_min]; omega, rfl⟩
  have hmidpos := hpos _ hmid
  have htakepos : ∀ l ∈ (lines.take (m - 1)).map (fun l => (linePushed st l).length),
      0 < l := by
    intro l hl
    obtain ⟨x, hx, rfl⟩ := List.mem_map.1 hl
    exact hpos x (mem_dropLast_of_mem_take lines (m - 1) (by omega) x hx)
  have htakelen : (lineNumbersFrom 0 0
      ((lines.take (m - 1)).map (fun l => (linePushed st l).length))).length = m - 1 := by
    rw [lineNumbersFrom_length_pos _ htakepos, List.length_map, List.length_take]
    omega
  -- the line numbers without a limit, split at line `m - 1`
  have hall : lineNumbersFrom 0 0 (lines.map (fun l => (linePushed st l).length))
      = lineNumbersFrom 0 0 ((lines.take (m - 1)).map (fun l => (linePushed st l).length))
        ++ ((⟨(((lines.take (m - 1)).map (fun l => (linePushed st l).length)).sum : Int),
              (((lines.take (m - 1)).map (fun l => (linePushed st l).length)).sum : Int)
                + ((linePushed st lines[m - 1]).length : Int)⟩, ((m - 1 : Nat) : Int))
            :: lineNumbersFrom
                ((((lines.take (m - 1)).map (fun l => (linePushed st l).length)).sum : Int)
                  + ((linePushed st lines[m - 1]).length : Int)) (m - 1 + 1)
                ((lines.drop m).map (fun l => (linePushed st l).length))) := by
    conv_lhs => rw [hsplit, List.map_append, lineNumbersFrom_append_lines, htakelen, hdrop,
      List.map_cons, lineNumbersFrom, if_neg (by omega)]
    simp only [zero_add]
  have hstart : ((lineNumbersFrom 0 0 (lines.map (fun l => (linePushed st l).length))).getD
      (m - 1) default).1.getStart
      = (((lines.take (m - 1)).map (fun l => (linePushed st l).length)).sum : Int) := by
    rw [hall, List.getD_eq_getElem?_getD, List.getElem?_append_right (by omega), htakelen,
      Nat.sub_self]
    simp only [List.getElem?_cons_zero, Option.getD_some]
  have htake : (lineNumbersFrom 0 0 (lines.map (fun l => (linePushed st l).length))).take
      (m - 1)
      = lineNumbersFrom 0 0 ((lines.take (m - 1)).map (fun l => (linePushed st l).length)) := by
    rw [hall, List.take_left' htakelen]
  have hsum : (((lines.take (m - 1)).map (linePushed st)).flatten.length)
      = ((lines.take (m - 1)).map (fun l => (linePushed st l).length)).sum := by
    rw [List.length_flatten, List.map_map]
    rfl
  have hfoldlen : (linePushed st (lines.drop (m - 1)).flatten).length
      = ((lines.drop (m - 1)).map (fun l => (linePushed st l).length)).sum :=
    linePushed_length_flatten st _
  have hfoldpos : (linePushed st (lines.drop (m - 1)).flatten).length ≠ 0 := by
    rw [hfoldlen, hdrop, List.map_cons, List.sum_cons]
    omega
  have htotal : (((lines.map (linePushed st)).flatten.length : Nat) : Int)
      = (((lines.take (m - 1)).map (fun l => (linePushed st l).length)).sum : Int)
        + ((linePushed st (lines.drop (m - 1)).flatten).length : Int) := by
    have : (lines.map (linePushed st)).flatten.length
        = ((lines.take (m - 1)).map (fun l => (linePushed st l).length)).sum
          + (linePushed st (lines.drop (m - 1)).flatten).length := by
      conv_lhs => rw [hsplit]
      rw [List.map_append, List.flatten_append, List.length_append, hsum, hfoldlen,
        List.length_flatten, List.map_map]
      rfl
    rw [this, Nat.cast_add]
  obtain ⟨e1, e2⟩ := foldl_addLine_init st (foldLinesBeyondLineLimit lines m)
  rw [foldLines_folded lines m h1 h2] at e1 e2 ⊢
  refine ⟨?_, ?_, ?_, ?_⟩
  · rw [e1, List.map_append, List.map_singleton, lineNumbersFrom_append, htake, hstart,
      htakelen, if_neg hfoldpos, htotal]
    simp only [zero_add]
  · rw [e2, List.map_append, List.map_singleton, List.flatten_append, List.flatten_singleton]
  · rw [hstart, hsum]
  · rw [e1, List.map_append, List.map_singleton, lineNumbersFrom_append, if_neg hfoldpos]
    unfold RangedValues.size
    rw [List.length_append, htakelen, List.length_singleton]
    omega


open RangedValues

namespace SimpleShapedText

/-- C4, as stated, fails: `"a\nb\nc"` has three hard lines and shapes into three lines
without a limit; with `maxNumLines = 2` the result has two lines, and the last one is
`"b\n"` with the glyphs of clusters 2 and 3: the glyph of `"c"` (cluster 4) is dropped and
the text range of the last line ends at 4, not at the end 5 of the input. -/
theorem shape_maxNumLines_drops_later_hard_lines :
    (shape (sampleShapeWithAdvance 1) (sampleShaperFor sampleThreeLines [])
        [⟨0, 2⟩, ⟨2, 4⟩, ⟨4, 5⟩] ⟨none, 0, false, false, int64Max⟩).map
      (fun t => (t.getNumLines, t.glyphsInVisualOrder.map (fun g => g.cluster)))
      = some (3, [0, 1, 2, 3, 4])
    ∧ (shape (sampleShapeWithAdvance 1) (sampleShaperFor sampleThreeLines [])
        [⟨0, 2⟩, ⟨2, 4⟩, ⟨4, 5⟩] ⟨none, 0, false, false, 2⟩).map
      (fun t => (t.getNumLines, t.lineNumbers, t.glyphsInVisualOrder.map (fun g => g.cluster),
        (List.range 4).map (fun (i : Nat) => t.getTextRange (i : Int))))
      = some (2, [(⟨0, 2⟩, 0), (⟨2, 4⟩, 1)], [0, 1, 2, 3],
          [some ⟨0, 1⟩, some ⟨1, 2⟩, some ⟨2, 3⟩, some ⟨3, 4⟩]) := by
  decide

end SimpleShapedText


theorem RangesClosed.upTo {R : List WrappedGlyphsCursorRange} (h : RangesClosed R)
    (c : WrappedGlyphsCursor) : RangesClosedUpTo R c := by
  intro rg hrg
  rcases h rg hrg with h1 | h1
  · exact Or.inl h1
  · exact Or.inr (Or.inl h1)

theorem RangesClosedUpTo.closed {R : List WrappedGlyphsCursorRange} {c : WrappedGlyphsCursor}
    (h : RangesClosedUpTo R c) (hc : c.isBeyondEnd = true) : RangesClosed R := by
  intro rg hrg
  rcases h rg hrg with h1 | h1 | h1
  · exact Or.inl h1
  · exact Or.inr h1
  · exact Or.inl (by rw [h1]; exact hc)

theorem RangesClosedUpTo.snoc {R : List WrappedGlyphsCursorRange} {c : WrappedGlyphsCursor}
    (h : RangesClosedUpTo R c) (c2 : WrappedGlyphsCursor) :
    RangesClosedUpTo (R ++ [⟨c, c2⟩]) c2 := by
  intro rg hrg
  rcases List.mem_append.1 hrg with h1 | h1
  · rcases h rg h1 with h2 | ⟨rg2, h2, h3⟩ | h2
    · exact Or.inl h2
    · exact Or.inr (Or.inl ⟨rg2, List.mem_append_left _ h2, h3⟩)
    · exact Or.inr (Or.inl ⟨⟨c, c2⟩, List.mem_append_right _ (List.mem_singleton.2 rfl),
        h2.symm⟩)
  · rw [List.mem_singleton.1 h1]
    exact Or.inr (Or.inr rfl)

namespace LineOfWrappedGlyphCursorRanges

/-- The ranges after `consume`: the ranges before, closed up to the returned cursor. -/
theorem consume_closed (prev : List WrappedGlyphsCursorRange)
    (line : LineOfWrappedGlyphCursorRanges) (glyphIt : WrappedGlyphsCursor) (force : Bool)
    (h : RangesClosedUpTo (prev ++ line.consumedChunks) glyphIt) :
    RangesClosedUpTo (prev ++ (line.consume glyphIt force).1.consumedChunks)
      (line.consume glyphIt force).2 := by
  unfold consume
  by_cases h1 : (force && line.state.isEmpty) = true
  · rw [if_pos h1]
    simp only
    rw [← List.append_assoc]
    exact h.snoc _
  · rw [if_neg h1]
    simp only
    by_cases h2 : (!line.state.isEmpty
        && !(consumeIf line.state glyphIt fits).2.isBeyondEnd) = true
    · rw [if_pos h2]
      exact h
    · rw [if_neg h2]
      by_cases h3 : (consumeIf line.state glyphIt fits).2 ≠ glyphIt
      · rw [if_pos h3]
        simp only
        rw [← List.append_assoc]
        exact h.snoc _
      · rw [if_neg h3]
        simp only
        have : (consumeIf line.state glyphIt fits).2 = glyphIt := by
          by_contra hc
          exact h3 hc
        rw [this]
        exact h

end LineOfWrappedGlyphCursorRanges

namespace FillLinesOptions

theorem fillChunks_closed (o : FillLinesOptions) :
    ∀ (fuel : Nat) (line : LineOfWrappedGlyphCursorRanges) (cursor : WrappedGlyphsCursor)
      (lines : List (List WrappedGlyphsCursorRange))
      (res : LineOfWrappedGlyphCursorRanges × WrappedGlyphsCursor ×
        List (List WrappedGlyphsCursorRange)),
      fillChunks o fuel line cursor lines = some res →
      RangesClosedUpTo (lines.flatten ++ line.consumedChunks) cursor →
      RangesClosed (res.2.2.flatten ++ res.1.consumedChunks) := by
  intro fuel
  induction fuel with
  | zero =>
    intro line cursor lines res h
    rw [fillChunks_zero] at h
    exact Option.noConfusion h
  | succ n ih =>
    intro line cursor lines res h hcl
    rw [fillChunks] at h
    by_cases hb : cursor.isBeyondEnd = true
    · rw [if_pos hb] at h
      have := Option.some.inj h
      subst this
      exact hcl.closed hb
    · rw [if_neg hb] at h
      simp only at h
      have hc := LineOfWrappedGlyphCursorRanges.consume_closed lines.flatten line cursor
        o.forceConsumeFirstWord hcl
      split_ifs at h with h2
      · refine ih _ _ _ res h ?_
        rw [List.flatten_append, List.flatten_singleton]
        show RangesClosedUpTo (_ ++ _ ++ []) _
        rw [List.append_nil]
        exact hc
      · exact ih _ _ _ res h hc

theorem fillLoop_closed (o : FillLinesOptions) (lowLevelShape : LowLevelShape) :
    ∀ (fuel : Nat) (shaper : Shaper) (chunks : WrappedGlyphs)
      (line : LineOfWrappedGlyphCursorRanges) (result r : LineDataAndChunkStorage),
      fillLoop o lowLevelShape fuel shaper chunks line result = some r →
      RangesClosed (result.lines.flatten ++ line.consumedChunks) →
      RangesClosed r.lines.flatten := by
  intro fuel
  induction fuel with
  | zero =>
    intro shaper chunks line result r h
    rw [fillLoop_zero] at h
    exact Option.noConfusion h
  | succ n ih =>
    intro shaper chunks line result r h hcl
    cases chunks with
    | nil =>
      rw [fillLoop_nil] at h
      have := Option.some.inj h
      subst this
      simp only [List.flatten_append, List.flatten_singleton,
        LineOfWrappedGlyphCursorRanges.getConsumedChunks]
      exact hcl
    | cons ch rest =>
      rw [fillLoop_cons] at h
      cases hfc : fillChunks o (2 * WrappedGlyphsCursor.stepBound (ch :: rest) + 2) line
          (WrappedGlyphsCursor.init (ch :: rest)) result.lines with
      | none => rw [hfc] at h; exact Option.noConfusion h
      | some res =>
        obtain ⟨line1, cursor, lines1⟩ := res
        rw [hfc] at h
        simp only at h
        exact ih _ _ _ _ r h (fillChunks_closed o _ _ _ _ _ hfc (hcl.upTo _))

/-- The consumed ranges of the lines of `fillLines` follow on one another: each ends at the
end of its chunk sequence or where another one begins. -/
theorem fillLines_closed (o : FillLinesOptions) (lowLevelShape : LowLevelShape) (s : Shaper)
    (r : LineDataAndChunkStorage) (h : o.fillLines lowLevelShape s = some r) :
    RangesClosed r.lines.flatten := by
  unfold fillLines at h
  refine fillLoop_closed o lowLevelShape _ _ _ _ ⟨[], []⟩ r h ?_
  intro rg hrg
  simp [LineOfWrappedGlyphCursorRanges.init] at hrg

end FillLinesOptions


/-- A slice of glyphs in logical order: every glyph of the slice has a cluster from that of
the first glyph of the slice up to that of the glyph after the slice. -/
theorem slice_clusters (glyphs : List ShapedGlyph) (hm : ClustersMonotone glyphs)
    (j ge : Nat) (hj : j < glyphs.length) (g : ShapedGlyph)
    (hg : g ∈ (glyphs.drop j).take (ge - j)) :
    g ∈ glyphs ∧ (glyphs.getD j default).cluster ≤ g.cluster
    ∧ (ge < glyphs.length → g.cluster ≤ (glyphs.getD ge default).cluster) := by
  have hgd : g ∈ glyphs.drop j := List.mem_of_mem_take hg
  have hmd : ClustersMonotone (glyphs.drop j) := List.Pairwise.sublist (List.drop_sublist _ _) hm
  have hdj : glyphs.drop j = glyphs[j] :: glyphs.drop (j + 1) := List.drop_eq_getElem_cons hj
  refine ⟨List.mem_of_mem_drop hgd, ?_, ?_⟩
  · rw [List.getD_eq_getElem?_getD, List.getElem?_eq_getElem hj, Option.getD_some]
    rw [hdj] at hgd hmd
    rcases List.mem_cons.1 hgd with h1 | h1
    · rw [h1]
    · exact (List.pairwise_cons.1 hmd).1 g h1
  · intro hge
    rw [List.getD_eq_getElem?_getD, List.getElem?_eq_getElem hge, Option.getD_some]
    by_cases hle : j ≤ ge
    · have hsplit : glyphs.drop j
          = (glyphs.drop j).take (ge - j) ++ (glyphs.drop j).drop (ge - j) :=
        (List.take_append_drop _ _).symm
      have hdd : (glyphs.drop j).drop (ge - j) = glyphs[ge] :: glyphs.drop (ge + 1) := by
        rw [List.drop_drop]
        have : j + (ge - j) = ge := by omega
        rw [this]
        exact List.drop_eq_getElem_cons hge
      rw [hsplit, hdd] at hmd
      exact (List.pairwise_append.1 hmd).2.2 g hg _ (List.mem_cons_self _ _)
    · have : ge - j = 0 := by omega
      rw [this, List.take_zero] at hg
      exact absurd hg (List.not_mem_nil g)

namespace WrappedGlyphsCursor

/-- Every span of `spansLoop` is the span of a chunk from the start index on, cut at the
start index in its first chunk. -/
theorem mem_spansLoop (c : WrappedGlyphsCursor) (endIndex : Index) :
    ∀ (fuel i j : Nat) (s : ShapedGlyphSpan), s ∈ spansLoop c endIndex fuel ⟨i, j⟩ →
      ∃ i2 j2, s = spanAt c endIndex ⟨i2, j2⟩ ∧ Index.lt ⟨i2, j2⟩ endIndex = true
        ∧ ((i2 = i ∧ j2 = j) ∨ (i < i2 ∧ j2 = 0)) := by
  intro fuel
  induction fuel with
  | zero =>
    intro i j s hs
    rw [spansLoop] at hs
    exact absurd hs (List.not_mem_nil s)
  | succ n ih =>
    intro i j s hs
    rw [spansLoop] at hs
    by_cases hlt : Index.lt ⟨i, j⟩ endIndex = true
    · rw [if_pos hlt] at hs
      rcases List.mem_cons.1 hs with h1 | h1
      · exact ⟨i, j, h1, hlt, Or.inl ⟨rfl, rfl⟩⟩
      · obtain ⟨i2, j2, e1, e2, e3⟩ := ih (i + 1) 0 s h1
        refine ⟨i2, j2, e1, e2, Or.inr ?_⟩
        rcases e3 with ⟨h3, h4⟩ | ⟨h3, h4⟩
        · exact ⟨by omega, h4⟩
        · exact ⟨by omega, h4⟩
    · rw [if_neg hlt] at hs
      exact absurd hs (List.not_mem_nil s)

theorem index_lt_of_remaining_lt (b e : WrappedGlyphsCursor) (hd : b.data = e.data)
    (h : e.remaining.length < b.remaining.length) : b.index.lt e.index = true := by
  have h1 := not_lt_of_remaining_lt b e hd h
  obtain ⟨d, ⟨bi, bj⟩⟩ := b
  obtain ⟨d2, ⟨ei, ej⟩⟩ := e
  simp only at hd
  subst hd
  simp only [Index.lt, Bool.or_eq_false_iff, decide_eq_false_iff_not, not_lt,
    Bool.and_eq_false_iff, Bool.or_eq_true, Bool.and_eq_true, decide_eq_true_eq] at h1 ⊢
  by_contra hc
  have hij : bi = ei ∧ bj = ej := by
    constructor
    · omega
    · rcases h1.2 with h2 | h2
      · omega
      · by_contra h3
        apply hc
        right
        omega
  rw [hij.1, hij.2] at h
  omega

/-- The glyphs pushed for a span of a consumed range: each has its cluster inside the text
range of the span, or has the cluster of the glyph at the end of the range. -/
theorem span_cluster_cover (n : Int) (rg : WrappedGlyphsCursorRange) (hok : rg.Ok)
    (hw : ChunksWellFormed n rg.«begin».data) (s : ShapedGlyphSpan)
    (hs : s ∈ rg.«begin».getShapedGlyphSpansUpTo rg.«end») (g : ShapedGlyph)
    (hg : g ∈ (SimpleShapedText.spanGlyphs s).1) :
    (0 ≤ g.cluster ∧ g.cluster < n)
    ∧ (s.textRange.contains g.cluster = true
      ∨ (rg.«end».isBeyondEnd = false ∧ g.cluster = rg.«end».deref.cluster)) := by
  obtain ⟨hd, hbv, hev, hne, hrem⟩ := hok
  have hspans : rg.«begin».getShapedGlyphSpansUpTo rg.«end»
      = spansLoop rg.«begin» rg.«end».index
          (rg.«end».index.i + 2 - rg.«begin».index.i) rg.«begin».index := by
    unfold getShapedGlyphSpansUpTo
    rw [if_neg (by simpa using hd)]
  rw [hspans] at hs
  obtain ⟨i2, j2, rfl, hlt, hpos⟩ := mem_spansLoop _ _ _ _ _ _ hs
  simp only [Index.lt, Bool.or_eq_true, Bool.and_eq_true, decide_eq_true_eq] at hlt
  have hlen : rg.«begin».remaining.length
      = rg.glyphs.length + rg.«end».remaining.length := by
    rw [hrem, List.length_append]
  have hgl : 0 < rg.glyphs.length := List.length_pos.2 hne
  have hble := index_lt_of_remaining_lt rg.«begin» rg.«end» hd (by omega)
  simp only [Index.lt, Bool.or_eq_true, Bool.and_eq_true, decide_eq_true_eq] at hble
  -- the end cursor stands inside the chunk sequence when it is in the chunk of the span
  have hei : rg.«end».index.i ≤ rg.«end».data.length := by
    by_cases hi : rg.«end».index.i < rg.«end».data.length
    · omega
    · exact le_of_eq (hev.2.2 (Nat.le_of_not_lt hi)).1
  have hi2 : i2 < rg.«begin».data.length := by
    rw [hd]
    rcases hlt with h | ⟨h1, h2⟩
    · omega
    · by_contra hc
      have := (hev.2.2 (by omega)).2
      omega
  set chunk := rg.«begin».data.getD i2 default with hchunk
  have hcm : chunk ∈ rg.«begin».data := by
    rw [hchunk, List.getD_eq_getElem?_getD, List.getElem?_eq_getElem hi2, Option.getD_some]
    exact List.getElem_mem _
  obtain ⟨hcne, hcmono, hccl, hcend⟩ := hw chunk hcm
  have hcsz : 0 < chunk.glyphs.length := List.length_pos.2 hcne
  -- the end of the slice
  have hej : i2 = rg.«end».index.i → rg.«end».index.j < chunk.glyphs.length := by
    intro h
    have hi3 : rg.«end».index.i < rg.«end».data.length := by rw [← hd, ← h]; exact hi2
    have := hev.2.1 hi3
    unfold WrappedGlyphsCursor.chunk OwnedGlyphsSpan.size at this
    rw [← hd, ← h] at this
    exact this
  have hbj : i2 = rg.«begin».index.i → rg.«begin».index.j < chunk.glyphs.length := by
    intro h
    have := hbv.2.1 (by rw [← h]; exact hi2)
    unfold WrappedGlyphsCursor.chunk OwnedGlyphsSpan.size at this
    rw [← h] at this
    exact this
  have hj2 : j2 < chunk.glyphs.length := by
    rcases hpos with ⟨h1, h2⟩ | ⟨_, h2⟩
    · rw [h2]; exact hbj h1
    · omega
  obtain ⟨ge, hge⟩ : ∃ ge, chunk.size
      - (if i2 < rg.«end».index.i then 0 else chunk.size - rg.«end».index.j) = ge := ⟨_, rfl⟩
  have hge2 : ge = if i2 < rg.«end».index.i then chunk.glyphs.length
      else rg.«end».index.j := by
    rw [← hge]
    unfold OwnedGlyphsSpan.size
    split_ifs with h
    · omega
    · have := hej (by omega)
      omega
  have hjge : j2 ≤ ge := by
    rw [hge2]
    split_ifs with h
    · omega
    · rcases hlt with h3 | ⟨_, h3⟩
      · exact absurd h3 h
      · omega
  have hgele : ge ≤ chunk.glyphs.length := by
    rw [hge2]
    split_ifs with h
    · exact le_refl _
    · exact le_of_lt (hej (by omega))
  have hsg := spanAt_glyphs rg.«begin» rg.«end».index ⟨i2, j2⟩ ge hge hjge hgele
  rw [hsg] at hg
  have hg2 : g ∈ (chunk.glyphs.drop j2).take (ge - j2) := by
    rw [← hchunk] at hg
    split_ifs at hg
    · exact hg
    · exact List.mem_reverse.1 hg
  obtain ⟨hgm, hlo, hhi⟩ := slice_clusters chunk.glyphs hcmono j2 ge hj2 g hg2
  have hgc := hccl g hgm
  refine ⟨⟨hgc.1, by omega⟩, ?_⟩
  -- the text range of the span
  have htr : (spanAt rg.«begin» rg.«end».index ⟨i2, j2⟩).textRange
      = Range.make (chunk.glyphs.getD j2 default).cluster
          (if ge < chunk.size then (chunk.glyphs.getD ge default).cluster
           else chunk.getTextRange.getEnd) := by
    unfold spanAt
    simp only [hge]
  rw [htr, RangedValues.Range_contains_iff]
  unfold Range.make
  simp only
  by_cases hgs : ge < chunk.size
  · rw [if_pos hgs]
    have hh := hhi hgs
    by_cases hlt2 : g.cluster < (chunk.glyphs.getD ge default).cluster
    · left
      exact ⟨hlo, lt_of_lt_of_le hlt2 (le_max_right _ _)⟩
    · right
      have hie : ¬ (i2 < rg.«end».index.i) := by
        intro h
        rw [hge2, if_pos h] at hgs
        unfold OwnedGlyphsSpan.size at hgs
        omega
      have hie2 : i2 = rg.«end».index.i := by
        rcases hlt with h | ⟨h, _⟩
        · exact absurd h hie
        · exact h
      have hgej : ge = rg.«end».index.j := by rw [hge2, if_neg hie]
      constructor
      · rw [isBeyondEnd_eq_false_iff hev, ← hd, ← hie2]
        exact hi2
      · have hderef : rg.«end».deref = chunk.glyphs.getD ge default := by
          unfold deref WrappedGlyphsCursor.chunk
          rw [← hd, ← hie2, ← hgej]
        rw [hderef]
        omega
  · rw [if_neg hgs]
    left
    exact ⟨hlo, lt_of_lt_of_le hgc.2 (le_max_right _ _)⟩

/-- The glyph at the start of a consumed range is pushed for one of its spans. -/
theorem first_glyph_pushed (rg : WrappedGlyphsCursorRange) (hok : rg.Ok) :
    ∃ s ∈ rg.«begin».getShapedGlyphSpansUpTo rg.«end»,
      rg.«begin».deref ∈ (SimpleShapedText.spanGlyphs s).1 := by
  obtain ⟨hd, hbv, hev, hne, hrem⟩ := hok
  have hspans : rg.«begin».getShapedGlyphSpansUpTo rg.«end»
      = spansLoop rg.«begin» rg.«end».index
          (rg.«end».index.i + 2 - rg.«begin».index.i) rg.«begin».index := by
    unfold getShapedGlyphSpansUpTo
    rw [if_neg (by simpa using hd)]
  have hlen : rg.«begin».remaining.length
      = rg.glyphs.length + rg.«end».remaining.length := by
    rw [hrem, List.length_append]
  have hgl : 0 < rg.glyphs.length := List.length_pos.2 hne
  have hble := index_lt_of_remaining_lt rg.«begin» rg.«end» hd (by omega)
  have hble2 := hble
  simp only [Index.lt, Bool.or_eq_true, Bool.and_eq_true, decide_eq_true_eq] at hble2
  have hei : rg.«end».index.i ≤ rg.«end».data.length := by
    by_cases hi : rg.«end».index.i < rg.«end».data.length
    · omega
    · exact le_of_eq (hev.2.2 (Nat.le_of_not_lt hi)).1
  have hbi : rg.«begin».index.i < rg.«begin».data.length := by
    rw [hd]
    rcases hble2 with h | ⟨h1, h2⟩
    · omega
    · by_contra hc
      have := (hev.2.2 (by omega)).2
      omega
  have hbj := hbv.2.1 hbi
  unfold WrappedGlyphsCursor.chunk OwnedGlyphsSpan.size at hbj
  set chunk := rg.«begin».data.getD rg.«begin».index.i default with hchunk
  have hej : rg.«begin».index.i = rg.«end».index.i →
      rg.«end».index.j < chunk.glyphs.length := by
    intro h
    have hi3 : rg.«end».index.i < rg.«end».data.length := by rw [← hd, ← h]; exact hbi
    have := hev.2.1 hi3
    unfold WrappedGlyphsCursor.chunk OwnedGlyphsSpan.size at this
    rw [← hd, ← h] at this
    exact this
  obtain ⟨ge, hge⟩ : ∃ ge, chunk.size
      - (if rg.«begin».index.i < rg.«end».index.i then 0
          else chunk.size - rg.«end».index.j) = ge := ⟨_, rfl⟩
  have hge2 : ge = if rg.«begin».index.i < rg.«end».index.i then chunk.glyphs.length
      else rg.«end».index.j := by
    rw [← hge]
    unfold OwnedGlyphsSpan.size
    split_ifs with h
    · omega
    · have := hej (by omega)
      omega
  have hjge : rg.«begin».index.j < ge := by
    rw [hge2]
    split_ifs with h
    · exact hbj
    · rcases hble2 with h3 | ⟨_, h3⟩
      · exact absurd h3 h
      · exact h3
  have hgele : ge ≤ chunk.glyphs.length := by
    rw [hge2]
    split_ifs with h
    · exact le_refl _
    · exact le_of_lt (hej (by omega))
  have hsg := spanAt_glyphs rg.«begin» rg.«end».index
    ⟨rg.«begin».index.i, rg.«begin».index.j⟩ ge hge (le_of_lt hjge) hgele
  refine ⟨spanAt rg.«begin» rg.«end».index rg.«begin».index, ?_, ?_⟩
  · rw [hspans]
    have : rg.«end».index.i + 2 - rg.«begin».index.i
        = (rg.«end».index.i + 1 - rg.«begin».index.i) + 1 := by omega
    rw [this, spansLoop, if_pos hble]
    exact List.mem_cons_self _ _
  · have hidx : (⟨rg.«begin».index.i, rg.«begin».index.j⟩ : Index) = rg.«begin».index := rfl
    rw [hidx] at hsg
    rw [hsg]
    have hmem : rg.«begin».deref ∈ (chunk.glyphs.drop rg.«begin».index.j).take
        (ge - rg.«begin».index.j) := by
      rw [List.drop_eq_getElem_cons hbj]
      have : ge - rg.«begin».index.j = (ge - rg.«begin».index.j - 1) + 1 := by omega
      rw [this, List.take_succ_cons]
      have hderef : rg.«begin».deref = chunk.glyphs[rg.«begin».index.j] := by
        unfold deref WrappedGlyphsCursor.chunk
        rw [← hchunk, List.getD_eq_getElem?_getD, List.getElem?_eq_getElem hbj,
          Option.getD_some]
      rw [hderef]
      exact List.mem_cons_self _ _
    rw [← hchunk]
    split_ifs
    · exact hmem
    · exact List.mem_reverse.2 hmem

end WrappedGlyphsCursor

open RangedValues

/-- Over consumed ranges that follow on one another, every glyph pushed for a span has its
cluster inside the text range of some span. -/
theorem ranges_cover (n : Int) (R : List WrappedGlyphsCursorRange) (hcl : RangesClosed R)
    (hok : ∀ rg ∈ R, rg.Ok ∧ ChunksWellFormed n rg.«begin».data) :
    ∀ (k : Nat) (rg : WrappedGlyphsCursorRange), rg ∈ R → rg.«end».remaining.length = k →
      ∀ s ∈ rg.«begin».getShapedGlyphSpansUpTo rg.«end»,
      ∀ g ∈ (SimpleShapedText.spanGlyphs s).1,
        (0 ≤ g.cluster ∧ g.cluster < n)
        ∧ ∃ rg2 ∈ R, ∃ s2 ∈ rg2.«begin».getShapedGlyphSpansUpTo rg2.«end»,
            s2.textRange.contains g.cluster = true := by
  intro k
  induction k using Nat.strong_induction_on with
  | _ k ih =>
    intro rg hrg hk s hs g hg
    obtain ⟨h1, h2⟩ := WrappedGlyphsCursor.span_cluster_cover n rg (hok rg hrg).1
      (hok rg hrg).2 s hs g hg
    refine ⟨h1, ?_⟩
    rcases h2 with h2 | ⟨hnb, hcl2⟩
    · exact ⟨rg, hrg, s, hs, h2⟩
    · rcases hcl rg hrg with h3 | ⟨rg3, hrg3, hbeg⟩
      · rw [h3] at hnb
        exact Bool.noConfusion hnb
      · obtain ⟨s3, hs3, hg3⟩ := WrappedGlyphsCursor.first_glyph_pushed rg3 (hok rg3 hrg3).1
        have hok3 := (hok rg3 hrg3).1
        have hlen : rg3.«begin».remaining.length
            = rg3.glyphs.length + rg3.«end».remaining.length := by
          rw [hok3.2.2.2.2, List.length_append]
        have hpos : 0 < rg3.glyphs.length := List.length_pos.2 hok3.2.2.2.1
        have hlt : rg3.«end».remaining.length < k := by
          rw [← hk, ← hbeg]
          omega
        have := (ih _ hlt rg3 hrg3 rfl s3 hs3 _ hg3).2
        rw [hbeg, ← hcl2] at this
        exact this

namespace RangedValues

theorem setNoMerge_covered_iff {T : Type} {r : Range} {v : T} {xs : RangedValues T}
    {i : Int} (hr : r.getStart ≤ r.getEnd) :
    (∃ e ∈ setNoMerge xs r v, e.1.contains i = true)
      ↔ (r.contains i = true ∨ ∃ e ∈ xs, e.1.contains i = true) := by
  constructor
  · rintro ⟨e, he, hc⟩
    rcases (setNoMerge_contains_iff hr).1 ⟨e, he, hc, rfl⟩ with ⟨h1, _⟩ | ⟨_, e2, he2, hc2, _⟩
    · exact Or.inl h1
    · exact Or.inr ⟨e2, he2, hc2⟩
  · rintro (h1 | ⟨e, he, hc⟩)
    · obtain ⟨e2, he2, hc2, _⟩ := (setNoMerge_contains_iff hr).2 (Or.inl ⟨h1, rfl⟩)
      exact ⟨e2, he2, hc2⟩
    · by_cases hrc : r.contains i = true
      · obtain ⟨e2, he2, hc2, _⟩ := (setNoMerge_contains_iff hr).2 (Or.inl ⟨hrc, rfl⟩)
        exact ⟨e2, he2, hc2⟩
      · obtain ⟨e2, he2, hc2, _⟩ := (setNoMerge_contains_iff (w := e.2) hr).2
          (Or.inr ⟨by simpa using hrc, e, he, hc, rfl⟩)
        exact ⟨e2, he2, hc2⟩

end RangedValues

theorem shift_contains (r : Range) (st c : Int) (h : r.getStart ≤ r.getEnd) :
    (r.shift st).contains (c + st) = true ↔ r.contains c = true := by
  rw [Range_contains_iff, Range_contains_iff]
  unfold Range.shift Range.make
  simp only
  rw [max_eq_right (by omega)]
  omega

theorem shift_le (r : Range) (st : Int) : (r.shift st).getStart ≤ (r.shift st).getEnd := by
  unfold Range.shift Range.make
  exact le_max_left _ _

namespace SimpleShapedText

theorem foldl_addSpan_covered (st : Int) (spans : List ShapedGlyphSpan) (c : Int) :
    ∀ t : SimpleShapedText,
      (∃ e ∈ (spans.foldl (addSpan st) t).glyphLookup, e.1.contains c = true)
        ↔ ((∃ e ∈ t.glyphLookup, e.1.contains c = true)
            ∨ ∃ s ∈ spans, (s.textRange.shift st).contains c = true) := by
  induction spans with
  | nil => intro t; simp
  | cons s rest ih =>
    intro t
    rw [List.foldl_cons, ih]
    have h1 : (addSpan st t s).glyphLookup
        = RangedValues.setNoMerge t.glyphLookup (s.textRange.shift st)
            ⟨Range.make (t.glyphsInVisualOrder.length : Int)
              ((t.glyphsInVisualOrder ++ spanPushed st s).length : Int), (spanGlyphs s).2⟩ := rfl
    rw [h1, setNoMerge_covered_iff (shift_le _ _)]
    simp only [List.mem_cons, exists_eq_or_imp]
    constructor
    · rintro ((h | h) | h)
      · exact Or.inr (Or.inl h)
      · exact Or.inl h
      · exact Or.inr (Or.inr h)
    · rintro (h | h | h)
      · exact Or.inl (Or.inr h)
      · exact Or.inl (Or.inl h)
      · exact Or.inr h

theorem addLine_glyphLookup (st : Int) (t : SimpleShapedText)
    (line : List WrappedGlyphsCursorRange) :
    (addLine st t line).glyphLookup
      = ((getShapedGlyphSpansInVisualOrder line).foldl (addSpan st) t).glyphLookup := rfl

theorem foldl_addLine_covered (st : Int) (lines : List (List WrappedGlyphsCursorRange))
    (c : Int) :
    ∀ t : SimpleShapedText,
      (∃ e ∈ (lines.foldl (addLine st) t).glyphLookup, e.1.contains c = true)
        ↔ ((∃ e ∈ t.glyphLookup, e.1.contains c = true)
            ∨ ∃ line ∈ lines, ∃ s ∈ getShapedGlyphSpansInVisualOrder line,
                (s.textRange.shift st).contains c = true) := by
  induction lines with
  | nil => intro t; simp
  | cons l rest ih =>
    intro t
    rw [List.foldl_cons, ih, addLine_glyphLookup, foldl_addSpan_covered]
    simp only [List.mem_cons, exists_eq_or_imp]
    constructor
    · rintro ((h | h) | h)
      · exact Or.inl h
      · exact Or.inr (Or.inl h)
      · exact Or.inr (Or.inr h)
    · rintro (h | h | h)
      · exact Or.inl (Or.inl h)
      · exact Or.inl (Or.inr h)
      · exact Or.inr h

theorem foldl_addLine_glyphs (st : Int) (lines : List (List WrappedGlyphsCursorRange)) :
    ∀ t : SimpleShapedText,
      (lines.foldl (addLine st) t).glyphsInVisualOrder
        = t.glyphsInVisualOrder ++ (lines.map (linePushed st)).flatten := by
  induction lines with
  | nil => intro t; simp
  | cons l rest ih =>
    intro t
    rw [List.foldl_cons, ih, addLine_glyphs, List.map_cons, List.flatten_cons,
      List.append_assoc]

end SimpleShapedText

theorem mem_spansInVisualOrder (line : List WrappedGlyphsCursorRange) (s : ShapedGlyphSpan) :
    s ∈ getShapedGlyphSpansInVisualOrder line
      ↔ ∃ rg ∈ line, s ∈ rg.«begin».getShapedGlyphSpansUpTo rg.«end» := by
  unfold getShapedGlyphSpansInVisualOrder
  have h1 := (sortByVisualOrder_perm _).trans (collectSpans_perm line [])
  rw [h1.mem_iff, List.nil_append, List.mem_flatten]
  constructor
  · rintro ⟨l, hl, hs⟩
    obtain ⟨rg, hrg, rfl⟩ := List.mem_map.1 hl
    exact ⟨rg, hrg, hs⟩
  · rintro ⟨rg, hrg, hs⟩
    exact ⟨_, List.mem_map.2 ⟨rg, hrg, rfl⟩, hs⟩

theorem mem_linePushed (st : Int) (line : List WrappedGlyphsCursorRange) (g : ShapedGlyph) :
    g ∈ linePushed st line
      ↔ ∃ rg ∈ line, ∃ s ∈ rg.«begin».getShapedGlyphSpansUpTo rg.«end»,
          ∃ g0 ∈ (SimpleShapedText.spanGlyphs s).1,
            g = { g0 with cluster := g0.cluster + st } := by
  unfold linePushed
  rw [List.mem_flatten]
  constructor
  · rintro ⟨l, hl, hg⟩
    obtain ⟨s, hs, rfl⟩ := List.mem_map.1 hl
    obtain ⟨rg, hrg, hs2⟩ := (mem_spansInVisualOrder line s).1 hs
    unfold spanPushed at hg
    obtain ⟨g0, hg0, rfl⟩ := List.mem_map.1 hg
    exact ⟨rg, hrg, s, hs2, g0, hg0, rfl⟩
  · rintro ⟨rg, hrg, s, hs, g0, hg0, rfl⟩
    refine ⟨spanPushed st s, List.mem_map.2
      ⟨s, (mem_spansInVisualOrder line s).2 ⟨rg, hrg, hs⟩, rfl⟩, ?_⟩
    unfold spanPushed
    exact List.mem_map.2 ⟨g0, hg0, rfl⟩

theorem spans_textRange_le (rg : WrappedGlyphsCursorRange) (s : ShapedGlyphSpan)
    (hs : s ∈ rg.«begin».getShapedGlyphSpansUpTo rg.«end») :
    s.textRange.getStart ≤ s.textRange.getEnd := by
  unfold WrappedGlyphsCursor.getShapedGlyphSpansUpTo at hs
  split_ifs at hs with h
  · exact absurd hs (List.not_mem_nil s)
  · obtain ⟨i2, j2, rfl, _, _⟩ := WrappedGlyphsCursor.mem_spansLoop _ _ _ _ _ _ hs
    unfold WrappedGlyphsCursor.spanAt Range.make
    exact le_max_left _ _


open RangedValues

theorem ChunksWellFormed.chunksOk {n : Int} {chunks : WrappedGlyphs}
    (h : ChunksWellFormed n chunks) : ChunksOk chunks :=
  fun ch hch => ⟨(h ch hch).1, fun g hg => ((h ch hch).2.2.1 g hg).1⟩

namespace SimpleShapedText

/-- Adding the lines of a hard line keeps every cluster covered by the glyph lookup. -/
theorem foldl_addLine_clustersCovered (len st n : Int)
    (lineData : List (List WrappedGlyphsCursorRange))
    (hcl : RangesClosed lineData.flatten)
    (hok : ∀ rg ∈ lineData.flatten, rg.Ok ∧ ChunksWellFormed n rg.«begin».data)
    (hst : 0 ≤ st) (hend : st + n ≤ len)
    (t : SimpleShapedText) (hgood : t.ClustersCovered len) :
    (lineData.foldl (addLine st) t).ClustersCovered len := by
  intro g hg
  rw [foldl_addLine_glyphs] at hg
  rcases List.mem_append.1 hg with h1 | h1
  · obtain ⟨a, b, c⟩ := hgood g h1
    exact ⟨a, b, (foldl_addLine_covered st lineData g.cluster t).2 (Or.inl c)⟩
  · obtain ⟨l, hl, hgl⟩ := List.mem_flatten.1 h1
    obtain ⟨line, hline, rfl⟩ := List.mem_map.1 hl
    obtain ⟨rg, hrg, s, hs, g0, hg0, rfl⟩ := (mem_linePushed st line g).1 hgl
    have hrgf : rg ∈ lineData.flatten := List.mem_flatten.2 ⟨line, hline, hrg⟩
    obtain ⟨⟨c1, c2⟩, rg2, hrg2, s2, hs2, hc⟩ :=
      ranges_cover n lineData.flatten hcl hok _ rg hrgf rfl s hs g0 hg0
    obtain ⟨line2, hline2, hrg2l⟩ := List.mem_flatten.1 hrg2
    refine ⟨?_, ?_, ?_⟩
    · show 0 ≤ g0.cluster + st
      omega
    · show g0.cluster + st < len
      omega
    · refine (foldl_addLine_covered st lineData _ t).2 (Or.inr ⟨line2, hline2, s2,
        (mem_spansInVisualOrder line2 s2).2 ⟨rg2, hrg2l, hs2⟩, ?_⟩)
      exact (shift_contains _ st g0.cluster (spans_textRange_le rg2 s2 hs2)).2 hc

/-- The loop of `shape` over the hard lines keeps every cluster covered by the glyph lookup,
when the chunks fetched for every hard line are well formed. -/
theorem shapeLines_clustersCovered (lowLevelShape : LowLevelShape)
    (shaperFor : Range → Shaper) (o : ShapedTextOptions) (len : Int) :
    ∀ (lineRanges : List Range) (t t2 : SimpleShapedText),
      shapeLines lowLevelShape shaperFor o lineRanges t = some t2 →
      (∀ lr ∈ lineRanges, 0 ≤ lr.getStart ∧ lr.getEnd ≤ len) →
      (∀ lr ∈ lineRanges, ∀ r, FillLinesOptions.fillLines
          ⟨o.maxWidth.getD 1000000, o.firstLineIndent, !o.trailingWhitespacesShouldFit,
            !o.allowBreakingInsideWord⟩ lowLevelShape (shaperFor lr) = some r →
          ∀ cs ∈ r.chunkStorage, ChunksWellFormed lr.getLength cs) →
      t.ClustersCovered len → t2.ClustersCovered len := by
  intro lineRanges
  induction lineRanges with
  | nil =>
    intro t t2 h _ _ hg
    rw [shapeLines] at h
    rw [← Option.some.inj h]
    exact hg
  | cons lr rest ih =>
    intro t t2 h hl hc hg
    rw [shapeLines] at h
    simp only at h
    cases hfl : FillLinesOptions.fillLines
        ⟨o.maxWidth.getD 1000000, o.firstLineIndent, !o.trailingWhitespacesShouldFit,
          !o.allowBreakingInsideWord⟩ lowLevelShape (shaperFor lr) with
    | none =>
      rw [hfl] at h
      exact Option.noConfusion h
    | some r =>
      rw [hfl] at h
      simp only at h
      split_ifs at h with hbr
      · rw [← Option.some.inj h]
        exact hg
      · have hw := hc lr (List.mem_cons_self _ _) r hfl
        have hinv := FillLinesOptions.fillLines_inv _ lowLevelShape _ r hfl
          (fun cs hcs => (hw cs hcs).chunksOk)
        have hclosed := FillLinesOptions.fillLines_closed _ lowLevelShape _ r hfl
        have hflat := (foldLines_facts r.lines
          (subSizeT (toSizeT o.maxNumLines) (RangedValues.size t.lineNumbers))).2.2.2.1
        have hlr := hl lr (List.mem_cons_self _ _)
        refine ih _ t2 h (fun x hx => hl x (List.mem_cons_of_mem _ hx))
          (fun x hx => hc x (List.mem_cons_of_mem _ hx)) ?_
        refine foldl_addLine_clustersCovered len lr.getStart lr.getLength _ ?_ ?_ hlr.1 ?_ t hg
        · rw [hflat]
          exact hclosed
        · rw [hflat]
          intro rg hrg
          obtain ⟨l, hl2, hrgl⟩ := List.mem_flatten.1 hrg
          have hlok := hinv.2.2.1 l hl2
          refine ⟨hlok.2 rg hrgl, hw _ ?_⟩
          exact hlok.1.subset (List.mem_map.2 ⟨rg, hrgl, rfl⟩)
        · unfold Range.getLength
          omega

theorem glyphAt_cluster (len : Int) (t : SimpleShapedText) (hg : t.ClustersCovered len)
    (hlen : 0 < len) (base k : Int) :
    0 ≤ (glyphAt t base k).cluster ∧ (glyphAt t base k).cluster < len := by
  have hdef : (default : ShapedGlyph).cluster = 0 := rfl
  unfold glyphAt
  split_ifs with h
  · rw [List.getD_eq_getElem?_getD]
    cases hq : t.glyphsInVisualOrder[(base + k).toNat]? with
    | none =>
      rw [Option.getD_none, hdef]
      omega
    | some g =>
      rw [Option.getD_some]
      have := hg g (List.getElem?_mem hq)
      omega
  · rw [hdef]
    omega

theorem scanLeft_values (t : SimpleShapedText) (base c : Int) :
    ∀ n : Nat, scanLeft t base c n = c ∨ ∃ k, scanLeft t base c n = (glyphAt t base k).cluster
  | 0 => Or.inl rfl
  | n + 1 => by
    rw [scanLeft]
    split_ifs with h
    · exact Or.inr ⟨_, rfl⟩
    · exact scanLeft_values t base c n

theorem scanRight_values (t : SimpleShapedText) (base c : Int) :
    ∀ (n : Nat) (i : Int),
      scanRight t base c n i = c ∨ ∃ k, scanRight t base c n i = (glyphAt t base k).cluster
  | 0, _ => Or.inl rfl
  | n + 1, i => by
    rw [scanRight]
    split_ifs with h
    · exact Or.inr ⟨_, rfl⟩
    · exact scanRight_values t base c n (i + 1)

/-- The query `getTextRange` on a text whose clusters are covered by the glyph lookup: the
range starts at the cluster of the glyph, is not empty and lies in `[0, len)`. -/
theorem getTextRange_of_covered (len : Int) (t : SimpleShapedText)
    (hg : t.ClustersCovered len) (i : Int) (h0 : 0 ≤ i) (hi : i < t.getNumGlyphs) :
    ∃ rg, t.getTextRange i = some rg ∧ rg.getStart = (glyphAt t 0 i).cluster
      ∧ rg.getStart < rg.getEnd ∧ 0 ≤ rg.getStart ∧ rg.getEnd ≤ len := by
  unfold getNumGlyphs at hi
  have hlt : i.toNat < t.glyphsInVisualOrder.length := by omega
  have hgi : glyphAt t 0 i = t.glyphsInVisualOrder[i.toNat] := by
    unfold glyphAt
    rw [if_pos (by omega), zero_add, List.getD_eq_getElem?_getD, List.getElem?_eq_getElem hlt,
      Option.getD_some]
  obtain ⟨c0, c1, e, he, hc⟩ := hg _ (List.getElem_mem hlt)
  rw [← hgi] at c0 c1 hc
  have hlen : 0 < len := by omega
  unfold getTextRange
  simp only
  cases hfind : RangedValues.getItemWithEnclosingRange t.glyphLookup (glyphAt t 0 i).cluster with
  | none =>
    unfold RangedValues.getItemWithEnclosingRange at hfind
    rw [List.find?_eq_none] at hfind
    exact absurd hc (hfind e he)
  | some item =>
    simp only
    have hsame : glyphAt t item.2.glyphRange.getStart (i - item.2.glyphRange.getStart)
        = glyphAt t 0 i := by
      unfold glyphAt
      have : item.2.glyphRange.getStart + (i - item.2.glyphRange.getStart) = 0 + i := by omega
      rw [this]
    rw [hsame]
    set c := (glyphAt t 0 i).cluster with hcdef
    have hl := scanLeft_values t item.2.glyphRange.getStart c
      (i - item.2.glyphRange.getStart + 1).toNat
    have hr := scanRight_values t item.2.glyphRange.getStart c
      (item.2.glyphRange.getLength - (i - item.2.glyphRange.getStart)).toNat
      (i - item.2.glyphRange.getStart)
    have hlb : scanLeft t item.2.glyphRange.getStart c
        (i - item.2.glyphRange.getStart + 1).toNat < len := by
      rcases hl with h | ⟨k, h⟩
      · rw [h]; exact c1
      · rw [h]; exact (glyphAt_cluster len t hg hlen _ _).2
    have hrb : scanRight t item.2.glyphRange.getStart c
        (item.2.glyphRange.getLength - (i - item.2.glyphRange.getStart)).toNat
        (i - item.2.glyphRange.getStart) < len := by
      rcases hr with h | ⟨k, h⟩
      · rw [h]; exact c1
      · rw [h]; exact (glyphAt_cluster len t hg hlen _ _).2
    refine ⟨_, rfl, ?_, ?_, ?_, ?_⟩
    · rfl
    · unfold Range.withStartAndLength Range.make
      simp only
      have : (1 : Int) ≤ max 1 (max (scanLeft t item.2.glyphRange.getStart c
          (i - item.2.glyphRange.getStart + 1).toNat)
          (scanRight t item.2.glyphRange.getStart c
            (item.2.glyphRange.getLength - (i - item.2.glyphRange.getStart)).toNat
            (i - item.2.glyphRange.getStart)) - c) := le_max_left _ _
      exact lt_of_lt_of_le (by omega) (le_max_right _ _)
    · exact c0
    · unfold Range.withStartAndLength Range.make
      simp only
      apply max_le
      · omega
      · have hm : max (scanLeft t item.2.glyphRange.getStart c
            (i - item.2.glyphRange.getStart + 1).toNat)
            (scanRight t item.2.glyphRange.getStart c
              (item.2.glyphRange.getLength - (i - item.2.glyphRange.getStart)).toNat
              (i - item.2.glyphRange.getStart)) < len := max_lt hlb hrb
        rcases max_cases (1 : Int) (max (scanLeft t item.2.glyphRange.getStart c
            (i - item.2.glyphRange.getStart + 1).toNat)
            (scanRight t item.2.glyphRange.getStart c
              (item.2.glyphRange.getLength - (i - item.2.glyphRange.getStart)).toNat
              (i - item.2.glyphRange.getStart)) - c) with ⟨h1, _⟩ | ⟨h1, _⟩
        · rw [h1]; omega
        · rw [h1]; omega

end SimpleShapedText

open RangedValues

namespace SimpleShapedText

/-- C2: for every text that `shape` builds from hard lines lying inside a text of `len`
codepoints, and every glyph index `i` in `[0, getNumGlyphs())`, `getTextRange (i)` returns
a range that is not empty and lies inside `[0, len)`. The chunks fetched for every hard
line are taken to be well formed: each holds a glyph, its glyphs are in logical order, and
their clusters are not negative and lie before the end of the text range of the chunk,
inside the line. -/
theorem getTextRange_nonempty_inside (lowLevelShape : LowLevelShape)
    (shaperFor : Range → Shaper) (lineRanges : List Range) (o : ShapedTextOptions)
    (t : SimpleShapedText) (len : Int)
    (h : shape lowLevelShape shaperFor lineRanges o = some t)
    (hlines : ∀ lr ∈ lineRanges, 0 ≤ lr.getStart ∧ lr.getEnd ≤ len)
    (hchunks : ∀ lr ∈ lineRanges, ∀ r, FillLinesOptions.fillLines
        ⟨o.maxWidth.getD 1000000, o.firstLineIndent, !o.trailingWhitespacesShouldFit,
          !o.allowBreakingInsideWord⟩ lowLevelShape (shaperFor lr) = some r →
        ∀ cs ∈ r.chunkStorage, ChunksWellFormed lr.getLength cs)
    (i : Int) (h0 : 0 ≤ i) (hi : i < t.getNumGlyphs) :
    ∃ rg, t.getTextRange i = some rg ∧ rg.getStart < rg.getEnd
      ∧ 0 ≤ rg.getStart ∧ rg.getEnd ≤ len := by
  have hinit : init.ClustersCovered len := fun g hg => absurd hg (List.not_mem_nil g)
  have hcov := shapeLines_clustersCovered lowLevelShape shaperFor o len lineRanges init t h
    hlines hchunks hinit
  obtain ⟨rg, h1, _, h2, h3, h4⟩ := getTextRange_of_covered len t hcov i h0 hi
  exact ⟨rg, h1, h2, h3, h4⟩

/-- Witness of C2: glyph 4 of `"a bb ccc"` shaped at a width of three glyphs. -/
theorem getTextRange_nonempty_inside_witness :
    shape (sampleShapeWithAdvance 1) (sampleShaperFor sampleString [2, 5]) [⟨0, 8⟩]
        ⟨some 3, 0, false, false, int64Max⟩ = some sampleShapedThree
    ∧ (∀ lr ∈ [(⟨0, 8⟩ : Range)], 0 ≤ lr.getStart ∧ lr.getEnd ≤ 8)
    ∧ (∀ cs ∈ sampleFilledThree.chunkStorage, ChunksWellFormed 8 cs)
    ∧ (4 : Int) < sampleShapedThree.getNumGlyphs
    ∧ ∃ rg, sampleShapedThree.getTextRange 4 = some rg ∧ rg.getStart < rg.getEnd
        ∧ 0 ≤ rg.getStart ∧ rg.getEnd ≤ 8 :=
  have h1 : shape (sampleShapeWithAdvance 1) (sampleShaperFor sampleString [2, 5]) [⟨0, 8⟩]
      ⟨some 3, 0, false, false, int64Max⟩ = some sampleShapedThree := by decide
  have h2 : ∀ lr ∈ [(⟨0, 8⟩ : Range)], 0 ≤ lr.getStart ∧ lr.getEnd ≤ 8 := by decide
  have h3 : ∀ cs ∈ sampleFilledThree.chunkStorage, ChunksWellFormed 8 cs := by decide
  have h4 : (4 : Int) < sampleShapedThree.getNumGlyphs := by decide
  have h5 : FillLinesOptions.fillLines ⟨3, 0, true, true⟩ (sampleShapeWithAdvance 1)
      (sampleShaperFor sampleString [2, 5] ⟨0, 8⟩) = some sampleFilledThree := by decide
  ⟨h1, h2, h3, h4,
    getTextRange_nonempty_inside (sampleShapeWithAdvance 1)
      (sampleShaperFor sampleString [2, 5]) [⟨0, 8⟩] ⟨some 3, 0, false, false, int64Max⟩
      sampleShapedThree 8 h1 h2
      (fun lr hlr r hr cs hcs => by
        rw [List.mem_singleton.1 hlr] at hr ⊢
        have hr2 : r = sampleFilledThree := Option.some.inj (hr.symm.trans h5)
        rw [hr2] at hcs
        exact h3 cs hcs)
      4 (by decide) h4⟩

end SimpleShapedText

open RangedValues

/-! Positions of a range under `dropWhile` and `takeWhile` -/

theorem positions_nil {a b : Int} (h : b ≤ a) : (⟨a, b⟩ : Range).positions = [] := by
  show (List.range (b - a).toNat).map _ = []
  have : (b - a).toNat = 0 := by omega
  rw [this]
  rfl

theorem positions_cons {a b : Int} (h : a < b) :
    (⟨a, b⟩ : Range).positions = a :: (⟨a + 1, b⟩ : Range).positions := by
  rw [positions_append (a := a) (b := a + 1) (c := b) (by omega) (by omega)]
  have : (⟨a, a + 1⟩ : Range).positions = [a] := by
    show (List.range (a + 1 - a).toNat).map _ = [a]
    have : (a + 1 - a).toNat = 1 := by omega
    rw [this]
    simp [List.range_succ]
  rw [this]
  rfl

theorem positions_dropWhile (a b p : Int) :
    (⟨a, b⟩ : Range).positions.dropWhile (fun c => decide (c < p))
      = (⟨max a p, b⟩ : Range).positions := by
  by_cases hab : a ≤ b
  · by_cases hp : p ≤ a
    · rw [max_eq_left hp]
      by_cases hlt : a < b
      · rw [positions_cons hlt, List.dropWhile_cons, if_neg (by simp; omega)]
      · rw [positions_nil (by omega)]
        rfl
    · have hpa : a ≤ p := by omega
      rw [max_eq_right hpa]
      by_cases hpb : p ≤ b
      · rw [positions_append hpa hpb, dropWhile_append_all]
        · by_cases hlt : p < b
          · rw [positions_cons hlt, List.dropWhile_cons, if_neg (by simp)]
          · rw [positions_nil (by omega)]
            rfl
        · intro x hx
          have := (mem_positions.1 hx).2
          simpa using this
      · rw [positions_nil (a := p) (by omega)]
        rw [List.dropWhile_eq_nil_iff]
        intro x hx
        have := (mem_positions.1 hx).2
        simp only at this
        simp only [decide_eq_true_eq]
        omega
  · rw [positions_nil (by omega), positions_nil (by have := le_max_left a p; omega)]
    rfl

theorem positions_takeWhile (a b q : Int) :
    (⟨a, b⟩ : Range).positions.takeWhile (fun c => decide (c < q))
      = (⟨a, min b q⟩ : Range).positions := by
  by_cases hq : b ≤ q
  · rw [min_eq_left hq, List.takeWhile_eq_self_iff]
    intro x hx
    have := (mem_positions.1 hx).2
    simp only at this
    simp only [decide_eq_true_eq]
    omega
  · have hqb : q ≤ b := by omega
    rw [min_eq_right hqb]
    by_cases haq : a ≤ q
    · rw [positions_append haq hqb, List.takeWhile_append_of_pos]
      · rw [positions_cons (a := q) (by omega), List.takeWhile_cons, if_neg (by simp)]
        simp
      · intro x hx
        have := (mem_positions.1 hx).2
        simpa using this
    · rw [positions_nil (a := a) (b := q) (by omega)]
      by_cases hlt : a < b
      · rw [positions_cons hlt, List.takeWhile_cons, if_neg (by simp; omega)]
      · rw [positions_nil (by omega)]
        rfl

theorem map_cluster_dropWhile (gs : List ShapedGlyph) (p : Int) :
    (gs.dropWhile (fun g => decide (g.cluster < p))).map (fun g => g.cluster)
      = (gs.map (fun g => g.cluster)).dropWhile (fun c => decide (c < p)) := by
  rw [List.dropWhile_map]
  rfl

theorem map_cluster_takeWhile (gs : List ShapedGlyph) (p : Int) :
    (gs.takeWhile (fun g => decide (g.cluster < p))).map (fun g => g.cluster)
      = (gs.map (fun g => g.cluster)).takeWhile (fun c => decide (c < p)) := by
  rw [List.takeWhile_map]
  rfl


open RangedValues

theorem headD_cluster_of_positions (gs : List ShapedGlyph) (a b : Int) (hab : a < b)
    (h : gs.map (fun g => g.cluster) = (⟨a, b⟩ : Range).positions) :
    gs ≠ [] ∧ (gs.headD default).cluster = a := by
  rw [positions_cons hab] at h
  cases gs with
  | nil => simp at h
  | cons g rest =>
    simp only [List.map_cons, List.cons.injEq] at h
    exact ⟨List.cons_ne_nil _ _, h.1⟩

theorem range_getD (n k : Nat) (h : k < n) : (List.range n).getD k 0 = k := by
  rw [List.getD_eq_getElem?_getD, List.getElem?_range h, Option.getD_some]

namespace Shaper

/-- The chunks collected from stored runs that follow on one another and hold one glyph per
position: the glyphs of the positions from the start to `next`. -/
theorem collectChunks_exact (n : Nat) (p next : Int) (hp : 0 ≤ p) (hpn : p < next)
    (hn : next ≤ (n : Int)) :
    ∀ (rest : List (Range × GlyphsStorage)) (e : Range × GlyphsStorage),
      (∀ x ∈ e :: rest, ItemExact x ∧ x.1.getStart < next ∧ p < x.1.getEnd) →
      (e :: rest).Chain' (fun a b => a.1.getEnd = b.1.getStart) →
      (∀ x, (e :: rest).getLast? = some x → next ≤ x.1.getEnd) →
      (allGlyphs (collectChunks (List.range n) p next (e :: rest))).map (fun g => g.cluster)
          = (⟨max e.1.getStart p, next⟩ : Range).positions
      ∧ ∀ ch ∈ collectChunks (List.range n) p next (e :: rest),
          ch.glyphs ≠ [] ∧ ch.ltr = true ∧ ch.textRange = ⟨p, next⟩
          ∧ ch.visualOrder = (ch.glyphs.headD default).cluster.toNat := by
  intro rest
  induction rest with
  | nil =>
    intro e hall _ hlast
    obtain ⟨⟨hex, hltr, hne⟩, hsn, hpe⟩ := hall e (List.mem_cons_self _ _)
    have hend := hlast e rfl
    have hrange : e.1 = ⟨e.1.getStart, e.1.getEnd⟩ := rfl
    rw [hrange] at hex
    have hfs : (e.2.data.dropWhile (fun g => decide (g.cluster < p))).map (fun g => g.cluster)
        = (⟨max e.1.getStart p, e.1.getEnd⟩ : Range).positions := by
      rw [map_cluster_dropWhile, hex, positions_dropWhile]
    have htk : ((e.2.data.dropWhile (fun g => decide (g.cluster < p))).takeWhile
        (fun g => decide (g.cluster < next))).map (fun g => g.cluster)
        = (⟨max e.1.getStart p, min e.1.getEnd next⟩ : Range).positions := by
      rw [map_cluster_takeWhile, hfs, positions_takeWhile]
    have hmin : min e.1.getEnd next = next := min_eq_right hend
    rw [hmin] at htk
    have hmax : max e.1.getStart p < next := max_lt hsn hpn
    have hmax2 : max e.1.getStart p < e.1.getEnd := max_lt hne hpe
    have hhead := headD_cluster_of_positions _ _ _ hmax htk
    have hhead2 := headD_cluster_of_positions _ _ _ hmax2 hfs
    have hvo : (List.range n).getD
        ((e.2.data.dropWhile (fun g => decide (g.cluster < p))).headD default).cluster.toNat 0
        = (((e.2.data.dropWhile (fun g => decide (g.cluster < p))).takeWhile
            (fun g => decide (g.cluster < next))).headD default).cluster.toNat := by
      rw [hhead.2, hhead2.2, range_getD]
      have := le_max_right e.1.getStart p
      omega
    have hres : ∃ tail, collectChunks (List.range n) p next [e]
        = ⟨(e.2.data.dropWhile (fun g => decide (g.cluster < p))).takeWhile
            (fun g => decide (g.cluster < next)), e.2.ltr, e.2.font, Range.make p next,
            (List.range n).getD ((e.2.data.dropWhile
              (fun g => decide (g.cluster < p))).headD default).cluster.toNat 0⟩ :: tail
          ∧ tail = [] := by
      rw [collectChunks]
      split
      · split_ifs
        · exact ⟨[], rfl, rfl⟩
        · exact ⟨_, rfl, collectChunks_nil _ _ _⟩
      · exact ⟨_, rfl, collectChunks_nil _ _ _⟩
    obtain ⟨tail, hres1, hres2⟩ := hres
    rw [hres1, hres2]
    refine ⟨?_, ?_⟩
    · simp only [allGlyphs, List.map_cons, List.map_nil, List.flatten_cons, List.flatten_nil,
        List.append_nil]
      exact htk
    · intro ch hch
      rw [List.mem_singleton] at hch
      subst hch
      refine ⟨hhead.1, hltr, ?_, hvo⟩
      show Range.make p next = _
      unfold Range.make
      rw [max_eq_right (le_of_lt hpn)]
  | cons e2 rest ih =>
    intro e hall hchain hlast
    obtain ⟨⟨hex, hltr, hne⟩, hsn, hpe⟩ := hall e (List.mem_cons_self _ _)
    rw [List.chain'_cons] at hchain
    have hall2 : ∀ x ∈ e2 :: rest, ItemExact x ∧ x.1.getStart < next ∧ p < x.1.getEnd :=
      fun x hx => hall x (List.mem_cons_of_mem _ hx)
    have hlast2 : ∀ x, (e2 :: rest).getLast? = some x → next ≤ x.1.getEnd := by
      intro x hx
      apply hlast x
      rw [List.getLast?_cons_cons]
      exact hx
    obtain ⟨ih1, ih2⟩ := ih e2 hall2 hchain.2 hlast2
    have he2 := (hall2 e2 (List.mem_cons_self _ _)).2.1
    have hend : e.1.getEnd < next := by rw [hchain.1]; exact he2
    have hrange : e.1 = ⟨e.1.getStart, e.1.getEnd⟩ := rfl
    rw [hrange] at hex
    have hfs : (e.2.data.dropWhile (fun g => decide (g.cluster < p))).map (fun g => g.cluster)
        = (⟨max e.1.getStart p, e.1.getEnd⟩ : Range).positions := by
      rw [map_cluster_dropWhile, hex, positions_dropWhile]
    have htk : ((e.2.data.dropWhile (fun g => decide (g.cluster < p))).takeWhile
        (fun g => decide (g.cluster < next))).map (fun g => g.cluster)
        = (⟨max e.1.getStart p, min e.1.getEnd next⟩ : Range).positions := by
      rw [map_cluster_takeWhile, hfs, positions_takeWhile]
    have hmin : min e.1.getEnd next = e.1.getEnd := min_eq_left (le_of_lt hend)
    rw [hmin] at htk
    have hmax2 : max e.1.getStart p < e.1.getEnd := max_lt hne hpe
    have hhead := headD_cluster_of_positions _ _ _ hmax2 htk
    have hhead2 := headD_cluster_of_positions _ _ _ hmax2 hfs
    have hfe : (e.2.data.dropWhile (fun g => decide (g.cluster < p))).dropWhile
        (fun g => decide (g.cluster < next)) = [] := by
      rw [List.dropWhile_eq_nil_iff]
      intro g hg
      have hm : g.cluster ∈ (⟨max e.1.getStart p, e.1.getEnd⟩ : Range).positions := by
        rw [← hfs]
        exact List.mem_map.2 ⟨g, hg, rfl⟩
      have := (mem_positions.1 hm).2
      simp only at this
      simp only [decide_eq_true_eq]
      omega
    have hvo : (List.range n).getD
        ((e.2.data.dropWhile (fun g => decide (g.cluster < p))).headD default).cluster.toNat 0
        = (((e.2.data.dropWhile (fun g => decide (g.cluster < p))).takeWhile
            (fun g => decide (g.cluster < next))).headD default).cluster.toNat := by
      rw [hhead.2, hhead2.2, range_getD]
      have := le_max_right e.1.getStart p
      omega
    have hres : collectChunks (List.range n) p next (e :: e2 :: rest)
        = ⟨(e.2.data.dropWhile (fun g => decide (g.cluster < p))).takeWhile
            (fun g => decide (g.cluster < next)), e.2.ltr, e.2.font, Range.make p next,
            (List.range n).getD ((e.2.data.dropWhile
              (fun g => decide (g.cluster < p))).headD default).cluster.toNat 0⟩
          :: collectChunks (List.range n) p next (e2 :: rest) := by
      rw [collectChunks]
      simp only [hfe]
    rw [hres]
    have hmax3 : max e2.1.getStart p = e.1.getEnd := by
      rw [← hchain.1]
      exact max_eq_left (le_of_lt hpe)
    rw [hmax3] at ih1
    refine ⟨?_, ?_⟩
    · have : allGlyphs (⟨(e.2.data.dropWhile (fun g => decide (g.cluster < p))).takeWhile
            (fun g => decide (g.cluster < next)), e.2.ltr, e.2.font, Range.make p next,
            (List.range n).getD ((e.2.data.dropWhile
              (fun g => decide (g.cluster < p))).headD default).cluster.toNat 0⟩
          :: collectChunks (List.range n) p next (e2 :: rest))
          = (e.2.data.dropWhile (fun g => decide (g.cluster < p))).takeWhile
              (fun g => decide (g.cluster < next))
            ++ allGlyphs (collectChunks (List.range n) p next (e2 :: rest)) := rfl
      rw [this, List.map_append, htk, ih1]
      exact (positions_append (le_of_lt hmax2) (le_of_lt hend)).symm
    · intro ch hch
      rcases List.mem_cons.1 hch with h1 | h1
      · subst h1
        refine ⟨hhead.1, hltr, ?_, hvo⟩
        show Range.make p next = _
        unfold Range.make
        rw [max_eq_right (le_of_lt hpn)]
      · exact ih2 ch h1

end Shaper

open RangedValues

namespace RangedValues

theorem erase_append {T : Type} (r : Range) :
    ∀ (xs ys : RangedValues T), erase r (xs ++ ys) = erase r xs ++ erase r ys
  | [], _ => rfl
  | e :: xs, ys => by
    rw [List.cons_append, erase, erase, erase_append r xs ys]
    simp only [List.append_assoc]

theorem setNoMerge_append_item {T : Type} (xs : RangedValues T) (a b : Int) (v : T)
    (hab : a < b) (h : ∀ e ∈ xs, e.1.getStart < e.1.getEnd ∧ e.1.getEnd ≤ a) :
    setNoMerge xs ⟨a, b⟩ v = xs ++ [((⟨a, b⟩ : Range), v)] := by
  rw [setNoMerge_of_nonempty (by exact hab), erase_of_before _ xs h (le_of_lt hab),
    insertItem_of_before _ xs (fun e he => lt_of_lt_of_le (h e he).1 (h e he).2)]

theorem find_append_skip {T : Type} (xs ys : RangedValues T) (p : Int)
    (h : ∀ e ∈ xs, e.1.contains p = false) : find (xs ++ ys) p = find ys p := by
  unfold find
  apply dropWhile_append_all
  intro e he
  rw [h e he]
  rfl

theorem find_of_contains {T : Type} (e : Range × T) (rest : RangedValues T) (p : Int)
    (h : e.1.contains p = true) : find (e :: rest) p = e :: rest := by
  unfold find
  rw [List.dropWhile_cons, if_neg (by simp [h])]

theorem not_contains_of_end_le (r : Range) (p : Int) (h : r.getEnd ≤ p) :
    r.contains p = false := by
  simp only [Range.contains, Bool.and_eq_false_iff, decide_eq_false_iff_not]
  right
  omega

end RangedValues

/-- The shaping runs from the one around `p` on, in a partition of the line. -/
theorem IsPartition.find_runs {T : Type} :
    ∀ (runs : List (Range × T)) (a b p : Int), IsPartition a b runs → a ≤ p → p < b →
      ∃ R post, find runs p = R :: post ∧ R.1.contains p = true
        ∧ R.1.getStart < R.1.getEnd ∧ IsPartition R.1.getEnd b post
        ∧ R ∈ runs ∧ (∀ x ∈ post, x ∈ runs)
  | [], a, b, p, h, h1, h2 => by
    unfold IsPartition at h
    omega
  | e :: rest, a, b, p, h, h1, h2 => by
    obtain ⟨hs, hne, hrest⟩ := h
    by_cases hc : p < e.1.getEnd
    · refine ⟨e, rest, find_of_contains e rest p ?_, ?_, hne, hrest, List.mem_cons_self _ _,
        fun x hx => List.mem_cons_of_mem _ hx⟩
      · rw [Range_contains_iff]; omega
      · rw [Range_contains_iff]; omega
    · obtain ⟨R, post, e1, e2, e3, e4, e5, e6⟩ :=
        IsPartition.find_runs rest e.1.getEnd b p hrest (by omega) h2
      refine ⟨R, post, ?_, e2, e3, e4, List.mem_cons_of_mem _ e5,
        fun x hx => List.mem_cons_of_mem _ (e6 x hx)⟩
      have : find (e :: rest) p = find rest p := by
        have := find_append_skip [e] rest p (fun x hx => by
          rw [List.mem_singleton.1 hx]
          exact not_contains_of_end_le _ _ (by omega))
        exact this
      rw [this, e1]

namespace Shaper

/-- The shaping loop over runs that lie behind everything stored so far: each run that
starts before `next` is stored as a whole, behind the items of the store. -/
theorem shapeRuns_tail (lowLevelShape : LowLevelShape) (string : List Nat) (p next : Int) :
    ∀ (post : List (Range × ShapingParams)) (q b : Int) (cache : RangedValues GlyphsStorage),
      IsPartition q b post → p < q →
      (∀ e ∈ cache, e.1.getStart < e.1.getEnd ∧ e.1.getEnd ≤ q) →
      shapeRuns lowLevelShape string p next post cache
        = cache ++ (post.takeWhile (fun R => decide (R.1.getStart < next))).map
            (storedRun lowLevelShape string)
  | [], q, b, cache, _, _, _ => by simp [shapeRuns]
  | R :: post, q, b, cache, hpart, hpq, hc => by
    obtain ⟨hs, hne, hrest⟩ := hpart
    rw [shapeRuns]
    by_cases hlt : R.1.getStart < next
    · rw [if_pos hlt, List.takeWhile_cons, if_pos (by simpa using hlt)]
      simp only
      have hrange : Range.make (max p R.1.getStart) R.1.getEnd = R.1 := by
        unfold Range.make
        rw [max_eq_right (by omega), max_eq_right (le_of_lt hne)]
      rw [hrange]
      have hr2 : R.1 = ⟨R.1.getStart, R.1.getEnd⟩ := rfl
      have hset : setNoMerge cache R.1
          ⟨lowLevelShape string R.1 R.2, decide (R.2.embeddingLevel % 2 = 0),
            R.2.resolvedFont⟩
          = cache ++ [storedRun lowLevelShape string R] := by
        conv_lhs => rw [hr2]
        rw [setNoMerge_append_item cache _ _ _ hne (fun e he => by
          have := hc e he
          omega)]
        rfl
      rw [hset, shapeRuns_tail lowLevelShape string p next post R.1.getEnd b _ hrest
        (by omega) ?_]
      · simp
      · intro e he
        rcases List.mem_append.1 he with h1 | h1
        · have := hc e h1
          omega
        · rw [List.mem_singleton.1 h1]
          exact ⟨hne, le_refl _⟩
    · rw [if_neg hlt, List.takeWhile_cons, if_neg (by simpa using hlt)]
      simp

end Shaper

open RangedValues

theorem chain_dropLast_end {T : Type} :
    ∀ (L : List (Range × T)), L.Chain' (fun a b => a.1.getEnd = b.1.getStart) →
      ∀ x ∈ L.dropLast, ∃ y ∈ L, x.1.getEnd = y.1.getStart
  | [], _, x, hx => absurd hx (List.not_mem_nil x)
  | [_], _, x, hx => absurd hx (List.not_mem_nil x)
  | a :: b :: rest, h, x, hx => by
    rw [List.chain'_cons] at h
    rw [List.dropLast_cons₂] at hx
    rcases List.mem_cons.1 hx with h1 | h1
    · rw [h1]
      exact ⟨b, List.mem_cons_of_mem _ (List.mem_cons_self _ _), h.1⟩
    · obtain ⟨y, hy, hxy⟩ := chain_dropLast_end (b :: rest) h.2 x h1
      exact ⟨y, List.mem_cons_of_mem _ hy, hxy⟩

namespace Shaper

/-- The runs stored by the shaping loop behind the run around `p`: they hold one glyph per
position, start before `next`, follow on one another from `q`, and the last one reaches
`next`. -/
theorem takeWhile_runs_facts (lowLevelShape : LowLevelShape) (hno : lowLevelShape.NoLigatures)
    (string : List Nat) (p next : Int) :
    ∀ (post : List (Range × ShapingParams)) (q b : Int),
      IsPartition q b post → p < q → next ≤ b →
      (∀ R ∈ post, R.2.embeddingLevel % 2 = 0) →
      (∀ x ∈ (post.takeWhile (fun R => decide (R.1.getStart < next))).map
            (storedRun lowLevelShape string),
          ItemExact x ∧ x.1.getStart < next ∧ p < x.1.getEnd
            ∧ ∃ R ∈ post, x.1 = R.1)
      ∧ (∀ x0 : Range × GlyphsStorage, x0.1.getEnd = q →
          (x0 :: (post.takeWhile (fun R => decide (R.1.getStart < next))).map
            (storedRun lowLevelShape string)).Chain'
              (fun a b => a.1.getEnd = b.1.getStart)
          ∧ ∀ x, (x0 :: (post.takeWhile (fun R => decide (R.1.getStart < next))).map
              (storedRun lowLevelShape string)).getLast? = some x → next ≤ x.1.getEnd)
  | [], q, b, hpart, _, hnb, _ => by
    unfold IsPartition at hpart
    refine ⟨fun x hx => by simp at hx, fun x0 hx0 => ⟨by simp, ?_⟩⟩
    intro x hx
    simp only [List.takeWhile_nil, List.map_nil, List.getLast?_singleton,
      Option.some.injEq] at hx
    rw [← hx, hx0]
    omega
  | R :: post, q, b, hpart, hpq, hnb, hlev => by
    obtain ⟨hs, hne, hrest⟩ := hpart
    by_cases hlt : R.1.getStart < next
    · rw [List.takeWhile_cons, if_pos (by simpa using hlt), List.map_cons]
      obtain ⟨ih1, ih2⟩ := takeWhile_runs_facts lowLevelShape hno string p next post
        R.1.getEnd b hrest (by omega) hnb (fun x hx => hlev x (List.mem_cons_of_mem _ hx))
      have hitem : ItemExact (storedRun lowLevelShape string R) := by
        refine ⟨hno string R.1 R.2, ?_, hne⟩
        show decide (R.2.embeddingLevel % 2 = 0) = true
        rw [decide_eq_true_eq]
        exact hlev R (List.mem_cons_self _ _)
      refine ⟨?_, ?_⟩
      · intro x hx
        rcases List.mem_cons.1 hx with h1 | h1
        · rw [h1]
          refine ⟨hitem, hlt, ?_, R, List.mem_cons_self _ _, rfl⟩
          show p < R.1.getEnd
          omega
        · obtain ⟨a1, a2, a3, R2, hR2, a4⟩ := ih1 x h1
          exact ⟨a1, a2, a3, R2, List.mem_cons_of_mem _ hR2, a4⟩
      · intro x0 hx0
        obtain ⟨c1, c2⟩ := ih2 (storedRun lowLevelShape string R) rfl
        refine ⟨?_, ?_⟩
        · rw [List.chain'_cons]
          refine ⟨?_, c1⟩
          show x0.1.getEnd = R.1.getStart
          omega
        · intro x hx
          rw [List.getLast?_cons_cons] at hx
          exact c2 x hx
    · rw [List.takeWhile_cons, if_neg (by simpa using hlt), List.map_nil]
      refine ⟨fun x hx => by simp at hx, fun x0 hx0 => ⟨by simp, ?_⟩⟩
      intro x hx
      simp only [List.getLast?_singleton, Option.some.injEq] at hx
      rw [← hx, hx0]
      omega

/-- The chunks collected from a store that ends with runs of one glyph per position which
follow on one another from the run around `p` up to `next`, and the shape of that store for
the call at `next`. -/
theorem chunks_of_store (n : Nat) (runs : RangedValues ShapingParams) (p next : Int)
    (hp : 0 ≤ p) (hpn : p < next) (hn : next ≤ (n : Int))
    (junk1 rest : RangedValues GlyphsStorage) (e0 : Range × GlyphsStorage)
    (h0 : e0.1.getStart ≤ p)
    (hjunk : ∀ e ∈ junk1, e.1.getStart < e.1.getEnd ∧ e.1.getEnd ≤ p)
    (hall : ∀ x ∈ e0 :: rest, ItemExact x ∧ x.1.getStart < next ∧ p < x.1.getEnd
      ∧ ∃ R ∈ runs, R.1.getStart < next ∧ x.1.getEnd = R.1.getEnd)
    (hchain : (e0 :: rest).Chain' (fun a b => a.1.getEnd = b.1.getStart))
    (hlast : ∀ x, (e0 :: rest).getLast? = some x → next ≤ x.1.getEnd) :
    ChunksExact p next (collectChunks (List.range n) p next (find (junk1 ++ e0 :: rest) p))
    ∧ collectChunks (List.range n) p next (find (junk1 ++ e0 :: rest) p) ≠ []
    ∧ ∃ junk tail, junk1 ++ e0 :: rest = junk ++ tail
        ∧ (∀ e ∈ junk, e.1.getStart < e.1.getEnd ∧ e.1.getEnd ≤ next)
        ∧ (tail = [] ∨ ∃ e, tail = [e] ∧ ItemExact e ∧ e.1.getStart < next
            ∧ next < e.1.getEnd
            ∧ ∃ R ∈ runs, R.1.contains next = true ∧ e.1.getEnd = R.1.getEnd) := by
  have hfind : find (junk1 ++ e0 :: rest) p = e0 :: rest := by
    rw [find_append_skip _ _ _ (fun e he => not_contains_of_end_le _ _ (hjunk e he).2)]
    apply find_of_contains
    rw [Range_contains_iff]
    exact ⟨h0, (hall e0 (List.mem_cons_self _ _)).2.2.1⟩
  rw [hfind]
  obtain ⟨c1, c2⟩ := collectChunks_exact n p next hp hpn hn rest e0
    (fun x hx => ⟨(hall x hx).1, (hall x hx).2.1, (hall x hx).2.2.1⟩) hchain hlast
  rw [max_eq_right h0] at c1
  refine ⟨⟨c1, c2⟩, ?_, ?_⟩
  · intro hnil
    rw [hnil] at c1
    have hpos := positions_cons hpn
    rw [hpos] at c1
    simp [allGlyphs] at c1
  · -- the store for the call at `next`
    have hne : e0 :: rest ≠ [] := List.cons_ne_nil _ _
    have hsplit : e0 :: rest = (e0 :: rest).dropLast ++ [(e0 :: rest).getLast hne] :=
      (List.dropLast_append_getLast hne).symm
    have hlastmem : (e0 :: rest).getLast hne ∈ e0 :: rest := List.getLast_mem hne
    have hlast2 := hlast _ (List.getLast?_eq_getLast _ hne)
    have hdl : ∀ x ∈ (e0 :: rest).dropLast,
        x.1.getStart < x.1.getEnd ∧ x.1.getEnd ≤ next := by
      intro x hx
      obtain ⟨y, hy, hxy⟩ := chain_dropLast_end _ hchain x hx
      have hxm : x ∈ e0 :: rest := List.mem_of_mem_dropLast hx
      exact ⟨(hall x hxm).1.2.2, by rw [hxy]; exact le_of_lt (hall y hy).2.1⟩
    obtain ⟨l1, l2, l3, R, hR, l4, l5⟩ := hall _ hlastmem
    by_cases hlt : next < ((e0 :: rest).getLast hne).1.getEnd
    · refine ⟨junk1 ++ (e0 :: rest).dropLast, [(e0 :: rest).getLast hne], ?_, ?_, Or.inr
        ⟨_, rfl, l1, l2, hlt, R, hR, ?_, l5⟩⟩
      · rw [List.append_assoc, ← hsplit]
      · intro e he
        rcases List.mem_append.1 he with h1 | h1
        · have := hjunk e h1
          omega
        · exact hdl e h1
      · rw [Range_contains_iff]
        omega
    · refine ⟨junk1 ++ e0 :: rest, [], by simp, ?_, Or.inl rfl⟩
      intro e he
      rcases List.mem_append.1 he with h1 | h1
      · have := hjunk e h1
        omega
      · rw [hsplit] at h1
        rcases List.mem_append.1 h1 with h2 | h2
        · exact hdl e h2
        · rw [List.mem_singleton.1 h2]
          exact ⟨l1.2.2, by omega⟩

end Shaper

open RangedValues

namespace Shaper

/-- The store after the shaping loop has run from the shaping run around `p`: what lay
before `p`, then the runs from `p` on that start before `next`, one glyph per position. -/
theorem shapeRuns_from_store (lowLevelShape : LowLevelShape)
    (hno : lowLevelShape.NoLigatures) (string : List Nat) (n : Nat)
    (runs : RangedValues ShapingParams) (hpart : IsPartition 0 (n : Int) runs)
    (hlev : ∀ e ∈ runs, e.2.embeddingLevel % 2 = 0)
    (p next : Int) (hp : 0 ≤ p) (hpn : p < (n : Int)) (hnext : p < next)
    (hn : next ≤ (n : Int))
    (junk tail : RangedValues GlyphsStorage)
    (hjunk : ∀ e ∈ junk, e.1.getStart < e.1.getEnd ∧ e.1.getEnd ≤ p)
    (htail : tail = [] ∨ ∃ e, tail = [e] ∧ ItemExact e ∧ e.1.getStart < p ∧ p < e.1.getEnd
        ∧ ∃ R ∈ runs, R.1.contains p = true ∧ e.1.getEnd = R.1.getEnd) :
    ∃ junk1 e0 rest,
      shapeRuns lowLevelShape string p next (find runs p) (junk ++ tail)
        = junk1 ++ e0 :: rest
      ∧ e0.1.getStart ≤ p
      ∧ (∀ e ∈ junk1, e.1.getStart < e.1.getEnd ∧ e.1.getEnd ≤ p)
      ∧ (∀ x ∈ e0 :: rest, ItemExact x ∧ x.1.getStart < next ∧ p < x.1.getEnd
          ∧ ∃ R ∈ runs, R.1.getStart < next ∧ x.1.getEnd = R.1.getEnd)
      ∧ (e0 :: rest).Chain' (fun a b => a.1.getEnd = b.1.getStart)
      ∧ (∀ x, (e0 :: rest).getLast? = some x → next ≤ x.1.getEnd) := by
  obtain ⟨R, post, hfind, hRc, hRne, hpost, hRmem, hpostmem⟩ :=
    IsPartition.find_runs runs 0 n p hpart hp hpn
  have hRc2 := (Range_contains_iff _ _).1 hRc
  rw [hfind, shapeRuns, if_pos (by omega)]
  simp only
  have hrange : Range.make (max p R.1.getStart) R.1.getEnd = ⟨p, R.1.getEnd⟩ := by
    unfold Range.make
    rw [max_eq_left hRc2.1, max_eq_right (le_of_lt hRc2.2)]
  rw [hrange]
  -- what is left of the store in front of `p`
  have herase : ∃ junk1, erase ⟨p, R.1.getEnd⟩ (junk ++ tail) = junk1
      ∧ ∀ e ∈ junk1, e.1.getStart < e.1.getEnd ∧ e.1.getEnd ≤ p := by
    rw [erase_append, erase_of_before _ junk hjunk (le_of_lt hRc2.2)]
    rcases htail with rfl | ⟨e, rfl, hex, hsp, hpe, R2, hR2, hc2, hend⟩
    · exact ⟨junk, by simp [erase], hjunk⟩
    · have hord := (IsPartition.ordered_covers hpart).1
      have hc3 := (Range_contains_iff _ _).1 hc2
      have hRR : R2 = R := by
        rcases Ordered.eq_or_disjoint hord hR2 hRmem with h | h | h
        · exact h
        · omega
        · omega
      rw [hRR] at hend
      refine ⟨junk ++ [(⟨e.1.getStart, p⟩, e.2)], ?_, ?_⟩
      · congr 1
        rw [erase]
        simp only
        rw [hend, min_eq_right (le_of_lt hRc2.2), if_pos hsp, max_eq_right (by omega),
          if_neg (lt_irrefl _)]
        simp [erase]
      · intro x hx
        rcases List.mem_append.1 hx with h1 | h1
        · exact hjunk x h1
        · rw [List.mem_singleton.1 h1]
          exact ⟨hsp, le_refl _⟩
  obtain ⟨junk1, hj1, hj2⟩ := herase
  have hset : setNoMerge (junk ++ tail) ⟨p, R.1.getEnd⟩
      ⟨lowLevelShape string ⟨p, R.1.getEnd⟩ R.2, decide (R.2.embeddingLevel % 2 = 0),
        R.2.resolvedFont⟩
      = junk1 ++ [(⟨p, R.1.getEnd⟩, ⟨lowLevelShape string ⟨p, R.1.getEnd⟩ R.2,
          decide (R.2.embeddingLevel % 2 = 0), R.2.resolvedFont⟩)] := by
    rw [setNoMerge_of_nonempty (by exact hRc2.2), hj1,
      insertItem_of_before _ junk1 (fun e he => by
        have := hj2 e he
        show e.1.getStart < p
        omega)]
  rw [hset, shapeRuns_tail lowLevelShape string p next post R.1.getEnd n _ hpost hRc2.2
    (fun e he => by
      rcases List.mem_append.1 he with h1 | h1
      · have := hj2 e h1
        omega
      · rw [List.mem_singleton.1 h1]
        exact ⟨hRc2.2, le_refl _⟩)]
  obtain ⟨f1, f2⟩ := takeWhile_runs_facts lowLevelShape hno string p next post R.1.getEnd n
    hpost hRc2.2 hn (fun x hx => hlev x (hpostmem x hx))
  obtain ⟨f3, f4⟩ := f2 (⟨p, R.1.getEnd⟩, ⟨lowLevelShape string ⟨p, R.1.getEnd⟩ R.2,
    decide (R.2.embeddingLevel % 2 = 0), R.2.resolvedFont⟩) rfl
  refine ⟨junk1, _, _, by rw [List.append_assoc]; rfl, le_refl _, hj2, ?_, f3, f4⟩
  intro x hx
  rcases List.mem_cons.1 hx with h1 | h1
  · rw [h1]
    refine ⟨⟨hno string ⟨p, R.1.getEnd⟩ R.2, ?_, hRc2.2⟩, hnext, hRc2.2, R, hRmem,
      by omega, rfl⟩
    show decide (R.2.embeddingLevel % 2 = 0) = true
    rw [decide_eq_true_eq]
    exact hlev R hRmem
  · obtain ⟨a1, a2, a3, R2, hR2, a4⟩ := f1 x h1
    refine ⟨a1, a2, a3, R2, hpostmem R2 hR2, ?_, ?_⟩
    · rw [← a4]
      exact a2
    · rw [a4]

/-- One call of `getChunksUpToNextSafeBreak` on a left-to-right line without ligatures, at
a position `p` inside the line: the chunks hold the glyphs of the positions from `p` to the
next safe break, and the store is as the call at that safe break needs it. -/
theorem getChunks_exact (lowLevelShape : LowLevelShape) (hno : lowLevelShape.NoLigatures)
    (s : Shaper) (n : Nat) (hs : s.LtrSetup n) (p : Int) (hp : 0 ≤ p) (hpn : p < (n : Int))
    (hst : s.StoreAt p) :
    p < s.nextSoftBreakBefore p ∧ s.nextSoftBreakBefore p ≤ (n : Int)
    ∧ (s.getChunksUpToNextSafeBreak lowLevelShape p).1.LtrSetup n
    ∧ (s.getChunksUpToNextSafeBreak lowLevelShape p).1.StoreAt (s.nextSoftBreakBefore p)
    ∧ ChunksExact p (s.nextSoftBreakBefore p) (s.getChunksUpToNextSafeBreak lowLevelShape p).2
    ∧ (s.getChunksUpToNextSafeBreak lowLevelShape p).2 ≠ [] := by
  obtain ⟨hvo, hpart, hlev, hbr, hbn⟩ := hs
  have hlen : (s.visualOrder.length : Int) = (n : Int) := by rw [hvo, List.length_range]
  have hgt := nextSoftBreakBefore_gt s p (by rw [hlen]; exact hpn)
  have hle : s.nextSoftBreakBefore p ≤ (n : Int) := by
    rcases nextSoftBreakBefore_spec s p hbr with ⟨h, _, _⟩ | ⟨h, _⟩
    · exact hbn _ h
    · rw [h, hlen]
  obtain ⟨junk, tail, hstore, hjunk, htail⟩ := hst
  have hmk : Range.make p (s.nextSoftBreakBefore p) = ⟨p, s.nextSoftBreakBefore p⟩ := by
    unfold Range.make
    rw [max_eq_right (le_of_lt hgt)]
  -- the store after the shaping step
  have hafter : ∃ junk1 e0 rest,
      shapedGlyphsAfter lowLevelShape s p = junk1 ++ e0 :: rest
      ∧ e0.1.getStart ≤ p
      ∧ (∀ e ∈ junk1, e.1.getStart < e.1.getEnd ∧ e.1.getEnd ≤ p)
      ∧ (∀ x ∈ e0 :: rest, ItemExact x ∧ x.1.getStart < s.nextSoftBreakBefore p
          ∧ p < x.1.getEnd
          ∧ ∃ R ∈ s.shaperRuns, R.1.getStart < s.nextSoftBreakBefore p
            ∧ x.1.getEnd = R.1.getEnd)
      ∧ (e0 :: rest).Chain' (fun a b => a.1.getEnd = b.1.getStart)
      ∧ (∀ x, (e0 :: rest).getLast? = some x → s.nextSoftBreakBefore p ≤ x.1.getEnd) := by
    unfold shapedGlyphsAfter
    by_cases hcov : RangedValues.covers s.shapedGlyphs
        (Range.make p (s.nextSoftBreakBefore p)) = true
    · rw [hcov]
      simp only [Bool.not_true, Bool.false_eq_true, if_false]
      rw [hmk] at hcov
      unfold RangedValues.covers at hcov
      simp only at hcov
      rw [hstore, find_append_skip _ _ _
        (fun e he => not_contains_of_end_le _ _ (hjunk e he).2)] at hcov
      rcases htail with rfl | ⟨e, rfl, hex, hsp, hpe, R, hR, hc, hend⟩
      · simp [find, coversLoop] at hcov
      · have hfe : find [e] p = [e] := find_of_contains e [] p (by
          rw [Range_contains_iff]; omega)
        rw [hfe] at hcov
        have hne : s.nextSoftBreakBefore p ≤ e.1.getEnd := by
          by_contra hc2
          simp [coversLoop, hc2] at hcov
        have hc3 := (Range_contains_iff _ _).1 hc
        refine ⟨junk, e, [], hstore, le_of_lt hsp, hjunk, ?_, List.chain'_singleton _, ?_⟩
        · intro x hx
          rw [List.mem_singleton.1 hx]
          exact ⟨hex, by omega, hpe, R, hR, by omega, hend⟩
        · intro x hx
          simp only [List.getLast?_singleton, Option.some.injEq] at hx
          rw [← hx]
          exact hne
    · have hcov2 : RangedValues.covers s.shapedGlyphs
          (Range.make p (s.nextSoftBreakBefore p)) = false := by
        simpa using hcov
      rw [hcov2]
      simp only [Bool.not_false, if_true]
      rw [hstore]
      exact shapeRuns_from_store lowLevelShape hno s.string n s.shaperRuns hpart hlev p _ hp
        hpn hgt hle junk tail hjunk htail
  obtain ⟨junk1, e0, rest, hst2, h0, hj, hall, hchain, hlast⟩ := hafter
  obtain ⟨c1, c2, junk2, tail2, c3, c4, c5⟩ := chunks_of_store n s.shaperRuns p
    (s.nextSoftBreakBefore p) hp hgt hle junk1 rest e0 h0 hj hall hchain hlast
  refine ⟨hgt, hle, ⟨hvo, hpart, hlev, hbr, hbn⟩, ?_, ?_, ?_⟩
  · refine ⟨junk2, tail2, ?_, c4, c5⟩
    show shapedGlyphsAfter lowLevelShape s p = _
    rw [hst2, c3]
  · show ChunksExact p _ (collectChunks s.visualOrder p (s.nextSoftBreakBefore p)
      (find (shapedGlyphsAfter lowLevelShape s p) p))
    rw [hvo, hst2]
    exact c1
  · show collectChunks s.visualOrder p (s.nextSoftBreakBefore p)
      (find (shapedGlyphsAfter lowLevelShape s p) p) ≠ []
    rw [hvo, hst2]
    exact c2

end Shaper

open RangedValues

namespace LineOfWrappedGlyphCursorRanges

theorem consumeIfLoop_data (p : LineState → ShapedGlyph → Bool) :
    ∀ (fuel : Nat) (st : LineState) (it : WrappedGlyphsCursor),
      (consumeIfLoop p fuel st it).2.data = it.data
  | 0, _, _ => rfl
  | fuel + 1, st, it => by
    rw [consumeIfLoop]
    split_ifs
    · rw [consumeIfLoop_data p fuel, WrappedGlyphsCursor.next_data]
    · rfl

theorem consume_data (line : LineOfWrappedGlyphCursorRanges) (glyphIt : WrappedGlyphsCursor)
    (force : Bool) : (line.consume glyphIt force).2.data = glyphIt.data := by
  unfold consume
  by_cases h1 : (force && line.state.isEmpty) = true
  · rw [if_pos h1]
    exact consumeIfLoop_data _ _ _ _
  · rw [if_neg h1]
    simp only
    by_cases h2 : (!line.state.isEmpty
        && !(consumeIf line.state glyphIt fits).2.isBeyondEnd) = true
    · rw [if_pos h2]
    · rw [if_neg h2]
      by_cases h3 : (consumeIf line.state glyphIt fits).2 ≠ glyphIt
      · rw [if_pos h3]
        exact consumeIfLoop_data _ _ _ _
      · rw [if_neg h3]
        exact consumeIfLoop_data _ _ _ _

end LineOfWrappedGlyphCursorRanges

namespace FillLinesOptions

theorem fillChunks_data (o : FillLinesOptions) :
    ∀ (fuel : Nat) (line : LineOfWrappedGlyphCursorRanges) (cursor : WrappedGlyphsCursor)
      (lines : List (List WrappedGlyphsCursorRange))
      (res : LineOfWrappedGlyphCursorRanges × WrappedGlyphsCursor ×
        List (List WrappedGlyphsCursorRange)),
      fillChunks o fuel line cursor lines = some res → res.2.1.data = cursor.data := by
  intro fuel
  induction fuel with
  | zero =>
    intro line cursor lines res h
    rw [fillChunks_zero] at h
    exact Option.noConfusion h
  | succ n ih =>
    intro line cursor lines res h
    rw [fillChunks] at h
    by_cases hb : cursor.isBeyondEnd = true
    · rw [if_pos hb] at h
      rw [← Option.some.inj h]
    · rw [if_neg hb] at h
      simp only at h
      split_ifs at h with h2
      · rw [ih _ _ _ res h, LineOfWrappedGlyphCursorRanges.consume_data]
      · rw [ih _ _ _ res h, LineOfWrappedGlyphCursorRanges.consume_data]

end FillLinesOptions

theorem IsPartition.bounds {T : Type} :
    ∀ (xs : List (Range × T)) (a b : Int), IsPartition a b xs →
      a ≤ b ∧ ∀ e ∈ xs, a ≤ e.1.getStart ∧ e.1.getEnd ≤ b
  | [], a, b, h => by
    unfold IsPartition at h
    exact ⟨le_of_eq h, fun e he => absurd he (List.not_mem_nil e)⟩
  | x :: xs, a, b, h => by
    obtain ⟨h1, h2, h3⟩ := h
    obtain ⟨h4, h5⟩ := IsPartition.bounds xs x.1.getEnd b h3
    refine ⟨by omega, ?_⟩
    intro e he
    rcases List.mem_cons.1 he with h6 | h6
    · rw [h6]
      omega
    · have := h5 e h6
      omega

namespace FillLinesOptions

/-- The outer loop of `fillLines` on a left-to-right line of `n` codepoints without
ligatures: when it returns, the stored chunk sequences hold the glyphs of all positions of
the line, in order. -/
theorem fillLoop_exact (o : FillLinesOptions) (lowLevelShape : LowLevelShape)
    (hno : lowLevelShape.NoLigatures) (n : Nat) :
    ∀ (fuel : Nat) (s : Shaper) (p : Int) (line : LineOfWrappedGlyphCursorRanges)
      (result r : LineDataAndChunkStorage),
      fillLoop o lowLevelShape fuel (s.getChunksUpToNextSafeBreak lowLevelShape p).1
        (s.getChunksUpToNextSafeBreak lowLevelShape p).2 line result = some r →
      s.LtrSetup n → s.StoreAt p → s.RangesWithin → 0 ≤ p → p ≤ (n : Int) →
      StorageExact n p result.chunkStorage →
      StorageExact n n r.chunkStorage := by
  intro fuel
  induction fuel with
  | zero =>
    intro s p line result r h
    rw [fillLoop_zero] at h
    exact Option.noConfusion h
  | succ m ih =>
    intro s p line result r h hs hst hw hp hpn hres
    have hlen : (s.visualOrder.length : Int) = (n : Int) := by
      rw [hs.1, List.length_range]
    cases hch : (s.getChunksUpToNextSafeBreak lowLevelShape p).2 with
    | nil =>
      rw [hch, fillLoop_nil] at h
      rw [← Option.some.inj h]
      have hpeq : p = (n : Int) := by
        by_contra hne
        have := (Shaper.getChunks_exact lowLevelShape hno s n hs p hp (by omega) hst).2.2.2.2.2
        exact this hch
      rw [← hpeq]
      exact hres
    | cons ch rest =>
      have hne : (s.getChunksUpToNextSafeBreak lowLevelShape p).2 ≠ [] := by
        rw [hch]
        exact List.cons_ne_nil _ _
      have hlt : p < (n : Int) := by
        rw [← hlen]
        exact Shaper.lt_length_of_chunks lowLevelShape s p hw hne
      obtain ⟨g1, g2, g3, g4, g5, _⟩ :=
        Shaper.getChunks_exact lowLevelShape hno s n hs p hp hlt hst
      rw [hch, fillLoop_cons] at h
      cases hfc : fillChunks o (2 * WrappedGlyphsCursor.stepBound (ch :: rest) + 2) line
          (WrappedGlyphsCursor.init (ch :: rest)) result.lines with
      | none => rw [hfc] at h; exact Option.noConfusion h
      | some res =>
        obtain ⟨line1, cursor, lines1⟩ := res
        rw [hfc] at h
        simp only at h
        have hd : cursor.data = (s.getChunksUpToNextSafeBreak lowLevelShape p).2 := by
          rw [hch]
          exact fillChunks_data o _ _ _ _ _ hfc
        have hend := FillLinesOptions.chunks_textRange_end lowLevelShape s p hp
          (by rw [hlen]; exact hlt) cursor hd (by rw [hd]; exact hne)
        rw [hend] at h
        refine ih _ _ line1 _ r h g3 g4 (Shaper.rangesWithin_after lowLevelShape s p hw)
          (by omega) g2 ?_
        refine ⟨?_, ?_⟩
        · show (((result.chunkStorage ++ [ch :: rest]).map allGlyphs).flatten).map _ = _
          rw [List.map_append, List.flatten_append, List.map_append, hres.1, List.map_singleton,
            List.flatten_singleton, ← hch, g5.1]
          exact (positions_append hp (le_of_lt g1)).symm
        · intro cs hcs
          rcases List.mem_append.1 hcs with h1 | h1
          · exact hres.2 cs h1
          · rw [List.mem_singleton.1 h1, ← hch]
            exact ⟨p, _, g5, hp, g1, g2⟩

/-- The chunk sequences stored by `fillLines` for a left-to-right line of `n` codepoints
without ligatures hold the glyphs of all positions of the line, in order. -/
theorem fillLines_exact (o : FillLinesOptions) (lowLevelShape : LowLevelShape)
    (hno : lowLevelShape.NoLigatures) (n : Nat) (s : Shaper) (hs : s.LeftToRight n)
    (r : LineDataAndChunkStorage) (h : o.fillLines lowLevelShape s = some r) :
    StorageExact n n r.chunkStorage := by
  unfold fillLines at h
  have hlen : (s.visualOrder.length : Int) = (n : Int) := by
    rw [hs.1.1, List.length_range]
  refine fillLoop_exact o lowLevelShape hno n _ s 0 _ ⟨[], []⟩ r h hs.1 ?_ ?_ (le_refl _)
    (Int.ofNat_nonneg _) ?_
  · exact ⟨[], [], by rw [hs.2]; rfl, fun e he => absurd he (List.not_mem_nil e), Or.inl rfl⟩
  · refine ⟨fun e he => ?_, fun e he => ?_⟩
    · rw [hlen]
      exact ((IsPartition.bounds _ _ _ hs.1.2.1).2 e he).2
    · rw [hs.2] at he
      exact absurd he (List.not_mem_nil e)
  · exact ⟨by rw [positions_nil (le_refl _)]; rfl, fun cs hcs => absurd hcs (List.not_mem_nil cs)⟩

end FillLinesOptions

open RangedValues

theorem positions_pairwise (r : Range) : r.positions.Pairwise (fun a b => a < b) := by
  unfold Range.positions
  rw [List.pairwise_map]
  refine List.Pairwise.imp ?_ (List.pairwise_lt_range _)
  intro a b hab
  omega

theorem pairwise_cluster_of_positions (gs : List ShapedGlyph) (r : Range)
    (h : gs.map (fun g => g.cluster) = r.positions) :
    gs.Pairwise (fun a b => a.cluster < b.cluster) := by
  have := positions_pairwise r
  rw [← h, List.pairwise_map] at this
  exact this

/-- The chunk sequences of a left-to-right line without ligatures are well formed. -/
theorem ChunksExact.wellFormed {a b : Int} {cs : WrappedGlyphs} (n : Nat)
    (h : ChunksExact a b cs) (ha : 0 ≤ a) (hb : b ≤ (n : Int)) :
    ChunksWellFormed n cs := by
  obtain ⟨h1, h2⟩ := h
  have hpw := pairwise_cluster_of_positions _ _ h1
  unfold allGlyphs at hpw h1
  rw [List.pairwise_flatten] at hpw
  intro ch hch
  obtain ⟨c1, c2, c3, c4⟩ := h2 ch hch
  refine ⟨c1, ?_, ?_, ?_⟩
  · exact (hpw.1 _ (List.mem_map.2 ⟨ch, hch, rfl⟩)).imp (fun h => le_of_lt h)
  · intro g hg
    have hm : g.cluster ∈ (⟨a, b⟩ : Range).positions := by
      rw [← h1]
      exact List.mem_map.2 ⟨g, List.mem_flatten.2 ⟨_, List.mem_map.2 ⟨ch, hch, rfl⟩, hg⟩, rfl⟩
    have := mem_positions.1 hm
    simp only at this
    rw [c3]
    exact ⟨by omega, this.2⟩
  · rw [c3]
    exact hb

theorem StorageExact.chunksWellFormed {n : Nat} {q : Int} {storage : List WrappedGlyphs}
    (h : StorageExact n q storage) : ∀ cs ∈ storage, ChunksWellFormed n cs := by
  intro cs hcs
  obtain ⟨a, b, h1, h2, _, h4⟩ := h.2 cs hcs
  exact h1.wellFormed n h2 h4

theorem StorageExact.ltr {n : Nat} {q : Int} {storage : List WrappedGlyphs}
    (h : StorageExact n q storage) : ∀ cs ∈ storage, ∀ ch ∈ cs, ch.isLtr = true := by
  intro cs hcs ch hch
  obtain ⟨a, b, h1, _⟩ := h.2 cs hcs
  exact (h1.2 ch hch).2.1

/-- The visual orders of the chunks of a left-to-right line without ligatures increase
strictly through the stored chunk sequences. -/
theorem StorageExact.visualOrder_pairwise {n : Nat} {q : Int} {storage : List WrappedGlyphs}
    (h : StorageExact n q storage) :
    (storage.flatten.map (fun ch => ch.visualOrder)).Pairwise (fun a b => a < b) := by
  have hpw := pairwise_cluster_of_positions _ _ h.1
  have hflat : (storage.map allGlyphs).flatten
      = (storage.flatten.map (fun ch => ch.glyphs)).flatten := by
    unfold allGlyphs
    rw [List.map_flatten, List.flatten_flatten, List.map_map]
    rfl
  rw [hflat, List.pairwise_flatten] at hpw
  have hpw2 := hpw.2
  rw [List.pairwise_map] at hpw2 ⊢
  have hfacts : ∀ ch ∈ storage.flatten, ch.glyphs ≠ []
      ∧ ch.visualOrder = (ch.glyphs.headD default).cluster.toNat
      ∧ ∀ g ∈ ch.glyphs, 0 ≤ g.cluster := by
    intro ch hch
    obtain ⟨cs, hcs, hchcs⟩ := List.mem_flatten.1 hch
    obtain ⟨a, b, h1, h2, _, h4⟩ := h.2 cs hcs
    have hw := h1.wellFormed n h2 h4 ch hchcs
    exact ⟨hw.1, (h1.2 ch hchcs).2.2.2, fun g hg => (hw.2.2.1 g hg).1⟩
  have hmem : ∀ (l : List ShapedGlyph), l ≠ [] → l.headD default ∈ l := by
    intro l hl
    cases l with
    | nil => exact absurd rfl hl
    | cons x xs => exact List.mem_cons_self _ _
  refine List.Pairwise.imp_of_mem ?_ hpw2
  intro c1 c2 hc1 hc2 hlt
  obtain ⟨a1, a2, a3⟩ := hfacts c1 hc1
  obtain ⟨b1, b2, b3⟩ := hfacts c2 hc2
  rw [a2, b2]
  have := hlt _ (hmem _ a1) _ (hmem _ b1)
  have := a3 _ (hmem _ a1)
  omega


open RangedValues

namespace WrappedGlyphsCursor

/-- The visual orders of the spans of `spansLoop` are those of chunks of the sequence from
the start index on, in order. -/
theorem spansLoop_visualOrder (c : WrappedGlyphsCursor) (e : Index)
    (hel : e.i ≤ c.data.length) (hej : e.i = c.data.length → e.j = 0) :
    ∀ (fuel i j : Nat),
      ((spansLoop c e fuel ⟨i, j⟩).map (fun s => s.visualOrder)).Sublist
        ((c.data.drop i).map (fun ch => ch.visualOrder))
  | 0, _, _ => by
    rw [spansLoop]
    exact List.nil_sublist _
  | fuel + 1, i, j => by
    rw [spansLoop]
    by_cases hlt : Index.lt ⟨i, j⟩ e = true
    · rw [if_pos hlt]
      simp only [Index.lt, Bool.or_eq_true, Bool.and_eq_true, decide_eq_true_eq] at hlt
      have hi : i < c.data.length := by
        rcases hlt with h | ⟨h1, h2⟩
        · omega
        · by_contra hc
          have := hej (by omega)
          omega
      rw [List.drop_eq_getElem_cons hi, List.map_cons, List.map_cons]
      have hvo : (spanAt c e ⟨i, j⟩).visualOrder = c.data[i].visualOrder := by
        unfold spanAt
        simp only
        rw [List.getD_eq_getElem?_getD, List.getElem?_eq_getElem hi, Option.getD_some]
        rfl
      rw [hvo]
      exact List.Sublist.cons₂ _ (spansLoop_visualOrder c e hel hej fuel (i + 1) 0)
    · rw [if_neg hlt]
      exact List.nil_sublist _

theorem spans_visualOrder (rg : WrappedGlyphsCursorRange) (hok : rg.Ok) :
    ((rg.«begin».getShapedGlyphSpansUpTo rg.«end»).map (fun s => s.visualOrder)).Sublist
      (rg.«begin».data.map (fun ch => ch.visualOrder)) := by
  obtain ⟨hd, hbv, hev, hne, hrem⟩ := hok
  unfold getShapedGlyphSpansUpTo
  rw [if_neg (by simpa using hd)]
  have hel : rg.«end».index.i ≤ rg.«begin».data.length := by
    rw [hd]
    by_cases hi : rg.«end».index.i < rg.«end».data.length
    · omega
    · exact le_of_eq (hev.2.2 (Nat.le_of_not_lt hi)).1
  have hej : rg.«end».index.i = rg.«begin».data.length → rg.«end».index.j = 0 := by
    intro h
    rw [hd] at h
    exact (hev.2.2 (le_of_eq h.symm)).2
  exact (spansLoop_visualOrder rg.«begin» rg.«end».index hel hej _ _ _).trans
    ((List.drop_sublist _ _).map _)

/-- The glyphs pushed for a consumed range over left-to-right chunks: the glyphs of the
range, in stored order, their clusters moved by the start of the hard line. -/
theorem rangePushed_ltr (st : Int) (rg : WrappedGlyphsCursorRange) (hok : rg.Ok)
    (hltr : ∀ ch ∈ rg.«begin».data, ch.isLtr = true) :
    rangePushed st rg
      = rg.glyphs.map (fun g => { g with cluster := g.cluster + st }) := by
  obtain ⟨hd, hbv, hev, hne, hrem⟩ := hok
  have hlen : rg.«begin».remaining.length
      = rg.glyphs.length + rg.«end».remaining.length := by
    rw [hrem, List.length_append]
  have hpos : 0 < rg.glyphs.length := List.length_pos.2 hne
  have hle := not_lt_of_remaining_lt rg.«begin» rg.«end» hd (by omega)
  have hen : rg.«end».Normal := by
    unfold Normal
    by_cases hi : rg.«end».index.i < rg.«end».data.length
    · exact Or.inl (hev.2.1 hi)
    · exact Or.inr (hev.2.2 (Nat.le_of_not_lt hi)).2
  have hel : rg.«end».index.i ≤ rg.«end».data.length := by
    by_cases hi : rg.«end».index.i < rg.«end».data.length
    · omega
    · exact le_of_eq (hev.2.2 (Nat.le_of_not_lt hi)).1
  have hbn : rg.«begin».index.j < (rg.«begin».data.getD rg.«begin».index.i default).size
      ∨ rg.«begin».index.j = 0 := by
    by_cases hi : rg.«begin».index.i < rg.«begin».data.length
    · exact Or.inl (hbv.2.1 hi)
    · exact Or.inr (hbv.2.2 (Nat.le_of_not_lt hi)).2
  have hbi : rg.«begin».index.i ≤ rg.«end».index.i := by
    simp only [Index.lt, Bool.or_eq_false_iff, decide_eq_false_iff_not, not_lt] at hle
    exact hle.1
  obtain ⟨h1, h2, _⟩ := spansLoop_glyphs rg.«begin» rg.«end» hd hen hel
    (rg.«end».index.i + 2 - rg.«begin».index.i) rg.«begin».index.i rg.«begin».index.j hbn hle
    (by omega)
  have hspans : rg.«begin».getShapedGlyphSpansUpTo rg.«end»
      = spansLoop rg.«begin» rg.«end».index (rg.«end».index.i + 2 - rg.«begin».index.i)
          rg.«begin».index := by
    unfold getShapedGlyphSpansUpTo
    rw [if_neg (by simpa using hd)]
  have hidx : (⟨rg.«begin».index.i, rg.«begin».index.j⟩ : Index) = rg.«begin».index := rfl
  have hb : (⟨rg.«begin».data, ⟨rg.«begin».index.i, rg.«begin».index.j⟩⟩ : WrappedGlyphsCursor)
      = rg.«begin» := rfl
  rw [hidx] at h1 h2
  rw [hb] at h2
  rw [← hspans] at h1 h2
  have hmap : ((rg.«begin».getShapedGlyphSpansUpTo rg.«end»).zip
      (rg.«begin».data.drop rg.«begin».index.i)).map (fun p =>
        if p.2.isLtr then (SimpleShapedText.spanGlyphs p.1).1
        else (SimpleShapedText.spanGlyphs p.1).1.reverse)
      = (rg.«begin».getShapedGlyphSpansUpTo rg.«end»).map
          (fun s => (SimpleShapedText.spanGlyphs s).1) := by
    have hz : ((rg.«begin».getShapedGlyphSpansUpTo rg.«end»).zip
        (rg.«begin».data.drop rg.«begin».index.i)).map (fun p =>
          if p.2.isLtr then (SimpleShapedText.spanGlyphs p.1).1
          else (SimpleShapedText.spanGlyphs p.1).1.reverse)
        = ((rg.«begin».getShapedGlyphSpansUpTo rg.«end»).zip
            (rg.«begin».data.drop rg.«begin».index.i)).map
              (fun p => (SimpleShapedText.spanGlyphs p.1).1) := by
      apply List.map_congr_left
      intro p hp
      have hp2 : p.2 ∈ rg.«begin».data :=
        List.mem_of_mem_drop (List.of_mem_zip hp).2
      rw [if_pos (hltr _ hp2)]
    rw [hz]
    conv_rhs => rw [← List.map_fst_zip _ _ h1]
    rw [List.map_map]
    rfl
  rw [hmap] at h2
  unfold rangePushed spanPushed
  have : ((rg.«begin».getShapedGlyphSpansUpTo rg.«end»).map (fun s =>
      (SimpleShapedText.spanGlyphs s).1.map
        (fun g => { g with cluster := g.cluster + st }))).flatten
      = (((rg.«begin».getShapedGlyphSpansUpTo rg.«end»).map
          (fun s => (SimpleShapedText.spanGlyphs s).1)).flatten).map
            (fun g => { g with cluster := g.cluster + st }) := by
    rw [List.map_flatten, List.map_map]
    rfl
  rw [this, h2]
  rfl

end WrappedGlyphsCursor

/-- The visual orders of the spans of a line, range after range, are those of chunks of the
stored chunk sequences, in order. -/
theorem line_visualOrder_sublist :
    ∀ (storage : List WrappedGlyphs) (l : List WrappedGlyphsCursorRange),
      List.Sublist (l.map (fun rg => rg.«begin».data)) storage → (∀ rg ∈ l, rg.Ok) →
      ((l.map (fun rg => (rg.«begin».getShapedGlyphSpansUpTo rg.«end»).map
          (fun s => s.visualOrder))).flatten).Sublist
        (storage.flatten.map (fun ch => ch.visualOrder))
  | [], l, h, _ => by
    have : l = [] := by
      cases l with
      | nil => rfl
      | cons a b => simp at h
    rw [this]
    exact List.nil_sublist _
  | d :: st, [], _, _ => List.nil_sublist _
  | d :: st, rg :: l, h, hok => by
    rw [List.flatten_cons, List.map_append]
    rw [List.map_cons] at h
    cases h with
    | cons _ h2 =>
      exact (line_visualOrder_sublist st (rg :: l) h2 hok).trans
        (List.sublist_append_right _ _)
    | cons₂ _ h2 =>
      rw [List.map_cons, List.flatten_cons]
      exact List.Sublist.append
        (WrappedGlyphsCursor.spans_visualOrder rg (hok rg (List.mem_cons_self _ _)))
        (line_visualOrder_sublist st l h2 (fun x hx => hok x (List.mem_cons_of_mem _ hx)))

/-- Sorting by visual order gives the one arrangement with strictly increasing visual
order. -/
theorem sortByVisualOrder_eq_of_sorted (l S : List ShapedGlyphSpan) (hperm : List.Perm l S)
    (hS : S.Pairwise (fun a b => a.visualOrder < b.visualOrder)) :
    sortByVisualOrder l = S := by
  have hp : List.Perm (sortByVisualOrder l) S := (sortByVisualOrder_perm l).trans hperm
  have hne : S.Pairwise (fun a b => a.visualOrder ≠ b.visualOrder) :=
    hS.imp (fun h => ne_of_lt h)
  have hne2 : (sortByVisualOrder l).Pairwise (fun a b => a.visualOrder ≠ b.visualOrder) :=
    (hp.pairwise_iff (fun h => fun h2 => h h2.symm)).2 hne
  have hs : (sortByVisualOrder l).Pairwise (fun a b => a.visualOrder < b.visualOrder) := by
    have := (sortByVisualOrder_sorted l).and hne2
    exact this.imp (fun h => lt_of_le_of_ne h.1 h.2)
  haveI : IsAntisymm ShapedGlyphSpan (fun a b => a.visualOrder < b.visualOrder) :=
    ⟨fun a b h1 h2 => absurd h1 (Nat.lt_asymm h2)⟩
  exact List.eq_of_perm_of_sorted hp hs hS

/-- The glyphs pushed for a line of a left-to-right line without ligatures: the glyphs of
the line in stored order, their clusters moved by the start of the hard line. -/
theorem linePushed_ltr (st : Int) (n : Nat) (q : Int) (storage : List WrappedGlyphs)
    (hst : StorageExact n q storage) (l : List WrappedGlyphsCursorRange)
    (hok : LineOk storage l) :
    linePushed st l = (lineGlyphs l).map (fun g => { g with cluster := g.cluster + st }) := by
  have hsub := line_visualOrder_sublist storage l hok.1 hok.2
  have hpw := hst.visualOrder_pairwise.sublist hsub
  have hS : ((l.map (fun rg => rg.«begin».getShapedGlyphSpansUpTo rg.«end»)).flatten).Pairwise
      (fun a b => a.visualOrder < b.visualOrder) := by
    rw [← List.pairwise_map (f := fun s : ShapedGlyphSpan => s.visualOrder)
      (R := fun a b => a < b), List.map_flatten, List.map_map]
    exact hpw
  have hperm := collectSpans_perm l []
  rw [List.nil_append] at hperm
  have hsort := sortByVisualOrder_eq_of_sorted _ _ hperm hS
  unfold linePushed getShapedGlyphSpansInVisualOrder
  rw [hsort, List.map_flatten, List.flatten_flatten, List.map_map]
  unfold lineGlyphs
  rw [List.map_flatten, List.map_map, List.map_map]
  congr 1
  apply List.map_congr_left
  intro rg hrg
  have hdm : rg.«begin».data ∈ storage := hok.1.subset (List.mem_map.2 ⟨rg, hrg, rfl⟩)
  have := WrappedGlyphsCursor.rangePushed_ltr st rg (hok.2 rg hrg) (hst.ltr _ hdm)
  unfold rangePushed at this
  exact this


open RangedValues

theorem positions_length (a b : Int) : (⟨a, b⟩ : Range).positions.length = (b - a).toNat := by
  unfold Range.positions Range.getLength
  rw [List.length_map, List.length_range]

theorem positions_getElem? (a b : Int) (k : Nat) (h : (k : Int) < b - a) :
    (⟨a, b⟩ : Range).positions[k]? = some (a + (k : Int)) := by
  unfold Range.positions Range.getLength
  rw [List.getElem?_map, List.getElem?_range (by simp only; omega)]
  rfl

namespace SimpleShapedText

/-- The glyphs of a text whose clusters are the positions `0 .. N - 1`: the glyph at index
`k` of the vector has cluster `k`, and outside the vector the model reads cluster 0. -/
theorem glyphAt_identity (N : Int) (t : SimpleShapedText)
    (hcl : t.glyphsInVisualOrder.map (fun g => g.cluster) = (⟨0, N⟩ : Range).positions)
    (base k : Int) :
    (0 ≤ base + k → base + k < N → (glyphAt t base k).cluster = base + k)
    ∧ ((base + k < 0 ∨ N ≤ base + k) → (glyphAt t base k).cluster = 0) := by
  have hdef : (default : ShapedGlyph).cluster = 0 := rfl
  have hlen : t.glyphsInVisualOrder.length = N.toNat := by
    have := congrArg List.length hcl
    rw [List.length_map, positions_length] at this
    rw [this]
    simp
  unfold glyphAt
  constructor
  · intro h0 h1
    rw [if_pos h0]
    have hlt : (base + k).toNat < t.glyphsInVisualOrder.length := by omega
    rw [List.getD_eq_getElem?_getD, List.getElem?_eq_getElem hlt, Option.getD_some]
    have h2 : (t.glyphsInVisualOrder.map (fun g => g.cluster))[(base + k).toNat]?
        = some (t.glyphsInVisualOrder[(base + k).toNat]).cluster := by
      rw [List.getElem?_map, List.getElem?_eq_getElem hlt]
      rfl
    rw [hcl, positions_getElem? 0 N _ (by omega)] at h2
    have := Option.some.inj h2
    omega
  · intro h
    split_ifs with h0
    · have hge : t.glyphsInVisualOrder.length ≤ (base + k).toNat := by omega
      rw [List.getD_eq_getElem?_getD, List.getElem?_eq_none hge, Option.getD_none, hdef]
    · exact hdef

theorem scanLeft_le (N : Int) (t : SimpleShapedText)
    (hcl : t.glyphsInVisualOrder.map (fun g => g.cluster) = (⟨0, N⟩ : Range).positions)
    (base i : Int) (hi : 0 ≤ i) (hiN : i < N) :
    ∀ n : Nat, (n ≠ 0 → base + (n : Int) ≤ i + 1) → scanLeft t base i n ≤ i
  | 0, _ => le_refl _
  | n + 1, h0 => by
    have h := h0 (Nat.succ_ne_zero n)
    rw [scanLeft]
    have hg := glyphAt_identity N t hcl base (n : Int)
    split_ifs with hne
    · by_cases h0 : 0 ≤ base + (n : Int)
      · rw [hg.1 h0 (by push_cast at h; omega)]
        push_cast at h
        omega
      · rw [hg.2 (Or.inl (by omega))]
        exact hi
    · exact scanLeft_le N t hcl base i hi hiN n (fun _ => by push_cast at h; omega)

theorem scanRight_le (N : Int) (t : SimpleShapedText)
    (hcl : t.glyphsInVisualOrder.map (fun g => g.cluster) = (⟨0, N⟩ : Range).positions)
    (base i : Int) (hi : 0 ≤ i) (hiN : i < N) :
    ∀ (n : Nat) (j : Int), (base + j = i ∨ base + j = i + 1 ∨ N ≤ base + j) →
      scanRight t base i n j ≤ i + 1
  | 0, _, _ => by
    rw [scanRight]
    omega
  | n + 1, j, h => by
    rw [scanRight]
    have hg := glyphAt_identity N t hcl base j
    split_ifs with hne
    · rcases h with h | h | h
      · rw [hg.1 (by omega) (by omega)] at hne ⊢
        omega
      · by_cases hlt : i + 1 < N
        · rw [hg.1 (by omega) (by omega)]
          omega
        · rw [hg.2 (Or.inr (by omega))]
          omega
      · rw [hg.2 (Or.inr h)]
        omega
    · refine scanRight_le N t hcl base i hi hiN n (j + 1) ?_
      rcases h with h | h | h
      · right; left; omega
      · by_cases hlt : i + 1 < N
        · exfalso
          apply hne
          rw [hg.1 (by omega) (by omega)]
          omega
        · right; right; omega
      · right; right; omega

/-- The query `getTextRange` on a text whose glyph clusters are the positions `0 .. N - 1`
and are covered by the glyph lookup: the range of glyph `i` is `[i, i + 1)`. -/
theorem getTextRange_identity (N : Int) (t : SimpleShapedText)
    (hcl : t.glyphsInVisualOrder.map (fun g => g.cluster) = (⟨0, N⟩ : Range).positions)
    (hcov : t.ClustersCovered N) (i : Int) (h0 : 0 ≤ i) (hi : i < N) :
    t.getTextRange i = some ⟨i, i + 1⟩ := by
  have hgi : (glyphAt t 0 i).cluster = i := by
    have := (glyphAt_identity N t hcl 0 i).1 (by omega) (by omega)
    omega
  have hlen : t.glyphsInVisualOrder.length = N.toNat := by
    have := congrArg List.length hcl
    rw [List.length_map, positions_length] at this
    rw [this]
    simp
  have hlt : i.toNat < t.glyphsInVisualOrder.length := by omega
  have hgm : glyphAt t 0 i = t.glyphsInVisualOrder[i.toNat] := by
    unfold glyphAt
    rw [if_pos (by omega), zero_add, List.getD_eq_getElem?_getD, List.getElem?_eq_getElem hlt,
      Option.getD_some]
  obtain ⟨_, _, e, he, hc⟩ := hcov _ (List.getElem_mem hlt)
  rw [← hgm, hgi] at hc
  unfold getTextRange
  simp only
  rw [hgi]
  cases hfind : RangedValues.getItemWithEnclosingRange t.glyphLookup i with
  | none =>
    unfold RangedValues.getItemWithEnclosingRange at hfind
    rw [List.find?_eq_none] at hfind
    exact absurd hc (hfind e he)
  | some item =>
    simp only
    have hsame : (glyphAt t item.2.glyphRange.getStart
        (i - item.2.glyphRange.getStart)).cluster = i := by
      have := (glyphAt_identity N t hcl item.2.glyphRange.getStart
        (i - item.2.glyphRange.getStart)).1 (by omega) (by omega)
      omega
    rw [hsame]
    have hl := scanLeft_le N t hcl item.2.glyphRange.getStart i h0 hi
      (i - item.2.glyphRange.getStart + 1).toNat (fun hne => by omega)
    have hr := scanRight_le N t hcl item.2.glyphRange.getStart i h0 hi
      (item.2.glyphRange.getLength - (i - item.2.glyphRange.getStart)).toNat
      (i - item.2.glyphRange.getStart) (Or.inl (by omega))
    have hm : max (scanLeft t item.2.glyphRange.getStart i
        (i - item.2.glyphRange.getStart + 1).toNat)
        (scanRight t item.2.glyphRange.getStart i
          (item.2.glyphRange.getLength - (i - item.2.glyphRange.getStart)).toNat
          (i - item.2.glyphRange.getStart)) ≤ i + 1 := max_le (by omega) hr
    have h1 : max 1 (max (scanLeft t item.2.glyphRange.getStart i
        (i - item.2.glyphRange.getStart + 1).toNat)
        (scanRight t item.2.glyphRange.getStart i
          (item.2.glyphRange.getLength - (i - item.2.glyphRange.getStart)).toNat
          (i - item.2.glyphRange.getStart)) - i) = 1 := max_eq_left (by omega)
    rw [h1]
    unfold Range.withStartAndLength Range.make
    rw [max_eq_right (by omega)]

end SimpleShapedText

open RangedValues

theorem positions_shift (a b st : Int) :
    (⟨a, b⟩ : Range).positions.map (fun c => c + st) = (⟨a + st, b + st⟩ : Range).positions := by
  unfold Range.positions Range.getLength
  simp only
  rw [List.map_map]
  have : (b + st - (a + st)).toNat = (b - a).toNat := by omega
  rw [this]
  apply List.map_congr_left
  intro k _
  simp only [Function.comp]
  omega

theorem countP_ne_zero_le_sum :
    ∀ (lens : List Nat), lens.countP (fun l => decide (l ≠ 0)) ≤ lens.sum
  | [] => le_refl _
  | l :: rest => by
    have := countP_ne_zero_le_sum rest
    rw [List.countP_cons, List.sum_cons]
    by_cases h : l = 0
    · rw [if_neg (by simp [h]), h]
      omega
    · have : 0 < l := Nat.pos_of_ne_zero h
      split <;> omega

theorem numGlyphs_eq_length (r : LineDataAndChunkStorage) :
    r.numGlyphs = ((r.chunkStorage.map allGlyphs).flatten).length := by
  unfold LineDataAndChunkStorage.numGlyphs numGlyphsOf allGlyphs
  rw [List.length_flatten, List.map_map]
  congr 1
  apply List.map_congr_left
  intro cs _
  simp only [Function.comp]
  rw [List.length_flatten, List.map_map]
  rfl

theorem LinesTile.within :
    ∀ (rs : List Range) (a b : Int), LinesTile a b rs →
      a ≤ b ∧ ∀ r ∈ rs, a ≤ r.getStart ∧ r.getEnd ≤ b
  | [], a, b, h => by
    unfold LinesTile at h
    exact ⟨le_of_eq h, fun e he => absurd he (List.not_mem_nil e)⟩
  | x :: xs, a, b, h => by
    obtain ⟨h1, h2, h3⟩ := h
    obtain ⟨h4, h5⟩ := LinesTile.within xs x.getEnd b h3
    refine ⟨by omega, ?_⟩
    intro e he
    rcases List.mem_cons.1 he with h6 | h6
    · rw [h6]
      omega
    · have := h5 e h6
      omega

theorem Shaper.LeftToRight.rangesWithin {s : Shaper} {n : Nat} (hs : s.LeftToRight n) :
    s.RangesWithin := by
  have hlen : (s.visualOrder.length : Int) = (n : Int) := by
    rw [hs.1.1, List.length_range]
  refine ⟨fun e he => ?_, fun e he => ?_⟩
  · rw [hlen]
    exact ((IsPartition.bounds _ _ _ hs.1.2.1).2 e he).2
  · rw [hs.2] at he
    exact absurd he (List.not_mem_nil e)

namespace SimpleShapedText

/-- One pass of the loop of `shape` for a left-to-right hard line without ligatures, added
to a text that holds the glyphs of the positions before the line. -/
theorem shapeLines_step_ltr (lowLevelShape : LowLevelShape) (hno : lowLevelShape.NoLigatures)
    (shaperFor : Range → Shaper) (o : ShapedTextOptions) (hmax : o.maxNumLines = int64Max)
    (lr : Range) (rest : List Range) (n : Nat) (hn : lr.getLength = (n : Int))
    (hs : (shaperFor lr).LeftToRight n) (t : SimpleShapedText)
    (h0 : 0 ≤ lr.getStart) (hb : lr.getEnd < 2 ^ 62)
    (hcl : t.glyphsInVisualOrder.map (fun g => g.cluster)
      = (⟨0, lr.getStart⟩ : Range).positions)
    (htidy : ∃ lens, t.lineNumbers = lineNumbersFrom 0 0 lens
      ∧ t.glyphsInVisualOrder.length = lens.sum) :
    ∃ t2, shapeLines lowLevelShape shaperFor o (lr :: rest) t
        = shapeLines lowLevelShape shaperFor o rest t2
      ∧ t2.glyphsInVisualOrder.map (fun g => g.cluster) = (⟨0, lr.getEnd⟩ : Range).positions
      ∧ ∃ lens, t2.lineNumbers = lineNumbersFrom 0 0 lens
          ∧ t2.glyphsInVisualOrder.length = lens.sum := by
  obtain ⟨r, hr, _, hlines, _⟩ := fillLines_returns
    ⟨o.maxWidth.getD 1000000, o.firstLineIndent, !o.trailingWhitespacesShouldFit,
      !o.allowBreakingInsideWord⟩ lowLevelShape (shaperFor lr) hs.rangesWithin
  have hex := FillLinesOptions.fillLines_exact _ lowLevelShape hno n (shaperFor lr) hs r hr
  obtain ⟨htile, _, hlok, _⟩ := FillLinesOptions.fillLines_inv _ lowLevelShape _ r hr
    (fun cs hcs => (hex.chunksWellFormed cs hcs).chunksOk)
  obtain ⟨lens, ht1, ht2⟩ := htidy
  have hng : r.numGlyphs = n := by
    rw [numGlyphs_eq_length, ← List.length_map (f := fun g : ShapedGlyph => g.cluster), hex.1,
      positions_length]
    simp
  have hlen : t.glyphsInVisualOrder.length = lr.getStart.toNat := by
    rw [← List.length_map (f := fun g : ShapedGlyph => g.cluster), hcl, positions_length]
    simp
  have hsize : RangedValues.size t.lineNumbers ≤ lr.getStart.toNat := by
    unfold RangedValues.size
    rw [ht1, lineNumbersFrom_length, ← hlen, ht2]
    exact countP_ne_zero_le_sum lens
  have hend : lr.getEnd = lr.getStart + (n : Int) := by
    unfold Range.getLength at hn
    omega
  have htoSize : toSizeT o.maxNumLines = 2 ^ 63 - 1 := by
    rw [hmax]
    decide
  have hsub : subSizeT (2 ^ 63 - 1) (RangedValues.size t.lineNumbers)
      = 2 ^ 63 - 1 - RangedValues.size t.lineNumbers := by
    unfold subSizeT
    have h1 : RangedValues.size t.lineNumbers < 2 ^ 62 := by omega
    omega
  refine ⟨r.lines.foldl (addLine lr.getStart) t, ?_, ?_, ?_⟩
  · rw [shapeLines]
    simp only [hr, htoSize, hsub]
    rw [if_neg (by omega), foldLines_unchanged r.lines _ (Or.inr (by omega))]
  · rw [foldl_addLine_glyphs, List.map_append, hcl]
    have hpush : (r.lines.map (linePushed lr.getStart)).flatten
        = ((r.chunkStorage.map allGlyphs).flatten).map
            (fun g => { g with cluster := g.cluster + lr.getStart }) := by
      rw [← htile, List.map_flatten, List.map_map]
      congr 1
      apply List.map_congr_left
      intro l hl
      exact linePushed_ltr lr.getStart n n r.chunkStorage hex l (hlok l hl)
    rw [hpush, List.map_map]
    have hcomp : ((fun g : ShapedGlyph => g.cluster)
        ∘ fun g : ShapedGlyph => { g with cluster := g.cluster + lr.getStart })
        = (fun c : Int => c + lr.getStart) ∘ fun g : ShapedGlyph => g.cluster := rfl
    rw [hcomp, ← List.map_map, hex.1, positions_shift, zero_add, hend,
      Int.add_comm (n : Int) lr.getStart]
    exact (positions_append h0 (by omega)).symm
  · obtain ⟨e1, e2⟩ := foldl_addLine_exact lr.getStart r.lines t lens ht1 ht2
    refine ⟨_, e1, ?_⟩
    rw [e2, List.length_append, ht2, List.sum_append, List.length_flatten, List.map_map]
    rfl

/-- The loop of `shape` over left-to-right hard lines without ligatures that follow on one
another up to `N`: it returns a text whose glyph clusters are the positions `0 .. N - 1`. -/
theorem shapeLines_ltr (lowLevelShape : LowLevelShape) (hno : lowLevelShape.NoLigatures)
    (shaperFor : Range → Shaper) (o : ShapedTextOptions) (hmax : o.maxNumLines = int64Max)
    (N : Int) (hN : N < 2 ^ 62) :
    ∀ (lineRanges : List Range) (a : Int) (t : SimpleShapedText),
      LinesTile a N lineRanges → 0 ≤ a →
      (∀ lr ∈ lineRanges, (shaperFor lr).LeftToRight lr.getLength.toNat) →
      t.glyphsInVisualOrder.map (fun g => g.cluster) = (⟨0, a⟩ : Range).positions →
      (∃ lens, t.lineNumbers = lineNumbersFrom 0 0 lens
        ∧ t.glyphsInVisualOrder.length = lens.sum) →
      ∃ t2, shapeLines lowLevelShape shaperFor o lineRanges t = some t2
        ∧ t2.glyphsInVisualOrder.map (fun g => g.cluster) = (⟨0, N⟩ : Range).positions := by
  intro lineRanges
  induction lineRanges with
  | nil =>
    intro a t htile _ _ hcl _
    unfold LinesTile at htile
    rw [shapeLines, ← htile]
    exact ⟨t, rfl, hcl⟩
  | cons lr rest ih =>
    intro a t htile h0 hsf hcl htidy
    have hb := (LinesTile.within _ _ _ htile).2 lr (List.mem_cons_self _ _)
    obtain ⟨h1, h2, h3⟩ := htile
    have hn : lr.getLength = ((lr.getLength.toNat : Nat) : Int) := by
      unfold Range.getLength
      omega
    rw [← h1] at hcl h0
    obtain ⟨t2, e1, e2, e3⟩ := shapeLines_step_ltr lowLevelShape hno shaperFor o hmax lr rest
      lr.getLength.toNat hn (hsf lr (List.mem_cons_self _ _)) t h0 (by omega) hcl htidy
    rw [e1]
    exact ih lr.getEnd t2 h3 (by omega) (fun x hx => hsf x (List.mem_cons_of_mem _ hx)) e2 e3

end SimpleShapedText

open RangedValues

theorem LinesTile.ordered :
    ∀ (rs : List Range) (a b : Int), LinesTile a b rs → ∀ r ∈ rs, r.getStart ≤ r.getEnd
  | [], _, _, _ => fun e he => absurd he (List.not_mem_nil e)
  | x :: xs, _, b, h => by
    obtain ⟨_, h2, h3⟩ := h
    intro e he
    rcases List.mem_cons.1 he with h6 | h6
    · rw [h6]
      exact h2
    · exact LinesTile.ordered xs x.getEnd b h3 e h6

/-- The sample shaping engine returns one glyph per codepoint, in logical order. -/
theorem sampleShapeWithAdvance_noLigatures (a : Int) :
    (sampleShapeWithAdvance a).NoLigatures := by
  intro string r p
  unfold sampleShapeWithAdvance Range.positions mkGlyph
  rw [List.map_map]
  rfl

/-- The sample shaper of the line `"a bb ccc"` is a left-to-right shaper of eight
codepoints. -/
theorem sampleShaperFor_leftToRight :
    (sampleShaperFor sampleString [2, 5] ⟨0, 8⟩).LeftToRight 8 := by
  refine ⟨⟨rfl, ⟨rfl, by decide, rfl⟩, ?_, ?_, ?_⟩, rfl⟩
  · intro e he
    have : e = (⟨0, 8⟩, ⟨0, 0, 0, 0⟩) := by simpa [sampleShaperFor, Range.getLength] using he
    rw [this]
    rfl
  · decide
  · decide

namespace SimpleShapedText

/-- C1: for left-to-right text shaped without ligatures (the shaping engine returns exactly
one glyph per codepoint of the range it shapes, in logical order, the cluster being the
codepoint index), under the default line limit and for every max width, first-line indent
and setting of the other options, with the hard lines following on one another over the
`N` codepoints of the text (so the line-break characters belong to their lines) and every
choice of soft breaks, `shape` returns a text with `getNumGlyphs () = N` and
`getTextRange (i) = [i, i + 1)` for every glyph index `i` in `[0, getNumGlyphs ())`.
Left to right means, for the shaper of every hard line: the visual order is the logical
one, the shaping runs follow on one another over the line at even embedding levels, and
the soft breaks are increasing positions of the line. The text is shorter than `2 ^ 62`
codepoints. -/
theorem shape_ltr_no_ligatures_identity (lowLevelShape : LowLevelShape)
    (shaperFor : Range → Shaper) (lineRanges : List Range) (o : ShapedTextOptions) (N : Nat)
    (hno : lowLevelShape.NoLigatures)
    (hltr : ∀ lr ∈ lineRanges, (shaperFor lr).LeftToRight lr.getLength.toNat)
    (htile : LinesTile 0 (N : Int) lineRanges)
    (hmax : o.maxNumLines = int64Max)
    (hN : (N : Int) < 2 ^ 62) :
    ∃ t, shape lowLevelShape shaperFor lineRanges o = some t
      ∧ t.getNumGlyphs = (N : Int)
      ∧ ∀ i : Int, 0 ≤ i → i < t.getNumGlyphs → t.getTextRange i = some ⟨i, i + 1⟩ := by
  obtain ⟨t, ht, hcl⟩ := shapeLines_ltr lowLevelShape hno shaperFor o hmax (N : Int) hN
    lineRanges 0 init htile (le_refl _) hltr rfl ⟨[], rfl, rfl⟩
  have hlines : ∀ lr ∈ lineRanges, 0 ≤ lr.getStart ∧ lr.getEnd ≤ (N : Int) :=
    (LinesTile.within _ _ _ htile).2
  have hcov := shapeLines_clustersCovered lowLevelShape shaperFor o (N : Int) lineRanges init t
    ht hlines
    (fun lr hlr r hr cs hcs => by
      have hex := FillLinesOptions.fillLines_exact _ lowLevelShape hno lr.getLength.toNat
        (shaperFor lr) (hltr lr hlr) r hr
      have hord := LinesTile.ordered _ _ _ htile lr hlr
      have hlen : lr.getLength = ((lr.getLength.toNat : Nat) : Int) := by
        unfold Range.getLength
        omega
      rw [hlen]
      exact hex.chunksWellFormed cs hcs)
    (fun g hg => absurd hg (List.not_mem_nil g))
  have hnum : t.getNumGlyphs = (N : Int) := by
    unfold getNumGlyphs
    rw [← List.length_map (f := fun g : ShapedGlyph => g.cluster), hcl, positions_length]
    simp
  refine ⟨t, ht, hnum, ?_⟩
  intro i h0 hi
  rw [hnum] at hi
  exact getTextRange_identity (N : Int) t hcl hcov i h0 hi

/-- Witness of C1: the line `"a bb ccc"`, eight codepoints, wrapped at a width of three
glyphs. -/
theorem shape_ltr_no_ligatures_identity_witness :
    (sampleShapeWithAdvance 1).NoLigatures
    ∧ (∀ lr ∈ [(⟨0, 8⟩ : Range)],
        (sampleShaperFor sampleString [2, 5] lr).LeftToRight lr.getLength.toNat)
    ∧ LinesTile 0 ((8 : Nat) : Int) [⟨0, 8⟩]
    ∧ ∃ t, shape (sampleShapeWithAdvance 1) (sampleShaperFor sampleString [2, 5]) [⟨0, 8⟩]
          ⟨some 3, 0, false, false, int64Max⟩ = some t
      ∧ t.getNumGlyphs = ((8 : Nat) : Int)
      ∧ ∀ i : Int, 0 ≤ i → i < t.getNumGlyphs → t.getTextRange i = some ⟨i, i + 1⟩ :=
  have h1 : ∀ lr ∈ [(⟨0, 8⟩ : Range)],
      (sampleShaperFor sampleString [2, 5] lr).LeftToRight lr.getLength.toNat := by
    intro lr hlr
    rw [List.mem_singleton.1 hlr]
    exact sampleShaperFor_leftToRight
  have h2 : LinesTile 0 ((8 : Nat) : Int) [⟨0, 8⟩] := ⟨rfl, by decide, rfl⟩
  ⟨sampleShapeWithAdvance_noLigatures 1, h1, h2,
    shape_ltr_no_ligatures_identity (sampleShapeWithAdvance 1)
      (sampleShaperFor sampleString [2, 5]) [⟨0, 8⟩] ⟨some 3, 0, false, false, int64Max⟩ 8
      (sampleShapeWithAdvance_noLigatures 1) h1 h2 rfl (by decide)⟩

end SimpleShapedText


namespace LineOfWrappedGlyphCursorRanges

/-- A glyph whose advance is at most the width left on the line is taken. -/
theorem fits_of_le (st : LineState) (g : ShapedGlyph)
    (h : g.advance.getX ≤ st.maxWidth - st.width) : fits st g = true := by
  unfold fits
  simp [h]

/-- On a line that holds a glyph, a glyph wider than the width left is not taken when it
is not whitespace, or when whitespace may not extend beyond the margin. -/
theorem fits_eq_false (st : LineState) (g : ShapedGlyph) (hne : st.isEmpty = false)
    (hws : g.whitespace = false ∨ st.trailingWhitespaceCanExtendBeyondMargin = false)
    (h : st.maxWidth - st.width < g.advance.getX) :
    fits st g = false := by
  unfold fits
  rcases hws with hws | hws <;> simp [hne, hws, h]

/-- The method `consume` when the loop of `consumeIf` takes every glyph ahead of the
cursor. -/
theorem consume_of_all (line : LineOfWrappedGlyphCursorRanges) (it : WrappedGlyphsCursor)
    (force : Bool) (hv : it.Valid) (hne : it.remaining ≠ [])
    (hall : (consumeList (if force && line.state.isEmpty then takeAll else fits) line.state
      it.remaining).2 = it.remaining.length) :
    line.consume it force
      = (⟨(consumeList (if force && line.state.isEmpty then takeAll else fits) line.state
            it.remaining).1,
          line.consumedChunks ++ [⟨it, it.nextN it.remaining.length⟩]⟩,
         it.nextN it.remaining.length) := by
  have hn := nextN_spec it.remaining.length it hv (le_refl _)
  have hbe : (it.nextN it.remaining.length).isBeyondEnd = true := by
    rw [isBeyondEnd_iff_remaining hn.1, hn.2.1, List.drop_length]
  have hne2 : it.nextN it.remaining.length ≠ it := by
    intro hc
    have := hn.2.1
    rw [hc, List.drop_length] at this
    exact hne this
  unfold consume
  by_cases hf : (force && line.state.isEmpty) = true
  · rw [if_pos hf] at hall ⊢
    rw [if_pos hf]
    simp only [consumeIf_eq _ _ _ hv, hall]
  · rw [if_neg hf] at hall ⊢
    rw [if_neg hf]
    simp only [consumeIf_eq _ _ _ hv, hall, hbe, Bool.not_true, Bool.and_false,
      Bool.false_eq_true, if_false, if_pos hne2]

/-- The method `consume` on a line that holds a glyph, when the loop of `consumeIf` stops
before the end of the chunks: the line and the cursor are returned as they were. -/
theorem consume_of_stop (line : LineOfWrappedGlyphCursorRanges) (it : WrappedGlyphsCursor)
    (force : Bool) (hv : it.Valid) (hne : line.state.isEmpty = false)
    (hstop : (consumeList fits line.state it.remaining).2 < it.remaining.length) :
    line.consume it force = (line, it) := by
  have hn := nextN_spec (consumeList fits line.state it.remaining).2 it hv (le_of_lt hstop)
  have hbe : (it.nextN (consumeList fits line.state it.remaining).2).isBeyondEnd = false := by
    cases hb : (it.nextN (consumeList fits line.state it.remaining).2).isBeyondEnd with
    | false => rfl
    | true =>
      rw [isBeyondEnd_iff_remaining hn.1, hn.2.1] at hb
      have := congrArg List.length hb
      rw [List.length_drop, List.length_nil] at this
      omega
  unfold consume
  simp only [hne, Bool.and_false, Bool.false_eq_true, if_false, consumeIf_eq _ _ _ hv, hbe,
    Bool.not_false, Bool.and_self, if_true]

theorem foldl_addGlyph_fields : ∀ (gs : List ShapedGlyph) (st : LineState),
    (gs.foldl addGlyph st).maxWidth = st.maxWidth
    ∧ (gs.foldl addGlyph st).width = st.width + sumAdvances gs
    ∧ (st.isEmpty = false → (gs.foldl addGlyph st).isEmpty = false)
    ∧ (gs.foldl addGlyph st).trailingWhitespaceCanExtendBeyondMargin
        = st.trailingWhitespaceCanExtendBeyondMargin
  | [], st => ⟨rfl, by rw [sumAdvances_nil]; exact (Int.add_zero _).symm, fun h => h, rfl⟩
  | g :: gs, st => by
    obtain ⟨h1, h2, h3, h4⟩ := foldl_addGlyph_fields gs (addGlyph st g)
    rw [List.foldl_cons]
    refine ⟨h1, ?_, ?_, h4⟩
    · rw [h2, sumAdvances_cons]
      show st.width + g.advance.getX + sumAdvances gs = _
      omega
    · intro he
      apply h3
      unfold LineState.isEmpty at he ⊢
      have hlt : ¬ st.largestVisualOrderInLine < 0 := by simpa using he
      have : ¬ (addGlyph st g).largestVisualOrderInLine < 0 := by
        show ¬ max st.largestVisualOrderInLine g.cluster < 0
        omega
      simpa using this

theorem foldl_addGlyph_isEmpty : ∀ (gs : List ShapedGlyph) (st : LineState),
    (st.isEmpty = false ∨ ∃ g ∈ gs, 0 ≤ g.cluster) → (gs.foldl addGlyph st).isEmpty = false
  | [], st, h => by
    rcases h with h | ⟨g, hg, _⟩
    · exact h
    · exact absurd hg (List.not_mem_nil g)
  | x :: gs, st, h => by
    rw [List.foldl_cons]
    apply foldl_addGlyph_isEmpty gs (addGlyph st x)
    rcases h with h | ⟨g, hg, h0⟩
    · exact Or.inl (addGlyph_isEmpty st x h)
    · rcases List.mem_cons.1 hg with e | e
      · left
        unfold LineState.isEmpty
        have : ¬ (addGlyph st x).largestVisualOrderInLine < 0 := by
          show ¬ max st.largestVisualOrderInLine x.cluster < 0
          rw [← e]
          omega
        simpa using this
      · exact Or.inr ⟨g, e, h0⟩

/-- The loop of `consumeIf` takes every glyph when the predicate holds at each of them. -/
theorem consumeList_eq_foldl (p : LineState → ShapedGlyph → Bool) :
    ∀ (gs : List ShapedGlyph) (st : LineState),
      (∀ (A : List ShapedGlyph) (g : ShapedGlyph) (B : List ShapedGlyph),
        gs = A ++ g :: B → p (A.foldl addGlyph st) g = true) →
      consumeList p st gs = (gs.foldl addGlyph st, gs.length)
  | [], _, _ => rfl
  | g :: gs, st, h => by
    have h0 : p st g = true := h [] g gs rfl
    rw [consumeList, if_pos h0,
      consumeList_eq_foldl p gs (addGlyph st g)
        (fun A x B he => h (g :: A) x B (by rw [he]; rfl))]
    rfl

/-- The loop of `consumeIf` with the predicate `fits` stops at a glyph that is wider than
the width left, on a line that holds a glyph, after the glyphs before it that fit: when the
glyph is not whitespace, or when whitespace may not extend beyond the margin. -/
theorem consumeList_fits_stops_at :
    ∀ (A : List ShapedGlyph) (g : ShapedGlyph) (B : List ShapedGlyph) (st : LineState),
      st.isEmpty = false →
      (g.whitespace = false ∨ st.trailingWhitespaceCanExtendBeyondMargin = false) →
      (∀ (A1 : List ShapedGlyph) (x : ShapedGlyph) (A2 : List ShapedGlyph),
        A = A1 ++ x :: A2 → x.advance.getX ≤ st.maxWidth - (st.width + sumAdvances A1)) →
      st.maxWidth - (st.width + sumAdvances A) < g.advance.getX →
      (consumeList fits st (A ++ g :: B)).2 = A.length
  | [], g, B, st, hne, hws, _, hg => by
    rw [sumAdvances_nil, Int.add_zero] at hg
    rw [List.nil_append, consumeList, fits_eq_false st g hne hws hg]
    rfl
  | x :: A, g, B, st, hne, hws, hA, hg => by
    have hx := hA [] x A rfl
    rw [sumAdvances_nil, Int.add_zero] at hx
    rw [List.cons_append, consumeList, if_pos (fits_of_le st x hx)]
    have hst := foldl_addGlyph_fields [x] st
    simp only [List.foldl_cons, List.foldl_nil] at hst
    rw [sumAdvances_cons, sumAdvances_nil, Int.add_zero] at hst
    have ih := consumeList_fits_stops_at A g B (addGlyph st x) (hst.2.2.1 hne)
      (by rw [hst.2.2.2]; exact hws)
      (fun A1 y A2 he => by
        have := hA (x :: A1) y A2 (by rw [he]; rfl)
        rw [sumAdvances_cons] at this
        rw [hst.1, hst.2.1]
        omega)
      (by
        rw [sumAdvances_cons] at hg
        rw [hst.1, hst.2.1]
        omega)
    simp only [ih, List.length_cons]

/-- The method `consume` on an empty line takes the chunks whole when their advances, none
negative, sum to at most the max width. -/
theorem consume_on_empty_line (W : Int) (trailing force : Bool) (it : WrappedGlyphsCursor)
    (hv : it.Valid) (hne : it.remaining ≠ [])
    (hadv : ∀ g ∈ it.remaining, 0 ≤ g.advance.getX)
    (hsum : sumAdvances it.remaining ≤ W) :
    (init W trailing).consume it force
      = (⟨it.remaining.foldl addGlyph (init W trailing).state,
          [⟨it, it.nextN it.remaining.length⟩]⟩,
         it.nextN it.remaining.length) := by
  have hcl : consumeList (if force && (init W trailing).state.isEmpty then takeAll else fits)
      (init W trailing).state it.remaining
        = (it.remaining.foldl addGlyph (init W trailing).state, it.remaining.length) := by
    apply consumeList_eq_foldl
    intro A g B he
    split
    · rfl
    · apply fits_of_le
      have hf := foldl_addGlyph_fields A (init W trailing).state
      rw [hf.1, hf.2.1]
      have hB : 0 ≤ sumAdvances B :=
        (sumAdvances_sublist_bounds B it.remaining
          (by rw [he]; exact (List.sublist_cons_self g B).trans (List.sublist_append_right A _))
          hadv).1
      rw [he, sumAdvances_append, sumAdvances_cons] at hsum
      show g.advance.getX ≤ W - (0 + sumAdvances A)
      omega
  rw [consume_of_all _ _ _ hv hne (by rw [hcl]), hcl]
  rfl

/-- The method `consume` on a line that holds a glyph refuses chunks that hold a glyph which
does not fit after the glyphs before it and is not whitespace, or is whitespace that may not
extend beyond the margin. -/
theorem consume_refuses (line : LineOfWrappedGlyphCursorRanges) (it : WrappedGlyphsCursor)
    (force : Bool) (hv : it.Valid) (hne : line.state.isEmpty = false)
    (A : List ShapedGlyph) (g : ShapedGlyph) (B : List ShapedGlyph)
    (hrem : it.remaining = A ++ g :: B)
    (hws : g.whitespace = false
      ∨ line.state.trailingWhitespaceCanExtendBeyondMargin = false)
    (hA : ∀ (A1 : List ShapedGlyph) (x : ShapedGlyph) (A2 : List ShapedGlyph),
      A = A1 ++ x :: A2 →
        x.advance.getX ≤ line.state.maxWidth - (line.state.width + sumAdvances A1))
    (hg : line.state.maxWidth - (line.state.width + sumAdvances A) < g.advance.getX) :
    line.consume it force = (line, it) := by
  apply consume_of_stop line it force hv hne
  rw [hrem, consumeList_fits_stops_at A g B line.state hne hws hA hg, List.length_append,
    List.length_cons]
  omega

end LineOfWrappedGlyphCursorRanges

namespace FillLinesOptions
open LineOfWrappedGlyphCursorRanges

/-- The inner loop of `fillLines` when `consume` takes the cursor to the end. -/
theorem fillChunks_of_consumed (o : FillLinesOptions) (fuel : Nat)
    (line line1 : LineOfWrappedGlyphCursorRanges) (cursor cursor1 : WrappedGlyphsCursor)
    (lines : List (List WrappedGlyphsCursorRange)) (hb : cursor.isBeyondEnd = false)
    (hc : line.consume cursor o.forceConsumeFirstWord = (line1, cursor1))
    (hb1 : cursor1.isBeyondEnd = true) :
    fillChunks o (fuel + 2) line cursor lines = some (line1, cursor1, lines) := by
  rw [fillChunks]
  simp only [hb, Bool.false_eq_true, if_false, hc, hb1, Bool.not_true]
  exact fillChunks_of_beyondEnd o fuel line1 cursor1 lines hb1

/-- The inner loop of `fillLines` when `consume` takes nothing: the line is finished and
the loop goes on with an empty line. -/
theorem fillChunks_of_refused (o : FillLinesOptions) (fuel : Nat)
    (line : LineOfWrappedGlyphCursorRanges) (cursor : WrappedGlyphsCursor)
    (lines : List (List WrappedGlyphsCursorRange)) (hb : cursor.isBeyondEnd = false)
    (hc : line.consume cursor o.forceConsumeFirstWord = (line, cursor)) :
    fillChunks o (fuel + 1) line cursor lines
      = fillChunks o fuel
          (LineOfWrappedGlyphCursorRanges.init o.width o.trailingWhitespaceCanExtendBeyondMargin)
          cursor (lines ++ [line.getConsumedChunks]) := by
  rw [fillChunks]
  simp only [hb, Bool.false_eq_true, if_false, hc, Bool.not_false, if_true]

theorem stepBound_pos (chunks : WrappedGlyphs) (hne : chunks ≠ []) :
    1 ≤ WrappedGlyphsCursor.stepBound chunks := by
  cases chunks with
  | nil => exact absurd rfl hne
  | cons ch rest =>
    unfold WrappedGlyphsCursor.stepBound
    rw [List.map_cons, List.sum_cons]
    omega

theorem nextN_all_beyondEnd (it : WrappedGlyphsCursor) (hv : it.Valid) :
    (it.nextN it.remaining.length).isBeyondEnd = true
    ∧ (it.nextN it.remaining.length).getTextRange = it.getTextRange := by
  have hn := nextN_spec it.remaining.length it hv (le_refl _)
  refine ⟨?_, ?_⟩
  · rw [isBeyondEnd_iff_remaining hn.1, hn.2.1, List.drop_length]
  · unfold WrappedGlyphsCursor.getTextRange
    rw [hn.2.2.1]

/-- The cursor reached after all the glyphs ahead of a valid cursor stands right after the
last chunk. -/
theorem nextN_all_eq (it : WrappedGlyphsCursor) (hv : it.Valid) :
    it.nextN it.remaining.length = ⟨it.data, ⟨it.data.length, 0⟩⟩ := by
  obtain ⟨hv2, hr, hd, _⟩ := nextN_spec it.remaining.length it hv (le_refl _)
  rw [List.drop_length] at hr
  generalize it.nextN it.remaining.length = c at hv2 hr hd
  obtain ⟨data, ⟨i, j⟩⟩ := c
  have hdata : data = it.data := hd
  subst hdata
  have hge : it.data.length ≤ i := by
    by_contra hlt
    have hlt2 : i < it.data.length := by omega
    have hj := hv2.2.1 hlt2
    have hlen := congrArg List.length hr
    rw [WrappedGlyphsCursor.remaining_length] at hlen
    have hj2 : j < (it.data.getD i default).glyphs.length := hj
    simp only [List.length_nil] at hlen
    omega
  obtain ⟨e1, e2⟩ := hv2.2.2 hge
  have e1b : i = it.data.length := e1
  have e2b : j = 0 := e2
  rw [e1b, e2b]

/-- A pass of the outer loop of `fillLines` in which the line being filled takes the chunks
whole. -/
theorem fillLoop_takes (o : FillLinesOptions) (lowLevelShape : LowLevelShape) (fuel : Nat)
    (shaper : Shaper) (chunks : WrappedGlyphs) (line line1 : LineOfWrappedGlyphCursorRanges)
    (result : LineDataAndChunkStorage)
    (hv : (WrappedGlyphsCursor.init chunks).Valid)
    (hne : (WrappedGlyphsCursor.init chunks).remaining ≠ [])
    (hc : line.consume (WrappedGlyphsCursor.init chunks) o.forceConsumeFirstWord
      = (line1, (WrappedGlyphsCursor.init chunks).nextN
          (WrappedGlyphsCursor.init chunks).remaining.length)) :
    fillLoop o lowLevelShape (fuel + 1) shaper chunks line result
      = fillLoop o lowLevelShape fuel
          (shaper.getChunksUpToNextSafeBreak lowLevelShape
            (WrappedGlyphsCursor.init chunks).getTextRange.getEnd).1
          (shaper.getChunksUpToNextSafeBreak lowLevelShape
            (WrappedGlyphsCursor.init chunks).getTextRange.getEnd).2
          line1 ⟨result.chunkStorage ++ [chunks], result.lines⟩ := by
  have hb : (WrappedGlyphsCursor.init chunks).isBeyondEnd = false := by
    cases h : (WrappedGlyphsCursor.init chunks).isBeyondEnd with
    | false => rfl
    | true => exact absurd ((isBeyondEnd_iff_remaining hv).1 h) hne
  obtain ⟨hbe, htr⟩ := nextN_all_beyondEnd _ hv
  cases chunks with
  | nil => exact absurd rfl hne
  | cons ch rest =>
    rw [fillLoop_cons, fillChunks_of_consumed o _ line line1 _ _ _ hb hc hbe]
    simp only [htr]

/-- A pass of the outer loop of `fillLines` in which the line being filled refuses the
chunks and the next line takes them whole. -/
theorem fillLoop_wraps (o : FillLinesOptions) (lowLevelShape : LowLevelShape) (fuel : Nat)
    (shaper : Shaper) (chunks : WrappedGlyphs) (line line1 : LineOfWrappedGlyphCursorRanges)
    (result : LineDataAndChunkStorage)
    (hv : (WrappedGlyphsCursor.init chunks).Valid)
    (hne : (WrappedGlyphsCursor.init chunks).remaining ≠ [])
    (hrefused : line.consume (WrappedGlyphsCursor.init chunks) o.forceConsumeFirstWord
      = (line, WrappedGlyphsCursor.init chunks))
    (hc : (LineOfWrappedGlyphCursorRanges.init o.width
          o.trailingWhitespaceCanExtendBeyondMargin).consume
        (WrappedGlyphsCursor.init chunks) o.forceConsumeFirstWord
      = (line1, (WrappedGlyphsCursor.init chunks).nextN
          (WrappedGlyphsCursor.init chunks).remaining.length)) :
    fillLoop o lowLevelShape (fuel + 1) shaper chunks line result
      = fillLoop o lowLevelShape fuel
          (shaper.getChunksUpToNextSafeBreak lowLevelShape
            (WrappedGlyphsCursor.init chunks).getTextRange.getEnd).1
          (shaper.getChunksUpToNextSafeBreak lowLevelShape
            (WrappedGlyphsCursor.init chunks).getTextRange.getEnd).2
          line1 ⟨result.chunkStorage ++ [chunks],
            result.lines ++ [line.getConsumedChunks]⟩ := by
  have hb : (WrappedGlyphsCursor.init chunks).isBeyondEnd = false := by
    cases h : (WrappedGlyphsCursor.init chunks).isBeyondEnd with
    | false => rfl
    | true => exact absurd ((isBeyondEnd_iff_remaining hv).1 h) hne
  obtain ⟨hbe, htr⟩ := nextN_all_beyondEnd _ hv
  cases chunks with
  | nil => exact absurd rfl hne
  | cons ch rest =>
    obtain ⟨k, hk⟩ : ∃ k, 2 * WrappedGlyphsCursor.stepBound (ch :: rest) + 2 = (k + 2) + 1 := by
      have := stepBound_pos (ch :: rest) (List.cons_ne_nil _ _)
      exact ⟨2 * WrappedGlyphsCursor.stepBound (ch :: rest) - 1, by omega⟩
    rw [fillLoop_cons, hk, fillChunks_of_refused o _ line _ _ hb hrefused,
      fillChunks_of_consumed o _ _ line1 _ _ _ hb hc hbe]
    simp only [htr]

/-- A pass of the outer loop of `fillLines` on an empty line: the chunks are taken whole
when their advances, none negative, sum to at most the max width of the line. -/
theorem fillLoop_fits_empty_line (o : FillLinesOptions) (lowLevelShape : LowLevelShape)
    (fuel : Nat) (shaper : Shaper) (chunks : WrappedGlyphs) (W : Int)
    (result : LineDataAndChunkStorage)
    (hok : ∀ s ∈ chunks, s.glyphs ≠ []) (hne : allGlyphs chunks ≠ [])
    (hadv : ∀ g ∈ allGlyphs chunks, 0 ≤ g.advance.getX)
    (hsum : sumAdvances (allGlyphs chunks) ≤ W) :
    fillLoop o lowLevelShape (fuel + 1) shaper chunks
        (LineOfWrappedGlyphCursorRanges.init W o.trailingWhitespaceCanExtendBeyondMargin)
        result
      = fillLoop o lowLevelShape fuel
          (shaper.getChunksUpToNextSafeBreak lowLevelShape
            (WrappedGlyphsCursor.init chunks).getTextRange.getEnd).1
          (shaper.getChunksUpToNextSafeBreak lowLevelShape
            (WrappedGlyphsCursor.init chunks).getTextRange.getEnd).2
          ⟨(allGlyphs chunks).foldl addGlyph
              (LineOfWrappedGlyphCursorRanges.init W
                o.trailingWhitespaceCanExtendBeyondMargin).state,
            [⟨WrappedGlyphsCursor.init chunks,
              (WrappedGlyphsCursor.init chunks).nextN (allGlyphs chunks).length⟩]⟩
          ⟨result.chunkStorage ++ [chunks], result.lines⟩ := by
  have hv := WrappedGlyphsCursor.init_valid hok
  have hr := WrappedGlyphsCursor.remaining_init_eq chunks
  have hc := consume_on_empty_line W o.trailingWhitespaceCanExtendBeyondMargin
    o.forceConsumeFirstWord (WrappedGlyphsCursor.init chunks) hv (by rw [hr]; exact hne)
    (by rw [hr]; exact hadv) (by rw [hr]; exact hsum)
  rw [fillLoop_takes o lowLevelShape fuel shaper chunks _ _ result hv (by rw [hr]; exact hne) hc,
    hr]

/-- A pass of the outer loop of `fillLines` in which the line being filled refuses the
chunks: the line is finished, and the next line takes the chunks whole when their
advances, none negative, sum to at most the width. -/
theorem fillLoop_refused_then_fits (o : FillLinesOptions) (lowLevelShape : LowLevelShape)
    (fuel : Nat) (shaper : Shaper) (chunks : WrappedGlyphs)
    (line : LineOfWrappedGlyphCursorRanges) (result : LineDataAndChunkStorage)
    (hok : ∀ s ∈ chunks, s.glyphs ≠ []) (hne : allGlyphs chunks ≠ [])
    (hrefused : line.consume (WrappedGlyphsCursor.init chunks) o.forceConsumeFirstWord
      = (line, WrappedGlyphsCursor.init chunks))
    (hadv : ∀ g ∈ allGlyphs chunks, 0 ≤ g.advance.getX)
    (hsum : sumAdvances (allGlyphs chunks) ≤ o.width) :
    fillLoop o lowLevelShape (fuel + 1) shaper chunks line result
      = fillLoop o lowLevelShape fuel
          (shaper.getChunksUpToNextSafeBreak lowLevelShape
            (WrappedGlyphsCursor.init chunks).getTextRange.getEnd).1
          (shaper.getChunksUpToNextSafeBreak lowLevelShape
            (WrappedGlyphsCursor.init chunks).getTextRange.getEnd).2
          ⟨(allGlyphs chunks).foldl addGlyph
              (LineOfWrappedGlyphCursorRanges.init o.width
                o.trailingWhitespaceCanExtendBeyondMargin).state,
            [⟨WrappedGlyphsCursor.init chunks,
              (WrappedGlyphsCursor.init chunks).nextN (allGlyphs chunks).length⟩]⟩
          ⟨result.chunkStorage ++ [chunks], result.lines ++ [line.getConsumedChunks]⟩ := by
  have hv := WrappedGlyphsCursor.init_valid hok
  have hr := WrappedGlyphsCursor.remaining_init_eq chunks
  have hc := consume_on_empty_line o.width o.trailingWhitespaceCanExtendBeyondMargin
    o.forceConsumeFirstWord (WrappedGlyphsCursor.init chunks) hv (by rw [hr]; exact hne)
    (by rw [hr]; exact hadv) (by rw [hr]; exact hsum)
  rw [fillLoop_wraps o lowLevelShape fuel shaper chunks line _ result hv
    (by rw [hr]; exact hne) hrefused hc, hr]

end FillLinesOptions

open LineOfWrappedGlyphCursorRanges FillLinesOptions

theorem singleton_eq_append_cons {α : Type} {b x : α} {A1 A2 : List α}
    (h : [b] = A1 ++ x :: A2) : A1 = [] ∧ x = b := by
  cases A1 with
  | nil =>
    rw [List.nil_append] at h
    exact ⟨rfl, (List.cons.inj h).1.symm⟩
  | cons y ys =>
    have := congrArg List.length h
    simp at this

theorem pair_eq_append_cons {α : Type} {b c x : α} {A1 A2 : List α}
    (h : [b, c] = A1 ++ x :: A2) : (A1 = [] ∧ x = b) ∨ (A1 = [b] ∧ x = c) := by
  cases A1 with
  | nil =>
    rw [List.nil_append] at h
    exact Or.inl ⟨rfl, (List.cons.inj h).1.symm⟩
  | cons y ys =>
    rw [List.cons_append] at h
    obtain ⟨e1, e2⟩ := List.cons.inj h
    obtain ⟨e3, e4⟩ := singleton_eq_append_cons e2
    exact Or.inr ⟨by rw [e3, e1], e4⟩

theorem mkGlyph_advance (c a : Int) (b : Bool) : (mkGlyph c a b).advance.getX = a := rfl

set_option maxRecDepth 100000 in
/-- The lines of `"a bb ccc"` for glyphs of advance `a` and a width that takes three
advances but not the first two words: not four advances, or, when whitespace may not extend
beyond the margin, not five. Every word is on a line of its own. -/
theorem fillLines_sampleWords (a w : Int) (h1 : 3 * a ≤ w) (tw fc : Bool)
    (h2 : w < 4 * a ∨ (tw = false ∧ w < 5 * a)) :
    fillLines ⟨w, 0, tw, fc⟩ (sampleShapeWithAdvance a) sampleShaper
      = some (sampleWordLines a) := by
  have ha : 0 < a := by omega
  have h5 : w < 5 * a := by omega
  obtain ⟨cA, hcA⟩ : ∃ c : WrappedGlyphs,
      c = [⟨[mkGlyph 0 a false, mkGlyph 1 a true], true, 0, ⟨0, 2⟩, 0⟩] := ⟨_, rfl⟩
  obtain ⟨cB, hcB⟩ : ∃ c : WrappedGlyphs,
      c = [⟨[mkGlyph 2 a false, mkGlyph 3 a false, mkGlyph 4 a true], true, 0, ⟨2, 5⟩, 2⟩] :=
    ⟨_, rfl⟩
  obtain ⟨cC, hcC⟩ : ∃ c : WrappedGlyphs,
      c = [⟨[mkGlyph 5 a false, mkGlyph 6 a false, mkGlyph 7 a false], true, 0, ⟨5, 8⟩, 5⟩] :=
    ⟨_, rfl⟩
  have hgA : allGlyphs cA = [mkGlyph 0 a false, mkGlyph 1 a true] := by rw [hcA]; rfl
  have hgB : allGlyphs cB = [mkGlyph 2 a false, mkGlyph 3 a false, mkGlyph 4 a true] := by
    rw [hcB]; rfl
  have hgC : allGlyphs cC = [mkGlyph 5 a false, mkGlyph 6 a false, mkGlyph 7 a false] := by
    rw [hcC]; rfl
  have hokA : ∀ s ∈ cA, s.glyphs ≠ [] := by
    intro s hs
    rw [hcA] at hs
    rw [List.mem_singleton.1 hs]
    exact List.cons_ne_nil _ _
  have hokB : ∀ s ∈ cB, s.glyphs ≠ [] := by
    intro s hs
    rw [hcB] at hs
    rw [List.mem_singleton.1 hs]
    exact List.cons_ne_nil _ _
  have hokC : ∀ s ∈ cC, s.glyphs ≠ [] := by
    intro s hs
    rw [hcC] at hs
    rw [List.mem_singleton.1 hs]
    exact List.cons_ne_nil _ _
  have hadv : ∀ (gs : List ShapedGlyph), (∀ g ∈ gs, g.advance.getX = a) →
      ∀ g ∈ gs, 0 ≤ g.advance.getX := fun gs h g hg => by rw [h g hg]; exact le_of_lt ha
  have hadvA : ∀ g ∈ allGlyphs cA, 0 ≤ g.advance.getX := by
    rw [hgA]
    exact hadv _ (by simp [mkGlyph_advance])
  have hadvB : ∀ g ∈ allGlyphs cB, 0 ≤ g.advance.getX := by
    rw [hgB]
    exact hadv _ (by simp [mkGlyph_advance])
  have hadvC : ∀ g ∈ allGlyphs cC, 0 ≤ g.advance.getX := by
    rw [hgC]
    exact hadv _ (by simp [mkGlyph_advance])
  have hsA : sumAdvances (allGlyphs cA) = a + (a + 0) := by rw [hgA]; rfl
  have hsB : sumAdvances (allGlyphs cB) = a + (a + (a + 0)) := by rw [hgB]; rfl
  have hsC : sumAdvances (allGlyphs cC) = a + (a + (a + 0)) := by rw [hgC]; rfl
  have h0 : (sampleShaper.getChunksUpToNextSafeBreak (sampleShapeWithAdvance a) 0).2 = cA := by
    rw [hcA]; rfl
  have hEA : (WrappedGlyphsCursor.init cA).getTextRange.getEnd = 2 := by rw [hcA]; rfl
  have hEB : (WrappedGlyphsCursor.init cB).getTextRange.getEnd = 5 := by rw [hcB]; rfl
  have hEC : (WrappedGlyphsCursor.init cC).getTextRange.getEnd = 8 := by rw [hcC]; rfl
  have h1s : ((sampleShaper.getChunksUpToNextSafeBreak (sampleShapeWithAdvance a) 0).1
      |>.getChunksUpToNextSafeBreak (sampleShapeWithAdvance a) 2).2 = cB := by
    rw [hcB]; rfl
  have h2s : (((sampleShaper.getChunksUpToNextSafeBreak (sampleShapeWithAdvance a) 0).1
      |>.getChunksUpToNextSafeBreak (sampleShapeWithAdvance a) 2).1
      |>.getChunksUpToNextSafeBreak (sampleShapeWithAdvance a) 5).2 = cC := by
    rw [hcC]; rfl
  have h3s : ((((sampleShaper.getChunksUpToNextSafeBreak (sampleShapeWithAdvance a) 0).1
      |>.getChunksUpToNextSafeBreak (sampleShapeWithAdvance a) 2).1
      |>.getChunksUpToNextSafeBreak (sampleShapeWithAdvance a) 5).1
      |>.getChunksUpToNextSafeBreak (sampleShapeWithAdvance a) 8).2 = [] := by
    by_contra hne
    have hlt := Shaper.lt_length_of_chunks _ _ _
      (Shaper.rangesWithin_after _ _ _ (Shaper.rangesWithin_after _ _ _
        (Shaper.rangesWithin_after (sampleShapeWithAdvance a) _ 0 sampleShaper_rangesWithin)))
      hne
    have hlt2 : (8 : Int) < 8 := hlt
    omega
  have hnA : (WrappedGlyphsCursor.init cA).nextN (allGlyphs cA).length = ⟨cA, ⟨1, 0⟩⟩ := by
    rw [← WrappedGlyphsCursor.remaining_init_eq, nextN_all_eq _ (WrappedGlyphsCursor.init_valid hokA),
      hcA]
    rfl
  have hnB : (WrappedGlyphsCursor.init cB).nextN (allGlyphs cB).length = ⟨cB, ⟨1, 0⟩⟩ := by
    rw [← WrappedGlyphsCursor.remaining_init_eq, nextN_all_eq _ (WrappedGlyphsCursor.init_valid hokB),
      hcB]
    rfl
  have hnC : (WrappedGlyphsCursor.init cC).nextN (allGlyphs cC).length = ⟨cC, ⟨1, 0⟩⟩ := by
    rw [← WrappedGlyphsCursor.remaining_init_eq, nextN_all_eq _ (WrappedGlyphsCursor.init_valid hokC),
      hcC]
    rfl
  -- the first line, holding the word `"a "`, refuses the word `"bb "`
  have hrefB : (⟨(allGlyphs cA).foldl addGlyph (init (w - 0) tw).state,
        [⟨WrappedGlyphsCursor.init cA,
          (WrappedGlyphsCursor.init cA).nextN (allGlyphs cA).length⟩]⟩ :
        LineOfWrappedGlyphCursorRanges).consume (WrappedGlyphsCursor.init cB) fc
      = (⟨(allGlyphs cA).foldl addGlyph (init (w - 0) tw).state,
        [⟨WrappedGlyphsCursor.init cA,
          (WrappedGlyphsCursor.init cA).nextN (allGlyphs cA).length⟩]⟩,
        WrappedGlyphsCursor.init cB) := by
    have hne : ((allGlyphs cA).foldl addGlyph (init (w - 0) tw).state).isEmpty = false :=
      foldl_addGlyph_isEmpty _ _ (Or.inr ⟨mkGlyph 0 a false, by rw [hgA]; simp, le_refl _⟩)
    by_cases h4 : w < 4 * a
    · refine consume_refuses _ _ _ (WrappedGlyphsCursor.init_valid hokB) hne
        [mkGlyph 2 a false] (mkGlyph 3 a false) [mkGlyph 4 a true]
        (by rw [WrappedGlyphsCursor.remaining_init_eq, hgB]; rfl) (Or.inl rfl) ?_ ?_
      · intro A1 x A2 he
        obtain ⟨e1, e2⟩ := singleton_eq_append_cons he
        rw [e1, e2]
        show a ≤ _ - (_ + 0)
        rw [(foldl_addGlyph_fields _ _).1, (foldl_addGlyph_fields _ _).2.1, hsA]
        show a ≤ w - 0 - (0 + (a + (a + 0)) + 0)
        omega
      · show _ - (_ + (a + 0)) < a
        rw [(foldl_addGlyph_fields _ _).1, (foldl_addGlyph_fields _ _).2.1, hsA]
        show w - 0 - (0 + (a + (a + 0)) + (a + 0)) < a
        omega
    · have htw : tw = false := by
        rcases h2 with h | h
        · exact absurd h h4
        · exact h.1
      refine consume_refuses _ _ _ (WrappedGlyphsCursor.init_valid hokB) hne
        [mkGlyph 2 a false, mkGlyph 3 a false] (mkGlyph 4 a true) []
        (by rw [WrappedGlyphsCursor.remaining_init_eq, hgB]; rfl)
        (Or.inr (by rw [(foldl_addGlyph_fields _ _).2.2.2]; exact htw)) ?_ ?_
      · intro A1 x A2 he
        rcases pair_eq_append_cons he with ⟨e1, e2⟩ | ⟨e1, e2⟩
        · rw [e1, e2]
          show a ≤ _ - (_ + 0)
          rw [(foldl_addGlyph_fields _ _).1, (foldl_addGlyph_fields _ _).2.1, hsA]
          show a ≤ w - 0 - (0 + (a + (a + 0)) + 0)
          omega
        · rw [e1, e2]
          show a ≤ _ - (_ + (a + 0))
          rw [(foldl_addGlyph_fields _ _).1, (foldl_addGlyph_fields _ _).2.1, hsA]
          show a ≤ w - 0 - (0 + (a + (a + 0)) + (a + 0))
          omega
      · show _ - (_ + (a + (a + 0))) < a
        rw [(foldl_addGlyph_fields _ _).1, (foldl_addGlyph_fields _ _).2.1, hsA]
        show w - 0 - (0 + (a + (a + 0)) + (a + (a + 0))) < a
        omega
  -- the second line, holding the word `"bb "`, refuses the word `"ccc"`
  have hrefC : (⟨(allGlyphs cB).foldl addGlyph (init w tw).state,
        [⟨WrappedGlyphsCursor.init cB,
          (WrappedGlyphsCursor.init cB).nextN (allGlyphs cB).length⟩]⟩ :
        LineOfWrappedGlyphCursorRanges).consume (WrappedGlyphsCursor.init cC) fc
      = (⟨(allGlyphs cB).foldl addGlyph (init w tw).state,
        [⟨WrappedGlyphsCursor.init cB,
          (WrappedGlyphsCursor.init cB).nextN (allGlyphs cB).length⟩]⟩,
        WrappedGlyphsCursor.init cC) := by
    have hne : ((allGlyphs cB).foldl addGlyph (init w tw).state).isEmpty = false :=
      foldl_addGlyph_isEmpty _ _
        (Or.inr ⟨mkGlyph 2 a false, by rw [hgB]; simp, show (0 : Int) ≤ 2 by decide⟩)
    by_cases h4 : w < 4 * a
    · refine consume_refuses _ _ _ (WrappedGlyphsCursor.init_valid hokC) hne
        [] (mkGlyph 5 a false) [mkGlyph 6 a false, mkGlyph 7 a false]
        (by rw [WrappedGlyphsCursor.remaining_init_eq, hgC]; rfl) (Or.inl rfl) ?_ ?_
      · intro A1 x A2 he
        cases A1 <;> simp at he
      · show _ - (_ + 0) < a
        rw [(foldl_addGlyph_fields _ _).1, (foldl_addGlyph_fields _ _).2.1, hsB]
        show w - (0 + (a + (a + (a + 0))) + 0) < a
        omega
    · refine consume_refuses _ _ _ (WrappedGlyphsCursor.init_valid hokC) hne
        [mkGlyph 5 a false] (mkGlyph 6 a false) [mkGlyph 7 a false]
        (by rw [WrappedGlyphsCursor.remaining_init_eq, hgC]; rfl) (Or.inl rfl) ?_ ?_
      · intro A1 x A2 he
        obtain ⟨e1, e2⟩ := singleton_eq_append_cons he
        rw [e1, e2]
        show a ≤ _ - (_ + 0)
        rw [(foldl_addGlyph_fields _ _).1, (foldl_addGlyph_fields _ _).2.1, hsB]
        show a ≤ w - (0 + (a + (a + (a + 0))) + 0)
        omega
      · show _ - (_ + (a + 0)) < a
        rw [(foldl_addGlyph_fields _ _).1, (foldl_addGlyph_fields _ _).2.1, hsB]
        show w - (0 + (a + (a + (a + 0))) + (a + 0)) < a
        omega
  unfold fillLines
  show fillLoop _ _ (5 + 1) _ _ _ _ = _
  -- the word `"a "` fills the first line
  rw [h0]
  rw [fillLoop_fits_empty_line _ _ _ _ cA _ _ hokA (by rw [hgA]; exact List.cons_ne_nil _ _)
    hadvA (by rw [hsA]; show a + (a + 0) ≤ w - 0; omega)]
  -- the word `"bb "` fills the second line
  rw [hEA, h1s]
  show fillLoop _ _ (4 + 1) _ _ _ _ = _
  rw [fillLoop_refused_then_fits _ _ _ _ cB _ _ hokB (by rw [hgB]; exact List.cons_ne_nil _ _)
    hrefB hadvB (by rw [hsB]; show a + (a + (a + 0)) ≤ w; omega)]
  -- the word `"ccc"` fills the third line
  rw [hEB, h2s]
  show fillLoop _ _ (3 + 1) _ _ _ _ = _
  rw [fillLoop_refused_then_fits _ _ _ _ cC _ _ hokC (by rw [hgC]; exact List.cons_ne_nil _ _)
    hrefC hadvC (by rw [hsC]; show a + (a + (a + 0)) ≤ w; omega)]
  -- no chunk is left
  rw [hEC, h3s]
  show fillLoop _ _ (2 + 1) _ _ _ _ = _
  rw [fillLoop_nil, hnA, hnB, hnC]
  unfold sampleWordLines sampleWords
  rw [← hcA, ← hcB, ← hcC]
  rfl

theorem sampleShaper_leftToRight : sampleShaper.LeftToRight 8 :=
  sampleShaperFor_leftToRight

set_option maxRecDepth 100000 in
/-- C6: the string `"a bb ccc"`, one glyph per codepoint, all glyphs of the same advance
`a`, safe breaks before 2 and 5. For every advance and every max width `w` that fits any one
of the words but no two of them, and for both values of `trailingWhitespacesShouldFit` and
of `allowBreakingInsideWord`, `shape` gives exactly three lines with the glyph ranges
`[0,2)`, `[2,5)` and `[5,8)`; glyph `i` has cluster `i` and `getTextRange (i)` is
`[i, i+1)`, so these are the text ranges of the lines too. The longest word takes three
advances, `3 * a <= w`; the shortest two words take four advances with the space between
them, `w < 4 * a`, and five with the space after them, which counts when trailing
whitespace has to fit, `w < 5 * a`. -/
theorem shape_a_bb_ccc (a w : Int) (trailingFit allowInside : Bool) (hone : 3 * a ≤ w)
    (htwo : w < 4 * a ∨ (trailingFit = true ∧ w < 5 * a)) :
    ∃ t, SimpleShapedText.shape (sampleShapeWithAdvance a) (fun _ => sampleShaper) [⟨0, 8⟩]
        ⟨some w, 0, allowInside, trailingFit, int64Max⟩ = some t
      ∧ t.getNumLines = 3
      ∧ t.lineNumbers = [(⟨0, 2⟩, 0), (⟨2, 5⟩, 1), (⟨5, 8⟩, 2)]
      ∧ t.glyphsInVisualOrder.map (fun g => g.cluster) = [0, 1, 2, 3, 4, 5, 6, 7]
      ∧ ∀ i : Int, 0 ≤ i → i < 8 → t.getTextRange i = some ⟨i, i + 1⟩ := by
  have hno := sampleShapeWithAdvance_noLigatures a
  have hfill := fillLines_sampleWords a w hone (!trailingFit) (!allowInside)
    (by
      rcases htwo with h | ⟨h, h5⟩
      · exact Or.inl h
      · exact Or.inr ⟨by rw [h]; rfl, h5⟩)
  have hshape := SimpleShapedText.shape_single_line (sampleShapeWithAdvance a)
    (fun _ => sampleShaper) ⟨0, 8⟩ ⟨some w, 0, allowInside, trailingFit, int64Max⟩
    (sampleWordLines a) hfill int64Max (by decide) (le_refl _)
  rw [foldLines_unchanged _ _ (Or.inr (show (sampleWordLines a).lines.length ≤ int64Max.toNat
    from (by decide : 3 ≤ int64Max.toNat)))] at hshape
  have hshape2 : SimpleShapedText.shape (sampleShapeWithAdvance a) (fun _ => sampleShaper)
      [⟨0, 8⟩] ⟨some w, 0, allowInside, trailingFit, int64Max⟩
        = some ((sampleWordLines a).lines.foldl (SimpleShapedText.addLine 0)
            SimpleShapedText.init) := hshape
  obtain ⟨u1, u2⟩ := SimpleShapedText.foldl_addLine_init 0 (sampleWordLines a).lines
  have hex := FillLinesOptions.fillLines_exact _ (sampleShapeWithAdvance a) hno 8 sampleShaper
    sampleShaper_leftToRight _ hfill
  have hinv := FillLinesOptions.fillLines_inv _ (sampleShapeWithAdvance a) _ _ hfill
    (fun cs hcs => (hex.chunksWellFormed cs hcs).chunksOk)
  have hpush : ∀ l ∈ (sampleWordLines a).lines,
      linePushed 0 l = (lineGlyphs l).map (fun g => { g with cluster := g.cluster + 0 }) :=
    fun l hl => linePushed_ltr 0 8 8 _ hex l (hinv.2.2.1 l hl)
  have hlens : (sampleWordLines a).lines.map (fun l => (linePushed 0 l).length) = [2, 3, 3] := by
    rw [List.map_congr_left (fun l hl => by rw [hpush l hl, List.length_map])]
    rfl
  have hglyphs : ((sampleWordLines a).lines.map (linePushed 0)).flatten.map
      (fun g => g.cluster) = [0, 1, 2, 3, 4, 5, 6, 7] := by
    rw [List.map_congr_left hpush]
    rfl
  have hcl : ((sampleWordLines a).lines.foldl (SimpleShapedText.addLine 0)
      SimpleShapedText.init).glyphsInVisualOrder.map (fun g => g.cluster)
        = [0, 1, 2, 3, 4, 5, 6, 7] := by
    rw [u2, hglyphs]
  have hln : ((sampleWordLines a).lines.foldl (SimpleShapedText.addLine 0)
      SimpleShapedText.init).lineNumbers = [(⟨0, 2⟩, 0), (⟨2, 5⟩, 1), (⟨5, 8⟩, 2)] := by
    rw [u1, hlens]
    rfl
  have hcov := SimpleShapedText.shapeLines_clustersCovered (sampleShapeWithAdvance a)
    (fun _ => sampleShaper) ⟨some w, 0, allowInside, trailingFit, int64Max⟩ 8 [⟨0, 8⟩]
    SimpleShapedText.init _ hshape2
    (fun lr hlr => by
      rw [List.mem_singleton.1 hlr]
      decide)
    (fun lr hlr r hr cs hcs => by
      rw [List.mem_singleton.1 hlr]
      exact (FillLinesOptions.fillLines_exact _ (sampleShapeWithAdvance a) hno 8 sampleShaper
        sampleShaper_leftToRight r hr).chunksWellFormed cs hcs)
    (fun g hg => absurd hg (List.not_mem_nil g))
  refine ⟨_, hshape2, ?_, hln, hcl, ?_⟩
  · unfold SimpleShapedText.getNumLines RangedValues.size
    rw [hln]
    rfl
  · intro i h0 hi
    exact SimpleShapedText.getTextRange_identity 8 _ hcl hcov i h0 hi

/-- Witness of C6: glyphs of advance 10 and a max width of 30. -/
theorem shape_a_bb_ccc_witness :
    3 * (10 : Int) ≤ 30 ∧ ((30 : Int) < 4 * 10 ∨ (false = true ∧ (30 : Int) < 5 * 10))
    ∧ ∃ t, SimpleShapedText.shape (sampleShapeWithAdvance 10) (fun _ => sampleShaper) [⟨0, 8⟩]
        ⟨some 30, 0, false, false, int64Max⟩ = some t
      ∧ t.getNumLines = 3
      ∧ t.lineNumbers = [(⟨0, 2⟩, 0), (⟨2, 5⟩, 1), (⟨5, 8⟩, 2)]
      ∧ t.glyphsInVisualOrder.map (fun g => g.cluster) = [0, 1, 2, 3, 4, 5, 6, 7]
      ∧ ∀ i : Int, 0 ≤ i → i < 8 → t.getTextRange i = some ⟨i, i + 1⟩ :=
  ⟨by decide, by decide, shape_a_bb_ccc 10 30 false false (by decide) (by decide)⟩

open RangedValues

/-- Folding the lines beyond a limit that is at most the number of lines: the lines before
the last one allowed stay, and the rest is joined into one line. -/
theorem foldLines_joined (lines : List (List WrappedGlyphsCursorRange)) (m : Nat)
    (h1 : 1 ≤ m) (h2 : m ≤ lines.length) :
    foldLinesBeyondLineLimit lines m
      = lines.take (m - 1) ++ [(lines.drop (m - 1)).flatten] := by
  by_cases h : m < lines.length
  · exact foldLines_folded lines m h1 h
  · have he : m = lines.length := by omega
    rw [foldLines_unchanged lines m (Or.inr (by omega))]
    have hlt : m - 1 < lines.length := by omega
    have hd : lines.drop (m - 1) = [lines[m - 1]] := by
      rw [List.drop_eq_getElem_cons hlt]
      have : m - 1 + 1 = lines.length := by omega
      rw [this, List.drop_length]
    rw [hd, List.flatten_singleton, ← hd, List.take_append_drop]

/-- Glyph counts of lines of which every one but the last is positive: the number of
positive counts is at least the number of lines but one. -/
theorem countP_pos_ge (B : List Nat) (hB : ∀ l ∈ B.dropLast, 0 < l) :
    B.length ≤ B.countP (fun l => decide (l ≠ 0)) + 1 := by
  have h1 : B.dropLast.countP (fun l => decide (l ≠ 0)) = B.dropLast.length := by
    rw [List.countP_eq_length]
    intro l hl
    have := hB l hl
    simp only [ne_eq, decide_not, Bool.not_eq_true', decide_eq_false_iff_not]
    omega
  have h2 : B.dropLast.countP (fun l => decide (l ≠ 0)) ≤ B.countP (fun l => decide (l ≠ 0)) :=
    List.Sublist.countP_le _ (List.dropLast_sublist B)
  rw [List.length_dropLast] at h1
  omega

/-- Among glyph counts of which every one but the last is positive, with at least `m`
positive ones, the counts before index `m - 1` and the count at index `m - 1` are
positive. -/
theorem take_pos_of_countP (B : List Nat) (m : Nat) (h1 : 1 ≤ m)
    (hm : m ≤ B.countP (fun l => decide (l ≠ 0))) (hB : ∀ l ∈ B.dropLast, 0 < l) :
    m ≤ B.length ∧ (∀ l ∈ B.take (m - 1), 0 < l)
    ∧ ∃ b rest, B.drop (m - 1) = b :: rest ∧ 0 < b := by
  have hlen : m ≤ B.length := le_trans hm (List.countP_le_length _)
  have hlt : m - 1 < B.length := by omega
  refine ⟨hlen, ?_, ?_⟩
  · intro l hl
    exact hB l (mem_dropLast_of_mem_take B (m - 1) (by omega) l hl)
  · refine ⟨B[m - 1], B.drop (m - 1 + 1), List.drop_eq_getElem_cons hlt, ?_⟩
    by_cases hc : m < B.length
    · apply hB
      apply mem_dropLast_of_mem_take B m (by omega)
      rw [List.mem_take_iff_getElem]
      exact ⟨m - 1, by rw [Nat.lt_min]; omega, rfl⟩
    · have hall : B.countP (fun l => decide (l ≠ 0)) = B.length := by
        have := List.countP_le_length (fun l => decide (l ≠ 0)) (l := B)
        omega
      rw [List.countP_eq_length] at hall
      have := hall B[m - 1] (List.getElem_mem _)
      simp only [ne_eq, decide_not, Bool.not_eq_true', decide_eq_false_iff_not] at this
      omega

/-- The line numbers of lines of which the later ones are joined into line `m` of the last
hard line: they are the line numbers without the joining up to that line, and the joined
line runs from the start of that line to the last glyph. -/
theorem lineNumbersFrom_joined (A B : List Nat) (m : Nat) (h1 : 1 ≤ m)
    (hm : m ≤ B.countP (fun l => decide (l ≠ 0))) (hB : ∀ l ∈ B.dropLast, 0 < l) :
    lineNumbersFrom 0 0 (A ++ B.take (m - 1) ++ [(B.drop (m - 1)).sum])
      = (lineNumbersFrom 0 0 (A ++ B)).take (A.countP (fun l => decide (l ≠ 0)) + m - 1)
        ++ [(⟨((lineNumbersFrom 0 0 (A ++ B)).getD
                (A.countP (fun l => decide (l ≠ 0)) + m - 1) default).1.getStart,
              ((A ++ B).sum : Int)⟩,
            ((A.countP (fun l => decide (l ≠ 0)) + m - 1 : Nat) : Int))]
    ∧ ((lineNumbersFrom 0 0 (A ++ B)).getD
          (A.countP (fun l => decide (l ≠ 0)) + m - 1) default).1.getStart
        = ((A ++ B.take (m - 1)).sum : Int)
    ∧ (lineNumbersFrom 0 0 (A ++ B.take (m - 1) ++ [(B.drop (m - 1)).sum])).length
        = A.countP (fun l => decide (l ≠ 0)) + m := by
  obtain ⟨hlen, htake, b, rest, hdrop, hb⟩ := take_pos_of_countP B m h1 hm hB
  have hsplit : B = B.take (m - 1) ++ b :: rest := by
    rw [← hdrop, List.take_append_drop]
  have hpre : (lineNumbersFrom 0 0 (A ++ B.take (m - 1))).length
      = A.countP (fun l => decide (l ≠ 0)) + m - 1 := by
    rw [lineNumbersFrom_length, List.countP_append]
    have : (B.take (m - 1)).countP (fun l => decide (l ≠ 0)) = (B.take (m - 1)).length := by
      rw [List.countP_eq_length]
      intro l hl
      have := htake l hl
      simp only [ne_eq, decide_not, Bool.not_eq_true', decide_eq_false_iff_not]
      omega
    rw [this, List.length_take]
    omega
  have hall : lineNumbersFrom 0 0 (A ++ B)
      = lineNumbersFrom 0 0 (A ++ B.take (m - 1))
        ++ ((⟨((A ++ B.take (m - 1)).sum : Int), ((A ++ B.take (m - 1)).sum : Int) + (b : Int)⟩,
              ((A.countP (fun l => decide (l ≠ 0)) + m - 1 : Nat) : Int))
            :: lineNumbersFrom (((A ++ B.take (m - 1)).sum : Int) + (b : Int))
                (A.countP (fun l => decide (l ≠ 0)) + m - 1 + 1) rest) := by
    conv_lhs => rw [hsplit, ← List.append_assoc, lineNumbersFrom_append_lines, hpre,
      lineNumbersFrom, if_neg (by omega)]
    simp only [zero_add]
  have hstart : ((lineNumbersFrom 0 0 (A ++ B)).getD
      (A.countP (fun l => decide (l ≠ 0)) + m - 1) default).1.getStart
      = ((A ++ B.take (m - 1)).sum : Int) := by
    rw [hall, List.getD_eq_getElem?_getD, List.getElem?_append_right (by omega), hpre,
      Nat.sub_self]
    simp only [List.getElem?_cons_zero, Option.getD_some]
  have hsumpos : (B.drop (m - 1)).sum ≠ 0 := by
    rw [hdrop, List.sum_cons]
    omega
  have htotal : ((A ++ B).sum : Int)
      = ((A ++ B.take (m - 1)).sum : Int) + ((B.drop (m - 1)).sum : Int) := by
    have : (A ++ B).sum = (A ++ B.take (m - 1)).sum + (B.drop (m - 1)).sum := by
      conv_lhs => rw [← List.take_append_drop (m - 1) B]
      rw [List.sum_append, List.sum_append, List.sum_append]
      omega
    rw [this, Nat.cast_add]
  refine ⟨?_, hstart, ?_⟩
  · rw [lineNumbersFrom_append, if_neg hsumpos, hstart, hall, List.take_left' hpre, hpre,
      htotal]
    simp only [zero_add]
  · rw [lineNumbersFrom_append, if_neg hsumpos, List.length_append, hpre,
      List.length_singleton]
    omega


open RangedValues

namespace SimpleShapedText

theorem Tidy.size {t : SimpleShapedText} {lens : List Nat} (h : t.Tidy lens) :
    RangedValues.size t.lineNumbers = lens.countP (fun l => decide (l ≠ 0)) := by
  unfold RangedValues.size
  rw [h.1, lineNumbersFrom_length]

theorem Tidy.init : init.Tidy [] := ⟨rfl, rfl⟩

/-- Adding lines to a tidy text gives a tidy text. -/
theorem Tidy.foldl {t : SimpleShapedText} {lens : List Nat} (h : t.Tidy lens) (st : Int)
    (lines : List (List WrappedGlyphsCursorRange)) :
    (lines.foldl (addLine st) t).Tidy (lens ++ lines.map (fun l => (linePushed st l).length))
    ∧ (lines.foldl (addLine st) t).glyphsInVisualOrder
        = t.glyphsInVisualOrder ++ (lines.map (linePushed st)).flatten := by
  obtain ⟨e1, e2⟩ := foldl_addLine_exact st lines t lens h.1 h.2
  refine ⟨⟨e1, ?_⟩, e2⟩
  rw [e2, List.length_append, h.2, List.sum_append, List.length_flatten, List.map_map]
  rfl

/-- One pass of the loop of `shape` under a limit of `m` lines. -/
theorem shapeLines_cons (lowLevelShape : LowLevelShape) (shaperFor : Range → Shaper)
    (o : ShapedTextOptions) (lr : Range) (rest : List Range) (t : SimpleShapedText)
    (r : LineDataAndChunkStorage)
    (hr : FillLinesOptions.fillLines
      ⟨o.maxWidth.getD 1000000, o.firstLineIndent, !o.trailingWhitespacesShouldFit,
        !o.allowBreakingInsideWord⟩ lowLevelShape (shaperFor lr) = some r)
    (m : Int) (hm : 1 ≤ m) (hm2 : m ≤ int64Max) :
    shapeLines lowLevelShape shaperFor { o with maxNumLines := m } (lr :: rest) t
      = if m.toNat ≤ RangedValues.size t.lineNumbers then some t
        else shapeLines lowLevelShape shaperFor { o with maxNumLines := m } rest
          ((foldLinesBeyondLineLimit r.lines
              (m.toNat - RangedValues.size t.lineNumbers)).foldl
            (addLine lr.getStart) t) := by
  have hmt : toSizeT m = m.toNat := by
    unfold toSizeT
    unfold int64Max at hm2
    rw [Int.emod_eq_of_lt (by omega) (by omega)]
  rw [shapeLines]
  simp only [hr, hmt]
  by_cases hc : m.toNat ≤ RangedValues.size t.lineNumbers
  · rw [if_pos hc, if_pos hc]
  · rw [if_neg hc, if_neg hc]
    have hsub : subSizeT m.toNat (RangedValues.size t.lineNumbers)
        = m.toNat - RangedValues.size t.lineNumbers := by
      unfold subSizeT
      unfold int64Max at hm2
      have : m.toNat < 2 ^ 63 := by omega
      omega
    rw [hsub]

/-- A pass of the loop of `shape` in which `fillLines` does not return. -/
theorem shapeLines_cons_none (lowLevelShape : LowLevelShape) (shaperFor : Range → Shaper)
    (o : ShapedTextOptions) (lr : Range) (rest : List Range) (t : SimpleShapedText)
    (hr : FillLinesOptions.fillLines
      ⟨o.maxWidth.getD 1000000, o.firstLineIndent, !o.trailingWhitespacesShouldFit,
        !o.allowBreakingInsideWord⟩ lowLevelShape (shaperFor lr) = none) :
    shapeLines lowLevelShape shaperFor o (lr :: rest) t = none := by
  rw [shapeLines]
  simp only [hr]

/-- The loop of `shape` only adds lines and glyphs to a tidy text. -/
theorem shapeLines_tidy (lowLevelShape : LowLevelShape) (shaperFor : Range → Shaper)
    (o : ShapedTextOptions) :
    ∀ (lineRanges : List Range) (t U : SimpleShapedText) (lens : List Nat),
      t.Tidy lens → shapeLines lowLevelShape shaperFor o lineRanges t = some U →
      ∃ (more : List Nat) (glyphs : List ShapedGlyph),
        U.Tidy (lens ++ more) ∧ U.glyphsInVisualOrder = t.glyphsInVisualOrder ++ glyphs := by
  intro lineRanges
  induction lineRanges with
  | nil =>
    intro t U lens ht h
    rw [shapeLines] at h
    rw [← Option.some.inj h]
    exact ⟨[], [], by rw [List.append_nil]; exact ht, (List.append_nil _).symm⟩
  | cons lr rest ih =>
    intro t U lens ht h
    rw [shapeLines] at h
    simp only at h
    cases hfl : FillLinesOptions.fillLines
        ⟨o.maxWidth.getD 1000000, o.firstLineIndent, !o.trailingWhitespacesShouldFit,
          !o.allowBreakingInsideWord⟩ lowLevelShape (shaperFor lr) with
    | none =>
      rw [hfl] at h
      exact Option.noConfusion h
    | some r =>
      rw [hfl] at h
      simp only at h
      split at h
      · rw [← Option.some.inj h]
        exact ⟨[], [], by rw [List.append_nil]; exact ht, (List.append_nil _).symm⟩
      · obtain ⟨ht2, hg2⟩ := ht.foldl lr.getStart (foldLinesBeyondLineLimit r.lines
          (subSizeT (toSizeT o.maxNumLines) (RangedValues.size t.lineNumbers)))
        obtain ⟨more, glyphs, hU1, hU2⟩ := ih _ U _ ht2 h
        exact ⟨(foldLinesBeyondLineLimit r.lines
              (subSizeT (toSizeT o.maxNumLines) (RangedValues.size t.lineNumbers))).map
              (fun l => (linePushed lr.getStart l).length) ++ more,
          ((foldLinesBeyondLineLimit r.lines
              (subSizeT (toSizeT o.maxNumLines) (RangedValues.size t.lineNumbers))).map
              (linePushed lr.getStart)).flatten ++ glyphs,
          by rw [← List.append_assoc]; exact hU1,
          by rw [hU2, hg2, List.append_assoc]⟩

/-- The loop of `shape` does not lower the number of lines of a tidy text. -/
theorem shapeLines_size_le (lowLevelShape : LowLevelShape) (shaperFor : Range → Shaper)
    (o : ShapedTextOptions) (lineRanges : List Range) (t U : SimpleShapedText)
    (lens : List Nat) (ht : t.Tidy lens)
    (h : shapeLines lowLevelShape shaperFor o lineRanges t = some U) :
    RangedValues.size t.lineNumbers ≤ RangedValues.size U.lineNumbers := by
  obtain ⟨more, _, hU, _⟩ := shapeLines_tidy lowLevelShape shaperFor o lineRanges t U lens ht h
  rw [ht.size, hU.size, List.countP_append]
  omega

end SimpleShapedText

open RangedValues

/-- Every line of `fillLines` but the last pushes a glyph, when every chunk stored holds a
glyph and no cluster is negative. -/
theorem fillLines_pushed_pos (o : FillLinesOptions) (lowLevelShape : LowLevelShape)
    (s : Shaper) (r : LineDataAndChunkStorage) (st : Int)
    (hr : o.fillLines lowLevelShape s = some r)
    (hok : ∀ cs ∈ r.chunkStorage, ChunksOk cs) :
    ∀ l ∈ (r.lines.map (fun l => (linePushed st l).length)).dropLast, 0 < l := by
  obtain ⟨_, _, hlok, hne⟩ := FillLinesOptions.fillLines_inv o lowLevelShape s r hr hok
  intro l hl
  rw [← List.map_dropLast] at hl
  obtain ⟨x, hx, rfl⟩ := List.mem_map.1 hl
  exact linePushed_pos st r.chunkStorage x (hlok x (List.mem_of_mem_dropLast hx)) (hne x hx)

namespace SimpleShapedText

/-- The lines of a hard line added to a tidy text under a limit that the hard line reaches:
the lines from the last one allowed on are joined into it. -/
theorem foldl_addLine_joined (st : Int) (lines : List (List WrappedGlyphsCursorRange))
    (m : Nat) (t : SimpleShapedText) (A : List Nat) (ht : t.Tidy A) (h1 : 1 ≤ m)
    (hm : m ≤ (lines.map (fun l => (linePushed st l).length)).countP
      (fun l => decide (l ≠ 0)))
    (hB : ∀ l ∈ (lines.map (fun l => (linePushed st l).length)).dropLast, 0 < l) :
    RangedValues.size ((foldLinesBeyondLineLimit lines m).foldl (addLine st) t).lineNumbers
        = RangedValues.size t.lineNumbers + m
    ∧ ((foldLinesBeyondLineLimit lines m).foldl (addLine st) t).lineNumbers
        = (lines.foldl (addLine st) t).lineNumbers.take (RangedValues.size t.lineNumbers + m - 1)
          ++ [(⟨((lines.foldl (addLine st) t).lineNumbers.getD
                  (RangedValues.size t.lineNumbers + m - 1) default).1.getStart,
                ((lines.foldl (addLine st) t).glyphsInVisualOrder.length : Int)⟩,
              ((RangedValues.size t.lineNumbers + m - 1 : Nat) : Int))]
    ∧ ((lines.foldl (addLine st) t).lineNumbers.getD
          (RangedValues.size t.lineNumbers + m - 1) default).1.getStart
        = ((t.glyphsInVisualOrder ++ ((lines.take (m - 1)).map (linePushed st)).flatten).length
            : Int)
    ∧ ((foldLinesBeyondLineLimit lines m).foldl (addLine st) t).glyphsInVisualOrder
        = t.glyphsInVisualOrder ++ ((lines.take (m - 1)).map (linePushed st)).flatten
          ++ linePushed st (lines.drop (m - 1)).flatten
    ∧ (lines.foldl (addLine st) t).glyphsInVisualOrder
        = t.glyphsInVisualOrder ++ ((lines.take (m - 1)).map (linePushed st)).flatten
          ++ ((lines.drop (m - 1)).map (linePushed st)).flatten := by
  have hlen : m ≤ lines.length := by
    have := le_trans hm (List.countP_le_length _)
    rwa [List.length_map] at this
  obtain ⟨hj1, hj2, hj3⟩ := lineNumbersFrom_joined A
    (lines.map (fun l => (linePushed st l).length)) m h1 hm hB
  obtain ⟨hT1, hG1⟩ := ht.foldl st lines
  obtain ⟨hTL, hGL⟩ := ht.foldl st (foldLinesBeyondLineLimit lines m)
  have hmap : (foldLinesBeyondLineLimit lines m).map (fun l => (linePushed st l).length)
      = (lines.map (fun l => (linePushed st l).length)).take (m - 1)
        ++ [((lines.map (fun l => (linePushed st l).length)).drop (m - 1)).sum] := by
    rw [foldLines_joined lines m h1 hlen, List.map_append, List.map_singleton,
      linePushed_length_flatten, List.map_take, List.map_drop]
  rw [hmap, ← List.append_assoc] at hTL
  have hsumA : ((A ++ (lines.map (fun l => (linePushed st l).length)).take (m - 1)).sum : Int)
      = ((t.glyphsInVisualOrder ++ ((lines.take (m - 1)).map (linePushed st)).flatten).length
          : Int) := by
    rw [List.sum_append, List.length_append, ht.2, List.length_flatten, ← List.map_take,
      List.map_map]
    rfl
  refine ⟨?_, ?_, ?_, ?_, ?_⟩
  · unfold RangedValues.size
    rw [hTL.1, hj3, ht.1, lineNumbersFrom_length]
  · rw [hTL.1, hj1, hT1.1, hT1.2, ht.size]
  · rw [hT1.1, ht.size, hj2, hsumA]
  · rw [hGL, foldLines_joined lines m h1 hlen, List.map_append, List.map_singleton,
      List.flatten_append, List.flatten_singleton, List.append_assoc]
  · rw [hG1, List.append_assoc, ← List.flatten_append, ← List.map_append,
      List.take_append_drop]

/-- A pass of the loop of `shape` under a limit that the text built does not reach: the
lines of the hard line are added as they are. -/
theorem shapeLines_unlimited_cons (lowLevelShape : LowLevelShape)
    (shaperFor : Range → Shaper) (o : ShapedTextOptions) (M : Int) (hM1 : 1 ≤ M)
    (hM2 : M ≤ int64Max) (lr : Range) (rest : List Range) (t U : SimpleShapedText)
    (A : List Nat) (ht : t.Tidy A)
    (hok : ∀ r, FillLinesOptions.fillLines
        ⟨o.maxWidth.getD 1000000, o.firstLineIndent, !o.trailingWhitespacesShouldFit,
          !o.allowBreakingInsideWord⟩ lowLevelShape (shaperFor lr) = some r →
        ∀ cs ∈ r.chunkStorage, ChunksOk cs)
    (hU : shapeLines lowLevelShape shaperFor { o with maxNumLines := M } (lr :: rest) t
      = some U)
    (hlt : RangedValues.size U.lineNumbers < M.toNat) :
    ∃ r, FillLinesOptions.fillLines
        ⟨o.maxWidth.getD 1000000, o.firstLineIndent, !o.trailingWhitespacesShouldFit,
          !o.allowBreakingInsideWord⟩ lowLevelShape (shaperFor lr) = some r
      ∧ shapeLines lowLevelShape shaperFor { o with maxNumLines := M } (lr :: rest) t
          = shapeLines lowLevelShape shaperFor { o with maxNumLines := M } rest
              (r.lines.foldl (addLine lr.getStart) t)
      ∧ RangedValues.size t.lineNumbers < M.toNat
      ∧ r.lines.length ≤ M.toNat - RangedValues.size t.lineNumbers := by
  cases hfl : FillLinesOptions.fillLines
      ⟨o.maxWidth.getD 1000000, o.firstLineIndent, !o.trailingWhitespacesShouldFit,
        !o.allowBreakingInsideWord⟩ lowLevelShape (shaperFor lr) with
  | none =>
    rw [shapeLines_cons_none lowLevelShape shaperFor { o with maxNumLines := M } lr rest t
      hfl] at hU
    exact Option.noConfusion hU
  | some r =>
    have hstep := shapeLines_cons lowLevelShape shaperFor o lr rest t r hfl M hM1 hM2
    have hc : ¬ M.toNat ≤ RangedValues.size t.lineNumbers := by
      intro hc
      rw [hstep, if_pos hc] at hU
      rw [← Option.some.inj hU] at hlt
      omega
    rw [if_neg hc] at hstep
    have hlen : r.lines.length ≤ M.toNat - RangedValues.size t.lineNumbers := by
      by_contra hlen
      have hB := fillLines_pushed_pos _ lowLevelShape _ r lr.getStart hfl (hok r hfl)
      have hcount := countP_pos_ge _ hB
      rw [List.length_map] at hcount
      obtain ⟨hsz, _⟩ := foldl_addLine_joined lr.getStart r.lines
        (M.toNat - RangedValues.size t.lineNumbers) t A ht (by omega) (by omega) hB
      rw [hstep] at hU
      have hle := shapeLines_size_le lowLevelShape shaperFor _ rest _ U _
        (ht.foldl lr.getStart _).1 hU
      omega
    refine ⟨r, rfl, ?_, by omega, hlen⟩
    rw [hstep, foldLines_unchanged _ _ (Or.inr hlen)]

/-- A pass of the loop of `shape` in which the limit is neither reached before the hard
line nor exceeded by its lines. -/
theorem shapeLines_cons_unfolded (lowLevelShape : LowLevelShape) (shaperFor : Range → Shaper)
    (o : ShapedTextOptions) (lr : Range) (rest : List Range) (t : SimpleShapedText)
    (r : LineDataAndChunkStorage)
    (hr : FillLinesOptions.fillLines
      ⟨o.maxWidth.getD 1000000, o.firstLineIndent, !o.trailingWhitespacesShouldFit,
        !o.allowBreakingInsideWord⟩ lowLevelShape (shaperFor lr) = some r)
    (m : Int) (hm : 1 ≤ m) (hm2 : m ≤ int64Max)
    (hc : RangedValues.size t.lineNumbers < m.toNat)
    (hlen : r.lines.length ≤ m.toNat - RangedValues.size t.lineNumbers) :
    shapeLines lowLevelShape shaperFor { o with maxNumLines := m } (lr :: rest) t
      = shapeLines lowLevelShape shaperFor { o with maxNumLines := m } rest
          (r.lines.foldl (addLine lr.getStart) t) := by
  rw [shapeLines_cons lowLevelShape shaperFor o lr rest t r hr m hm hm2, if_neg (by omega),
    foldLines_unchanged _ _ (Or.inr hlen)]

/-- Once the limit is reached, the loop of `shape` adds nothing, provided `fillLines`
returns for the next hard line. -/
theorem shapeLines_at_limit (lowLevelShape : LowLevelShape) (shaperFor : Range → Shaper)
    (o : ShapedTextOptions) (m : Int) (hm : 1 ≤ m) (hm2 : m ≤ int64Max) (M : Int)
    (rest : List Range) (t1 U t : SimpleShapedText)
    (hsome : shapeLines lowLevelShape shaperFor { o with maxNumLines := M } rest t1 = some U)
    (hsz : m.toNat ≤ RangedValues.size t.lineNumbers) :
    shapeLines lowLevelShape shaperFor { o with maxNumLines := m } rest t = some t := by
  cases rest with
  | nil => rw [shapeLines]
  | cons x xs =>
    cases hfl : FillLinesOptions.fillLines
        ⟨o.maxWidth.getD 1000000, o.firstLineIndent, !o.trailingWhitespacesShouldFit,
          !o.allowBreakingInsideWord⟩ lowLevelShape (shaperFor x) with
    | none =>
      rw [shapeLines_cons_none lowLevelShape shaperFor { o with maxNumLines := M } x xs t1
        hfl] at hsome
      exact Option.noConfusion hsome
    | some rx =>
      rw [shapeLines_cons lowLevelShape shaperFor o x xs t rx hfl m hm hm2, if_pos hsz]

end SimpleShapedText

open RangedValues

theorem lineNumbersFrom_prefix (A more : List Nat) :
    lineNumbersFrom 0 0 A <+: lineNumbersFrom 0 0 (A ++ more) := by
  rw [lineNumbersFrom_append_lines]
  exact List.prefix_append _ _

namespace SimpleShapedText

/-- The loop of `shape` under a limit of `k` lines, from a tidy text of fewer lines, when
the loop without the limit builds at least `k` lines: there is a hard line at which the
number of lines reaches `k`; the lines before line `k` are those built without the limit,
line `k` runs to the last glyph of that hard line, and nothing of the later hard lines is
added. -/
theorem shapeLines_limited (lowLevelShape : LowLevelShape) (shaperFor : Range → Shaper)
    (o : ShapedTextOptions) (M k : Int) (hM2 : M ≤ int64Max) (hk : 1 ≤ k) (U : SimpleShapedText)
    (hUM : RangedValues.size U.lineNumbers < M.toNat)
    (hkU : k.toNat ≤ RangedValues.size U.lineNumbers) :
    ∀ (lineRanges : List Range) (t : SimpleShapedText) (A : List Nat),
      t.Tidy A →
      (∀ lr ∈ lineRanges, ∀ r, FillLinesOptions.fillLines
          ⟨o.maxWidth.getD 1000000, o.firstLineIndent, !o.trailingWhitespacesShouldFit,
            !o.allowBreakingInsideWord⟩ lowLevelShape (shaperFor lr) = some r →
          ∀ cs ∈ r.chunkStorage, ChunksOk cs) →
      shapeLines lowLevelShape shaperFor { o with maxNumLines := M } lineRanges t = some U →
      RangedValues.size t.lineNumbers < k.toNat →
      ∃ (pre : List Range) (lr : Range) (post : List Range) (P V L : SimpleShapedText),
        lineRanges = pre ++ lr :: post
        ∧ shapeLines lowLevelShape shaperFor { o with maxNumLines := M } pre t = some P
        ∧ RangedValues.size P.lineNumbers < k.toNat
        ∧ shapeLines lowLevelShape shaperFor { o with maxNumLines := M } (pre ++ [lr]) t
            = some V
        ∧ k.toNat ≤ RangedValues.size V.lineNumbers
        ∧ V.lineNumbers <+: U.lineNumbers
        ∧ V.glyphsInVisualOrder <+: U.glyphsInVisualOrder
        ∧ shapeLines lowLevelShape shaperFor { o with maxNumLines := k } lineRanges t = some L
        ∧ RangedValues.size L.lineNumbers = k.toNat
        ∧ L.lineNumbers = V.lineNumbers.take (k.toNat - 1)
            ++ [(⟨(V.lineNumbers.getD (k.toNat - 1) default).1.getStart,
                  (V.glyphsInVisualOrder.length : Int)⟩, ((k.toNat - 1 : Nat) : Int))]
        ∧ (V.lineNumbers.getD (k.toNat - 1) default).1.getStart.toNat
            ≤ V.glyphsInVisualOrder.length
        ∧ L.glyphsInVisualOrder.take
              (V.lineNumbers.getD (k.toNat - 1) default).1.getStart.toNat
            = V.glyphsInVisualOrder.take
              (V.lineNumbers.getD (k.toNat - 1) default).1.getStart.toNat
        ∧ List.Perm L.glyphsInVisualOrder V.glyphsInVisualOrder := by
  have hM1 : 1 ≤ M := by omega
  have hk2 : k ≤ int64Max := by omega
  intro lineRanges
  induction lineRanges with
  | nil =>
    intro t A ht _ hU hlt
    rw [shapeLines] at hU
    rw [← Option.some.inj hU] at hkU
    omega
  | cons lr rest ih =>
    intro t A ht hok hU hlt
    obtain ⟨r, hfl, hstepM, hcM, hlenM⟩ := shapeLines_unlimited_cons lowLevelShape shaperFor o
      M hM1 hM2 lr rest t U A ht (hok lr (List.mem_cons_self _ _)) hU hUM
    rw [hstepM] at hU
    obtain ⟨hT1, hG1⟩ := ht.foldl lr.getStart r.lines
    have hB := fillLines_pushed_pos _ lowLevelShape _ r lr.getStart hfl
      (hok lr (List.mem_cons_self _ _) r hfl)
    have hcount := countP_pos_ge _ hB
    rw [List.length_map] at hcount
    have hsz1 : RangedValues.size (r.lines.foldl (addLine lr.getStart) t).lineNumbers
        = RangedValues.size t.lineNumbers
          + (r.lines.map (fun l => (linePushed lr.getStart l).length)).countP
              (fun l => decide (l ≠ 0)) := by
      rw [hT1.size, ht.size, List.countP_append]
    by_cases hcase : RangedValues.size (r.lines.foldl (addLine lr.getStart) t).lineNumbers
        < k.toNat
    · -- the limit is not reached in this hard line
      have hstepK := shapeLines_cons_unfolded lowLevelShape shaperFor o lr rest t r hfl k hk
        hk2 hlt (by omega)
      obtain ⟨pre, lr2, post, P, V, L, e1, e2, e3, e4, e5, e6, e7, e8, e9⟩ :=
        ih _ _ hT1 (fun x hx => hok x (List.mem_cons_of_mem _ hx)) hU hcase
      refine ⟨lr :: pre, lr2, post, P, V, L, by rw [e1]; rfl, ?_, e3, ?_, e5, e6, e7, ?_, e9⟩
      · rw [shapeLines_cons_unfolded lowLevelShape shaperFor o lr pre t r hfl M hM1 hM2 hcM
          hlenM]
        exact e2
      · rw [List.cons_append, shapeLines_cons_unfolded lowLevelShape shaperFor o lr
          (pre ++ [lr2]) t r hfl M hM1 hM2 hcM hlenM]
        exact e4
      · rw [hstepK]
        exact e8
    · -- the limit is reached in this hard line
      have hm : k.toNat - RangedValues.size t.lineNumbers
          ≤ (r.lines.map (fun l => (linePushed lr.getStart l).length)).countP
              (fun l => decide (l ≠ 0)) := by omega
      obtain ⟨j1, j2, j3, j4, j5⟩ := foldl_addLine_joined lr.getStart r.lines
        (k.toNat - RangedValues.size t.lineNumbers) t A ht (by omega) hm hB
      have hidx : RangedValues.size t.lineNumbers
          + (k.toNat - RangedValues.size t.lineNumbers) - 1 = k.toNat - 1 := by omega
      rw [hidx] at j2 j3
      obtain ⟨more, glyphs, hUT, hUG⟩ := shapeLines_tidy lowLevelShape shaperFor _ rest _ U _
        hT1 hU
      have hstepK := shapeLines_cons lowLevelShape shaperFor o lr rest t r hfl k hk hk2
      rw [if_neg (by omega)] at hstepK
      have hlim := shapeLines_at_limit lowLevelShape shaperFor o k hk hk2 M rest _ U
        ((foldLinesBeyondLineLimit r.lines
          (k.toNat - RangedValues.size t.lineNumbers)).foldl (addLine lr.getStart) t)
        hU (by omega)
      refine ⟨[], lr, rest, t, r.lines.foldl (addLine lr.getStart) t, _, rfl, ?_, hlt, ?_,
        by omega, ?_, ?_, ?_, by omega, j2, ?_, ?_, ?_⟩
      · rw [shapeLines]
      · rw [List.nil_append, shapeLines_cons_unfolded lowLevelShape shaperFor o lr [] t r hfl
          M hM1 hM2 hcM hlenM, shapeLines]
      · rw [hT1.1, hUT.1]
        exact lineNumbersFrom_prefix _ _
      · rw [hUG]
        exact List.prefix_append _ _
      · rw [hstepK]
        exact hlim
      · rw [j3, Int.toNat_ofNat, j5]
        simp only [List.length_append]
        omega
      · rw [j3, Int.toNat_ofNat, j4, j5, List.take_left' rfl, List.take_left' rfl]
      · rw [j4, j5]
        exact (linePushed_perm_flatten _ _).append_left _

end SimpleShapedText

open RangedValues

theorem take_of_prefix {α : Type} {l1 l2 : List α} (h : l1 <+: l2) (n : Nat)
    (hn : n ≤ l1.length) : l2.take n = l1.take n := by
  obtain ⟨t, rfl⟩ := h
  rw [List.take_append_of_le_length hn]

theorem getD_of_prefix {α : Type} {l1 l2 : List α} (h : l1 <+: l2) (n : Nat)
    (hn : n < l1.length) (d : α) : l2.getD n d = l1.getD n d := by
  obtain ⟨t, rfl⟩ := h
  rw [List.getD_eq_getElem?_getD, List.getD_eq_getElem?_getD, List.getElem?_append_left hn]

namespace SimpleShapedText

/-- C4, amended: for a text that shapes into more than `k` lines under a limit `M` it does
not reach, shaping with `maxNumLines = k`, `1 <= k`, gives exactly `k` lines. The first
`k - 1` lines are those of the shaping without the limit. The last one starts where line
`k` of that shaping starts and runs to the end of the hard line in which it starts: with
`pre` the hard lines before that one, `lr` that hard line and `post` the hard lines after it,
the hard lines `pre` shape into fewer than `k` lines, the hard lines up to `lr` shape into a
text `V` of at least `k` lines that is the beginning of the text without the limit, and the
text with the limit holds the glyphs of `V` and no other: up to the start of line `k` in
the same order, from there on in the order of the joined line. Nothing of the hard lines
`post` is in the text. (Every chunk stored by `fillLines` holds a glyph and no cluster is
negative.) -/
theorem shape_maxNumLines_folds_hard_line (lowLevelShape : LowLevelShape)
    (shaperFor : Range → Shaper) (lineRanges : List Range) (o : ShapedTextOptions)
    (U : SimpleShapedText) (M k : Int)
    (hok : ∀ lr ∈ lineRanges, ∀ r, FillLinesOptions.fillLines
        ⟨o.maxWidth.getD 1000000, o.firstLineIndent, !o.trailingWhitespacesShouldFit,
          !o.allowBreakingInsideWord⟩ lowLevelShape (shaperFor lr) = some r →
        ∀ cs ∈ r.chunkStorage, ChunksOk cs)
    (hU : shape lowLevelShape shaperFor lineRanges { o with maxNumLines := M } = some U)
    (hM : U.getNumLines < M) (hM2 : M ≤ int64Max)
    (hk : 1 ≤ k) (hkN : k < U.getNumLines) :
    ∃ (pre : List Range) (lr : Range) (post : List Range) (P V L : SimpleShapedText),
      lineRanges = pre ++ lr :: post
      ∧ shape lowLevelShape shaperFor pre { o with maxNumLines := M } = some P
      ∧ P.getNumLines < k
      ∧ shape lowLevelShape shaperFor (pre ++ [lr]) { o with maxNumLines := M } = some V
      ∧ k ≤ V.getNumLines
      ∧ V.lineNumbers <+: U.lineNumbers
      ∧ V.glyphsInVisualOrder <+: U.glyphsInVisualOrder
      ∧ shape lowLevelShape shaperFor lineRanges { o with maxNumLines := k } = some L
      ∧ L.getNumLines = k
      ∧ L.lineNumbers = U.lineNumbers.take (k.toNat - 1)
          ++ [(⟨(U.lineNumbers.getD (k.toNat - 1) default).1.getStart, V.getNumGlyphs⟩, k - 1)]
      ∧ L.glyphsInVisualOrder.take
            (U.lineNumbers.getD (k.toNat - 1) default).1.getStart.toNat
          = U.glyphsInVisualOrder.take
            (U.lineNumbers.getD (k.toNat - 1) default).1.getStart.toNat
      ∧ List.Perm L.glyphsInVisualOrder V.glyphsInVisualOrder := by
  unfold getNumLines at hM hkN
  obtain ⟨pre, lr, post, P, V, L, e1, e2, e3, e4, e5, e6, e7, e8, e9, e10, e11, e12, e13⟩ :=
    shapeLines_limited lowLevelShape shaperFor o M k hM2 hk U (by omega) (by omega)
      lineRanges init [] Tidy.init hok hU (by
        have : RangedValues.size init.lineNumbers = 0 := rfl
        omega)
  have hVlen : k.toNat - 1 < V.lineNumbers.length := by
    unfold RangedValues.size at e5
    omega
  have hget := getD_of_prefix e6 (k.toNat - 1) hVlen default
  refine ⟨pre, lr, post, P, V, L, e1, e2, ?_, e4, ?_, e6, e7, e8, ?_, ?_, ?_, e13⟩
  · unfold getNumLines
    omega
  · unfold getNumLines
    omega
  · unfold getNumLines
    omega
  · rw [e10, take_of_prefix e6 _ (le_of_lt hVlen), hget]
    have : (((k.toNat - 1 : Nat) : Nat) : Int) = k - 1 := by omega
    rw [this]
    rfl
  · rw [hget, e12, take_of_prefix e7 _ e11]

set_option maxRecDepth 100000 in
/-- Witness of C4: `"a\nb\nc"`, three hard lines, shapes into three lines, and with
`maxNumLines = 2` into the two lines of the first two hard lines. -/
theorem shape_maxNumLines_folds_hard_line_witness :
    (∀ lr ∈ [(⟨0, 2⟩ : Range), ⟨2, 4⟩, ⟨4, 5⟩], ∀ r, FillLinesOptions.fillLines
        ⟨(none : Option Int).getD 1000000, 0, !false, !false⟩ (sampleShapeWithAdvance 1)
          (sampleShaperFor sampleThreeLines [] lr) = some r →
        ∀ cs ∈ r.chunkStorage, ChunksOk cs)
    ∧ shape (sampleShapeWithAdvance 1) (sampleShaperFor sampleThreeLines [])
        [⟨0, 2⟩, ⟨2, 4⟩, ⟨4, 5⟩] ⟨none, 0, false, false, int64Max⟩ = some sampleShapedHardLines
    ∧ sampleShapedHardLines.getNumLines < int64Max
    ∧ (2 : Int) < sampleShapedHardLines.getNumLines
    ∧ ∃ (pre : List Range) (lr : Range) (post : List Range) (P V L : SimpleShapedText),
      [(⟨0, 2⟩ : Range), ⟨2, 4⟩, ⟨4, 5⟩] = pre ++ lr :: post
      ∧ shape (sampleShapeWithAdvance 1) (sampleShaperFor sampleThreeLines []) pre
          ⟨none, 0, false, false, int64Max⟩ = some P
      ∧ P.getNumLines < 2
      ∧ shape (sampleShapeWithAdvance 1) (sampleShaperFor sampleThreeLines []) (pre ++ [lr])
          ⟨none, 0, false, false, int64Max⟩ = some V
      ∧ 2 ≤ V.getNumLines
      ∧ V.lineNumbers <+: sampleShapedHardLines.lineNumbers
      ∧ V.glyphsInVisualOrder <+: sampleShapedHardLines.glyphsInVisualOrder
      ∧ shape (sampleShapeWithAdvance 1) (sampleShaperFor sampleThreeLines [])
          [⟨0, 2⟩, ⟨2, 4⟩, ⟨4, 5⟩] ⟨none, 0, false, false, 2⟩ = some L
      ∧ L.getNumLines = 2
      ∧ L.lineNumbers = sampleShapedHardLines.lineNumbers.take ((2 : Int).toNat - 1)
          ++ [(⟨(sampleShapedHardLines.lineNumbers.getD ((2 : Int).toNat - 1)
                  default).1.getStart, V.getNumGlyphs⟩, 2 - 1)]
      ∧ L.glyphsInVisualOrder.take
            (sampleShapedHardLines.lineNumbers.getD ((2 : Int).toNat - 1)
              default).1.getStart.toNat
          = sampleShapedHardLines.glyphsInVisualOrder.take
            (sampleShapedHardLines.lineNumbers.getD ((2 : Int).toNat - 1)
              default).1.getStart.toNat
      ∧ List.Perm L.glyphsInVisualOrder V.glyphsInVisualOrder :=
  have h1 : ∀ lr ∈ [(⟨0, 2⟩ : Range), ⟨2, 4⟩, ⟨4, 5⟩], ∀ r, FillLinesOptions.fillLines
      ⟨(none : Option Int).getD 1000000, 0, !false, !false⟩ (sampleShapeWithAdvance 1)
        (sampleShaperFor sampleThreeLines [] lr) = some r →
      ∀ cs ∈ r.chunkStorage, ChunksOk cs := by
    have hd : ∀ lr ∈ [(⟨0, 2⟩ : Range), ⟨2, 4⟩, ⟨4, 5⟩],
        ∀ cs ∈ ((FillLinesOptions.fillLines
          ⟨(none : Option Int).getD 1000000, 0, !false, !false⟩ (sampleShapeWithAdvance 1)
            (sampleShaperFor sampleThreeLines [] lr)).getD ⟨[], []⟩).chunkStorage,
          ChunksOk cs := by decide
    intro lr hlr r hr cs hcs
    have := hd lr hlr cs
    rw [hr] at this
    exact this hcs
  have h2 : shape (sampleShapeWithAdvance 1) (sampleShaperFor sampleThreeLines [])
      [⟨0, 2⟩, ⟨2, 4⟩, ⟨4, 5⟩] ⟨none, 0, false, false, int64Max⟩
        = some sampleShapedHardLines := by decide
  have h3 : sampleShapedHardLines.getNumLines < int64Max := by decide
  have h4 : (2 : Int) < sampleShapedHardLines.getNumLines := by decide
  ⟨h1, h2, h3, h4,
    shape_maxNumLines_folds_hard_line (sampleShapeWithAdvance 1)
      (sampleShaperFor sampleThreeLines []) [⟨0, 2⟩, ⟨2, 4⟩, ⟨4, 5⟩]
      ⟨none, 0, false, false, int64Max⟩ sampleShapedHardLines int64Max 2 h1 h2 h3 (le_refl _)
      (by decide) h4⟩

end SimpleShapedText

end juce
